import Mathlib

/-!
# Verification development for `parasols`

A shallow embedding of the colour-class-ordering family (`src/cco/cco_mixin.hh`), of the
subgraph-isomorphism solver (`src/subgraph_isomorphism/gb_subgraph_isomorphism.cc`), of the
maximum common subgraph driver (`src/max_common_subgraph/clique_max_common_subgraph.cc`) and of
the DIMACS reader (`src/graph/dimacs.cc`), followed by theorems about the embedded code.

Conventions of the embedding.

* A `FixedBitSet` is represented by the finite set of the indices of its set bits.
* A bit graph is represented by its size and by the list of `add_edge` calls that built it.
* The output arrays `p_order` and `p_bounds` are maps from index to value; a loop of the source
  is a recursive function over an explicit iteration budget and yields `none` when the budget
  is exhausted before the loop condition turns false.
* The maps have no capacity, while the arrays of the code have `size_ * bits_per_word` entries.
  The variants that work in place write index `|P|`, so the statements that cover them carry
  the capacity as a hypothesis and say that no index from the capacity on is changed; the
  accesses themselves are embedded in the last section of the definitions.
* Counters of type `VertexType_`, `int` and `unsigned` are natural numbers: the values that
  occur are bounded by the number of candidate vertices.
-/

namespace Parasols

/-! ## Bit sets and bit graphs -/

/-- Modelled from the spec: `FixedBitSet<W>` (header `graph/bit_set.hh` is not part of the
sources at hand), represented by the finite set of indices whose bit is set. -/
abbrev FixedBitSet := Finset Nat

namespace FixedBitSet

/-- Modelled from the spec: `first_set_bit` returns the lowest set index; the value `-1`
returned for an empty set is rendered as `none`. -/
def first_set_bit (s : FixedBitSet) : Option Nat :=
  if h : s.Nonempty then some (s.min' h) else none

/-- Modelled from the spec: `unset(i)` clears bit `i`. -/
def unset (s : FixedBitSet) (i : Nat) : FixedBitSet := s.erase i

/-- Modelled from the spec: `set(i)` sets bit `i`. -/
def set (s : FixedBitSet) (i : Nat) : FixedBitSet := insert i s

/-- Modelled from the spec: `test(i)` reads bit `i`. -/
def test (s : FixedBitSet) (i : Nat) : Bool := decide (i ∈ s)

/-- Modelled from the spec: `empty` holds when all words are zero. -/
def empty (s : FixedBitSet) : Bool := decide (s = ∅)

/-- Modelled from the spec: `popcount` is the number of set bits. -/
def popcount (s : FixedBitSet) : Nat := s.card

/-- Modelled from the spec: `set_up_to(n)` sets bits `[0,n)` and clears the rest. -/
def set_up_to (n : Nat) : FixedBitSet := Finset.range n

/-- Modelled from the spec: `union_with` is the elementwise or. -/
def union_with (s t : FixedBitSet) : FixedBitSet := s ∪ t

/-- Modelled from the spec: `intersect_with` is the elementwise and. -/
def intersect_with (s t : FixedBitSet) : FixedBitSet := s ∩ t

/-- Modelled from the spec: `intersect_with_complement` is the elementwise and-not. -/
def intersect_with_complement (s t : FixedBitSet) : FixedBitSet := s \ t

end FixedBitSet

/-- Modelled from the spec: `BitGraph<W>` / `FixedBitGraph<W>` (header `graph/bit_graph.hh` is
not part of the sources at hand). The value records `resize(size)` followed by one
`add_edge(a, b)` call per entry of `edges`; `add_edge` sets both directions. -/
structure FixedBitGraph where
  size : Nat
  edges : List (Nat × Nat)

namespace FixedBitGraph

/-- Modelled from the spec: `adjacent(i, j)` tests bit `j` of row `i`; rows exist for
`i < size` and hold columns `[0, size)`. -/
def adjacent (g : FixedBitGraph) (i j : Nat) : Bool :=
  decide (i < g.size) && decide (j < g.size) &&
    (g.edges.contains (i, j) || g.edges.contains (j, i))

/-- Modelled from the spec: `intersect_with_row(i, q)` is `q &= row[i]`. -/
def intersect_with_row (g : FixedBitGraph) (i : Nat) (q : FixedBitSet) : FixedBitSet :=
  q.filter (fun j => g.adjacent i j = true)

/-- Modelled from the spec: `intersect_with_row_complement(i, q)` is `q &= ¬row[i]`, with the
complement masked to the valid columns `[0, size)`. -/
def intersect_with_row_complement (g : FixedBitGraph) (i : Nat) (q : FixedBitSet) :
    FixedBitSet :=
  q.filter (fun j => j < g.size ∧ g.adjacent i j = false)

/-- Modelled from the spec: `degree(i)` is the popcount of row `i`. -/
def degree (g : FixedBitGraph) (i : Nat) : Nat :=
  ((Finset.range g.size).filter (fun j => g.adjacent i j = true)).card

end FixedBitGraph

/-! ## Colour class orderings (`src/cco/cco_mixin.hh`) -/

/-- The loop state shared by the bitset based colourings: the uncoloured vertices `p_left`, the
write position `i`, the two output arrays, and the counter `number_with_this_colour`. -/
structure Fill where
  p_left : FixedBitSet
  i : Nat
  p_order : Nat → Nat
  p_bounds : Nat → Nat
  number_with_this_colour : Nat

/-- The inner loop `while (! q.empty())` of `colour_class_order` (lines 46-62, 89-106 and
390-403): colour the lowest vertex of `q`, drop from `q` what may not share its colour, record
it at position `i`. -/
def colour_one_class (g : FixedBitGraph) (inverse : Bool) (colour : Nat) :
    Nat → FixedBitSet → Fill → Option Fill
  | 0, q, s => if q.empty then some s else none
  | fuel + 1, q, s =>
    match q.first_set_bit with
    | none => some s
    | some v =>
      let q1 := q.unset v
      let q2 := if inverse then g.intersect_with_row v q1
                else g.intersect_with_row_complement v q1
      colour_one_class g inverse colour fuel q2
        { p_left := s.p_left.unset v
          i := s.i + 1
          p_order := Function.update s.p_order s.i v
          p_bounds := Function.update s.p_bounds s.i colour
          number_with_this_colour := s.number_with_this_colour + 1 }

/-- The result of a colour class ordering: the two arrays and the number of positions filled. -/
structure CCOResult where
  p_order : Nat → Nat
  p_bounds : Nat → Nat
  i : Nat

/-- The outer loop `while (! p_left.empty())` of `colour_class_order` for
`CCOPermutations::None` (lines 39-63). -/
def none_loop (g : FixedBitGraph) (inverse : Bool) :
    Nat → Nat → Fill → Option Fill
  | 0, _, s => if s.p_left.empty then some s else none
  | fuel + 1, colour, s =>
    if s.p_left.empty then some s
    else
      match colour_one_class g inverse (colour + 1) s.p_left.popcount s.p_left s with
      | none => none
      | some s1 => none_loop g inverse fuel (colour + 1) s1

/-- Embedding of `colour_class_order(SelectColourClassOrderOverload<None>, p, p_order, p_bounds)`
(lines 27-64). The arguments `p_order`, `p_bounds` are the arrays as they are on entry. -/
def colour_class_order_none (g : FixedBitGraph) (inverse : Bool) (p : FixedBitSet)
    (p_order p_bounds : Nat → Nat) : Option CCOResult :=
  (none_loop g inverse p.popcount 0
      { p_left := p, i := 0, p_order := p_order, p_bounds := p_bounds,
        number_with_this_colour := 0 }).map
    fun s => { p_order := s.p_order, p_bounds := s.p_bounds, i := s.i }

/-- The loop state of the `Defer1` colouring: the shared state, the current colour, the number
`d` of deferred vertices and the array `defer`. -/
structure DeferState where
  fill : Fill
  colour : Nat
  d : Nat
  defer : Nat → Nat

/-- The outer loop `while (! p_left.empty())` of `colour_class_order` for
`CCOPermutations::Defer1` (lines 81-113). -/
def defer1_loop (g : FixedBitGraph) (inverse : Bool) :
    Nat → DeferState → Option DeferState
  | 0, s => if s.fill.p_left.empty then some s else none
  | fuel + 1, s =>
    if s.fill.p_left.empty then some s
    else
      match colour_one_class g inverse (s.colour + 1) s.fill.p_left.popcount s.fill.p_left
          { s.fill with number_with_this_colour := 0 } with
      | none => none
      | some s1 =>
        if s1.number_with_this_colour = 1 then
          defer1_loop g inverse fuel
            { fill := { s1 with i := s1.i - 1 }
              colour := s.colour
              d := s.d + 1
              defer := Function.update s.defer s.d (s1.p_order (s1.i - 1)) }
        else
          defer1_loop g inverse fuel { s with fill := s1, colour := s.colour + 1 }

/-- The loop `for (n = 0 ; n < d ; ++n)` that appends the deferred vertices (lines 115-120 and
229-234); `todo` is the number of iterations left, `n` the loop variable. -/
def append_deferred (defer : Nat → Nat) :
    Nat → Nat → Nat → CCOResult → Nat × CCOResult
  | 0, _, colour, o => (colour, o)
  | todo + 1, n, colour, o =>
    append_deferred defer todo (n + 1) (colour + 1)
      { p_order := Function.update o.p_order o.i (defer n)
        p_bounds := Function.update o.p_bounds o.i (colour + 1)
        i := o.i + 1 }

/-- Embedding of `colour_class_order(SelectColourClassOrderOverload<Defer1>, p, p_order,
p_bounds)` (lines 66-121); `defer` is the uninitialised local array. -/
def colour_class_order_defer1 (g : FixedBitGraph) (inverse : Bool) (p : FixedBitSet)
    (p_order p_bounds defer : Nat → Nat) : Option CCOResult :=
  (defer1_loop g inverse p.popcount
      { fill := { p_left := p, i := 0, p_order := p_order, p_bounds := p_bounds,
                  number_with_this_colour := 0 }
        colour := 0, d := 0, defer := defer }).map
    fun s => (append_deferred s.defer s.d 0 s.colour
      { p_order := s.fill.p_order, p_bounds := s.fill.p_bounds, i := s.fill.i }).2

/-- One entry of the scratch vector `colour_classes`: a pair of the number of members
(`first`) and the array holding them (`second`). -/
structure ColourClass where
  first : Nat
  second : Nat → Nat

/-- The scratch vector `colour_classes`, indexed by colour class. Entries at or beyond
`colour_classes_end` hold whatever an earlier call left there. -/
abbrev ColourClasses := Nat → ColourClass

/-- The conflict test `for (vertex_pos = 0 ; vertex_pos != first ; ++vertex_pos) if (adjacent(v,
second[vertex_pos])) { conflict = true; break; }` (lines 145-151 and 177-182). -/
def has_conflict (g : FixedBitGraph) (v : Nat) (cl : ColourClass) : Bool :=
  (List.range cl.first).any fun vertex_pos => g.adjacent v (cl.second vertex_pos)

/-- Append `v` to a colour class: `second[first++] = v`. -/
def ColourClass.push (cl : ColourClass) (v : Nat) : ColourClass :=
  { first := cl.first + 1, second := Function.update cl.second cl.first v }

/-- The first-fit loop over the existing colour classes (lines 143-158); the Boolean is the
flag `coloured`. `todo` counts the classes still to be tried. -/
def first_fit (g : FixedBitGraph) (v : Nat) :
    Nat → Nat → ColourClasses → Bool × ColourClasses
  | 0, _, cc => (false, cc)
  | todo + 1, colour_class, cc =>
    if has_conflict g v (cc colour_class) then first_fit g v todo (colour_class + 1) cc
    else (true, Function.update cc colour_class ((cc colour_class).push v))

/-- The variables of the conflict counting loop (lines 165-173). -/
structure Conflicts where
  n_conflicts : Nat
  vertex_to_move : Int
  vertex_to_move_pos : Int

/-- The conflict counting loop (lines 167-173): it stops as soon as a second neighbour of `v`
is met. -/
def count_conflicts (g : FixedBitGraph) (v : Nat) (cl : ColourClass) :
    Nat → Nat → Conflicts → Conflicts
  | 0, _, r => r
  | todo + 1, vertex_pos, r =>
    if g.adjacent v (cl.second vertex_pos) then
      if r.n_conflicts + 1 > 1 then
        { n_conflicts := r.n_conflicts + 1
          vertex_to_move := cl.second vertex_pos
          vertex_to_move_pos := vertex_pos }
      else
        count_conflicts g v cl todo (vertex_pos + 1)
          { n_conflicts := r.n_conflicts + 1
            vertex_to_move := cl.second vertex_pos
            vertex_to_move_pos := vertex_pos }
    else count_conflicts g v cl todo (vertex_pos + 1) r

/-- The loop `for (x = vertex_to_move_pos ; x < first - 1 ; ++x) second[x] = second[x + 1]`
(lines 187-188). -/
def shift_down (second : Nat → Nat) : Nat → Nat → Nat → Nat
  | 0, _ => second
  | todo + 1, x => shift_down (Function.update second x (second (x + 1))) todo (x + 1)

/-- The body executed when the vertex to move fits into `new_colour_class` (lines 185-189):
append it there, close the gap in `colour_class`, and put `v` at the end of `colour_class`. -/
def move_vertex (v colour_class vertex_to_move vertex_to_move_pos new_colour_class : Nat)
    (cc : ColourClasses) : ColourClasses :=
  let cc1 := Function.update cc new_colour_class ((cc new_colour_class).push vertex_to_move)
  let src := cc1 colour_class
  let second1 := shift_down src.second (src.first - 1 - vertex_to_move_pos) vertex_to_move_pos
  Function.update cc1 colour_class
    { first := src.first, second := Function.update second1 (src.first - 1) v }

/-- The loop over the later colour classes that may take the vertex to move (lines 176-192);
the Boolean is the flag `repaired`. -/
def try_move (g : FixedBitGraph) (v colour_class vertex_to_move vertex_to_move_pos : Nat) :
    Nat → Nat → ColourClasses → Bool × ColourClasses
  | 0, _, cc => (false, cc)
  | todo + 1, new_colour_class, cc =>
    if has_conflict g vertex_to_move (cc new_colour_class) then
      try_move g v colour_class vertex_to_move vertex_to_move_pos todo (new_colour_class + 1) cc
    else
      (true, move_vertex v colour_class vertex_to_move vertex_to_move_pos new_colour_class cc)

/-- The repair loop over the colour classes but the last (lines 164-197); the Boolean is the
flag `repaired`. -/
def repair (g : FixedBitGraph) (v colour_classes_end : Nat) :
    Nat → Nat → ColourClasses → Bool × ColourClasses
  | 0, _, cc => (false, cc)
  | todo + 1, colour_class, cc =>
    let r := count_conflicts g v (cc colour_class) (cc colour_class).first 0
      { n_conflicts := 0, vertex_to_move := -1, vertex_to_move_pos := -1 }
    let res :=
      if r.n_conflicts = 1 then
        try_move g v colour_class r.vertex_to_move.toNat r.vertex_to_move_pos.toNat
          (colour_classes_end - (colour_class + 1)) (colour_class + 1) cc
      else (false, cc)
    if res.1 then res else repair g v colour_classes_end todo (colour_class + 1) res.2

/-- The state of the main loop of `colour_class_order_with_repair`. -/
structure RepairState where
  p_left : FixedBitSet
  colour_classes : ColourClasses
  colour_classes_end : Nat

/-- One iteration of the main loop for the vertex `v` just taken out of `p_left`
(lines 143-208). -/
def repair_step (g : FixedBitGraph) (delta : Int) (selective : Bool) (v : Nat)
    (cc : ColourClasses) (colour_classes_end : Nat) : ColourClasses × Nat :=
  let fit := first_fit g v colour_classes_end 0 cc
  if fit.1 then (fit.2, colour_classes_end)
  else
    let rep :=
      if (! selective) || decide ((colour_classes_end : Int) ≥ delta) then
        repair g v colour_classes_end (colour_classes_end - 1) 0 fit.2
      else (false, fit.2)
    if rep.1 then (rep.2, colour_classes_end)
    else
      (Function.update rep.2 colour_classes_end
          { first := 1, second := Function.update (rep.2 colour_classes_end).second 0 v },
        colour_classes_end + 1)

/-- The main loop `while (! p_left.empty())` of `colour_class_order_with_repair`
(lines 139-209). -/
def repair_loop (g : FixedBitGraph) (delta : Int) (selective : Bool) :
    Nat → RepairState → Option RepairState
  | 0, s => if s.p_left.empty then some s else none
  | fuel + 1, s =>
    match s.p_left.first_set_bit with
    | none => some s
    | some v =>
      let r := repair_step g delta selective v s.colour_classes s.colour_classes_end
      repair_loop g delta selective fuel
        { p_left := s.p_left.unset v, colour_classes := r.1, colour_classes_end := r.2 }

/-- The loop `for (vertex_pos = 0 ; vertex_pos != first ; ++vertex_pos)` writing one colour
class to the output (lines 220-224). -/
def write_class (colour : Nat) (cl : ColourClass) : Nat → Nat → CCOResult → CCOResult
  | 0, _, o => o
  | todo + 1, vertex_pos, o =>
    write_class colour cl todo (vertex_pos + 1)
      { p_order := Function.update o.p_order o.i (cl.second vertex_pos)
        p_bounds := Function.update o.p_bounds o.i colour
        i := o.i + 1 }

/-- The variables of the output phase of `colour_class_order_with_repair`. -/
structure Emit where
  out : CCOResult
  colour : Nat
  d : Nat
  defer : Nat → Nat

/-- The loop over the colour classes that writes the output (lines 215-226). -/
def write_classes (do_defer : Bool) (cc : ColourClasses) : Nat → Nat → Emit → Emit
  | 0, _, e => e
  | todo + 1, colour_class, e =>
    if do_defer && decide ((cc colour_class).first = 1) then
      write_classes do_defer cc todo (colour_class + 1)
        { e with d := e.d + 1, defer := Function.update e.defer e.d ((cc colour_class).second 0) }
    else
      write_classes do_defer cc todo (colour_class + 1)
        { e with colour := e.colour + 1
                 out := write_class (e.colour + 1) (cc colour_class) (cc colour_class).first 0
                   e.out }

/-- Embedding of `colour_class_order_with_repair(p, p_order, p_bounds, delta, selective,
do_defer)` (lines 123-235). `colour_classes` is the thread-local scratch vector as the previous
call left it, `defer` the uninitialised local array. -/
def colour_class_order_with_repair (g : FixedBitGraph) (p : FixedBitSet)
    (p_order p_bounds : Nat → Nat) (delta : Int) (selective do_defer : Bool)
    (colour_classes : ColourClasses) (defer : Nat → Nat) : Option CCOResult :=
  (repair_loop g delta selective p.popcount
      { p_left := p, colour_classes := colour_classes, colour_classes_end := 0 }).map
    fun s =>
      let e := write_classes do_defer s.colour_classes s.colour_classes_end 0
        { out := { p_order := p_order, p_bounds := p_bounds, i := 0 }
          colour := 0, d := 0, defer := defer }
      if do_defer then (append_deferred e.defer e.d 0 e.colour e.out).2 else e.out

/-- The loop `while (x < i && p_bounds[x] == p_bounds[conflicting_vertex_pos]) ++x`
(lines 316-317); `c` is the value `p_bounds[conflicting_vertex_pos]`. -/
def skip_class (p_bounds : Nat → Nat) (i c : Nat) : Nat → Nat → Nat
  | 0, x => x
  | todo + 1, x =>
    if x < i ∧ p_bounds x = c then skip_class p_bounds i c todo (x + 1) else x

/-- The loop `for ( ; x < i ; ++x)` (lines 321-362) up to the point where the move is made:
it yields the position `x` at which a colour class without a neighbour of `u` ends, together
with `new_colour_class`, or `none` when the loop runs to `i`. Here `u` is
`p_order[conflicting_vertex_pos]`. -/
def find_target (g : FixedBitGraph) (p_order p_bounds : Nat → Nat) (u : Nat) :
    Nat → Nat → Nat → Bool → Option (Nat × Nat)
  | 0, _, _, _ => none
  | todo + 1, x, new_colour_class, conflict =>
    if new_colour_class ≠ p_bounds x then
      if ! conflict then some (x, new_colour_class)
      else find_target g p_order p_bounds u todo (x + 1) (p_bounds x)
        (g.adjacent u (p_order x))
    else find_target g p_order p_bounds u todo (x + 1) new_colour_class
      (conflict || g.adjacent u (p_order x))

/-- The loop `for (z = i ; z >= x ; --z) a[z + 1] = a[z]` (lines 329-332), for one of the two
arrays; `todo` is the number of iterations left. The array of the model is a map on all
indices and has no capacity, while the `std::array` of the code has `size_ * bits_per_word`
entries: the first iteration writes index `i + 1`, so the model follows the code as long as
`i + 1` is below that capacity. -/
def shift_up (a : Nat → Nat) : Nat → Nat → Nat → Nat
  | 0, _ => a
  | todo + 1, z => shift_up (Function.update a (z + 1) (a z)) todo (z - 1)

/-- The loop `while (p_bounds[pos] == p_bounds[pos + 1]) { p_order[pos] = p_order[pos + 1];
++pos; }` (lines 340-343) on `conflicting_vertex_pos`; the result is `none` when the iteration
budget is used up. -/
def close_gap (p_bounds : Nat → Nat) : Nat → Nat → (Nat → Nat) → Option ((Nat → Nat) × Nat)
  | 0, _, _ => none
  | todo + 1, pos, p_order =>
    if p_bounds pos = p_bounds (pos + 1) then
      close_gap p_bounds todo (pos + 1) (Function.update p_order pos (p_order (pos + 1)))
    else some (p_order, pos)

/-- The in-place move (lines 328-346): open a slot at `x`, put the conflicting vertex there
with colour `new_colour_class`, close the gap it leaves and put `v` at the end of its old
class. The arrays of the model have no capacity; the move writes index `i + 1` of both arrays
(see `shift_up`). -/
def splice (v i conflicting_vertex_pos x new_colour_class : Nat) (p_order p_bounds : Nat → Nat) :
    Option ((Nat → Nat) × (Nat → Nat)) :=
  let p_bounds1 := shift_up p_bounds (i + 1 - x) i
  let p_order1 := shift_up p_order (i + 1 - x) i
  let p_order2 := Function.update p_order1 x (p_order1 conflicting_vertex_pos)
  let p_bounds2 := Function.update p_bounds1 x new_colour_class
  (close_gap p_bounds2 (i + 1) conflicting_vertex_pos p_order2).map fun r =>
    (Function.update r.1 r.2 v, p_bounds2)

/-- The variables of the scan over the coloured positions (lines 305-307). -/
structure Scan where
  prev_colour : Nat
  conflicting_vertex_pos : Int
  n_conflicts : Nat

/-- The part of the scan body run at the start of a colour class when the class just left holds
a single neighbour of `v` (lines 311-363): `some (some arrays)` when the move was made. -/
def try_recolour (g : FixedBitGraph) (v i : Nat) (p_order p_bounds : Nat → Nat)
    (conflicting_vertex_pos : Nat) : Option (Option ((Nat → Nat) × (Nat → Nat))) :=
  let x := skip_class p_bounds i (p_bounds conflicting_vertex_pos) (i - conflicting_vertex_pos)
    conflicting_vertex_pos
  match find_target g p_order p_bounds (p_order conflicting_vertex_pos) (i - x) x (p_bounds x)
      false with
  | none => some none
  | some (x1, new_colour_class) =>
    (splice v i conflicting_vertex_pos x1 new_colour_class p_order p_bounds).map some

/-- The scan `for (w = 0 ; w < i ; ++w)` (lines 308-377). The result is `none` when an
iteration budget is used up, `some none` when no move was made, and `some (some arrays)` when
`done_recolour` was set. -/
def scan (g : FixedBitGraph) (v i : Nat) (p_order p_bounds : Nat → Nat) :
    Nat → Nat → Scan → Option (Option ((Nat → Nat) × (Nat → Nat)))
  | 0, _, _ => some none
  | todo + 1, w, sc =>
    let count := fun (sc1 : Scan) =>
      if sc1.n_conflicts < 2 ∧ g.adjacent v (p_order w) = true then
        scan g v i p_order p_bounds todo (w + 1)
          { sc1 with n_conflicts := sc1.n_conflicts + 1, conflicting_vertex_pos := w }
      else scan g v i p_order p_bounds todo (w + 1) sc1
    if sc.prev_colour ≠ p_bounds w then
      let fresh : Scan :=
        { prev_colour := p_bounds w, n_conflicts := 0, conflicting_vertex_pos := -1 }
      if sc.n_conflicts = 1 then
        match try_recolour g v i p_order p_bounds sc.conflicting_vertex_pos.toNat with
        | none => none
        | some (some r) => some (some r)
        | some none => count fresh
      else count fresh
    else count sc

/-- The state of the main loop of `colour_class_order_with_repair_fast`. -/
structure FastState where
  p_left : FixedBitSet
  colour : Nat
  i : Nat
  p_order : Nat → Nat
  p_bounds : Nat → Nat

/-- The main loop `while (! p_left.empty())` of `colour_class_order_with_repair_fast`
(lines 296-404). -/
def fast_loop (g : FixedBitGraph) (delta : Int) (selective : Bool) :
    Nat → FastState → Option FastState
  | 0, s => if s.p_left.empty then some s else none
  | fuel + 1, s =>
    match s.p_left.first_set_bit with
    | none => some s
    | some v =>
      let recoloured :=
        if (! selective) || decide ((s.colour : Int) + 1 ≥ delta) then
          scan g v s.i s.p_order s.p_bounds s.i 0
            { prev_colour := 0, conflicting_vertex_pos := -1, n_conflicts := 0 }
        else some none
      match recoloured with
      | none => none
      | some (some r) =>
        fast_loop g delta selective fuel
          { s with p_left := s.p_left.unset v, i := s.i + 1, p_order := r.1, p_bounds := r.2 }
      | some none =>
        match colour_one_class g false (s.colour + 1) s.p_left.popcount s.p_left
            { p_left := s.p_left, i := s.i, p_order := s.p_order, p_bounds := s.p_bounds,
              number_with_this_colour := 0 } with
        | none => none
        | some t =>
          fast_loop g delta selective fuel
            { p_left := t.p_left, colour := s.colour + 1, i := t.i, p_order := t.p_order,
              p_bounds := t.p_bounds }

/-- Embedding of `colour_class_order_with_repair_fast(p, p_order, p_bounds, delta, selective)`
(lines 279-405). The arrays of the model have no capacity parameter: the model follows the
code for `|p|` below the capacity `size_ * bits_per_word` of the arrays of the code, where
every index that a move writes (at most `|p|`) exists; the accesses of the code are embedded by
`colour_class_order_with_repair_fast_accesses`. -/
def colour_class_order_with_repair_fast (g : FixedBitGraph) (p : FixedBitSet)
    (p_order p_bounds : Nat → Nat) (delta : Int) (selective : Bool) : Option CCOResult :=
  (fast_loop g delta selective p.popcount
      { p_left := p, colour := 0, i := 0, p_order := p_order, p_bounds := p_bounds }).map
    fun s => { p_order := s.p_order, p_bounds := s.p_bounds, i := s.i }

/-- The tags of `CCOPermutations` for which `CCOMixin` has a `colour_class_order` overload. -/
inductive CCOPermutations
  | None
  | Defer1
  | RepairAll
  | RepairAllDefer1
  | RepairSelected
  | RepairSelectedDefer1
  | RepairSelectedFast
  | RepairAllFast
  deriving DecidableEq

/-- The overloads that contain `static_assert(! inverse_, ...)`. -/
def CCOPermutations.repairs : CCOPermutations → Bool
  | .None => false
  | .Defer1 => false
  | _ => true

/-- The overloads that call `colour_class_order_with_repair_fast`. -/
def CCOPermutations.in_place : CCOPermutations → Bool
  | .RepairSelectedFast => true
  | .RepairAllFast => true
  | _ => false

/-- The memory a call finds without having initialised it: the local array `defer` and the
thread-local vector `colour_classes`. -/
structure Scratch where
  defer : Nat → Nat
  colour_classes : ColourClasses

/-- Embedding of the overload set `colour_class_order(SelectColourClassOrderOverload<perm>, p,
p_order, p_bounds, delta)` (lines 27, 66, 237-277, 407-425). An instantiation rejected by
`static_assert(! inverse_)` has no result. -/
def colour_class_order (perm : CCOPermutations) (g : FixedBitGraph) (inverse : Bool)
    (p : FixedBitSet) (p_order p_bounds : Nat → Nat) (delta : Int) (m : Scratch) :
    Option CCOResult :=
  match perm with
  | .None => colour_class_order_none g inverse p p_order p_bounds
  | .Defer1 => colour_class_order_defer1 g inverse p p_order p_bounds m.defer
  | .RepairAll =>
    if inverse then none
    else colour_class_order_with_repair g p p_order p_bounds delta false false
      m.colour_classes m.defer
  | .RepairAllDefer1 =>
    if inverse then none
    else colour_class_order_with_repair g p p_order p_bounds delta false true
      m.colour_classes m.defer
  | .RepairSelected =>
    if inverse then none
    else colour_class_order_with_repair g p p_order p_bounds delta true false
      m.colour_classes m.defer
  | .RepairSelectedDefer1 =>
    if inverse then none
    else colour_class_order_with_repair g p p_order p_bounds delta true true
      m.colour_classes m.defer
  | .RepairSelectedFast =>
    if inverse then none
    else colour_class_order_with_repair_fast g p p_order p_bounds delta true
  | .RepairAllFast =>
    if inverse then none
    else colour_class_order_with_repair_fast g p p_order p_bounds delta false

/-! ## Subgraph isomorphism (`src/subgraph_isomorphism/gb_subgraph_isomorphism.cc`) -/

/-- Modelled from the spec: the front-door type `Graph` (header `graph/graph.hh` is not part of
the sources at hand): a size and the `add_edge` calls made on it, each setting both
directions. -/
structure Graph where
  size : Nat
  edges : List (Nat × Nat)

namespace Graph

/-- Modelled from the spec: `adjacent(a, b)` on the boolean adjacency matrix. -/
def adjacent (g : Graph) (a b : Nat) : Bool :=
  decide (a < g.size) && decide (b < g.size) &&
    (g.edges.contains (a, b) || g.edges.contains (b, a))

/-- Modelled from the spec: `degree(a)` counts the set entries of row `a`. -/
def degree (g : Graph) (a : Nat) : Nat :=
  ((List.range g.size).filter fun b => g.adjacent a b).length

end Graph

/-- The result of `SGI::search`. -/
inductive Search
  | Aborted
  | Unsatisfiable
  | Satisfiable
  deriving DecidableEq

/-- The template and constructor arguments of `SGI` that select the algorithm: `backjump_`,
`double_filter_`, `k_`, `l_`, `induced_`, `compose_induced_`, and the flags
`use_full_all_different`, `use_cheap_all_different`, `dom_plus_deg`. -/
structure Config where
  backjump : Bool
  double_filter : Bool
  k : Int
  l : Int
  induced : Bool
  compose_induced : Bool
  use_full_all_different : Bool
  use_cheap_all_different : Bool
  dom_plus_deg : Bool

/-- The constant `max_graphs` (line 100). -/
def Config.max_graphs (c : Config) : Int :=
  1 + ((c.l - 1) * c.k) +
    (if c.induced then
      1 + (if c.compose_induced then (if c.l ≥ 2 then 2 else c.l) * c.k else 0)
     else 0)

/-- `SGI::Domain` (lines 36-41). -/
structure Domain where
  v : Nat
  popcount : Nat
  values : FixedBitSet
  deriving DecidableEq

/-- `SGI::Domains`. -/
abbrev Domains := List Domain

/-- `SGI::Assignments`: a vector indexed by pattern vertex. -/
abbrev Assignments := Nat → Nat

/-- `SGI::FailedVariables`: the bitset of `RealFailedVariables`; with `backjump_ = false` the
type is `DummyFailedVariables`, whose operations do nothing, and the set stays empty. -/
abbrev FailedVariables := FixedBitSet

/-- `FailedVariables::add(unsigned)` (lines 53-55 and 84-87). -/
def FailedVariables.add (backjump : Bool) (f : FailedVariables) (dv : Nat) : FailedVariables :=
  if backjump then f.set dv else f

/-- `FailedVariables::add(const FailedVariables &)` (lines 57-59 and 89-92). -/
def FailedVariables.add_all (backjump : Bool) (f d : FailedVariables) : FailedVariables :=
  if backjump then f.union_with d else f

/-- The cached size used by `independent_of` for variable `v`: the `popcount` of the first
domain of `v`, or 1 when there is none (lines 72-76). -/
def popcount_of (domains : Domains) (v : Nat) : Nat :=
  match domains.find? (fun d => d.v == v) with
  | none => 1
  | some d => d.popcount

/-- `FailedVariables::independent_of` (lines 48-51 and 66-82). -/
def FailedVariables.independent_of (backjump : Bool) (f : FailedVariables)
    (old_domains new_domains : Domains) : Bool :=
  if backjump then decide (∀ v ∈ f, popcount_of old_domains v = popcount_of new_domains v)
  else false

/-- The library and header functions that the solver calls and whose code is not part of the
sources at hand. `degree_sort` is `degree_sort(target, order, false)` applied to the identity
order; `supplemental_pattern` and `supplemental_target` give the graphs that
`build_supplemental_graphs` stores at the indices from 1 on; `sort_domains` is the `std::sort`
call of `cheap_all_different` (the order of equivalent elements is not specified by the
standard); `matching` is the vector `mate` that `boost::edmonds_maximum_cardinality_matching`
writes for a graph given by its number of vertices and its edges, `none` standing for
`null_vertex`; `components` is the vector `component` that `boost::strong_components` writes
for a directed graph. -/
structure Externals where
  degree_sort : Graph → List Nat
  supplemental_pattern : FixedBitGraph → Nat → FixedBitGraph
  supplemental_target : FixedBitGraph → Nat → FixedBitGraph
  sort_domains : (Nat → Nat → Bool) → List Nat → List Nat
  matching : Nat → List (Nat × Nat) → List (Option Nat)
  components : Nat → List (Nat × Nat) → List Nat

/-- The members of `SGI` after the constructor and `build_supplemental_graphs` have run. -/
structure SGI where
  cfg : Config
  ext : Externals
  target_graphs : Nat → FixedBitGraph
  pattern_graphs : Nat → FixedBitGraph
  pattern_order : List Nat
  target_order : List Nat
  isolated_vertices : List Nat
  pattern_degree_tiebreak : Nat → Nat
  pattern_size : Nat
  full_pattern_size : Nat
  target_size : Nat

/-- The recoding loops of the constructor (lines 128-133 and 139-144): a bit graph on `n`
vertices with an edge `(i, j)` added whenever `order[i]` and `order[j]` are adjacent. -/
def recode (g : Graph) (order : List Nat) (n : Nat) : FixedBitGraph :=
  { size := n
    edges := ((List.range n).flatMap fun i => (List.range n).map fun j => (i, j)).filter
      fun e => g.adjacent (order.getD e.1 0) (order.getD e.2 0) }

/-- The constructor `SGI::SGI` (lines 109-148) followed by `build_supplemental_graphs()`. -/
def SGI.make (cfg : Config) (ext : Externals) (target pattern : Graph) : SGI :=
  let isolated := (List.range pattern.size).filter fun v =>
    (! cfg.induced) && decide (pattern.degree v = 0)
  let pattern_order := (List.range pattern.size).filter fun v =>
    ! ((! cfg.induced) && decide (pattern.degree v = 0))
  let pattern_size := pattern.size - isolated.length
  let target_order := ext.degree_sort target
  let pattern0 := recode pattern pattern_order pattern_size
  let target0 := recode target target_order target.size
  { cfg := cfg
    ext := ext
    target_graphs := fun g => if g = 0 then target0 else ext.supplemental_target target0 g
    pattern_graphs := fun g => if g = 0 then pattern0 else ext.supplemental_pattern pattern0 g
    pattern_order := pattern_order
    target_order := target_order
    isolated_vertices := isolated
    pattern_degree_tiebreak := fun j => pattern0.degree j
    pattern_size := pattern_size
    full_pattern_size := pattern.size
    target_size := target.size }

/-- The number of filter graphs as a loop bound. -/
def SGI.g_end (s : SGI) : Nat := s.cfg.max_graphs.toNat

/-- The state of the counting loop of `cheap_all_different`. -/
structure Counting where
  domains : Domains
  failed : FailedVariables
  domains_so_far : FixedBitSet
  hall : FixedBitSet
  neighbours_so_far : Nat

/-- The counting loop of `cheap_all_different` (lines 383-406) over the sorted indices; the
Boolean is the return value, `none` stands for an index outside `domains`. -/
def cheap_all_different_loop (backjump : Bool) : List Nat → Counting → Option (Bool × Counting)
  | [], c => some (true, c)
  | idx :: rest, c =>
    match c.domains.get? idx with
    | none => none
    | some d =>
      let failed := FailedVariables.add backjump c.failed d.v
      let values := d.values.intersect_with_complement c.hall
      let d1 : Domain := { v := d.v, popcount := values.popcount, values := values }
      let domains := c.domains.set idx d1
      if d1.popcount = 0 then
        some (false, { c with domains := domains, failed := failed })
      else
        let so_far := c.domains_so_far.union_with d1.values
        let n := c.neighbours_so_far + 1
        if so_far.popcount < n then
          some (false, { domains := domains, failed := failed, domains_so_far := so_far,
                         hall := c.hall, neighbours_so_far := n })
        else if so_far.popcount = n then
          cheap_all_different_loop backjump rest
            { domains := domains, failed := failed, domains_so_far := ∅,
              hall := c.hall.union_with so_far, neighbours_so_far := 0 }
        else
          cheap_all_different_loop backjump rest
            { domains := domains, failed := failed, domains_so_far := so_far,
              hall := c.hall, neighbours_so_far := n }

/-- `SGI::cheap_all_different` (lines 367-409): the return value, the domains and the failed
variables after the call. -/
def cheap_all_different (s : SGI) (domains : Domains) (failed_variables : FailedVariables) :
    Option (Bool × Domains × FailedVariables) :=
  let less := fun (a b : Nat) =>
    let da := domains.getD a ⟨0, 0, ∅⟩
    let db := domains.getD b ⟨0, 0, ∅⟩
    decide (da.popcount < db.popcount) ||
      (decide (da.popcount = db.popcount) &&
        decide (s.pattern_degree_tiebreak da.v > s.pattern_degree_tiebreak db.v))
  let domains_order := s.ext.sort_domains less (List.range domains.length)
  (cheap_all_different_loop s.cfg.backjump domains_order
      { domains := domains, failed := failed_variables, domains_so_far := ∅, hall := ∅,
        neighbours_so_far := 0 }).map
    fun r => (r.1, r.2.domains, r.2.failed)

/-- The edges `(i, j)` between domain index `i` and target vertex `j` with `j` in the values of
domain `i` (the loops of lines 416-424 and 448-457). -/
def regin_pairs (domains : Domains) (target_size : Nat) : List (Nat × Nat) :=
  (List.range domains.length).flatMap fun i =>
    ((List.range target_size).filter fun j =>
      (domains.getD i ⟨0, 0, ∅⟩).values.test j).map fun j => (i, j)

/-- The state of the reachability loop of `regin_all_different` (lines 460-475). -/
structure Reach where
  pending : Finset Nat
  seen : Finset Nat
  unused : Finset (Nat × Nat)

/-- The loop `while (! pending.empty())` of `regin_all_different` (lines 461-475); `n` is
`domains.size()` and `edges` are the edges of the oriented graph `match_o`. -/
def regin_reach (n : Nat) (edges : List (Nat × Nat)) : Nat → Reach → Option Reach
  | 0, r => if r.pending = ∅ then some r else none
  | fuel + 1, r =>
    match FixedBitSet.first_set_bit r.pending with
    | none => some r
    | some v =>
      let pending := r.pending.erase v
      if v ∈ r.seen then regin_reach n edges fuel { r with pending := pending }
      else
        let ws := (edges.filter fun e => e.1 = v).map fun e => e.2
        regin_reach n edges fuel
          { pending := pending ∪ ws.toFinset
            seen := insert v r.seen
            unused := ws.foldl
              (fun u w => if w ≥ n then u.erase (v, w - n) else u.erase (w, v - n)) r.unused }

/-- `SGI::regin_all_different` (lines 411-498): `some (false, _)` when the function returns
false, `some (true, domains)` with the filtered domains otherwise, `none` when an iteration
budget is used up. The cached `popcount` of a domain is not touched. -/
def regin_all_different (s : SGI) (domains : Domains) : Option (Bool × Domains) :=
  let n := domains.length
  let pairs := regin_pairs domains s.target_size
  let consider := (domains.filter fun d => decide (d.values.popcount < n)).length
  if consider = 0 then some (true, domains)
  else
    let mate_vector := s.ext.matching (n + s.target_size) (pairs.map fun e => (e.1, n + e.2))
    let mate := fun i => mate_vector.getD i none
    let matched := (List.range n).filter fun i => (mate i).isSome
    let free := ((List.range s.target_size).map fun j => n + j).toFinset \
      (matched.filterMap mate).toFinset
    if matched.length ≠ n then some (false, domains)
    else
      let match_o := pairs.map fun e =>
        if mate e.1 = some (e.2 + n) then (e.1, n + e.2) else (n + e.2, e.1)
      let vertices := n + s.target_size
      match regin_reach n match_o (vertices * vertices + vertices + 1)
          { pending := free, seen := ∅, unused := pairs.toFinset } with
      | none => none
      | some r =>
        let component_vector := s.ext.components vertices match_o
        let component := fun v => component_vector.getD v 0
        let unused := r.unused.filter fun e => component e.1 ≠ component (e.2 + n)
        some (true, domains.enum.map fun id =>
          { id.2 with values := id.2.values.filter fun j =>
              ¬ ((id.1, j) ∈ unused ∧ mate id.1 ≠ some (j + n)) })

/-- The first loop of `SGI::assign` (lines 153-172): filter every remaining domain, stop at the
first domain that becomes empty. -/
def assign_domains (s : SGI) (branch_v f_v g_end : Nat) :
    Domains → FailedVariables → Bool × Domains × FailedVariables
  | [], failed => (true, [], failed)
  | d :: rest, failed =>
    let values := (List.range g_end).foldl
      (fun vals g =>
        if (s.pattern_graphs g).adjacent branch_v d.v then
          (s.target_graphs g).intersect_with_row f_v vals
        else vals)
      (d.values.unset f_v)
    let d1 : Domain := { v := d.v, popcount := values.popcount, values := values }
    if d1.popcount = 0 then
      (false, d1 :: rest, FailedVariables.add s.cfg.backjump failed d.v)
    else
      let r := assign_domains s branch_v f_v g_end rest failed
      (r.1, d1 :: r.2.1, r.2.2)

/-- `SGI::assign` (lines 150-189): the return value, the domains and the failed variables after
the call. -/
def assign (s : SGI) (new_domains : Domains) (branch_v f_v g_end : Nat)
    (failed_variables : FailedVariables) : Option (Bool × Domains × FailedVariables) :=
  let r := assign_domains s branch_v f_v g_end new_domains failed_variables
  if ! r.1 then some r
  else
    let cheap :=
      if s.cfg.use_cheap_all_different then
        (cheap_all_different s r.2.1 ∅).map fun c =>
          if c.1 then (true, c.2.1, r.2.2)
          else (false, c.2.1, FailedVariables.add_all s.cfg.backjump r.2.2 c.2.2)
      else some r
    match cheap with
    | none => none
    | some (false, domains, failed) => some (false, domains, failed)
    | some (true, domains, failed) =>
      if s.cfg.use_full_all_different then
        match regin_all_different s domains with
        | none => none
        | some (false, domains1) =>
          some (false, domains1,
            domains1.foldl (fun f d => FailedVariables.add s.cfg.backjump f d.v) failed)
        | some (true, domains1) => some (true, domains1, failed)
      else some (true, domains, failed)

/-- The selection of the branch domain in `SGI::search` (lines 202-214). -/
def select_branch_domain (s : SGI) (domains : Domains) : Option Domain :=
  domains.foldl
    (fun (branch_domain : Option Domain) d =>
      match branch_domain with
      | none => some d
      | some b =>
        if s.cfg.dom_plus_deg then
          if d.popcount < b.popcount ∨
              (d.popcount = b.popcount ∧
                s.pattern_degree_tiebreak d.v > s.pattern_degree_tiebreak b.v) then some d
          else some b
        else
          if d.popcount < b.popcount ∨ (d.popcount = b.popcount ∧ d.v < b.v) then some d
          else some b)
    none

/-- What a call of `SGI::search` leaves behind: the returned pair, and the two reference
arguments `assignments` and `nodes`. -/
structure SearchOut where
  result : Search
  failed : FailedVariables
  assignments : Assignments
  nodes : Nat

/-- The loop over the values of the branch domain in `SGI::search` (lines 225-253); `child` is
the recursive call of `search`. -/
def search_values (s : SGI) (g_end : Nat)
    (child : Assignments → Domains → Nat → Option SearchOut) (domains : Domains)
    (branch_v : Nat) :
    Nat → FixedBitSet → FailedVariables → Assignments → Nat → Option SearchOut
  | 0, remaining, shared, assignments, nodes =>
    if remaining.empty then some ⟨Search.Unsatisfiable, shared, assignments, nodes⟩ else none
  | fuel + 1, remaining, shared, assignments, nodes =>
    match remaining.first_set_bit with
    | none => some ⟨Search.Unsatisfiable, shared, assignments, nodes⟩
    | some f_v =>
      let assignments1 := Function.update assignments branch_v f_v
      let new_domains := domains.filter fun d => d.v ≠ branch_v
      match assign s new_domains branch_v f_v g_end shared with
      | none => none
      | some (false, _, shared1) =>
        search_values s g_end child domains branch_v fuel (remaining.unset f_v) shared1
          assignments1 nodes
      | some (true, new_domains1, shared1) =>
        match child assignments1 new_domains1 nodes with
        | none => none
        | some r =>
          match r.result with
          | Search.Satisfiable => some ⟨Search.Satisfiable, ∅, r.assignments, r.nodes⟩
          | Search.Aborted => some ⟨Search.Aborted, ∅, r.assignments, r.nodes⟩
          | Search.Unsatisfiable =>
            if FailedVariables.independent_of s.cfg.backjump r.failed domains new_domains1 then
              some r
            else
              search_values s g_end child domains branch_v fuel (remaining.unset f_v)
                (FailedVariables.add_all s.cfg.backjump shared1 r.failed) r.assignments r.nodes

/-- `SGI::search` (lines 191-256). `abort n` is the value that `params.abort->load()` yields
when `n` nodes have been counted. -/
def search (s : SGI) (abort : Nat → Bool) (g_end : Nat) :
    Nat → Assignments → Domains → Nat → Option SearchOut
  | 0, _, _, _ => none
  | fuel + 1, assignments, domains, nodes =>
    if abort nodes then some ⟨Search.Aborted, ∅, assignments, nodes⟩
    else
      match select_branch_domain s domains with
      | none => some ⟨Search.Satisfiable, ∅, assignments, nodes + 1⟩
      | some branch_domain =>
        search_values s g_end (fun a d n => search s abort g_end fuel a d n) domains
          branch_domain.v branch_domain.values.popcount branch_domain.values
          (FailedVariables.add s.cfg.backjump ∅ branch_domain.v) assignments (nodes + 1)

/-- The neighbourhood degree sequence of pattern vertex `i` for the graph pair `(g1, g2)`
(lines 297-303), sorted in descending order. -/
def patterns_ndss (s : SGI) (g1 g2 i : Nat) : List Nat :=
  (((List.range s.pattern_size).filter fun j => (s.pattern_graphs g1).adjacent i j).map
    fun j => (s.pattern_graphs g2).degree j).insertionSort (· ≥ ·)

/-- The degree of target vertex `i` in graph `g` within the allowed vertices (lines 278-282). -/
def targets_degrees (s : SGI) (allowed : FixedBitSet) (g i : Nat) : Nat :=
  ((s.target_graphs g).intersect_with_row i allowed).popcount

/-- The neighbourhood degree sequence of target vertex `i` for the graph pair `(g1, g2)`
(lines 305-311), sorted in descending order. -/
def targets_ndss (s : SGI) (allowed : FixedBitSet) (g1 g2 i : Nat) : List Nat :=
  (((List.range s.target_size).filter fun j => (s.target_graphs g1).adjacent i j).map
    fun j => targets_degrees s allowed g2 j).insertionSort (· ≥ ·)

/-- The flag `ok` for pattern vertex `i` and target vertex `j` (lines 319-340). -/
def domain_ok (s : SGI) (allowed : FixedBitSet) (i j : Nat) : Bool :=
  let g1_end := if s.cfg.double_filter then s.g_end else 1
  ((List.range s.g_end).all fun g =>
      allowed.test j &&
        ! ((s.pattern_graphs g).adjacent i i && ! (s.target_graphs g).adjacent j j)) &&
    ((List.range g1_end).all fun g1 => (List.range s.g_end).all fun g2 =>
      ! decide ((targets_ndss s allowed g1 g2 j).length < (patterns_ndss s g1 g2 i).length)) &&
    ((List.range g1_end).all fun g1 => (List.range s.g_end).all fun g2 =>
      (List.range (patterns_ndss s g1 g2 i).length).all fun x =>
        ! decide ((targets_ndss s allowed g1 g2 j).getD x 0 < (patterns_ndss s g1 g2 i).getD x 0))

/-- The loop `while (true)` of `SGI::initialise_domains` (lines 264-362). -/
def initialise_domains_loop (s : SGI) : Nat → Nat → FixedBitSet → Option (Bool × Domains)
  | 0, _, _ => none
  | fuel + 1, remaining_target_vertices, allowed_target_vertices =>
    let domains : Domains := (List.range s.pattern_size).map fun i =>
      let values := (Finset.range s.target_size).filter fun j =>
        domain_ok s allowed_target_vertices i j = true
      { v := i, popcount := FixedBitSet.popcount values, values := values }
    let domains_union := domains.foldl (fun u d => FixedBitSet.union_with u d.values) ∅
    if domains_union.popcount < s.pattern_size then some (false, domains)
    else if domains_union.popcount = remaining_target_vertices then some (true, domains)
    else
      initialise_domains_loop s fuel
        (allowed_target_vertices.intersect_with domains_union).popcount
        (allowed_target_vertices.intersect_with domains_union)

/-- `SGI::initialise_domains` (lines 258-365). -/
def initialise_domains (s : SGI) : Option (Bool × Domains) :=
  initialise_domains_loop s (s.target_size + 1) s.target_size
    (FixedBitSet.set_up_to s.target_size)

/-- `SGI::prepare_for_search` (lines 500-504). -/
def prepare_for_search (domains : Domains) : Domains :=
  domains.map fun d => { d with popcount := d.values.popcount }

/-- `std::map::emplace`: the pair is inserted unless the key is present. -/
def emplace (m : List (Nat × Nat)) (key value : Nat) : List (Nat × Nat) :=
  if m.any (fun e => e.1 = key) then m else m ++ [(key, value)]

/-- The loop `while (some entry has second == t) ++t` of `save_result` (lines 513-515). -/
def skip_used (m : List (Nat × Nat)) : Nat → Nat → Option Nat
  | 0, _ => none
  | fuel + 1, t =>
    if m.any (fun e => e.2 = t) then skip_used m fuel (t + 1) else some t

/-- The loop over the isolated vertices of `save_result` (lines 511-517). -/
def save_isolated : List Nat → Nat → List (Nat × Nat) → Option (List (Nat × Nat))
  | [], _, m => some m
  | v :: rest, t, m =>
    match skip_used m (m.length + 1) t with
    | none => none
    | some t1 => save_isolated rest t1 (emplace m v t1)

/-- `SGI::save_result` (lines 506-518). -/
def save_result (s : SGI) (assignments : Assignments) : Option (List (Nat × Nat)) :=
  save_isolated s.isolated_vertices 0
    ((List.range s.pattern_size).foldl
      (fun m v => emplace m (s.pattern_order.getD v 0) (s.target_order.getD (assignments v) 0))
      [])

/-- The fields of `SubgraphIsomorphismResult` that `SGI::run` writes. -/
structure SubgraphIsomorphismResult where
  isomorphism : List (Nat × Nat)
  nodes : Nat
  deriving DecidableEq

/-- The `switch` on the result of `search` at the end of `SGI::run` (lines 547-557): only a
satisfiable search writes the isomorphism; `nodes` has been counted by `search`. -/
def SGI.finish (s : SGI) (out : SearchOut) : Option SubgraphIsomorphismResult :=
  match out.result with
  | Search.Satisfiable => (save_result s out.assignments).map fun m => ⟨m, out.nodes⟩
  | _ => some ⟨[], out.nodes⟩

/-- `SGI::run` (lines 520-560) on the members built by `SGI.make`. -/
def SGI.run (s : SGI) (abort : Nat → Bool) : Option SubgraphIsomorphismResult :=
  if s.full_pattern_size > s.target_size then some ⟨[], 0⟩
  else
    match initialise_domains s with
    | none => none
    | some (false, _) => some ⟨[], 0⟩
    | some (true, domains) =>
      match cheap_all_different s domains ∅ with
      | none => none
      | some (false, _, _) => some ⟨[], 0⟩
      | some (true, domains1, _) =>
        match (if s.cfg.use_full_all_different then regin_all_different s domains1
               else some (true, domains1)) with
        | none => none
        | some (false, _) => some ⟨[], 0⟩
        | some (true, domains2) =>
          let domains3 := prepare_for_search domains2
          match search s abort s.g_end (domains3.length + 1) (fun _ => 4294967295) domains3 0
            with
          | none => none
          | some out => s.finish out

/-! ## Reference versions of the external helpers

The theorems take the external helpers as a parameter. To run the model on a concrete instance
they are instantiated by the functions below. -/

/-- Modelled from the spec: "target vertices are pre-sorted by descending degree" (header
`graph/degree_sort.hh` is not part of the sources at hand); vertices of equal degree keep their
order. -/
def degree_sort_ref (g : Graph) : List Nat :=
  (List.range g.size).insertionSort fun a b => g.degree a ≥ g.degree b

/-- A stable sort for the comparison `less`, standing for `std::sort` (which for fewer than 17
elements is an insertion sort in libstdc++). -/
def sort_domains_ref (less : Nat → Nat → Bool) (l : List Nat) : List Nat :=
  l.insertionSort fun a b => less b a = false

/-- Modelled from the spec: the complement-adjacency graph of induced mode: two distinct
vertices are joined when `g` does not join them. -/
def complement_graph (g : FixedBitGraph) : FixedBitGraph :=
  { size := g.size
    edges := ((List.range g.size).flatMap fun i => (List.range g.size).map fun j => (i, j)).filter
      fun e => decide (e.1 ≠ e.2) && ! g.adjacent e.1 e.2 }

/-- The search for an augmenting path from the left vertex `u` of the reference matching:
`mate` is the vector of partners, `visited` are the right vertices seen. -/
def augment (edges : List (Nat × Nat)) :
    Nat → Nat → List (Option Nat) → List Nat → Bool × List (Option Nat) × List Nat
  | 0, _, mate, visited => (false, mate, visited)
  | fuel + 1, u, mate, visited =>
    ((edges.filter fun e => e.1 = u).map Prod.snd).foldl
      (fun st w =>
        if st.1 then st
        else if st.2.2.contains w then st
        else
          match st.2.1.getD w none with
          | none => (true, (st.2.1.set w (some u)).set u (some w), w :: st.2.2)
          | some u2 =>
            let r := augment edges fuel u2 st.2.1 (w :: st.2.2)
            if r.1 then (true, (r.2.1.set w (some u)).set u (some w), r.2.2)
            else (false, st.2.1, r.2.2))
      (false, mate, visited)

/-- A maximum cardinality matching of a bipartite graph whose edges lead from the left to the
right vertices, by augmenting paths; it stands for
`boost::edmonds_maximum_cardinality_matching`. -/
def matching_ref (vertices : Nat) (edges : List (Nat × Nat)) : List (Option Nat) :=
  let lefts := (edges.map Prod.fst).dedup
  lefts.foldl (fun mate u => (augment edges (lefts.length + 1) u mate []).2.1)
    (List.replicate vertices none)

/-- The vertices that `edges` lead to from the vertices `seen`, by at most `fuel` passes over
the edges. -/
def reachable (edges : List (Nat × Nat)) : Nat → List Nat → List Nat
  | 0, seen => seen
  | fuel + 1, seen =>
    let more := edges.foldl
      (fun s e => if s.contains e.1 && ! s.contains e.2 then e.2 :: s else s) seen
    if more.length = seen.length then seen else reachable edges fuel more

/-- The strongly connected components of a directed graph, each named by its least vertex; it
stands for `boost::strong_components`. -/
def components_ref (vertices : Nat) (edges : List (Nat × Nat)) : List Nat :=
  (List.range vertices).map fun v =>
    let forward := reachable edges vertices [v]
    let backward := reachable (edges.map fun e => (e.2, e.1)) vertices [v]
    ((List.range vertices).find? fun u => forward.contains u && backward.contains u).getD v

/-- The external helpers for the configurations with `k = l = 1`, where the only supplemental
pair is the complement-adjacency pair of induced mode. -/
def refExternals : Externals :=
  { degree_sort := degree_sort_ref
    supplemental_pattern := fun g _ => complement_graph g
    supplemental_target := fun g _ => complement_graph g
    sort_domains := sort_domains_ref
    matching := matching_ref
    components := components_ref }

/-! ## Instances used to run the model -/

/-- The path `0 - 1 - 2`. -/
def P3 : Graph := ⟨3, [(0, 1), (1, 2)]⟩

/-- The triangle. -/
def K3 : Graph := ⟨3, [(0, 1), (1, 2), (0, 2)]⟩

/-- The cycle `0 - 1 - 2 - 3 - 0`. -/
def C4 : Graph := ⟨4, [(0, 1), (1, 2), (2, 3), (3, 0)]⟩

/-- The configuration of `gb_subgraph_isomorphism` (no backjumping, cheap all-different,
`dom_plus_deg`) without path graphs (`k = l = 1`), as `SGI<_, false, false, 1, 1, induced,
false>`. -/
def plainConfig (induced : Bool) : Config :=
  { backjump := false, double_filter := false, k := 1, l := 1, induced := induced,
    compose_induced := false, use_full_all_different := false,
    use_cheap_all_different := true, dom_plus_deg := true }

/-- The abort flag that is never set. -/
def never : Nat → Bool := fun _ => false

/-- The configuration that `gb_subgraph_isomorphism` instantiates (lines 574-579):
`SGI<_, false, false, 3, 3, induced, induced>` constructed with `fa = false`, `ca = true`,
`dpd = true`. -/
def gb_config (induced : Bool) : Config :=
  { backjump := false, double_filter := false, k := 3, l := 3, induced := induced,
    compose_induced := induced, use_full_all_different := false,
    use_cheap_all_different := true, dom_plus_deg := true }

/-- `gb_subgraph_isomorphism` (lines 570-580) for the pair `graphs = (pattern, target)`. The
choice of the bitset width by `select_graph_size` is left out, the sets of the model have no
capacity; `SubgraphIsomorphismResult{ }` is the empty map with zero nodes. -/
def gb_subgraph_isomorphism (ext : Externals) (graphs : Graph × Graph) (induced : Bool)
    (abort : Nat → Bool) : Option SubgraphIsomorphismResult :=
  if graphs.1.size > graphs.2.size then some ⟨[], 0⟩
  else (SGI.make (gb_config induced) ext graphs.2 graphs.1).run abort

/-- The configuration that `gbbj_nosup_subgraph_isomorphism` instantiates (lines 606-615):
`SGI<_, true, false, 1, 1, induced, induced>` constructed with `fa = false`, `ca = true`,
`dpd = true`: backjumping, cheap all-different, no path graphs. -/
def gbbj_nosup_config (induced : Bool) : Config :=
  { backjump := true, double_filter := false, k := 1, l := 1, induced := induced,
    compose_induced := induced, use_full_all_different := false,
    use_cheap_all_different := true, dom_plus_deg := true }

/-- `gbbj_nosup_subgraph_isomorphism` (lines 606-616) for the pair `graphs = (pattern,
target)`. The choice of the bitset width by `select_graph_size` is left out, the sets of the
model have no capacity; `SubgraphIsomorphismResult{ }` is the empty map with zero nodes. -/
def gbbj_nosup_subgraph_isomorphism (ext : Externals) (graphs : Graph × Graph) (induced : Bool)
    (abort : Nat → Bool) : Option SubgraphIsomorphismResult :=
  if graphs.1.size > graphs.2.size then some ⟨[], 0⟩
  else (SGI.make (gbbj_nosup_config induced) ext graphs.2 graphs.1).run abort

/-- A pattern on seven vertices. -/
def hallPattern : Graph :=
  ⟨7, [(0, 1), (0, 2), (0, 4), (0, 5), (0, 6), (1, 2), (2, 3), (3, 4), (3, 5), (4, 6)]⟩

/-- A target on eight vertices that contains `hallPattern`. -/
def hallTarget : Graph :=
  ⟨8, [(0, 2), (0, 3), (0, 4), (1, 2), (1, 6), (1, 7), (2, 6), (2, 7), (3, 6), (4, 5), (4, 6),
    (4, 7), (5, 6), (5, 7)]⟩

/-- An embedding of `hallPattern` into `hallTarget`, as the list of the images of the vertices
`0, ..., 6`. -/
def hallEmbedding : List Nat := [6, 1, 2, 0, 4, 3, 5]

/-- The domains that the third call of `search` receives in the run of
`gbbj_nosup_subgraph_isomorphism` on `hallPattern` and `hallTarget`, after the pattern vertices
0 and 3 have got the values 0 and 3 (in the labels of the solver). -/
def hallDomains : Domains :=
  [⟨1, 5, {1, 2, 5, 6, 7}⟩, ⟨2, 4, {1, 2, 5, 6}⟩, ⟨4, 4, {1, 2, 5, 6}⟩, ⟨5, 4, {1, 2, 5, 6}⟩,
    ⟨6, 5, {1, 2, 5, 6, 7}⟩]

/-- The configuration that `gbbj_fad_subgraph_isomorphism` instantiates (lines 630-639):
`SGI<_, true, false, 3, 3, induced, induced>` constructed with `fa = true`, `ca = true`,
`dpd = true`: backjumping, both all-different propagators, path graphs. -/
def gbbj_fad_config (induced : Bool) : Config :=
  { backjump := true, double_filter := false, k := 3, l := 3, induced := induced,
    compose_induced := induced, use_full_all_different := true,
    use_cheap_all_different := true, dom_plus_deg := true }

/-- `gbbj_fad_subgraph_isomorphism` (lines 630-640) for the pair `graphs = (pattern, target)`.
The choice of the bitset width by `select_graph_size` is left out, the sets of the model have
no capacity; `SubgraphIsomorphismResult{ }` is the empty map with zero nodes. -/
def gbbj_fad_subgraph_isomorphism (ext : Externals) (graphs : Graph × Graph) (induced : Bool)
    (abort : Nat → Bool) : Option SubgraphIsomorphismResult :=
  if graphs.1.size > graphs.2.size then some ⟨[], 0⟩
  else (SGI.make (gbbj_fad_config induced) ext graphs.2 graphs.1).run abort

/-- Modelled from the spec: the number of paths of length `len` (2 or 3) from `i` to `j`, as
the number of ways to choose the inner vertices, all vertices of a path being different. -/
def count_paths (g : FixedBitGraph) (len i j : Nat) : Nat :=
  if len = 2 then
    ((List.range g.size).filter fun c =>
      decide (c ≠ i) && decide (c ≠ j) && g.adjacent i c && g.adjacent c j).length
  else
    ((List.range g.size).flatMap fun c => (List.range g.size).filter fun d =>
      decide (c ≠ i) && decide (c ≠ j) && decide (d ≠ i) && decide (d ≠ j) &&
        decide (c ≠ d) && g.adjacent i c && g.adjacent c d && g.adjacent d j).length

/-- Modelled from the spec: the supplemental graph with index `idx` (from 1 on) of a
non-induced configuration with `k` graphs per path length ("up to K supplemental graphs (paths
of length 2..L ...)"; header `subgraph_isomorphism/supplemental_graphs.hh` is not part of the
sources at hand). The graphs `1, ..., k` are for the paths of length 2, the graphs `k + 1, ...,
2 k` for those of length 3, and the `c`-th graph of a length joins two different vertices that
have at least `c` paths of that length between them. -/
def path_graph (k : Nat) (g : FixedBitGraph) (idx : Nat) : FixedBitGraph :=
  { size := g.size
    edges := ((List.range g.size).flatMap fun i => (List.range g.size).map fun j => (i, j)).filter
      fun e => decide (e.1 ≠ e.2) &&
        decide (1 + (idx - 1) % k ≤ count_paths g (2 + (idx - 1) / k) e.1 e.2) }

/-- The external helpers for the non-induced configurations with `k = l = 3`: those of
`refExternals`, with the path graphs as supplemental graphs. -/
def pathExternals : Externals :=
  { refExternals with
    supplemental_pattern := path_graph 3
    supplemental_target := path_graph 3 }

/-- The external helpers of `refExternals` with the supplemental graphs given by `sp` (pattern)
and `st` (target). -/
def withSupplemental (sp st : FixedBitGraph → Nat → FixedBitGraph) : Externals :=
  { refExternals with
    supplemental_pattern := sp
    supplemental_target := st }

/-- A pattern on seven vertices. -/
def fadPattern : Graph :=
  ⟨7, [(0, 1), (0, 2), (0, 5), (1, 4), (1, 6), (2, 3), (2, 4), (2, 5), (3, 6), (4, 5), (4, 6),
    (5, 6)]⟩

/-- A target on seven vertices: the complete graph without the edges 03, 14 and 56. -/
def fadTarget : Graph :=
  ⟨7, [(0, 1), (0, 2), (0, 4), (0, 5), (0, 6), (1, 2), (1, 3), (1, 5), (1, 6), (2, 3), (2, 4),
    (2, 5), (2, 6), (3, 4), (3, 5), (3, 6), (4, 5), (4, 6)]⟩

/-- The abort flag that is set from the start. -/
def always : Nat → Bool := fun _ => true

/-- The cycle on five vertices. -/
def C5 : Graph := ⟨5, [(0, 1), (1, 2), (2, 3), (3, 4), (4, 0)]⟩

/-- The abort flag that is set when `n` nodes have been counted. -/
def abort_from (n : Nat) : Nat → Bool := fun k => decide (n ≤ k)

/-- Three isolated vertices. -/
def E3 : Graph := ⟨3, []⟩

/-- The path `0 - 1 - 2 - 3`. -/
def P4 : Graph := ⟨4, [(0, 1), (1, 2), (2, 3)]⟩

/-- The path `0 - 1 - 2 - 3 - 4`. -/
def P5 : Graph := ⟨5, [(0, 1), (1, 2), (2, 3), (3, 4)]⟩

/-! ## Maximum common subgraph by clique
(`src/max_common_subgraph/clique_max_common_subgraph.cc`) -/

/-- The members of `MaxCliqueParams` that `clique_max_common_subgraph` assigns (lines 14-20);
the other members keep the values of the default constructor. The types of `start_time`,
`order_function` and `abort` are parameters: the function only copies these members. -/
structure MaxCliqueParams (Time Order Abort : Type) where
  initial_bound : Nat
  stop_after_finding : Nat
  n_threads : Nat
  print_incumbents : Bool
  start_time : Time
  order_function : Order
  abort : Abort

/-- The members of `MaxCliqueResult` that `clique_max_common_subgraph` reads (lines 33-38);
`members` is a `std::set<int>`, listed in the order in which the range-for visits it. -/
structure MaxCliqueResult (Times : Type) where
  size : Nat
  members : List Nat
  nodes : Nat
  times : Times

/-- The members of `MaxCommonSubgraphParams` that `clique_max_common_subgraph` reads
(lines 14-30). -/
structure MaxCommonSubgraphParams (Time Order Abort Times : Type) where
  initial_bound : Nat
  stop_after_finding : Nat
  n_threads : Nat
  print_incumbents : Bool
  start_time : Time
  order_function : Order
  abort : Abort
  subgraph_isomorphism : Bool
  max_clique_algorithm : Graph → MaxCliqueParams Time Order Abort → MaxCliqueResult Times

/-- `MaxCommonSubgraphResult`: `isomorphism` is a set of pairs of vertices, as the
specification of the interface gives it. -/
structure MaxCommonSubgraphResult (Times : Type) where
  size : Nat
  isomorphism : Finset (Nat × Nat)
  nodes : Nat
  times : Times

/-- The functions of `graph/product.hh`, whose code is not part of the sources at hand. -/
structure ProductExternals where
  modular_product : Graph → Graph → Graph
  subgraph_modular_product : Graph → Graph → Graph
  unproduct : Graph → Graph → Nat → Nat × Nat

/-- `clique_max_common_subgraph` (lines 9-41). The assignment `initial_bound = size() - 1` is
an `int` converted to `unsigned`. -/
def clique_max_common_subgraph {Time Order Abort Times : Type} (ext : ProductExternals)
    (graphs : Graph × Graph) (params : MaxCommonSubgraphParams Time Order Abort Times) :
    MaxCommonSubgraphResult Times :=
  let clique_params : MaxCliqueParams Time Order Abort :=
    { initial_bound := params.initial_bound
      stop_after_finding := params.stop_after_finding
      n_threads := params.n_threads
      print_incumbents := params.print_incumbents
      start_time := params.start_time
      order_function := params.order_function
      abort := params.abort }
  let clique_params1 := { clique_params with
    stop_after_finding :=
      min (min clique_params.stop_after_finding graphs.1.size) graphs.2.size }
  let clique_params2 :=
    if params.subgraph_isomorphism then
      { clique_params1 with
        initial_bound := (((graphs.1.size : Int) - 1) % 4294967296).toNat }
    else clique_params1
  let product :=
    if params.subgraph_isomorphism then ext.subgraph_modular_product graphs.1 graphs.2
    else ext.modular_product graphs.1 graphs.2
  let clique_result := params.max_clique_algorithm product clique_params2
  { size := clique_result.size
    nodes := clique_result.nodes
    times := clique_result.times
    isomorphism := clique_result.members.foldl
      (fun m v => insert (ext.unproduct graphs.1 graphs.2 v) m) ∅ }

/-! ## A configuration without all-different propagation -/

/-- The configuration `SGI<_, backjump, false, 1, 1, false, false>` constructed with both
all-different propagators switched off and the plain branching order. -/
def bareConfig (backjump : Bool) : Config :=
  { backjump := backjump, double_filter := false, k := 1, l := 1, induced := false,
    compose_induced := false, use_full_all_different := false,
    use_cheap_all_different := false, dom_plus_deg := false }

/-! ## `SGI::search` with the vectors of domains as objects in memory -/

/-- A recursive call of `search`: the address of the vector that is passed as `domains`, and
what that vector holds when the call is made. -/
structure Descent where
  address : Nat
  domains : Domains
  deriving DecidableEq

/-- What a call of `SGI::search` leaves behind when the vectors of domains are objects in
memory: the result of the call, the memory (`vectors a` is the content of the vector at address
`a`), and a record of the recursive calls that the loop of this call has made itself, first to
last. The record is not a variable of the program. -/
structure StackOut where
  out : SearchOut
  vectors : Nat → Domains
  calls : List Descent

/-- The loop over the values of the branch domain in `SGI::search` (lines 225-253) with the
vectors of domains as objects in memory. The reference parameter `domains` of the call is the
vector at address `addr`; it is read from the memory whenever the code reads `domains` (for the
copy of lines 232-236 and for `independent_of` in line 248). The activations of `search` nest,
so their locals `new_domains` form a stack: the local of this activation is the vector at
address `addr + 1`, built anew for every value (lines 232-236), changed in place by `assign`
(line 239) and passed by reference to the recursive call `child` (line 242), which gets the
memory and the address and gives back the memory as it leaves it. -/
def search_values_on_stack (s : SGI) (g_end : Nat)
    (child : Assignments → (Nat → Domains) → Nat → Nat → Option StackOut)
    (addr branch_v : Nat) :
    Nat → FixedBitSet → FailedVariables → Assignments → (Nat → Domains) → Nat →
      List Descent → Option StackOut
  | 0, remaining, shared, assignments, vectors, nodes, calls =>
    if remaining.empty then
      some ⟨⟨Search.Unsatisfiable, shared, assignments, nodes⟩, vectors, calls⟩
    else none
  | fuel + 1, remaining, shared, assignments, vectors, nodes, calls =>
    match remaining.first_set_bit with
    | none => some ⟨⟨Search.Unsatisfiable, shared, assignments, nodes⟩, vectors, calls⟩
    | some f_v =>
      let assignments1 := Function.update assignments branch_v f_v
      let vectors1 := Function.update vectors (addr + 1)
        ((vectors addr).filter fun d => d.v ≠ branch_v)
      match assign s (vectors1 (addr + 1)) branch_v f_v g_end shared with
      | none => none
      | some (false, new_domains1, shared1) =>
        search_values_on_stack s g_end child addr branch_v fuel (remaining.unset f_v) shared1
          assignments1 (Function.update vectors1 (addr + 1) new_domains1) nodes calls
      | some (true, new_domains1, shared1) =>
        let vectors2 := Function.update vectors1 (addr + 1) new_domains1
        let calls1 := calls ++ [⟨addr + 1, vectors2 (addr + 1)⟩]
        match child assignments1 vectors2 (addr + 1) nodes with
        | none => none
        | some r =>
          match r.out.result with
          | Search.Satisfiable =>
            some ⟨⟨Search.Satisfiable, ∅, r.out.assignments, r.out.nodes⟩, r.vectors, calls1⟩
          | Search.Aborted =>
            some ⟨⟨Search.Aborted, ∅, r.out.assignments, r.out.nodes⟩, r.vectors, calls1⟩
          | Search.Unsatisfiable =>
            if FailedVariables.independent_of s.cfg.backjump r.out.failed (r.vectors addr)
                (r.vectors (addr + 1)) then
              some ⟨r.out, r.vectors, calls1⟩
            else
              search_values_on_stack s g_end child addr branch_v fuel (remaining.unset f_v)
                (FailedVariables.add_all s.cfg.backjump shared1 r.out.failed)
                r.out.assignments r.vectors r.out.nodes calls1

/-- `SGI::search` (lines 191-256) with the vectors of domains as objects in memory: the call
whose reference parameter `domains` is the vector at address `addr`. -/
def search_on_stack (s : SGI) (abort : Nat → Bool) (g_end : Nat) :
    Nat → Assignments → (Nat → Domains) → Nat → Nat → Option StackOut
  | 0, _, _, _, _ => none
  | fuel + 1, assignments, vectors, addr, nodes =>
    if abort nodes then some ⟨⟨Search.Aborted, ∅, assignments, nodes⟩, vectors, []⟩
    else
      match select_branch_domain s (vectors addr) with
      | none => some ⟨⟨Search.Satisfiable, ∅, assignments, nodes + 1⟩, vectors, []⟩
      | some branch_domain =>
        search_values_on_stack s g_end
          (fun a v ad n => search_on_stack s abort g_end fuel a v ad n) addr
          branch_domain.v branch_domain.values.popcount branch_domain.values
          (FailedVariables.add s.cfg.backjump ∅ branch_domain.v) assignments vectors
          (nodes + 1) []

/-! ## DIMACS files (`src/graph/dimacs.cc`) -/

deriving instance DecidableEq for Graph

/-- Modelled from the spec: `Graph::resize(n)` sets the number of vertices. -/
def Graph.resize (g : Graph) (n : Nat) : Graph := { g with size := n }

/-- Modelled from the spec: `Graph::add_edge(a, b)` records the edge in both directions. -/
def Graph.add_edge (g : Graph) (a b : Nat) : Graph := { g with edges := g.edges ++ [(a, b)] }

/-- The character class `\s` of the regular expressions: space and the control characters
from tab to carriage return. -/
def is_space (c : Char) : Bool := c.toNat = 32 || (decide (9 ≤ c.toNat) && decide (c.toNat ≤ 13))

/-- The character class `\d`: the decimal digits. -/
def is_digit (c : Char) : Bool := decide (48 ≤ c.toNat) && decide (c.toNat ≤ 57)

/-- What is left after the longest run of whitespace (`\s*`). -/
def skip_space : List Char → List Char
  | [] => []
  | c :: l => if is_space c then skip_space l else c :: l

/-- The longest run of digits at the start (`\d*`) and what is left after it. -/
def take_digits : List Char → List Char × List Char
  | [] => ([], [])
  | c :: l => if is_digit c then (c :: (take_digits l).1, (take_digits l).2) else ([], c :: l)

/-- What is left after `\s+`; `none` when the text does not start with whitespace. -/
def spaces1 : List Char → Option (List Char)
  | [] => none
  | c :: l => if is_space c then some (skip_space l) else none

/-- The digits matched by `(\d+)` and what is left after them; `none` when the text does not
start with a digit. -/
def digits1 (l : List Char) : Option (List Char × List Char) :=
  if (take_digits l).1 = [] then none else some (take_digits l)

/-- What is left after the word `w`; `none` when the text does not start with `w`. -/
def drop_word : List Char → List Char → Option (List Char)
  | [], l => some l
  | _ :: _, [] => none
  | a :: w, c :: l => if a = c then drop_word w l else none

/-- The test `regex_match(line, match, comment)` with `comment` the expression `c(\s.*)?`. -/
def match_comment (line : List Char) : Bool :=
  match line with
  | [] => false
  | c :: rest =>
    c = 'c' &&
      match rest with
      | [] => true
      | c2 :: _ => is_space c2

/-- The test `regex_match(line, match, problem)` with `problem` the expression
`p\s+(edge|col)\s+(\d+)\s+(\d+)?\s*`; the result is `match.str(2)`, the digits of the number of
vertices. -/
def match_problem (line : List Char) : Option (List Char) :=
  match line with
  | [] => none
  | c :: l0 =>
    if c = 'p' then
      (spaces1 l0).bind fun l1 =>
        ((drop_word ['e', 'd', 'g', 'e'] l1).orElse fun _ => drop_word ['c', 'o', 'l'] l1).bind
          fun l2 =>
            (spaces1 l2).bind fun l3 =>
              (digits1 l3).bind fun n =>
                (spaces1 n.2).bind fun l5 =>
                  if skip_space (take_digits l5).2 = [] then some n.1 else none
    else none

/-- The test `regex_match(line, match, edge)` with `edge` the expression
`e\s+(\d+)\s+(\d+)\s*`; the result is the pair of `match.str(1)` and `match.str(2)`. -/
def match_edge (line : List Char) : Option (List Char × List Char) :=
  match line with
  | [] => none
  | c :: l0 =>
    if c = 'e' then
      (spaces1 l0).bind fun l1 =>
        (digits1 l1).bind fun a =>
          (spaces1 a.2).bind fun l3 =>
            (digits1 l3).bind fun b =>
              if skip_space b.2 = [] then some (a.1, b.1) else none
    else none

/-- The messages of the `GraphFileError`s that the loop of `read_dimacs` throws. -/
inductive Message
  | multiple_p_lines
  | edge_index_out_of_bounds (line : List Char)
  | contains_a_loop (line : List Char) (a : Nat)
  | cannot_parse_line (line : List Char)
  deriving DecidableEq

/-- The exceptions that leave the loop of `read_dimacs`: the `GraphFileError`s of the function
itself, and `std::out_of_range`, which `std::stoi` throws. -/
inductive Thrown
  | GraphFileError (message : Message)
  | out_of_range
  deriving DecidableEq

/-- How the reading ends: with the graph returned, or with an exception. -/
inductive Outcome
  | returned (result : Graph)
  | thrown (e : Thrown)
  deriving DecidableEq

/-- The number that a string of decimal digits denotes. -/
def decimal_value (digits : List Char) : Nat :=
  digits.foldl (fun acc c => 10 * acc + (c.toNat - 48)) 0

/-- `std::stoi` on a string of decimal digits: the value as an `int`, or `none` for the
exception `std::out_of_range`, thrown when the value is above `INT_MAX`. -/
def stoi (digits : List Char) : Option Nat :=
  if decimal_value digits ≤ 2147483647 then some (decimal_value digits) else none

/-- The body of the loop `while (std::getline(infile, line))` of `read_dimacs` (lines 20-55)
for one line; `allow_loops` is `test(options, GraphOptions::AllowLoops)`. -/
def read_line (allow_loops : Bool) (result : Graph) (line : List Char) : Outcome :=
  if line = [] then Outcome.returned result
  else if match_comment line then Outcome.returned result
  else
    match match_problem line with
    | some n =>
      if 0 ≠ result.size then Outcome.thrown (Thrown.GraphFileError Message.multiple_p_lines)
      else
        match stoi n with
        | none => Outcome.thrown Thrown.out_of_range
        | some size => Outcome.returned (result.resize size)
    | none =>
      match match_edge line with
      | some (da, db) =>
        match stoi da with
        | none => Outcome.thrown Thrown.out_of_range
        | some a =>
          match stoi db with
          | none => Outcome.thrown Thrown.out_of_range
          | some b =>
            if 0 = a ∨ 0 = b ∨ a > result.size ∨ b > result.size then
              Outcome.thrown (Thrown.GraphFileError (Message.edge_index_out_of_bounds line))
            else if a = b ∧ allow_loops = false then
              Outcome.thrown (Thrown.GraphFileError (Message.contains_a_loop line a))
            else Outcome.returned (result.add_edge (a - 1) (b - 1))
      | none => Outcome.thrown (Thrown.GraphFileError (Message.cannot_parse_line line))

/-- The loop `while (std::getline(infile, line))` over the lines that are left. -/
def read_lines (allow_loops : Bool) : List (List Char) → Graph → Outcome
  | [], result => Outcome.returned result
  | line :: rest, result =>
    match read_line allow_loops result line with
    | Outcome.returned result1 => read_lines allow_loops rest result1
    | Outcome.thrown e => Outcome.thrown e

/-- `read_dimacs` (lines 11-61) for a file that can be opened and is read to its end; `lines`
are the lines that `std::getline` yields. -/
def read_dimacs (lines : List (List Char)) (allow_loops : Bool) : Outcome :=
  read_lines allow_loops lines ⟨0, []⟩

/-! ## The array accesses of the in-place repair (`src/cco/cco_mixin.hh`, lines 279-405) -/

/-- An access to one of the arrays `p_order` and `p_bounds`, with its index. -/
inductive Access
  | read_order (index : Nat)
  | read_bounds (index : Nat)
  | write_order (index : Nat)
  | write_bounds (index : Nat)
  deriving DecidableEq

/-- The accesses of the loop `while (x < i && p_bounds[x] == p_bounds[conflicting_vertex_pos])
++x` (lines 316-317), in the order of the text. -/
def skip_class_accesses (p_bounds : Nat → Nat) (i conflicting_vertex_pos : Nat) :
    Nat → Nat → List Access
  | 0, _ => []
  | todo + 1, x =>
    if x < i then
      Access.read_bounds x :: Access.read_bounds conflicting_vertex_pos ::
        (if p_bounds x = p_bounds conflicting_vertex_pos then
          skip_class_accesses p_bounds i conflicting_vertex_pos todo (x + 1)
        else [])
    else []

/-- The accesses of the loop `for ( ; x < i ; ++x)` (lines 321-362) up to the point where the
move is made. -/
def find_target_accesses (g : FixedBitGraph) (p_order p_bounds : Nat → Nat)
    (conflicting_vertex_pos : Nat) : Nat → Nat → Nat → Bool → List Access
  | 0, _, _, _ => []
  | todo + 1, x, new_colour_class, conflict =>
    Access.read_bounds x ::
      (if new_colour_class ≠ p_bounds x then
        if ! conflict then []
        else
          Access.read_bounds x :: Access.read_order conflicting_vertex_pos ::
            Access.read_order x ::
            find_target_accesses g p_order p_bounds conflicting_vertex_pos todo (x + 1)
              (p_bounds x) (g.adjacent (p_order conflicting_vertex_pos) (p_order x))
      else
        Access.read_order conflicting_vertex_pos :: Access.read_order x ::
          find_target_accesses g p_order p_bounds conflicting_vertex_pos todo (x + 1)
            new_colour_class
            (conflict || g.adjacent (p_order conflicting_vertex_pos) (p_order x)))

/-- The accesses of the loop `for (z = i ; z >= x ; --z) { p_bounds[z + 1] = p_bounds[z];
p_order[z + 1] = p_order[z]; }` (lines 329-332); `todo` is the number of iterations left. -/
def shift_up_accesses : Nat → Nat → List Access
  | 0, _ => []
  | todo + 1, z =>
    Access.read_bounds z :: Access.write_bounds (z + 1) :: Access.read_order z ::
      Access.write_order (z + 1) :: shift_up_accesses todo (z - 1)

/-- The accesses of the loop `while (p_bounds[pos] == p_bounds[pos + 1]) { p_order[pos] =
p_order[pos + 1]; ++pos; }` (lines 340-343). -/
def close_gap_accesses (p_bounds : Nat → Nat) : Nat → Nat → List Access
  | 0, _ => []
  | todo + 1, pos =>
    Access.read_bounds pos :: Access.read_bounds (pos + 1) ::
      (if p_bounds pos = p_bounds (pos + 1) then
        Access.read_order (pos + 1) :: Access.write_order pos ::
          close_gap_accesses p_bounds todo (pos + 1)
      else [])

/-- The accesses of the in-place move (lines 328-346). -/
def splice_accesses (i conflicting_vertex_pos x new_colour_class : Nat)
    (p_order p_bounds : Nat → Nat) : List Access :=
  let p_bounds1 := shift_up p_bounds (i + 1 - x) i
  let p_order1 := shift_up p_order (i + 1 - x) i
  let p_order2 := Function.update p_order1 x (p_order1 conflicting_vertex_pos)
  let p_bounds2 := Function.update p_bounds1 x new_colour_class
  shift_up_accesses (i + 1 - x) i ++
    [Access.read_order conflicting_vertex_pos, Access.write_order x, Access.write_bounds x] ++
    close_gap_accesses p_bounds2 (i + 1) conflicting_vertex_pos ++
    match close_gap p_bounds2 (i + 1) conflicting_vertex_pos p_order2 with
    | none => []
    | some r => [Access.write_order r.2]

/-- The accesses of the part of the scan body that is run at the start of a colour class when
the class just left holds a single neighbour of `v` (lines 311-363). -/
def try_recolour_accesses (g : FixedBitGraph) (i : Nat) (p_order p_bounds : Nat → Nat)
    (conflicting_vertex_pos : Nat) : List Access :=
  let x := skip_class p_bounds i (p_bounds conflicting_vertex_pos) (i - conflicting_vertex_pos)
    conflicting_vertex_pos
  skip_class_accesses p_bounds i conflicting_vertex_pos (i - conflicting_vertex_pos)
      conflicting_vertex_pos ++
    [Access.read_bounds x] ++
    find_target_accesses g p_order p_bounds conflicting_vertex_pos (i - x) x (p_bounds x)
      false ++
    match find_target g p_order p_bounds (p_order conflicting_vertex_pos) (i - x) x (p_bounds x)
        false with
    | none => []
    | some (x1, new_colour_class) =>
      splice_accesses i conflicting_vertex_pos x1 new_colour_class p_order p_bounds

/-- The accesses of the scan `for (w = 0 ; w < i ; ++w)` (lines 308-377). -/
def scan_accesses (g : FixedBitGraph) (v i : Nat) (p_order p_bounds : Nat → Nat) :
    Nat → Nat → Scan → List Access
  | 0, _, _ => []
  | todo + 1, w, sc =>
    let count := fun (sc1 : Scan) =>
      (if sc1.n_conflicts < 2 then [Access.read_order w] else []) ++
        (if sc1.n_conflicts < 2 ∧ g.adjacent v (p_order w) = true then
          scan_accesses g v i p_order p_bounds todo (w + 1)
            { sc1 with n_conflicts := sc1.n_conflicts + 1, conflicting_vertex_pos := w }
        else scan_accesses g v i p_order p_bounds todo (w + 1) sc1)
    Access.read_bounds w ::
      (if sc.prev_colour ≠ p_bounds w then
        let fresh : Scan :=
          { prev_colour := p_bounds w, n_conflicts := 0, conflicting_vertex_pos := -1 }
        if sc.n_conflicts = 1 then
          try_recolour_accesses g i p_order p_bounds sc.conflicting_vertex_pos.toNat ++
            Access.read_bounds w ::
              (match try_recolour g v i p_order p_bounds sc.conflicting_vertex_pos.toNat with
              | some none => count fresh
              | _ => [])
        else Access.read_bounds w :: count fresh
      else count sc)

/-- The accesses of the inner loop `while (! q.empty())` (lines 390-403). -/
def colour_one_class_accesses (g : FixedBitGraph) : Nat → FixedBitSet → Nat → List Access
  | 0, _, _ => []
  | fuel + 1, q, i =>
    match q.first_set_bit with
    | none => []
    | some v =>
      Access.write_bounds i :: Access.write_order i ::
        colour_one_class_accesses g fuel (g.intersect_with_row_complement v (q.unset v)) (i + 1)

/-- The accesses of the main loop `while (! p_left.empty())` of
`colour_class_order_with_repair_fast` (lines 296-404), in the order in which they are made. -/
def fast_loop_accesses (g : FixedBitGraph) (delta : Int) (selective : Bool) :
    Nat → FastState → List Access
  | 0, _ => []
  | fuel + 1, s =>
    match s.p_left.first_set_bit with
    | none => []
    | some v =>
      if (! selective) || decide ((s.colour : Int) + 1 ≥ delta) then
        scan_accesses g v s.i s.p_order s.p_bounds s.i 0
            { prev_colour := 0, conflicting_vertex_pos := -1, n_conflicts := 0 } ++
          match scan g v s.i s.p_order s.p_bounds s.i 0
              { prev_colour := 0, conflicting_vertex_pos := -1, n_conflicts := 0 } with
          | none => []
          | some (some r) =>
            fast_loop_accesses g delta selective fuel
              { s with p_left := s.p_left.unset v, i := s.i + 1, p_order := r.1,
                       p_bounds := r.2 }
          | some none =>
            colour_one_class_accesses g s.p_left.popcount s.p_left s.i ++
              match colour_one_class g false (s.colour + 1) s.p_left.popcount s.p_left
                  { p_left := s.p_left, i := s.i, p_order := s.p_order, p_bounds := s.p_bounds,
                    number_with_this_colour := 0 } with
              | none => []
              | some t =>
                fast_loop_accesses g delta selective fuel
                  { p_left := t.p_left, colour := s.colour + 1, i := t.i,
                    p_order := t.p_order, p_bounds := t.p_bounds }
      else
        colour_one_class_accesses g s.p_left.popcount s.p_left s.i ++
          match colour_one_class g false (s.colour + 1) s.p_left.popcount s.p_left
              { p_left := s.p_left, i := s.i, p_order := s.p_order, p_bounds := s.p_bounds,
                number_with_this_colour := 0 } with
          | none => []
          | some t =>
            fast_loop_accesses g delta selective fuel
              { p_left := t.p_left, colour := s.colour + 1, i := t.i, p_order := t.p_order,
                p_bounds := t.p_bounds }

/-- The accesses to `p_order` and `p_bounds` that a call of
`colour_class_order_with_repair_fast(p, p_order, p_bounds, delta, selective)` makes, in the
order in which it makes them. -/
def colour_class_order_with_repair_fast_accesses (g : FixedBitGraph) (p : FixedBitSet)
    (p_order p_bounds : Nat → Nat) (delta : Int) (selective : Bool) : List Access :=
  fast_loop_accesses g delta selective p.popcount
    { p_left := p, colour := 0, i := 0, p_order := p_order, p_bounds := p_bounds }

/-! ## Specification vocabulary used by the proofs -/

/-- Two vertices may share a colour class: `w` survives the filter applied after colouring `v`. -/
def Compat (g : FixedBitGraph) (inverse : Bool) (v w : Nat) : Prop :=
  if inverse then g.adjacent v w = true else (w < g.size ∧ g.adjacent v w = false)

/-- What one run of the inner colouring loop does to the state. -/
structure ClassSpec (g : FixedBitGraph) (inverse : Bool) (colour : Nat) (q : FixedBitSet)
    (s t : Fill) : Prop where
  i_le : s.i ≤ t.i
  count_eq : t.number_with_this_colour + s.i = s.number_with_this_colour + t.i
  card_eq : t.p_left.card + t.i = s.p_left.card + s.i
  left_iff : ∀ v, v ∈ t.p_left ↔ v ∈ s.p_left ∧ ∀ k, s.i ≤ k → k < t.i → t.p_order k ≠ v
  order_out : ∀ k, (k < s.i ∨ t.i ≤ k) → t.p_order k = s.p_order k
  bounds_out : ∀ k, (k < s.i ∨ t.i ≤ k) → t.p_bounds k = s.p_bounds k
  bounds_in : ∀ k, s.i ≤ k → k < t.i → t.p_bounds k = colour
  order_in : ∀ k, s.i ≤ k → k < t.i → t.p_order k ∈ q
  order_lt : ∀ a b, s.i ≤ a → a < b → b < t.i → t.p_order a < t.p_order b
  compat : ∀ a b, s.i ≤ a → a < b → b < t.i → Compat g inverse (t.p_order a) (t.p_order b)
  first : ∀ v, q.first_set_bit = some v → s.i < t.i ∧ t.p_order s.i = v
  maximal : ∀ w ∈ q, ∃ k, s.i ≤ k ∧ k < t.i ∧
    (t.p_order k = w ∨ (t.p_order k < w ∧ ¬ Compat g inverse (t.p_order k) w))

/-- The first `i` positions of the output arrays hold a colouring of the vertex set `c` with
colours `1 .. colour`: every vertex of `c` occurs once, positions of equal colour are related
by `R`, and the colours start at one and grow in steps of at most one. -/
structure Placed (R : Nat → Nat → Prop) (c : Finset Nat) (i : Nat)
    (order bounds : Nat → Nat) (colour : Nat) : Prop where
  mem_iff : ∀ v, v ∈ c ↔ ∃ k, k < i ∧ order k = v
  inj : ∀ a b, a < i → b < i → order a = order b → a = b
  sound : ∀ a b, a < b → b < i → bounds a = bounds b → R (order a) (order b)
  bounds_zero : 0 < i → bounds 0 = 1
  bounds_step : ∀ k, k + 1 < i → bounds (k + 1) = bounds k ∨ bounds (k + 1) = bounds k + 1
  bounds_last : 0 < i → bounds (i - 1) = colour
  bounds_le : ∀ k, k < i → bounds k ≤ colour
  colour_zero : i = 0 → colour = 0

/-- The contract shared by all colour class orderings: `|p|` positions are filled with a
colouring of `p`, and no position from `|p|` on differs from the arrays on entry. -/
structure OutSpec (R : Nat → Nat → Prop) (p : FixedBitSet) (p_order p_bounds : Nat → Nat)
    (r : CCOResult) : Prop where
  i_eq : r.i = p.card
  placed : ∃ colour, Placed R p p.card r.p_order r.p_bounds colour
  frame : ∀ k, p.card ≤ k → r.p_order k = p_order k ∧ r.p_bounds k = p_bounds k

/-- The loop invariant of the `Defer1` colouring. -/
structure DeferInv (g : FixedBitGraph) (inverse : Bool) (p : FixedBitSet)
    (po pb : Nat → Nat) (s : DeferState) : Prop where
  left_sub : s.fill.p_left ⊆ p
  defer_mem : ∀ n, n < s.d → s.defer n ∈ p ∧ s.defer n ∉ s.fill.p_left
  defer_inj : ∀ a b, a < s.d → b < s.d → s.defer a = s.defer b → a = b
  placed : Placed (Compat g inverse) ((p \ s.fill.p_left) \ (Finset.range s.d).image s.defer)
    s.fill.i s.fill.p_order s.fill.p_bounds s.colour
  frame : ∀ k, p.card ≤ k → s.fill.p_order k = po k ∧ s.fill.p_bounds k = pb k

/-- The first `e` entries of the scratch vector partition the vertex set `c` into
independent sets: every vertex of `c` is stored once, and two members of one class are not
adjacent. -/
structure ClassesInv (g : FixedBitGraph) (c : Finset Nat) (cc : ColourClasses) (e : Nat) :
    Prop where
  mem_iff : ∀ v, v ∈ c ↔ ∃ k, k < e ∧ ∃ x, x < (cc k).first ∧ (cc k).second x = v
  inj : ∀ k x k2 x2, k < e → x < (cc k).first → k2 < e → x2 < (cc k2).first →
    (cc k).second x = (cc k2).second x2 → k = k2 ∧ x = x2
  indep : ∀ k x y, k < e → x < (cc k).first → y < (cc k).first → x ≠ y →
    g.adjacent ((cc k).second x) ((cc k).second y) = false

/-- Two vertices are not adjacent. -/
def NonAdj (g : FixedBitGraph) (v w : Nat) : Prop := g.adjacent v w = false

/-- The vertices stored in the first `k` colour classes of the scratch vector. -/
def classMembers (cc : ColourClasses) (k : Nat) : Finset Nat :=
  (Finset.range k).biUnion fun k2 => (Finset.range (cc k2).first).image (cc k2).second

/-- The loop invariant of the output phase of `colour_class_order_with_repair`, before colour
class `k` is handled. -/
structure EmitInv (R : Nat → Nat → Prop) (p : FixedBitSet) (cc : ColourClasses) (k : Nat)
    (po pb : Nat → Nat) (do_defer : Bool) (e : Emit) : Prop where
  placed : Placed R (classMembers cc k \ (Finset.range e.d).image e.defer)
    e.out.i e.out.p_order e.out.p_bounds e.colour
  defer_mem : ∀ n, n < e.d → e.defer n ∈ classMembers cc k
  defer_inj : ∀ a b, a < e.d → b < e.d → e.defer a = e.defer b → a = b
  no_defer : do_defer = false → e.d = 0
  frame : ∀ j, p.card ≤ j → e.out.p_order j = po j ∧ e.out.p_bounds j = pb j

/-- The invariant of the scan over the coloured positions, before position `w` is looked at:
`s` is the start of the colour class of position `w - 1`. -/
structure ScanInv (g : FixedBitGraph) (v : Nat) (order bounds : Nat → Nat) (w : Nat)
    (sc : Scan) : Prop where
  zero : w = 0 → sc.prev_colour = 0 ∧ sc.n_conflicts = 0
  pos : 0 < w → ∃ s, s < w ∧ sc.prev_colour = bounds (w - 1) ∧
    (∀ k, s ≤ k → k < w → bounds k = bounds (w - 1)) ∧
    (s = 0 ∨ bounds (s - 1) ≠ bounds s) ∧
    (sc.n_conflicts = 0 → ∀ k, s ≤ k → k < w → g.adjacent v (order k) = false) ∧
    (sc.n_conflicts = 1 → ∃ c : Nat, sc.conflicting_vertex_pos = (c : Int) ∧ s ≤ c ∧ c < w ∧
      g.adjacent v (order c) = true ∧
      ∀ k, s ≤ k → k < w → k ≠ c → g.adjacent v (order k) = false)

/-- The contract of the in-place repair colouring: like `OutSpec`, but the entry at index `|p|`
may be overwritten by the upward shift, so only the entries beyond it are left alone. -/
structure FastSpec (R : Nat → Nat → Prop) (p : FixedBitSet) (p_order p_bounds : Nat → Nat)
    (r : CCOResult) : Prop where
  i_eq : r.i = p.card
  placed : ∃ colour, Placed R p p.card r.p_order r.p_bounds colour
  frame : ∀ k, p.card < k → r.p_order k = p_order k ∧ r.p_bounds k = p_bounds k

/-- Domain `d2` is domain `d1` with some values removed. -/
def Shrunk (d1 d2 : Domain) : Prop := d2.v = d1.v ∧ d2.values ⊆ d1.values

/-- Pointwise `Shrunk` on two domain lists. -/
def Shrinks (D1 D2 : Domains) : Prop := List.Forall₂ Shrunk D1 D2

/-- An assignment of all pattern vertices of the recoded graphs that is injective into the target
vertices and preserves adjacency in the graph pair `g`. -/
structure Solution (s : SGI) (g : Nat) (A : Assignments) : Prop where
  range_ok : ∀ i, i < s.pattern_size → A i < s.target_size
  inj : ∀ i j, i < s.pattern_size → j < s.pattern_size → A i = A j → i = j
  adj : ∀ i j, i < s.pattern_size → j < s.pattern_size →
    (s.pattern_graphs g).adjacent i j = true → (s.target_graphs g).adjacent (A i) (A j) = true

/-- The invariant of the search: the pattern vertices in `S` are assigned consistently, the
others have a domain in `D`, and every value left in a domain is consistent with what is
assigned. -/
structure NodeInv (s : SGI) (g : Nat) (S : Finset Nat) (A : Assignments) (D : Domains) : Prop where
  vs_nodup : (D.map fun d => d.v).Nodup
  cover : ∀ i, i < s.pattern_size → i ∈ S ∨ i ∈ D.map fun d => d.v
  disj : ∀ d, d ∈ D → d.v ∉ S
  range_ok : ∀ u, u ∈ S → A u < s.target_size
  inj : ∀ u u2, u ∈ S → u2 ∈ S → A u = A u2 → u = u2
  adj : ∀ u u2, u ∈ S → u2 ∈ S → (s.pattern_graphs g).adjacent u u2 = true →
    (s.target_graphs g).adjacent (A u) (A u2) = true
  dom : ∀ d, d ∈ D → ∀ j, j ∈ d.values →
    j < s.target_size ∧ (∀ u, u ∈ S → A u ≠ j) ∧
    (∀ u, u ∈ S → (s.pattern_graphs g).adjacent u d.v = true →
      (s.target_graphs g).adjacent (A u) j = true) ∧
    ((s.pattern_graphs g).adjacent d.v d.v = true → (s.target_graphs g).adjacent j j = true)

/-- Domain `d2` is what `assign` may leave of domain `d1` after `branch_v` was mapped to `f_v`:
`f_v` is gone, and if `branch_v` is adjacent to the variable of the domain in pattern graph `g`,
only neighbours of `f_v` in target graph `g` remain. -/
def Assigned (s : SGI) (g branch_v f_v : Nat) (d1 d2 : Domain) : Prop :=
  d2.v = d1.v ∧ d2.values ⊆ d1.values ∧ f_v ∉ d2.values ∧
    ((s.pattern_graphs g).adjacent branch_v d1.v = true →
      ∀ j, j ∈ d2.values → (s.target_graphs g).adjacent f_v j = true)


/-- What the soundness proof needs from a call of `search`: the variables assigned above the
call keep their values, and a satisfiable answer carries a solution. -/
def SearchSound (s : SGI) (g : Nat) (child : Assignments → Domains → Nat → Option SearchOut) : Prop :=
  ∀ (S : Finset Nat) (A : Assignments) (D : Domains) (n : Nat) (out : SearchOut),
    NodeInv s g S A D → child A D n = some out →
      (∀ u, u ∈ S → out.assignments u = A u) ∧
        (out.result = Search.Satisfiable → Solution s g out.assignments)


/-- The shape of the map `m` written by `save_result` from the assignment `A`: an entry comes
from the first loop (pattern vertex `i` of the recoded graph, in original labels), or it belongs
to an isolated vertex. -/
structure Entries (s : SGI) (A : Assignments) (m : List (Nat × Nat)) : Prop where
  keys : m.map Prod.fst = s.pattern_order ++ s.isolated_vertices
  vals_nodup : (m.map Prod.snd).Nodup
  shape : ∀ e, e ∈ m →
    (∃ i, i < s.pattern_size ∧ e.1 = s.pattern_order.getD i 0 ∧
      e.2 = s.target_order.getD (A i) 0) ∨
    (e.1 ∈ s.isolated_vertices ∧ e.2 < s.pattern_size + s.isolated_vertices.length)

/-- The facts about the members of `SGI` that the constructor establishes, given that the
external `degree_sort` permutes the target vertices. -/
structure WellFormed (s : SGI) : Prop where
  po_nodup : s.pattern_order.Nodup
  iso_nodup : s.isolated_vertices.Nodup
  disj : ∀ v, v ∈ s.isolated_vertices → v ∉ s.pattern_order
  po_length : s.pattern_order.length = s.pattern_size
  full : s.pattern_size + s.isolated_vertices.length = s.full_pattern_size
  to_perm : s.target_order.Perm (List.range s.target_size)

/-- Modelled from the spec: "in induced mode an additional complement-adjacency graph [...] may
be included" among the filter graphs (`build_supplemental_graphs` of
`subgraph_isomorphism/supplemental_graphs.hh` is not part of the sources at hand). The pair of
filter graphs `g` is such a pair: it joins the distinct pattern vertices that pair 0 leaves
apart, and it joins no two target vertices that pair 0 joins. -/
def ComplementPair (s : SGI) (g : Nat) : Prop :=
  g < s.g_end ∧
    (∀ i, i < s.pattern_size → ∀ j, j < s.pattern_size → i ≠ j →
      (s.pattern_graphs 0).adjacent i j = false → (s.pattern_graphs g).adjacent i j = true) ∧
    (∀ a, a < s.target_size → ∀ b, b < s.target_size →
      (s.target_graphs g).adjacent a b = true → (s.target_graphs 0).adjacent a b = false)

/-- The failures of `run` before the search starts: the pattern has more vertices than the
target, `initialise_domains` returns false, or the cheap or the full all-different call made by
`run` returns false. -/
def PreSearchFailure (s : SGI) : Prop :=
  s.full_pattern_size > s.target_size ∨
    (∃ D, initialise_domains s = some (false, D)) ∨
    (∃ D D1 F, initialise_domains s = some (true, D) ∧
      cheap_all_different s D ∅ = some (false, D1, F)) ∨
    (∃ D D1 F D2, initialise_domains s = some (true, D) ∧
      cheap_all_different s D ∅ = some (true, D1, F) ∧
      s.cfg.use_full_all_different = true ∧ regin_all_different s D1 = some (false, D2))

/-- What a call of `search` that starts with `n` counted nodes has read of the abort flag when
it returns `out`: the flag was false at the node counts from `n` below `out.nodes`, and an
aborted call has read it true at `out.nodes`. -/
def FlagsRead (abort : Nat → Bool) (n : Nat) (out : SearchOut) : Prop :=
  n ≤ out.nodes ∧ (∀ k, n ≤ k → k < out.nodes → abort k = false) ∧
    (out.result = Search.Aborted → abort out.nodes = true)

/-- The domain of variable `v` in a list of domains, as `std::find_if` finds it. -/
def domain_of (D : Domains) (v : Nat) : Option Domain := D.find? fun d => d.v == v

/-- The independence test as the specification words it: the domain of `v` before the branch
equals the domain of `v` after it, or `v` has a domain in neither list. -/
def SameDomain (old_domains new_domains : Domains) (v : Nat) : Prop :=
  (domain_of old_domains v).map (fun d => d.values) =
    (domain_of new_domains v).map (fun d => d.values)

/-- The independence test as the code makes it, on accurate popcounts: a variable without a
domain counts as a variable with one value. -/
def SameCount (old_domains new_domains : Domains) (v : Nat) : Prop :=
  match domain_of old_domains v, domain_of new_domains v with
  | some o, some n => o.values = n.values
  | some o, none => o.values.card = 1
  | none, some n => n.values.card = 1
  | none, none => True

/-- The cached popcount of every domain is the number of its values. -/
def Accurate (D : Domains) : Prop := ∀ d, d ∈ D → d.popcount = d.values.popcount

instance (D : Domains) : Decidable (Accurate D) := by
  unfold Accurate
  infer_instance

/-- No domain has grown: a domain of `new_domains` is a subset of every domain of
`old_domains` for the same variable. -/
def Shrunken (old_domains new_domains : Domains) : Prop :=
  ∀ o, o ∈ old_domains → ∀ n, n ∈ new_domains → o.v = n.v → n.values ⊆ o.values

instance (old_domains new_domains : Domains) : Decidable (Shrunken old_domains new_domains) := by
  unfold Shrunken
  infer_instance

/-- The target id `t` is the smallest one that does not occur in `used`. -/
def LeastUnused (used : List Nat) (t : Nat) : Prop := t ∉ used ∧ ∀ x, x < t → x ∈ used

/-- The entries that the first loop of `save_result` writes: the assigned vertices, in the
original labels. -/
def assigned_entries (s : SGI) (A : Assignments) : List (Nat × Nat) :=
  (List.range s.pattern_size).map fun v =>
    (s.pattern_order.getD v 0, s.target_order.getD (A v) 0)

/-- The domains that `run` passes to the first call of `search` (lines 528-543), when no
pre-search step fails. -/
def SGI.root_domains (s : SGI) : Option Domains :=
  match initialise_domains s with
  | some (true, domains) =>
    match cheap_all_different s domains ∅ with
    | some (true, domains1, _) =>
      match (if s.cfg.use_full_all_different then regin_all_different s domains1
             else some (true, domains1)) with
      | some (true, domains2) => some (prepare_for_search domains2)
      | _ => none
    | _ => none
  | _ => none

/-- The domains of the first recursive call that a call of `search` on `domains` makes when the
first value of its branch variable passes `assign` (lines 202-242). -/
def first_child (s : SGI) (domains : Domains) : Option Domains :=
  match select_branch_domain s domains with
  | none => none
  | some branch_domain =>
    match branch_domain.values.first_set_bit with
    | none => none
    | some f_v =>
      match assign s (domains.filter fun d => d.v ≠ branch_domain.v) branch_domain.v f_v s.g_end
          (FailedVariables.add s.cfg.backjump ∅ branch_domain.v) with
      | some (true, new_domains, _) => some new_domains
      | _ => none

/-- The sequence `p` is dominated by the sequence `t`: it is no longer, and position-wise at
most `t`. -/
def Dominated (p t : List Nat) : Prop :=
  p.length ≤ t.length ∧ ∀ x, x < p.length → p.getD x 0 ≤ t.getD x 0

instance (p t : List Nat) : Decidable (Dominated p t) := by
  unfold Dominated
  infer_instance

/-- The filter of the domain initialisation for pattern vertex `i` and target vertex `j` as
the specification words it, with the neighbourhood degree sequences compared for the pairs
`(g1, g2)` of filter graphs with `g1 < g1_end`. -/
def DomainFilter (s : SGI) (allowed : FixedBitSet) (g1_end i j : Nat) : Prop :=
  j ∈ allowed ∧
    (∀ g, g < s.g_end → (s.pattern_graphs g).adjacent i i = true →
      (s.target_graphs g).adjacent j j = true) ∧
    ∀ g1, g1 < g1_end → ∀ g2, g2 < s.g_end →
      Dominated (patterns_ndss s g1 g2 i) (targets_ndss s allowed g1 g2 j)

instance (s : SGI) (allowed : FixedBitSet) (g1_end i j : Nat) :
    Decidable (DomainFilter s allowed g1_end i j) := by
  unfold DomainFilter
  infer_instance

/-- The domains that one round of `initialise_domains` builds from the allowed target
vertices (lines 319-347). -/
def domains_for (s : SGI) (allowed : FixedBitSet) : Domains :=
  (List.range s.pattern_size).map fun i =>
    { v := i
      popcount := FixedBitSet.popcount ((Finset.range s.target_size).filter fun j =>
        domain_ok s allowed i j = true)
      values := (Finset.range s.target_size).filter fun j => domain_ok s allowed i j = true }

/-- The union of the values of the domains (lines 349-351). -/
def domains_union (D : Domains) : FixedBitSet :=
  D.foldl (fun u d => FixedBitSet.union_with u d.values) ∅

/-- The vertex set `K` is a clique of `g`: any two distinct members are adjacent. -/
def IsClique (g : FixedBitGraph) (K : Finset Nat) : Prop :=
  ∀ u, u ∈ K → ∀ v, v ∈ K → u ≠ v → g.adjacent u v = true

instance (g : FixedBitGraph) (K : Finset Nat) : Decidable (IsClique g K) := by
  unfold IsClique
  infer_instance

/-- The invariant of the counting loop of `cheap_all_different` with respect to a choice `a` of
one value per domain index: every domain still holds its chosen value, no index that is still
to come has its chosen value in a closed Hall set, and the indices `G` handled since the last
reset have their chosen values in `domains_so_far`. -/
structure HallInv (a : Nat → Nat) (n : Nat) (c : Counting) (G : Finset Nat) (rest : List Nat) :
    Prop where
  len : c.domains.length = n
  mem : ∀ i, i < n → a i ∈ (c.domains.getD i ⟨0, 0, ∅⟩).values
  fresh : ∀ i, i ∈ rest → a i ∉ c.hall
  group_card : G.card = c.neighbours_so_far
  group_mem : ∀ i, i ∈ G → i < n ∧ a i ∈ c.domains_so_far
  group_rest : ∀ i, i ∈ rest → i ∉ G
  rest_nodup : rest.Nodup
  rest_lt : ∀ i, i ∈ rest → i < n

/-- The pair that the reachability loop of `regin_all_different` erases from `unused` for the
edge from `v` to `w` (lines 467-470). -/
def erased_pair (n v w : Nat) : Nat × Nat := if w ≥ n then (v, w - n) else (w, v - n)

/-- The invariant of the reachability loop of `regin_all_different` on a graph with `V`
vertices: every free vertex is seen or pending, and every edge out of a seen vertex leads to a
seen or pending vertex and has been erased from `unused`. -/
structure ReachInv (n V : Nat) (edges : List (Nat × Nat)) (free : Finset Nat) (r : Reach) :
    Prop where
  pend_lt : ∀ v, v ∈ r.pending → v < V
  seen_lt : ∀ v, v ∈ r.seen → v < V
  free_sub : ∀ f, f ∈ free → f ∈ r.seen ∨ f ∈ r.pending
  closed : ∀ v, v ∈ r.seen → ∀ w, (v, w) ∈ edges →
    (w ∈ r.seen ∨ w ∈ r.pending) ∧ erased_pair n v w ∉ r.unused

/-- For a matching `M` and a choice `A` of one value per domain index below `n`, in a graph
with the edge relation `R` whose target vertices are numbered from `n` on: the chosen value of
`x` is reached from the chosen value of some `y` that the matching leaves free. -/
def FromFree (n : Nat) (M A : Nat → Nat) (R : Nat → Nat → Prop) (x : Nat) : Prop :=
  ∃ y, y < n ∧ (∀ k, k < n → M k ≠ A y) ∧ Relation.ReflTransGen R (n + A y) (n + A x)

/-- The domain index `x` whose chosen value is not the matched one and is not reached from a
free value. -/
def Stuck (n : Nat) (M A : Nat → Nat) (R : Nat → Nat → Prop) (x : Nat) : Prop :=
  x < n ∧ A x ≠ M x ∧ ¬ FromFree n M A R x

/-- A system of distinct representatives of the domains: `a i` is a value of domain `i`, and
different domains get different values. -/
def IsSDR (D : Domains) (a : Nat → Nat) : Prop :=
  (∀ i, i < D.length → a i ∈ (D.getD i ⟨0, 0, ∅⟩).values) ∧
    ∀ i, i < D.length → ∀ j, j < D.length → a i = a j → i = j

/-- The edges of the graph `match` of `regin_all_different` (lines 413-424). -/
def regin_edges (D : Domains) (target_size : Nat) : List (Nat × Nat) :=
  (regin_pairs D target_size).map fun e => (e.1, D.length + e.2)

/-- The vector `mate` of `regin_all_different` (lines 429-430), read at index `i`. -/
def regin_mate (s : SGI) (D : Domains) (i : Nat) : Option Nat :=
  (s.ext.matching (D.length + s.target_size) (regin_edges D s.target_size)).getD i none

/-- The edges of the oriented graph `match_o` of `regin_all_different` (lines 445-458). -/
def regin_match_o (s : SGI) (D : Domains) : List (Nat × Nat) :=
  (regin_pairs D s.target_size).map fun e =>
    if regin_mate s D e.1 = some (e.2 + D.length) then (e.1, D.length + e.2)
    else (D.length + e.2, e.1)

/-- The vector `component` of `regin_all_different` (lines 477-485), read at index `v`. -/
def regin_component (s : SGI) (D : Domains) (v : Nat) : Nat :=
  (s.ext.components (D.length + s.target_size) (regin_match_o s D)).getD v 0

/-- What `regin_all_different` needs of `boost::edmonds_maximum_cardinality_matching`: the
mate of a domain index is joined to it by an edge, two domain indices do not share a mate, and
the matching is maximum, that is, it covers every domain index if some matching does. -/
structure MatchingOk (s : SGI) (D : Domains) : Prop where
  edge : ∀ i, i < D.length → regin_mate s D i = none ∨
    ∃ j, j < s.target_size ∧ regin_mate s D i = some (D.length + j) ∧
      j ∈ (D.getD i ⟨0, 0, ∅⟩).values
  inj : ∀ i, i < D.length → ∀ j, j < D.length → regin_mate s D i = regin_mate s D j →
    (regin_mate s D i).isSome = true → i = j
  maximum : (∃ a, IsSDR D a) → ∀ i, i < D.length → (regin_mate s D i).isSome = true

/-- What `regin_all_different` needs of `boost::strong_components`: two vertices on a common
directed cycle of `match_o` get the same component. -/
def ComponentsOk (s : SGI) (D : Domains) : Prop :=
  ∀ u v, Relation.TransGen (fun x y => (x, y) ∈ regin_match_o s D) u v →
    Relation.TransGen (fun x y => (x, y) ∈ regin_match_o s D) v u →
      regin_component s D u = regin_component s D v

/-- The set `free` of `regin_all_different` (lines 432-441): the target vertices without a
mate. -/
def regin_free (s : SGI) (D : Domains) : Finset Nat :=
  ((List.range s.target_size).map fun j => D.length + j).toFinset \
    (((List.range D.length).filter fun i => (regin_mate s D i).isSome).filterMap
      (regin_mate s D)).toFinset

/-- The vertices that one run of the inner colouring loop (`colour_one_class`) colours from the
candidates `q`, in the order in which it colours them. -/
def class_members (g : FixedBitGraph) (inverse : Bool) : Nat → FixedBitSet → List Nat
  | 0, _ => []
  | fuel + 1, q =>
    match q.first_set_bit with
    | none => []
    | some v =>
      v :: class_members g inverse fuel
        (if inverse then g.intersect_with_row v (q.unset v)
         else g.intersect_with_row_complement v (q.unset v))

/-- The colour classes that the greedy loops (`none_loop`, `defer1_loop`) build from the
uncoloured vertices, in the order in which they are built. -/
def greedy_classes (g : FixedBitGraph) (inverse : Bool) : Nat → FixedBitSet → List (List Nat)
  | 0, _ => []
  | fuel + 1, p_left =>
    if p_left.empty then []
    else
      (class_members g inverse p_left.popcount p_left) ::
        greedy_classes g inverse fuel
          (p_left \ (class_members g inverse p_left.popcount p_left).toFinset)

/-- The array `a` with the list `l` written from index `i` on. -/
def write_list (a : Nat → Nat) (i : Nat) (l : List Nat) : Nat → Nat :=
  fun k => if i ≤ k ∧ k < i + l.length then l.getD (k - i) 0 else a k

/-- The first `n` entries of the output arrays, as pairs of a vertex and its bound. -/
def entries (p_order p_bounds : Nat → Nat) (n : Nat) : List (Nat × Nat) :=
  (List.range n).map fun k => (p_order k, p_bounds k)

/-- The output for a list of colour classes written one after the other, the first with the
colour `c + 1`, each following one with the next colour. -/
def emit_from (c : Nat) : List (List Nat) → List (Nat × Nat)
  | [] => []
  | cl :: rest => cl.map (fun v => (v, c + 1)) ++ emit_from (c + 1) rest

/-- The colour classes with the classes of exactly one member moved to the end, both parts in
their previous order. -/
def defer_singletons (cls : List (List Nat)) : List (List Nat) :=
  cls.filter (fun cl => decide (cl.length ≠ 1)) ++ cls.filter (fun cl => decide (cl.length = 1))

/-- Following the specification of `None`: one colour class, built from the uncoloured
vertices `U` by repeatedly taking the lowest vertex of `U` that is not yet in the class and not
adjacent to any vertex already in the class, until none is left; `cl` is the class so far. -/
def first_fit_class (g : FixedBitGraph) (U : Finset Nat) : Nat → List Nat → List Nat
  | 0, cl => cl
  | fuel + 1, cl =>
    match FixedBitSet.first_set_bit
        (U.filter fun w => w ∉ cl ∧ ∀ u ∈ cl, g.adjacent u w = false) with
    | none => cl
    | some v => first_fit_class g U fuel (cl ++ [v])

/-- Following the specification of `None`: the colour classes one after the other, each built
from the vertices that the classes before it left uncoloured. -/
def first_fit_classes (g : FixedBitGraph) : Nat → Finset Nat → List (List Nat)
  | 0, _ => []
  | fuel + 1, U =>
    if U = ∅ then []
    else
      first_fit_class g U U.card [] ::
        first_fit_classes g fuel (U \ (first_fit_class g U U.card []).toFinset)

/-- The first `e` colour classes of the scratch vector as lists of vertices. -/
def classes_of (cc : ColourClasses) (e : Nat) : List (List Nat) :=
  (List.range e).map fun k => (List.range (cc k).first).map (cc k).second

/-- Two contents of the scratch vector hold the same first `e` colour classes: the same
numbers of members and the same members; they may differ in everything else. -/
def ClassesAgree (e : Nat) (cc cc2 : ColourClasses) : Prop :=
  ∀ k, k < e → (cc k).first = (cc2 k).first ∧
    ∀ x, x < (cc k).first → (cc k).second x = (cc2 k).second x

/-- The invariant of the main loop of `colour_class_order_with_repair` while no repair is made:
the vertices taken out of `p_left` are the lowest ones of `p`, and the colour classes hold them
in increasing order, class `k` holding members of the `k`-th class `G[k]` of a given list. -/
structure FirstFitInv (g : FixedBitGraph) (p : FixedBitSet) (G : List (List Nat))
    (s : RepairState) : Prop where
  left_sub : s.p_left ⊆ p
  done_lt : ∀ u, u ∈ p → u ∉ s.p_left → ∀ w, w ∈ s.p_left → u < w
  classes : ClassesInv g (p \ s.p_left) s.colour_classes s.colour_classes_end
  member : ∀ k, k < s.colour_classes_end → ∀ x, x < (s.colour_classes k).first →
    (s.colour_classes k).second x ∈ G.getD k []
  pos : ∀ k, k < s.colour_classes_end → 0 < (s.colour_classes k).first
  sorted : ∀ k, k < s.colour_classes_end → ∀ x y, x < y → y < (s.colour_classes k).first →
    (s.colour_classes k).second x < (s.colour_classes k).second y

/-- The property `Q` holds at the start of every iteration that the main loop of
`colour_class_order_with_repair` makes from the state `s`, for the state and the vertex taken
in that iteration. -/
def repair_loop_always (g : FixedBitGraph) (delta : Int) (selective : Bool)
    (Q : RepairState → Nat → Prop) : Nat → RepairState → Prop
  | 0, _ => True
  | fuel + 1, s =>
    match s.p_left.first_set_bit with
    | none => True
    | some v =>
      Q s v ∧
        repair_loop_always g delta selective Q fuel
          { p_left := s.p_left.unset v
            colour_classes :=
              (repair_step g delta selective v s.colour_classes s.colour_classes_end).1
            colour_classes_end :=
              (repair_step g delta selective v s.colour_classes s.colour_classes_end).2 }

/-- The members of a colour class of the scratch vector, in the order in which they are
stored. -/
def ColourClass.members (cl : ColourClass) : List Nat := (List.range cl.first).map cl.second

/-- The class `cl` holds exactly one neighbour of `v`, at position `x`. -/
def SingleConflict (g : FixedBitGraph) (v : Nat) (cl : ColourClass) (x : Nat) : Prop :=
  x < cl.first ∧ g.adjacent v (cl.second x) = true ∧
    ∀ y, y < cl.first → y ≠ x → g.adjacent v (cl.second y) = false

/-- A repair that the specification allows for the vertex `v`: among the `e` existing classes,
the class `k` holds exactly one neighbour of `v`, at position `x`, and the later class `n`
holds no neighbour of that vertex. -/
def RepairMove (g : FixedBitGraph) (v : Nat) (cc : ColourClasses) (e k x n : Nat) : Prop :=
  k < n ∧ n < e ∧ SingleConflict g v (cc k) x ∧
    has_conflict g ((cc k).second x) (cc n) = false

/-- The arrays `po2`, `pb2` hold the same first `n` entries as the arrays `po`, `pb`. -/
def AgreeBelow (n : Nat) (po pb po2 pb2 : Nat → Nat) : Prop :=
  ∀ k, k < n → po2 k = po k ∧ pb2 k = pb k

/-- Two results of the scan of the in-place variant are alike: both report that no move was
made, or both made a move and hold the same first `n` entries. -/
def OutAgree (n : Nat) (res res2 : Option (Option ((Nat → Nat) × (Nat → Nat)))) : Prop :=
  (res = some none ∧ res2 = some none) ∨
    ∃ r r2, res = some (some r) ∧ res2 = some (some r2) ∧ AgreeBelow n r.1 r.2 r2.1 r2.2

/-- The scratch vector of `RepairAll` on the path `0 - 2 - 3 - 1` when vertex 3 is reached:
the classes `{0, 1}` and `{2}`. -/
def pathClasses : ColourClasses := fun k =>
  if k = 0 then ⟨2, fun x => if x = 0 then 0 else 1⟩ else ⟨1, fun _ => 2⟩


/-- The colour class with the bound `c` among the first `n` entries of the output arrays, as a
set of vertices. -/
def colour_class (p_order p_bounds : Nat → Nat) (n c : Nat) : Finset Nat :=
  (((entries p_order p_bounds n).filter fun x => decide (x.2 = c)).map fun x => x.1).toFinset

/-- Following the specification of the propagation on the assignment `i ← j`: the values of
the domain `d` without `j`, intersected with row `j` of the target for every filter graph
`g < g_end` in which `i` and `d.v` are adjacent in the pattern. -/
def assigned_values (s : SGI) (i j g_end : Nat) (d : Domain) : FixedBitSet :=
  (d.values.erase j).filter fun w =>
    ∀ g, g < g_end → (s.pattern_graphs g).adjacent i d.v = true →
      (s.target_graphs g).adjacent j w = true

/-- The domain `d` after the propagation on `i ← j`, with its `popcount` refreshed. -/
def assigned_domain (s : SGI) (i j g_end : Nat) (d : Domain) : Domain :=
  { v := d.v
    popcount := (assigned_values s i j g_end d).popcount
    values := assigned_values s i j g_end d }

/-- The order in which `cheap_all_different` visits the domains: the indices of the domains
as `std::sort` leaves them, smallest cached `popcount` first, larger pattern degree first
among equal ones (lines 369-377). -/
def cheap_order (s : SGI) (domains : Domains) : List Nat :=
  s.ext.sort_domains
    (fun (a b : Nat) =>
      let da := domains.getD a ⟨0, 0, ∅⟩
      let db := domains.getD b ⟨0, 0, ∅⟩
      decide (da.popcount < db.popcount) ||
        (decide (da.popcount = db.popcount) &&
          decide (s.pattern_degree_tiebreak da.v > s.pattern_degree_tiebreak db.v)))
    (List.range domains.length)

/-- The pattern variables of the domains with the indices `order`. -/
def variables_of (domains : Domains) (order : List Nat) : Finset Nat :=
  (order.map fun idx => (domains.getD idx ⟨0, 0, ∅⟩).v).toFinset

/-- The comparison of the selection loops of `SGI::search` (lines 204-213): the domain `d`
replaces the branch domain `b` chosen so far. -/
def branches_before (s : SGI) (d b : Domain) : Prop :=
  if s.cfg.dom_plus_deg then
    d.popcount < b.popcount ∨
      (d.popcount = b.popcount ∧
        s.pattern_degree_tiebreak d.v > s.pattern_degree_tiebreak b.v)
  else d.popcount < b.popcount ∨ (d.popcount = b.popcount ∧ d.v < b.v)

instance (s : SGI) (d b : Domain) : Decidable (branches_before s d b) := by
  unfold branches_before
  infer_instance

/-- The first access of a list that breaks the index safety of arrays with `capacity` entries:
its index is not below `capacity`, or it reads an entry that no earlier access of the list has
written; `written_order` and `written_bounds` are the indices written so far. -/
def first_unsafe (capacity : Nat) : List Access → Finset Nat → Finset Nat → Option Access
  | [], _, _ => none
  | Access.read_order k :: rest, written_order, written_bounds =>
    if k < capacity ∧ k ∈ written_order then
      first_unsafe capacity rest written_order written_bounds
    else some (Access.read_order k)
  | Access.read_bounds k :: rest, written_order, written_bounds =>
    if k < capacity ∧ k ∈ written_bounds then
      first_unsafe capacity rest written_order written_bounds
    else some (Access.read_bounds k)
  | Access.write_order k :: rest, written_order, written_bounds =>
    if k < capacity then first_unsafe capacity rest (insert k written_order) written_bounds
    else some (Access.write_order k)
  | Access.write_bounds k :: rest, written_order, written_bounds =>
    if k < capacity then first_unsafe capacity rest written_order (insert k written_bounds)
    else some (Access.write_bounds k)

/-- The graph on 64 vertices with the edges `61 - 1`, `62 - 1`, `62 - 61`, `63 - 0`,
`63 - 61` and `63 - 62`. -/
def fullWordGraph : FixedBitGraph := ⟨64, [(61, 1), (62, 1), (62, 61), (63, 0), (63, 61), (63, 62)]⟩

/-! ## The path graphs of the instance `fadPattern`, `fadTarget` -/

deriving instance DecidableEq for FixedBitGraph

/-- The complete graph on seven vertices, as the list of all pairs of different vertices. -/
def completeGraph7 : FixedBitGraph :=
  ⟨7,
    [(0, 1), (0, 2), (0, 3), (0, 4), (0, 5), (0, 6), (1, 0), (1, 2), (1, 3), (1, 4), (1, 5),
     (1, 6), (2, 0), (2, 1), (2, 3), (2, 4), (2, 5), (2, 6), (3, 0), (3, 1), (3, 2), (3, 4),
     (3, 5), (3, 6), (4, 0), (4, 1), (4, 2), (4, 3), (4, 5), (4, 6), (5, 0), (5, 1), (5, 2),
     (5, 3), (5, 4), (5, 6), (6, 0), (6, 1), (6, 2), (6, 3), (6, 4), (6, 5)]⟩

/-- The path graph number 1 of `fadPattern`. -/
def fadPatternPaths1 : FixedBitGraph :=
  ⟨7,
    [(0, 2), (0, 3), (0, 4), (0, 5), (0, 6), (1, 2), (1, 3), (1, 4), (1, 5), (1, 6), (2, 0),
     (2, 1), (2, 4), (2, 5), (2, 6), (3, 0), (3, 1), (3, 4), (3, 5), (4, 0), (4, 1), (4, 2),
     (4, 3), (4, 5), (4, 6), (5, 0), (5, 1), (5, 2), (5, 3), (5, 4), (5, 6), (6, 0), (6, 1),
     (6, 2), (6, 4), (6, 5)]⟩

/-- The path graph number 2 of `fadPattern`. -/
def fadPatternPaths2 : FixedBitGraph :=
  ⟨7,
    [(0, 4), (0, 6), (1, 2), (1, 5), (2, 1), (2, 5), (2, 6), (3, 4), (3, 5), (4, 0), (4, 3),
     (4, 5), (4, 6), (5, 1), (5, 2), (5, 3), (5, 4), (6, 0), (6, 2), (6, 4)]⟩

/-- The path graph number 3 of `fadPattern`. -/
def fadPatternPaths3 : FixedBitGraph :=
  ⟨7,
    [(0, 4), (1, 5), (2, 6), (4, 0), (5, 1), (6, 2)]⟩

/-- The path graph number 6 of `fadPattern`. -/
def fadPatternPaths6 : FixedBitGraph :=
  ⟨7,
    [(0, 1), (0, 3), (0, 4), (0, 5), (0, 6), (1, 0), (1, 2), (1, 3), (1, 4), (1, 5), (2, 1),
     (2, 4), (2, 6), (3, 0), (3, 1), (3, 4), (3, 5), (4, 0), (4, 1), (4, 2), (4, 3), (4, 5),
     (5, 0), (5, 1), (5, 3), (5, 4), (5, 6), (6, 0), (6, 2), (6, 5)]⟩

/-- The filter graphs of the pattern in the run of `gbbj_fad_subgraph_isomorphism` on
`fadPattern` and `fadTarget`, with the six path graphs written out. -/
def fadPatternGraphs (g : Nat) : FixedBitGraph :=
  if g = 1 then fadPatternPaths1
  else if g = 2 then fadPatternPaths2
  else if g = 3 then fadPatternPaths3
  else if g = 4 then completeGraph7
  else if g = 5 then completeGraph7
  else if g = 6 then fadPatternPaths6
  else (SGI.make (gbbj_fad_config false) pathExternals fadTarget fadPattern).pattern_graphs g

/-- The filter graphs of the target in the run of `gbbj_fad_subgraph_isomorphism` on
`fadPattern` and `fadTarget`: each of the six path graphs is the complete graph. -/
def fadTargetGraphs (g : Nat) : FixedBitGraph :=
  if 1 ≤ g ∧ g ≤ 6 then completeGraph7
  else (SGI.make (gbbj_fad_config false) pathExternals fadTarget fadPattern).target_graphs g

/-- The members of `SGI` in the run of `gbbj_fad_subgraph_isomorphism` on `fadPattern` and
`fadTarget`, with the path graphs written out. -/
def fadSGI : SGI :=
  { SGI.make (gbbj_fad_config false) pathExternals fadTarget fadPattern with
    target_graphs := fadTargetGraphs
    pattern_graphs := fadPatternGraphs }
/-! ## Theorems -/
theorem first_set_bit_eq_none {s : FixedBitSet} : s.first_set_bit = none ↔ s = ∅ := by
  unfold FixedBitSet.first_set_bit
  split
  · rename_i h
    simp [Finset.nonempty_iff_ne_empty.mp h]
  · rename_i h
    simp [Finset.not_nonempty_iff_eq_empty.mp h]

theorem first_set_bit_eq_some {s : FixedBitSet} {v : Nat} (h : s.first_set_bit = some v) :
    v ∈ s ∧ ∀ w ∈ s, v ≤ w := by
  unfold FixedBitSet.first_set_bit at h
  split at h
  · rename_i hne
    have hv : s.min' hne = v := by simpa using h
    subst hv
    exact ⟨Finset.min'_mem s hne, fun w hw => Finset.min'_le s w hw⟩
  · simp at h

theorem empty_eq_true {s : FixedBitSet} : s.empty = true ↔ s = ∅ := by
  simp [FixedBitSet.empty]

theorem mem_row_complement {g : FixedBitGraph} {v w : Nat} {q : FixedBitSet} :
    w ∈ g.intersect_with_row_complement v q ↔ w ∈ q ∧ w < g.size ∧ g.adjacent v w = false := by
  simp [FixedBitGraph.intersect_with_row_complement]

theorem mem_row {g : FixedBitGraph} {v w : Nat} {q : FixedBitSet} :
    w ∈ g.intersect_with_row v q ↔ w ∈ q ∧ g.adjacent v w = true := by
  simp [FixedBitGraph.intersect_with_row]

theorem mem_class_filter {g : FixedBitGraph} {inverse : Bool} {v w : Nat} {q : FixedBitSet} :
    w ∈ (if inverse then g.intersect_with_row v q else g.intersect_with_row_complement v q) ↔
      w ∈ q ∧ Compat g inverse v w := by
  cases inverse <;> simp [Compat, mem_row, mem_row_complement]

theorem classSpec_nil (g : FixedBitGraph) (inverse : Bool) (colour : Nat) (s : Fill) :
    ClassSpec g inverse colour ∅ s s where
  i_le := le_refl _
  count_eq := rfl
  card_eq := rfl
  left_iff := fun v => ⟨fun h => ⟨h, fun k h1 h2 => absurd h2 (by omega)⟩, fun h => h.1⟩
  order_out := fun _ _ => rfl
  bounds_out := fun _ _ => rfl
  bounds_in := fun k h1 h2 => absurd h2 (by omega)
  order_in := fun k h1 h2 => absurd h2 (by omega)
  order_lt := fun a b h1 h2 h3 => absurd h3 (by omega)
  compat := fun a b h1 h2 h3 => absurd h3 (by omega)
  first := fun v h => by simp [FixedBitSet.first_set_bit] at h
  maximal := fun w h => absurd h (Finset.not_mem_empty w)

theorem colour_one_class_spec (g : FixedBitGraph) (inverse : Bool) (colour : Nat) :
    ∀ (fuel : Nat) (q : FixedBitSet) (s : Fill), q ⊆ s.p_left → q.card ≤ fuel →
      ∃ t, colour_one_class g inverse colour fuel q s = some t ∧
        ClassSpec g inverse colour q s t := by
  intro fuel
  induction fuel with
  | zero =>
    intro q s _ hf
    have hq : q = ∅ := Finset.card_eq_zero.mp (Nat.le_zero.mp hf)
    subst hq
    exact ⟨s, by simp [colour_one_class, FixedBitSet.empty], classSpec_nil g inverse colour s⟩
  | succ fuel ih =>
    intro q s hq hf
    rw [colour_one_class]
    cases hfs : q.first_set_bit with
    | none =>
      have hq0 : q = ∅ := first_set_bit_eq_none.mp hfs
      subst hq0
      exact ⟨s, rfl, classSpec_nil g inverse colour s⟩
    | some v =>
      obtain ⟨hvq, hvmin⟩ := first_set_bit_eq_some hfs
      simp only []
      set q2 : FixedBitSet := (if inverse then g.intersect_with_row v (q.unset v)
                else g.intersect_with_row_complement v (q.unset v)) with hq2
      have hmem2 : ∀ w, w ∈ q2 ↔ (w ∈ q ∧ w ≠ v) ∧ Compat g inverse v w := by
        intro w
        rw [hq2, mem_class_filter]
        simp [FixedBitSet.unset, and_comm]
      have hsub : q2 ⊆ q.erase v := by
        intro w hw
        have := (hmem2 w).mp hw
        exact Finset.mem_erase.mpr ⟨this.1.2, this.1.1⟩
      have hcard : q2.card ≤ fuel := by
        have h1 := Finset.card_le_card hsub
        have h2 := Finset.card_erase_of_mem hvq
        omega
      have hsub2 : q2 ⊆ s.p_left.unset v := by
        intro w hw
        have := (hmem2 w).mp hw
        exact Finset.mem_erase.mpr ⟨this.1.2, hq this.1.1⟩
      obtain ⟨t, ht, sp⟩ := ih q2
        { p_left := s.p_left.unset v
          i := s.i + 1
          p_order := Function.update s.p_order s.i v
          p_bounds := Function.update s.p_bounds s.i colour
          number_with_this_colour := s.number_with_this_colour + 1 } hsub2 hcard
      refine ⟨t, ht, ?_⟩
      have hvl : v ∈ s.p_left := hq hvq
      have ho : t.p_order s.i = v := by
        have := sp.order_out s.i (Or.inl (Nat.lt_succ_self _))
        simpa using this
      have hb : t.p_bounds s.i = colour := by
        have := sp.bounds_out s.i (Or.inl (Nat.lt_succ_self _))
        simpa using this
      have hile := sp.i_le
      simp only at hile
      constructor
      · omega
      · have := sp.count_eq
        simp only at this
        omega
      · have := sp.card_eq
        simp only [FixedBitSet.unset] at this
        have h2 := Finset.card_erase_of_mem hvl
        have h3 : 0 < s.p_left.card := Finset.card_pos.mpr ⟨v, hvl⟩
        omega
      · intro w
        rw [sp.left_iff]
        simp only [FixedBitSet.unset, Finset.mem_erase]
        constructor
        · rintro ⟨⟨hne, hw⟩, h⟩
          refine ⟨hw, fun k hk1 hk2 => ?_⟩
          rcases Nat.eq_or_lt_of_le hk1 with h1 | h1
          · subst h1; rw [ho]; exact fun e => hne e.symm
          · exact h k h1 hk2
        · rintro ⟨hw, h⟩
          refine ⟨⟨?_, hw⟩, fun k hk1 hk2 => h k (by omega) hk2⟩
          intro e
          exact h s.i (le_refl _) (by omega) (by rw [ho, e])
      · intro k hk
        have := sp.order_out k (by simp only; omega)
        rw [this]
        exact Function.update_noteq (by omega) _ _
      · intro k hk
        have := sp.bounds_out k (by simp only; omega)
        rw [this]
        exact Function.update_noteq (by omega) _ _
      · intro k hk1 hk2
        rcases Nat.eq_or_lt_of_le hk1 with h1 | h1
        · subst h1; exact hb
        · exact sp.bounds_in k h1 hk2
      · intro k hk1 hk2
        rcases Nat.eq_or_lt_of_le hk1 with h1 | h1
        · subst h1; rw [ho]; exact hvq
        · exact ((hmem2 _).mp (sp.order_in k h1 hk2)).1.1
      · intro a b ha hab hb2
        rcases Nat.eq_or_lt_of_le ha with h1 | h1
        · subst h1
          rw [ho]
          have hb3 := (hmem2 _).mp (sp.order_in b hab hb2)
          exact lt_of_le_of_ne (hvmin _ hb3.1.1) (fun e => hb3.1.2 e.symm)
        · exact sp.order_lt a b h1 hab hb2
      · intro a b ha hab hb2
        rcases Nat.eq_or_lt_of_le ha with h1 | h1
        · subst h1
          rw [ho]
          exact ((hmem2 _).mp (sp.order_in b hab hb2)).2
        · exact sp.compat a b h1 hab hb2
      · intro v2 hv2
        rw [hfs] at hv2
        cases hv2
        exact ⟨by omega, ho⟩
      · intro w hw
        by_cases hwv : w = v
        · exact ⟨s.i, le_refl _, by omega, Or.inl (by rw [ho, hwv])⟩
        · by_cases hc : Compat g inverse v w
          · obtain ⟨k, hk1, hk2, hk3⟩ := sp.maximal w ((hmem2 w).mpr ⟨⟨hw, hwv⟩, hc⟩)
            exact ⟨k, by simp only at hk1; omega, hk2, hk3⟩
          · refine ⟨s.i, le_refl _, by omega, Or.inr ?_⟩
            rw [ho]
            exact ⟨lt_of_le_of_ne (hvmin _ hw) (fun e => hwv e.symm), hc⟩

theorem Placed.empty (R : Nat → Nat → Prop) (order bounds : Nat → Nat) :
    Placed R ∅ 0 order bounds 0 where
  mem_iff := fun v => by simp
  inj := fun a b h => absurd h (by omega)
  sound := fun a b _ h => absurd h (by omega)
  bounds_zero := fun h => absurd h (by omega)
  bounds_step := fun k h => absurd h (by omega)
  bounds_last := fun h => absurd h (by omega)
  bounds_le := fun k h => absurd h (by omega)
  colour_zero := fun _ => rfl

theorem Placed.card_eq {R : Nat → Nat → Prop} {c : Finset Nat} {i : Nat}
    {order bounds : Nat → Nat} {colour : Nat} (h : Placed R c i order bounds colour) :
    c.card = i := by
  have hc : c = (Finset.range i).image order := by
    ext v
    rw [h.mem_iff]
    simp
  rw [hc, Finset.card_image_of_injOn, Finset.card_range]
  intro a ha b hb hab
  exact h.inj a b (by simpa using ha) (by simpa using hb) hab

theorem Placed.congr {R : Nat → Nat → Prop} {c : Finset Nat} {i : Nat}
    {order bounds order2 bounds2 : Nat → Nat} {colour : Nat}
    (h : Placed R c i order bounds colour)
    (ho : ∀ k, k < i → order2 k = order k) (hb : ∀ k, k < i → bounds2 k = bounds k) :
    Placed R c i order2 bounds2 colour where
  mem_iff := fun v => by
    rw [h.mem_iff]
    constructor
    · rintro ⟨k, hk, e⟩; exact ⟨k, hk, by rw [ho k hk, e]⟩
    · rintro ⟨k, hk, e⟩; exact ⟨k, hk, by rw [← ho k hk, e]⟩
  inj := fun a b ha hb2 e => h.inj a b ha hb2 (by rw [← ho a ha, ← ho b hb2, e])
  sound := fun a b hab hb2 e => by
    rw [ho a (by omega), ho b hb2]
    exact h.sound a b hab hb2 (by rw [← hb a (by omega), ← hb b hb2, e])
  bounds_zero := fun hi => by rw [hb 0 hi]; exact h.bounds_zero hi
  bounds_step := fun k hk => by
    rw [hb (k + 1) hk, hb k (by omega)]; exact h.bounds_step k hk
  bounds_last := fun hi => by rw [hb (i - 1) (by omega)]; exact h.bounds_last hi
  bounds_le := fun k hk => by rw [hb k hk]; exact h.bounds_le k hk
  colour_zero := h.colour_zero

theorem Placed.bounds_pos {R : Nat → Nat → Prop} {c : Finset Nat} {i : Nat}
    {order bounds : Nat → Nat} {colour : Nat} (h : Placed R c i order bounds colour) :
    ∀ k, k < i → 1 ≤ bounds k := by
  intro k
  induction k with
  | zero => intro hk; rw [h.bounds_zero hk]
  | succ k ih =>
    intro hk
    have := ih (by omega)
    rcases h.bounds_step k hk with e | e <;> omega

/-- Appending one vertex as a colour class of its own. -/
theorem Placed.push {R : Nat → Nat → Prop} {c : Finset Nat} {i : Nat}
    {order bounds : Nat → Nat} {colour : Nat} (h : Placed R c i order bounds colour)
    {v : Nat} (hv : v ∉ c) :
    Placed R (insert v c) (i + 1) (Function.update order i v)
      (Function.update bounds i (colour + 1)) (colour + 1) := by
  have hlo : ∀ k, k < i → Function.update order i v k = order k :=
    fun k hk => Function.update_noteq (by omega) _ _
  have hlb : ∀ k, k < i → Function.update bounds i (colour + 1) k = bounds k :=
    fun k hk => Function.update_noteq (by omega) _ _
  have hio : Function.update order i v i = v := Function.update_same _ _ _
  have hib : Function.update bounds i (colour + 1) i = colour + 1 := Function.update_same _ _ _
  constructor
  · intro w
    rw [Finset.mem_insert, h.mem_iff]
    constructor
    · rintro (e | ⟨k, hk, e⟩)
      · exact ⟨i, by omega, by rw [hio, e]⟩
      · exact ⟨k, by omega, by rw [hlo k hk, e]⟩
    · rintro ⟨k, hk, e⟩
      rcases Nat.lt_succ_iff_lt_or_eq.mp hk with h1 | h1
      · exact Or.inr ⟨k, h1, by rw [← hlo k h1, e]⟩
      · subst h1; exact Or.inl (by rw [← e, hio])
  · intro a b ha hb e
    rcases Nat.lt_succ_iff_lt_or_eq.mp ha with h1 | h1 <;>
      rcases Nat.lt_succ_iff_lt_or_eq.mp hb with h2 | h2
    · rw [hlo a h1, hlo b h2] at e; exact h.inj a b h1 h2 e
    · subst h2; rw [hlo a h1, hio] at e
      exact absurd ((h.mem_iff v).mpr ⟨a, h1, e⟩) hv
    · subst h1; rw [hlo b h2, hio] at e
      exact absurd ((h.mem_iff v).mpr ⟨b, h2, e.symm⟩) hv
    · omega
  · intro a b hab hb e
    rcases Nat.lt_succ_iff_lt_or_eq.mp hb with h2 | h2
    · rw [hlb a (by omega), hlb b h2] at e
      rw [hlo a (by omega), hlo b h2]
      exact h.sound a b hab h2 e
    · subst h2
      rw [hlb a hab, hib] at e
      have := h.bounds_le a hab
      omega
  · intro _
    rcases Nat.eq_zero_or_pos i with h0 | h0
    · subst h0; rw [hib, h.colour_zero rfl]
    · rw [hlb 0 h0]; exact h.bounds_zero h0
  · intro k hk
    rcases Nat.lt_succ_iff_lt_or_eq.mp hk with h1 | h1
    · rw [hlb (k + 1) h1, hlb k (by omega)]; exact h.bounds_step k h1
    · have hk1 : k + 1 = i := by omega
      rw [hk1, hib, hlb k (by omega)]
      have := h.bounds_last (by omega)
      have hk2 : i - 1 = k := by omega
      rw [hk2] at this
      right; omega
  · intro _
    rw [Nat.add_sub_cancel]
    exact hib
  · intro k hk
    rcases Nat.lt_succ_iff_lt_or_eq.mp hk with h1 | h1
    · rw [hlb k h1]; have := h.bounds_le k h1; omega
    · subst h1; rw [hib]
  · intro h0; omega

/-- Appending one vertex to the last colour class. -/
theorem Placed.push_same {R : Nat → Nat → Prop} {c : Finset Nat} {i : Nat}
    {order bounds : Nat → Nat} {colour : Nat} (h : Placed R c i order bounds colour)
    {v : Nat} (hv : v ∉ c) (hi : 0 < i)
    (hR : ∀ a, a < i → bounds a = colour → R (order a) v) :
    Placed R (insert v c) (i + 1) (Function.update order i v)
      (Function.update bounds i colour) colour := by
  have hlo : ∀ k, k < i → Function.update order i v k = order k :=
    fun k hk => Function.update_noteq (by omega) _ _
  have hlb : ∀ k, k < i → Function.update bounds i colour k = bounds k :=
    fun k hk => Function.update_noteq (by omega) _ _
  have hio : Function.update order i v i = v := Function.update_same _ _ _
  have hib : Function.update bounds i colour i = colour := Function.update_same _ _ _
  constructor
  · intro w
    rw [Finset.mem_insert, h.mem_iff]
    constructor
    · rintro (e | ⟨k, hk, e⟩)
      · exact ⟨i, by omega, by rw [hio, e]⟩
      · exact ⟨k, by omega, by rw [hlo k hk, e]⟩
    · rintro ⟨k, hk, e⟩
      rcases Nat.lt_succ_iff_lt_or_eq.mp hk with h1 | h1
      · exact Or.inr ⟨k, h1, by rw [← hlo k h1, e]⟩
      · subst h1; exact Or.inl (by rw [← e, hio])
  · intro a b ha hb e
    rcases Nat.lt_succ_iff_lt_or_eq.mp ha with h1 | h1 <;>
      rcases Nat.lt_succ_iff_lt_or_eq.mp hb with h2 | h2
    · rw [hlo a h1, hlo b h2] at e; exact h.inj a b h1 h2 e
    · subst h2; rw [hlo a h1, hio] at e
      exact absurd ((h.mem_iff v).mpr ⟨a, h1, e⟩) hv
    · subst h1; rw [hlo b h2, hio] at e
      exact absurd ((h.mem_iff v).mpr ⟨b, h2, e.symm⟩) hv
    · omega
  · intro a b hab hb e
    rcases Nat.lt_succ_iff_lt_or_eq.mp hb with h2 | h2
    · rw [hlb a (by omega), hlb b h2] at e
      rw [hlo a (by omega), hlo b h2]
      exact h.sound a b hab h2 e
    · subst h2
      rw [hlb a hab, hib] at e
      rw [hlo a hab, hio]
      exact hR a hab e
  · intro _
    rw [hlb 0 hi]; exact h.bounds_zero hi
  · intro k hk
    rcases Nat.lt_succ_iff_lt_or_eq.mp hk with h1 | h1
    · rw [hlb (k + 1) h1, hlb k (by omega)]; exact h.bounds_step k h1
    · have hk1 : k + 1 = i := by omega
      rw [hk1, hib, hlb k (by omega)]
      have := h.bounds_last (by omega)
      have hk2 : i - 1 = k := by omega
      rw [hk2] at this
      left; omega
  · intro _
    rw [Nat.add_sub_cancel]
    exact hib
  · intro k hk
    rcases Nat.lt_succ_iff_lt_or_eq.mp hk with h1 | h1
    · rw [hlb k h1]; exact h.bounds_le k h1
    · subst h1; rw [hib]
  · intro h0; omega

/-- Appending a whole colour class produced by the inner colouring loop. -/
theorem Placed.extend_class {R : Nat → Nat → Prop} {g : FixedBitGraph} {inverse : Bool}
    {c : Finset Nat} {colour : Nat} {q : FixedBitSet} {s t : Fill}
    (h : Placed R c s.i s.p_order s.p_bounds colour)
    (sp : ClassSpec g inverse (colour + 1) q s t)
    (hR : ∀ v w, Compat g inverse v w → R v w)
    (hq : q ⊆ s.p_left) (hne : q.Nonempty) (hdisj : ∀ v, v ∈ c → v ∉ s.p_left) :
    Placed R (c ∪ (s.p_left \ t.p_left)) t.i t.p_order t.p_bounds (colour + 1) := by
  obtain ⟨v0, hv0⟩ : ∃ v, q.first_set_bit = some v := by
    cases hfs : q.first_set_bit with
    | none => exact absurd (first_set_bit_eq_none.mp hfs) (Finset.nonempty_iff_ne_empty.mp hne)
    | some v => exact ⟨v, rfl⟩
  have hlt : s.i < t.i := (sp.first v0 hv0).1
  have hlo : ∀ k, k < s.i → t.p_order k = s.p_order k := fun k hk => sp.order_out k (Or.inl hk)
  have hlb : ∀ k, k < s.i → t.p_bounds k = s.p_bounds k := fun k hk => sp.bounds_out k (Or.inl hk)
  have hmid : ∀ k, s.i ≤ k → k < t.i → t.p_order k ∈ s.p_left :=
    fun k h1 h2 => hq (sp.order_in k h1 h2)
  constructor
  · intro v
    rw [Finset.mem_union, Finset.mem_sdiff, h.mem_iff, sp.left_iff]
    constructor
    · rintro (⟨k, hk, e⟩ | ⟨hv, hn⟩)
      · exact ⟨k, by omega, by rw [hlo k hk, e]⟩
      · by_contra hcon
        apply hn
        refine ⟨hv, fun k h1 h2 e => hcon ⟨k, h2, e⟩⟩
    · rintro ⟨k, hk, e⟩
      by_cases hks : k < s.i
      · exact Or.inl ⟨k, hks, by rw [← hlo k hks, e]⟩
      · right
        have hks2 : s.i ≤ k := by omega
        refine ⟨e ▸ hmid k hks2 hk, fun hcon => hcon.2 k hks2 hk e⟩
  · intro a b ha hb e
    by_cases has : a < s.i <;> by_cases hbs : b < s.i
    · rw [hlo a has, hlo b hbs] at e; exact h.inj a b has hbs e
    · exfalso
      have hb1 := hmid b (by omega) hb
      rw [← e, hlo a has] at hb1
      exact hdisj _ ((h.mem_iff _).mpr ⟨a, has, rfl⟩) hb1
    · exfalso
      have ha1 := hmid a (by omega) ha
      rw [e, hlo b hbs] at ha1
      exact hdisj _ ((h.mem_iff _).mpr ⟨b, hbs, rfl⟩) ha1
    · rcases Nat.lt_trichotomy a b with h1 | h1 | h1
      · have := sp.order_lt a b (by omega) h1 hb; omega
      · exact h1
      · have := sp.order_lt b a (by omega) h1 ha; omega
  · intro a b hab hb e
    by_cases hbs : b < s.i
    · rw [hlb a (by omega), hlb b hbs] at e
      rw [hlo a (by omega), hlo b hbs]
      exact h.sound a b hab hbs e
    · by_cases has : a < s.i
      · exfalso
        rw [hlb a has, sp.bounds_in b (by omega) hb] at e
        have := h.bounds_le a has
        omega
      · exact hR _ _ (sp.compat a b (by omega) hab hb)
  · intro _
    rcases Nat.eq_zero_or_pos s.i with h0 | h0
    · rw [sp.bounds_in 0 (by omega) (by omega), h.colour_zero h0]
    · rw [hlb 0 h0]; exact h.bounds_zero h0
  · intro k hk
    by_cases hks : k + 1 < s.i
    · rw [hlb (k + 1) hks, hlb k (by omega)]; exact h.bounds_step k hks
    · by_cases hks2 : k < s.i
      · have hk1 : k + 1 = s.i := by omega
        rw [sp.bounds_in (k + 1) (by omega) hk, hlb k hks2]
        have := h.bounds_last (by omega)
        have hk2 : s.i - 1 = k := by omega
        rw [hk2] at this
        right; omega
      · rw [sp.bounds_in (k + 1) (by omega) hk, sp.bounds_in k (by omega) (by omega)]
        left; rfl
  · intro _
    exact sp.bounds_in (t.i - 1) (by omega) (by omega)
  · intro k hk
    by_cases hks : k < s.i
    · rw [hlb k hks]; have := h.bounds_le k hks; omega
    · rw [sp.bounds_in k (by omega) hk]
  · intro h0; omega

theorem sdiff_union_sdiff {p a b : Finset Nat} (hb : b ⊆ a) (ha : a ⊆ p) :
    (p \ a) ∪ (a \ b) = p \ b := by
  ext v
  simp only [Finset.mem_union, Finset.mem_sdiff]
  constructor
  · rintro (⟨h1, h2⟩ | ⟨h1, h2⟩)
    · exact ⟨h1, fun h => h2 (hb h)⟩
    · exact ⟨ha h1, h2⟩
  · rintro ⟨h1, h2⟩
    by_cases h3 : v ∈ a
    · exact Or.inr ⟨h3, h2⟩
    · exact Or.inl ⟨h1, h3⟩

theorem ClassSpec.left_sub {g : FixedBitGraph} {inverse : Bool} {colour : Nat}
    {q : FixedBitSet} {s t : Fill} (sp : ClassSpec g inverse colour q s t) :
    t.p_left ⊆ s.p_left := fun v hv => ((sp.left_iff v).mp hv).1

theorem card_sdiff_add {p a : Finset Nat} (ha : a ⊆ p) : (p \ a).card + a.card = p.card := by
  rw [Finset.card_sdiff ha]
  have := Finset.card_le_card ha
  omega

theorem none_loop_spec (g : FixedBitGraph) (inverse : Bool) (p : FixedBitSet)
    (po pb : Nat → Nat) :
    ∀ (fuel colour : Nat) (s : Fill), s.p_left ⊆ p →
      Placed (Compat g inverse) (p \ s.p_left) s.i s.p_order s.p_bounds colour →
      (∀ k, p.card ≤ k → s.p_order k = po k ∧ s.p_bounds k = pb k) →
      s.p_left.card ≤ fuel →
      ∃ t, none_loop g inverse fuel colour s = some t ∧
        OutSpec (Compat g inverse) p po pb ⟨t.p_order, t.p_bounds, t.i⟩ := by
  intro fuel
  induction fuel with
  | zero =>
    intro colour s _ hpl hfr hf
    have he : s.p_left = ∅ := Finset.card_eq_zero.mp (Nat.le_zero.mp hf)
    refine ⟨s, by simp [none_loop, FixedBitSet.empty, he], ?_⟩
    rw [he, Finset.sdiff_empty] at hpl
    have hi := hpl.card_eq
    exact ⟨hi.symm, ⟨colour, hi ▸ hpl⟩, hfr⟩
  | succ fuel ih =>
    intro colour s hsub hpl hfr hf
    rw [none_loop]
    by_cases he : s.p_left = ∅
    · rw [if_pos (empty_eq_true.mpr he)]
      rw [he, Finset.sdiff_empty] at hpl
      have hi := hpl.card_eq
      exact ⟨s, rfl, hi.symm, ⟨colour, hi ▸ hpl⟩, hfr⟩
    · have he2 : ¬ (s.p_left.empty = true) := fun h => he (empty_eq_true.mp h)
      rw [if_neg he2]
      obtain ⟨t1, ht1, sp⟩ := colour_one_class_spec g inverse (colour + 1)
        s.p_left.popcount s.p_left s (Finset.Subset.refl _) (le_refl _)
      rw [ht1]
      simp only []
      have hne : s.p_left.Nonempty := Finset.nonempty_iff_ne_empty.mpr he
      have hpl1 := hpl.extend_class sp (fun _ _ h => h) (Finset.Subset.refl _) hne
        (fun v hv => (Finset.mem_sdiff.mp hv).2)
      rw [sdiff_union_sdiff sp.left_sub hsub] at hpl1
      have hci := hpl.card_eq
      have hcs := card_sdiff_add hsub
      have hce := sp.card_eq
      have hci1 := hpl1.card_eq
      have hcs1 := card_sdiff_add (sp.left_sub.trans hsub)
      obtain ⟨v0, hv0⟩ := hne
      have hpos : 0 < s.p_left.card := Finset.card_pos.mpr ⟨v0, hv0⟩
      have hilt : s.i < t1.i := by
        cases hfs : s.p_left.first_set_bit with
        | none => exact absurd (first_set_bit_eq_none.mp hfs) he
        | some v => exact (sp.first v hfs).1
      refine ih (colour + 1) t1 (sp.left_sub.trans hsub) hpl1 ?_ (by omega)
      intro k hk
      rw [sp.order_out k (Or.inr (by omega)), sp.bounds_out k (Or.inr (by omega))]
      exact hfr k hk

theorem colour_class_order_none_spec (g : FixedBitGraph) (inverse : Bool) (p : FixedBitSet)
    (po pb : Nat → Nat) :
    ∃ r, colour_class_order_none g inverse p po pb = some r ∧
      OutSpec (Compat g inverse) p po pb r := by
  obtain ⟨t, ht, hs⟩ := none_loop_spec g inverse p po pb p.popcount 0
    { p_left := p, i := 0, p_order := po, p_bounds := pb, number_with_this_colour := 0 }
    (Finset.Subset.refl _) (by simpa using Placed.empty _ po pb) (fun k _ => ⟨rfl, rfl⟩)
    (le_refl _)
  exact ⟨_, by rw [colour_class_order_none, ht]; rfl, hs⟩

theorem DeferInv.card_total {g : FixedBitGraph} {inverse : Bool} {p : FixedBitSet}
    {po pb : Nat → Nat} {s : DeferState} (h : DeferInv g inverse p po pb s) :
    s.fill.i + s.d + s.fill.p_left.card = p.card := by
  have h1 := h.placed.card_eq
  have hD : (Finset.range s.d).image s.defer ⊆ p \ s.fill.p_left := by
    intro v hv
    obtain ⟨n, hn, e⟩ := Finset.mem_image.mp hv
    have := h.defer_mem n (Finset.mem_range.mp hn)
    exact Finset.mem_sdiff.mpr (e ▸ this)
  have h2 := card_sdiff_add hD
  have h3 := card_sdiff_add h.left_sub
  have h4 : ((Finset.range s.d).image s.defer).card = s.d := by
    rw [Finset.card_image_of_injOn, Finset.card_range]
    intro a ha b hb e
    exact h.defer_inj a b (by simpa using ha) (by simpa using hb) e
  omega

theorem defer1_loop_spec (g : FixedBitGraph) (inverse : Bool) (p : FixedBitSet)
    (po pb : Nat → Nat) :
    ∀ (fuel : Nat) (s : DeferState), DeferInv g inverse p po pb s →
      s.fill.p_left.card ≤ fuel →
      ∃ t, defer1_loop g inverse fuel s = some t ∧ DeferInv g inverse p po pb t ∧
        t.fill.p_left = ∅ := by
  intro fuel
  induction fuel with
  | zero =>
    intro s hinv hf
    have he : s.fill.p_left = ∅ := Finset.card_eq_zero.mp (Nat.le_zero.mp hf)
    exact ⟨s, by simp [defer1_loop, FixedBitSet.empty, he], hinv, he⟩
  | succ fuel ih =>
    intro s hinv hf
    rw [defer1_loop]
    by_cases he : s.fill.p_left = ∅
    · rw [if_pos (empty_eq_true.mpr he)]
      exact ⟨s, rfl, hinv, he⟩
    · have he2 : ¬ (s.fill.p_left.empty = true) := fun h => he (empty_eq_true.mp h)
      rw [if_neg he2]
      obtain ⟨s1, hs1, sp⟩ := colour_one_class_spec g inverse (s.colour + 1)
        s.fill.p_left.popcount s.fill.p_left { s.fill with number_with_this_colour := 0 }
        (Finset.Subset.refl _) (le_refl _)
      rw [hs1]
      simp only []
      have hne : s.fill.p_left.Nonempty := Finset.nonempty_iff_ne_empty.mpr he
      obtain ⟨v0, hv0⟩ : ∃ v, s.fill.p_left.first_set_bit = some v := by
        cases hfs : s.fill.p_left.first_set_bit with
        | none => exact absurd (first_set_bit_eq_none.mp hfs) he
        | some v => exact ⟨v, rfl⟩
      obtain ⟨hilt, hfirst⟩ := sp.first v0 hv0
      have hcount := sp.count_eq
      have hcard := sp.card_eq
      simp only at hilt hfirst hcount hcard
      have hpos : 0 < s.fill.p_left.card := Finset.card_pos.mpr hne
      have hsub1 : s1.p_left ⊆ s.fill.p_left := sp.left_sub
      by_cases h1 : s1.number_with_this_colour = 1
      · rw [if_pos h1]
        have hi1 : s1.i = s.fill.i + 1 := by omega
        have hv : s1.p_order (s1.i - 1) = v0 := by
          rw [hi1, Nat.add_sub_cancel]; exact hfirst
        have hv0mem : v0 ∈ s.fill.p_left := (first_set_bit_eq_some hv0).1
        have hleft : ∀ w, w ∈ s1.p_left ↔ w ∈ s.fill.p_left ∧ w ≠ v0 := by
          intro w
          rw [sp.left_iff]
          simp only []
          constructor
          · rintro ⟨hw, h⟩
            exact ⟨hw, fun e => h s.fill.i (le_refl _) (by omega) (by rw [hfirst, e])⟩
          · rintro ⟨hw, hne2⟩
            refine ⟨hw, fun k hk1 hk2 => ?_⟩
            have hk : k = s.fill.i := by omega
            rw [hk, hfirst]; exact fun e => hne2 e.symm
        apply ih
        · constructor
          · exact hsub1.trans hinv.left_sub
          · intro n hn
            simp only at hn ⊢
            rcases Nat.lt_succ_iff_lt_or_eq.mp hn with h2 | h2
            · rw [Function.update_noteq (by omega)]
              have := hinv.defer_mem n h2
              exact ⟨this.1, fun hc => this.2 (hsub1 hc)⟩
            · subst h2
              rw [Function.update_same, hv]
              exact ⟨hinv.left_sub hv0mem, fun hc => ((hleft v0).mp hc).2 rfl⟩
          · intro a b ha hb e
            simp only at ha hb e
            rcases Nat.lt_succ_iff_lt_or_eq.mp ha with h2 | h2 <;>
              rcases Nat.lt_succ_iff_lt_or_eq.mp hb with h3 | h3
            · rw [Function.update_noteq (by omega), Function.update_noteq (by omega)] at e
              exact hinv.defer_inj a b h2 h3 e
            · subst h3
              rw [Function.update_noteq (by omega), Function.update_same, hv] at e
              exact absurd hv0mem (e ▸ (hinv.defer_mem a h2).2)
            · subst h2
              rw [Function.update_same, Function.update_noteq (by omega), hv] at e
              exact absurd hv0mem (e ▸ (hinv.defer_mem b h3).2)
            · omega
          · simp only []
            have hset : (p \ s1.p_left) \
                (Finset.range (s.d + 1)).image (Function.update s.defer s.d (s1.p_order (s1.i - 1)))
                = (p \ s.fill.p_left) \ (Finset.range s.d).image s.defer := by
              ext w
              simp only [Finset.mem_sdiff, Finset.mem_image, Finset.mem_range, hleft, hv]
              constructor
              · rintro ⟨⟨hwp, hw1⟩, hw2⟩
                have hwv : w ≠ v0 := fun e =>
                  hw2 ⟨s.d, by omega, by rw [Function.update_same, e]⟩
                refine ⟨⟨hwp, fun hc => hw1 ⟨hc, hwv⟩⟩, ?_⟩
                rintro ⟨n, hn, e⟩
                exact hw2 ⟨n, by omega, by rw [Function.update_noteq (by omega), e]⟩
              · rintro ⟨⟨hwp, hw1⟩, hw2⟩
                refine ⟨⟨hwp, fun hc => hw1 hc.1⟩, ?_⟩
                rintro ⟨n, hn, e⟩
                rcases Nat.lt_succ_iff_lt_or_eq.mp hn with h2 | h2
                · rw [Function.update_noteq (by omega)] at e
                  exact hw2 ⟨n, h2, e⟩
                · subst h2
                  rw [Function.update_same] at e
                  exact hw1 (e ▸ hv0mem)
            rw [hset, hi1, Nat.add_sub_cancel]
            exact hinv.placed.congr (fun k hk => sp.order_out k (Or.inl hk))
              (fun k hk => sp.bounds_out k (Or.inl hk))
          · intro k hk
            simp only []
            have := hinv.card_total
            rw [sp.order_out k (Or.inr (by omega)), sp.bounds_out k (Or.inr (by omega))]
            exact hinv.frame k hk
        · simp only []
          omega
      · rw [if_neg h1]
        apply ih
        · have hpl1 := hinv.placed.extend_class (s := { s.fill with number_with_this_colour := 0 })
            sp (fun _ _ h => h) (Finset.Subset.refl _) hne
            (fun v hv => (Finset.mem_sdiff.mp (Finset.mem_sdiff.mp hv).1).2)
          have hset : ((p \ s.fill.p_left) \ (Finset.range s.d).image s.defer) ∪
              (s.fill.p_left \ s1.p_left) =
              (p \ s1.p_left) \ (Finset.range s.d).image s.defer := by
            ext w
            simp only [Finset.mem_union, Finset.mem_sdiff, Finset.mem_image, Finset.mem_range]
            constructor
            · rintro (⟨⟨hwp, hw1⟩, hw2⟩ | ⟨hw1, hw2⟩)
              · exact ⟨⟨hwp, fun hc => hw1 (hsub1 hc)⟩, hw2⟩
              · refine ⟨⟨hinv.left_sub hw1, hw2⟩, ?_⟩
                rintro ⟨n, hn, e⟩
                exact (hinv.defer_mem n hn).2 (e ▸ hw1)
            · rintro ⟨⟨hwp, hw1⟩, hw2⟩
              by_cases hc : w ∈ s.fill.p_left
              · exact Or.inr ⟨hc, hw1⟩
              · exact Or.inl ⟨⟨hwp, hc⟩, hw2⟩
          simp only [] at hpl1
          rw [hset] at hpl1
          constructor
          · exact hsub1.trans hinv.left_sub
          · intro n hn
            have := hinv.defer_mem n hn
            exact ⟨this.1, fun hc => this.2 (hsub1 hc)⟩
          · exact hinv.defer_inj
          · exact hpl1
          · intro k hk
            simp only []
            have := hinv.card_total
            rw [sp.order_out k (Or.inr (by omega)), sp.bounds_out k (Or.inr (by omega))]
            exact hinv.frame k hk
        · simp only []
          omega

theorem append_deferred_spec {R : Nat → Nat → Prop} (defer : Nat → Nat) :
    ∀ (todo n colour : Nat) (o : CCOResult) (c : Finset Nat),
      Placed R c o.i o.p_order o.p_bounds colour →
      (∀ m, n ≤ m → m < n + todo → defer m ∉ c) →
      (∀ a b, n ≤ a → a < n + todo → n ≤ b → b < n + todo → defer a = defer b → a = b) →
      (append_deferred defer todo n colour o).2.i = o.i + todo ∧
      Placed R (c ∪ (Finset.Ico n (n + todo)).image defer)
        (o.i + todo) (append_deferred defer todo n colour o).2.p_order
        (append_deferred defer todo n colour o).2.p_bounds
        (append_deferred defer todo n colour o).1 ∧
      ∀ k, o.i + todo ≤ k →
        (append_deferred defer todo n colour o).2.p_order k = o.p_order k ∧
        (append_deferred defer todo n colour o).2.p_bounds k = o.p_bounds k := by
  intro todo
  induction todo with
  | zero =>
    intro n colour o c hpl _ _
    refine ⟨rfl, ?_, fun _ _ => ⟨rfl, rfl⟩⟩
    simp only [append_deferred, Nat.add_zero, Finset.Ico_self, Finset.image_empty,
      Finset.union_empty]
    exact hpl
  | succ todo ih =>
    intro n colour o c hpl hmem hinj
    rw [append_deferred]
    have hpush := hpl.push (hmem n (le_refl _) (by omega))
    obtain ⟨h1, h2, h3⟩ := ih (n + 1) (colour + 1)
      { p_order := Function.update o.p_order o.i (defer n)
        p_bounds := Function.update o.p_bounds o.i (colour + 1)
        i := o.i + 1 } (insert (defer n) c) hpush
      (fun m hm1 hm2 hc => by
        rcases Finset.mem_insert.mp hc with e | e
        · have := hinj m n (by omega) (by omega) (le_refl _) (by omega) e
          omega
        · exact hmem m (by omega) (by omega) e)
      (fun a b ha1 ha2 hb1 hb2 e => hinj a b (by omega) (by omega) (by omega) (by omega) e)
    simp only [] at h1 h2 h3
    have hset : insert (defer n) c ∪ (Finset.Ico (n + 1) (n + 1 + todo)).image defer =
        c ∪ (Finset.Ico n (n + (todo + 1))).image defer := by
      ext w
      simp only [Finset.mem_union, Finset.mem_insert, Finset.mem_image, Finset.mem_Ico]
      constructor
      · rintro ((e | hw) | ⟨m, hm, e⟩)
        · exact Or.inr ⟨n, ⟨le_refl _, by omega⟩, e.symm⟩
        · exact Or.inl hw
        · exact Or.inr ⟨m, ⟨by omega, by omega⟩, e⟩
      · rintro (hw | ⟨m, hm, e⟩)
        · exact Or.inl (Or.inr hw)
        · by_cases hmn : m = n
          · subst hmn; exact Or.inl (Or.inl e.symm)
          · exact Or.inr ⟨m, ⟨by omega, by omega⟩, e⟩
    rw [hset] at h2
    have hi : o.i + 1 + todo = o.i + (todo + 1) := by omega
    rw [hi] at h1 h2 h3
    refine ⟨h1, h2, fun k hk => ?_⟩
    obtain ⟨e1, e2⟩ := h3 k hk
    rw [e1, e2]
    exact ⟨Function.update_noteq (by omega) _ _, Function.update_noteq (by omega) _ _⟩

theorem colour_class_order_defer1_spec (g : FixedBitGraph) (inverse : Bool) (p : FixedBitSet)
    (po pb defer : Nat → Nat) :
    ∃ r, colour_class_order_defer1 g inverse p po pb defer = some r ∧
      OutSpec (Compat g inverse) p po pb r := by
  obtain ⟨t, ht, hinv, hempty⟩ := defer1_loop_spec g inverse p po pb p.popcount
    { fill := { p_left := p, i := 0, p_order := po, p_bounds := pb,
                number_with_this_colour := 0 }
      colour := 0, d := 0, defer := defer }
    { left_sub := Finset.Subset.refl _
      defer_mem := fun n hn => absurd hn (by simp)
      defer_inj := fun a b ha => absurd ha (by simp)
      placed := by simpa using Placed.empty _ po pb
      frame := fun k _ => ⟨rfl, rfl⟩ }
    (le_refl _)
  refine ⟨_, by rw [colour_class_order_defer1, ht]; rfl, ?_⟩
  have hcard := hinv.card_total
  have hpl := hinv.placed
  rw [hempty] at hcard hpl
  rw [Finset.sdiff_empty] at hpl
  rw [Finset.card_empty] at hcard
  obtain ⟨h1, h2, h3⟩ := append_deferred_spec (R := Compat g inverse) t.defer t.d 0 t.colour
    { p_order := t.fill.p_order, p_bounds := t.fill.p_bounds, i := t.fill.i } _ hpl
    (fun m _ hm hc => (Finset.mem_sdiff.mp hc).2
      (Finset.mem_image.mpr ⟨m, Finset.mem_range.mpr (by omega), rfl⟩))
    (fun a b _ ha _ hb e => hinv.defer_inj a b (by omega) (by omega) e)
  simp only [] at h1 h2 h3
  have hset : (p \ (Finset.range t.d).image t.defer) ∪ (Finset.Ico 0 (0 + t.d)).image t.defer
      = p := by
    ext w
    simp only [Finset.mem_union, Finset.mem_sdiff, Finset.mem_image, Finset.mem_range,
      Finset.mem_Ico, Nat.zero_add, Nat.zero_le, true_and]
    constructor
    · rintro (⟨hw, _⟩ | ⟨m, hm, e⟩)
      · exact hw
      · exact e ▸ (hinv.defer_mem m hm).1
    · intro hw
      by_cases hc : ∃ a, a < t.d ∧ t.defer a = w
      · exact Or.inr hc
      · exact Or.inl ⟨hw, hc⟩
  rw [hset] at h2
  have hi : t.fill.i + t.d = p.card := by omega
  rw [hi] at h1 h2 h3
  exact ⟨h1, ⟨_, h2⟩, fun k hk => by
    obtain ⟨e1, e2⟩ := h3 k hk
    rw [e1, e2]; exact hinv.frame k hk⟩

theorem adjacent_comm (g : FixedBitGraph) (i j : Nat) : g.adjacent i j = g.adjacent j i := by
  unfold FixedBitGraph.adjacent
  rw [Bool.or_comm (g.edges.contains (i, j)), Bool.and_comm (decide (i < g.size))]

theorem has_conflict_eq_false {g : FixedBitGraph} {v : Nat} {cl : ColourClass} :
    has_conflict g v cl = false ↔ ∀ x, x < cl.first → g.adjacent v (cl.second x) = false := by
  unfold has_conflict
  rw [List.any_eq_false]
  constructor
  · intro h x hx
    simpa using h x (List.mem_range.mpr hx)
  · intro h x hx
    simpa using h x (List.mem_range.mp hx)

theorem has_conflict_eq_true {g : FixedBitGraph} {v : Nat} {cl : ColourClass} :
    has_conflict g v cl = true ↔ ∃ x, x < cl.first ∧ g.adjacent v (cl.second x) = true := by
  unfold has_conflict
  rw [List.any_eq_true]
  constructor
  · rintro ⟨x, hx, h⟩; exact ⟨x, List.mem_range.mp hx, h⟩
  · rintro ⟨x, hx, h⟩; exact ⟨x, List.mem_range.mpr hx, h⟩

/-- Adding a vertex at the end of class `k`. -/
theorem ClassesInv.add_member {g : FixedBitGraph} {c : Finset Nat} {cc : ColourClasses} {e : Nat}
    (h : ClassesInv g c cc e) {v k : Nat} (hk : k < e) (hv : v ∉ c)
    (hadj : ∀ x, x < (cc k).first → g.adjacent v ((cc k).second x) = false) :
    ClassesInv g (insert v c) (Function.update cc k ((cc k).push v)) e := by
  have hsame : ∀ k2, k2 ≠ k → Function.update cc k ((cc k).push v) k2 = cc k2 :=
    fun k2 h2 => Function.update_noteq h2 _ _
  have hk1 : Function.update cc k ((cc k).push v) k = (cc k).push v := Function.update_same _ _ _
  have hold : ∀ x, x < (cc k).first → ((cc k).push v).second x = (cc k).second x :=
    fun x hx => Function.update_noteq (by omega) _ _
  have hnew : ((cc k).push v).second (cc k).first = v := Function.update_same _ _ _
  have hfirst : ((cc k).push v).first = (cc k).first + 1 := rfl
  have hnotin : ∀ k2 x, k2 < e → x < (cc k2).first → (cc k2).second x ≠ v :=
    fun k2 x h2 hx e2 => hv ((h.mem_iff v).mpr ⟨k2, h2, x, hx, e2⟩)
  constructor
  · intro w
    rw [Finset.mem_insert, h.mem_iff]
    constructor
    · rintro (e1 | ⟨k2, hk2, x, hx, e1⟩)
      · exact ⟨k, hk, (cc k).first, by rw [hk1, hfirst]; omega, by rw [hk1, hnew, e1]⟩
      · by_cases hkk : k2 = k
        · subst hkk
          exact ⟨k2, hk2, x, by rw [hk1, hfirst]; omega, by rw [hk1, hold x hx, e1]⟩
        · exact ⟨k2, hk2, x, by rw [hsame k2 hkk]; exact hx, by rw [hsame k2 hkk, e1]⟩
    · rintro ⟨k2, hk2, x, hx, e1⟩
      by_cases hkk : k2 = k
      · subst hkk
        rw [hk1] at hx e1
        rw [hfirst] at hx
        rcases Nat.lt_succ_iff_lt_or_eq.mp hx with h1 | h1
        · exact Or.inr ⟨k2, hk2, x, h1, by rw [← hold x h1, e1]⟩
        · subst h1; exact Or.inl (by rw [← e1, hnew])
      · rw [hsame k2 hkk] at hx e1
        exact Or.inr ⟨k2, hk2, x, hx, e1⟩
  · intro k1 x k2 x2 hk1e hx hk2e hx2 e1
    by_cases ha : k1 = k <;> by_cases hb : k2 = k
    · rw [ha] at hx e1
      rw [hb] at hx2 e1
      rw [hk1] at hx hx2 e1
      rw [hfirst] at hx hx2
      refine ⟨by rw [ha, hb], ?_⟩
      rcases Nat.lt_succ_iff_lt_or_eq.mp hx with h1 | h1 <;>
        rcases Nat.lt_succ_iff_lt_or_eq.mp hx2 with h2 | h2
      · rw [hold x h1, hold x2 h2] at e1
        exact (h.inj k x k x2 hk h1 hk h2 e1).2
      · subst h2; rw [hold x h1, hnew] at e1
        exact absurd e1 (hnotin k x hk h1)
      · subst h1; rw [hold x2 h2, hnew] at e1
        exact absurd e1.symm (hnotin k x2 hk h2)
      · omega
    · subst ha
      rw [hk1] at hx e1
      rw [hsame k2 hb] at hx2 e1
      rw [hfirst] at hx
      rcases Nat.lt_succ_iff_lt_or_eq.mp hx with h1 | h1
      · rw [hold x h1] at e1
        exact h.inj k1 x k2 x2 hk1e h1 hk2e hx2 e1
      · subst h1; rw [hnew] at e1
        exact absurd e1.symm (hnotin k2 x2 hk2e hx2)
    · subst hb
      rw [hk1] at hx2 e1
      rw [hsame k1 ha] at hx e1
      rw [hfirst] at hx2
      rcases Nat.lt_succ_iff_lt_or_eq.mp hx2 with h1 | h1
      · rw [hold x2 h1] at e1
        exact h.inj k1 x k2 x2 hk1e hx hk2e h1 e1
      · subst h1; rw [hnew] at e1
        exact absurd e1 (hnotin k1 x hk1e hx)
    · rw [hsame k1 ha] at hx e1
      rw [hsame k2 hb] at hx2 e1
      exact h.inj k1 x k2 x2 hk1e hx hk2e hx2 e1
  · intro k1 x y hk1e hx hy hxy
    by_cases ha : k1 = k
    · subst ha
      rw [hk1] at hx hy ⊢
      rw [hfirst] at hx hy
      rcases Nat.lt_succ_iff_lt_or_eq.mp hx with h1 | h1 <;>
        rcases Nat.lt_succ_iff_lt_or_eq.mp hy with h2 | h2
      · rw [hold x h1, hold y h2]
        exact h.indep k1 x y hk1e h1 h2 hxy
      · subst h2; rw [hold x h1, hnew, adjacent_comm]
        exact hadj x h1
      · subst h1; rw [hold y h2, hnew]
        exact hadj y h2
      · omega
    · rw [hsame k1 ha] at hx hy ⊢
      exact h.indep k1 x y hk1e hx hy hxy

/-- Opening a new class for a vertex. -/
theorem ClassesInv.open_class {g : FixedBitGraph} {c : Finset Nat} {cc : ColourClasses}
    {e : Nat} (h : ClassesInv g c cc e) {v : Nat} (hv : v ∉ c) (second : Nat → Nat) :
    ClassesInv g (insert v c)
      (Function.update cc e { first := 1, second := Function.update second 0 v }) (e + 1) := by
  have hsame : ∀ k2, k2 < e →
      Function.update cc e { first := 1, second := Function.update second 0 v } k2 = cc k2 :=
    fun k2 h2 => Function.update_noteq (by omega) _ _
  have hk1 : Function.update cc e { first := 1, second := Function.update second 0 v } e =
      { first := 1, second := Function.update second 0 v } := Function.update_same _ _ _
  have hnotin : ∀ k2 x, k2 < e → x < (cc k2).first → (cc k2).second x ≠ v :=
    fun k2 x h2 hx e2 => hv ((h.mem_iff v).mpr ⟨k2, h2, x, hx, e2⟩)
  constructor
  · intro w
    rw [Finset.mem_insert, h.mem_iff]
    constructor
    · rintro (e1 | ⟨k2, hk2, x, hx, e1⟩)
      · exact ⟨e, by omega, 0, by rw [hk1]; exact Nat.one_pos, by
          rw [hk1]; simp [e1]⟩
      · exact ⟨k2, by omega, x, by rw [hsame k2 hk2]; exact hx, by rw [hsame k2 hk2, e1]⟩
    · rintro ⟨k2, hk2, x, hx, e1⟩
      rcases Nat.lt_succ_iff_lt_or_eq.mp hk2 with h1 | h1
      · rw [hsame k2 h1] at hx e1
        exact Or.inr ⟨k2, h1, x, hx, e1⟩
      · subst h1
        rw [hk1] at hx e1
        have hx0 : x = 0 := by simp only at hx; omega
        subst hx0
        left; simpa using e1.symm
  · intro k1 x k2 x2 hk1e hx hk2e hx2 e1
    rcases Nat.lt_succ_iff_lt_or_eq.mp hk1e with h1 | h1 <;>
      rcases Nat.lt_succ_iff_lt_or_eq.mp hk2e with h2 | h2
    · rw [hsame k1 h1] at hx e1
      rw [hsame k2 h2] at hx2 e1
      exact h.inj k1 x k2 x2 h1 hx h2 hx2 e1
    · subst h2
      rw [hsame k1 h1] at hx e1
      rw [hk1] at hx2 e1
      have hx0 : x2 = 0 := by simp only at hx2; omega
      subst hx0
      simp only [Function.update_same] at e1
      exact absurd e1 (hnotin k1 x h1 hx)
    · subst h1
      rw [hsame k2 h2] at hx2 e1
      rw [hk1] at hx e1
      have hx0 : x = 0 := by simp only at hx; omega
      subst hx0
      simp only [Function.update_same] at e1
      exact absurd e1.symm (hnotin k2 x2 h2 hx2)
    · subst h1; subst h2
      rw [hk1] at hx hx2
      simp only at hx hx2
      exact ⟨rfl, by omega⟩
  · intro k1 x y hk1e hx hy hxy
    rcases Nat.lt_succ_iff_lt_or_eq.mp hk1e with h1 | h1
    · rw [hsame k1 h1] at hx hy ⊢
      exact h.indep k1 x y h1 hx hy hxy
    · subst h1
      rw [hk1] at hx hy
      simp only at hx hy
      omega

theorem shift_down_apply :
    ∀ (todo x : Nat) (second : Nat → Nat) (k : Nat),
      shift_down second todo x k = if x ≤ k ∧ k < x + todo then second (k + 1) else second k := by
  intro todo
  induction todo with
  | zero =>
    intro x second k
    rw [shift_down, if_neg (by omega)]
  | succ todo ih =>
    intro x second k
    rw [shift_down, ih]
    by_cases h1 : x + 1 ≤ k ∧ k < x + 1 + todo
    · rw [if_pos h1, if_pos (by omega), Function.update_noteq (by omega)]
    · rw [if_neg h1]
      by_cases h2 : k = x
      · subst h2
        rw [Function.update_same, if_pos (by omega)]
      · rw [Function.update_noteq h2, if_neg (by omega)]

/-- Removing the member at position `pos` of class `k` and closing the gap. -/
theorem ClassesInv.erase {g : FixedBitGraph} {c : Finset Nat} {cc : ColourClasses} {e : Nat}
    (h : ClassesInv g c cc e) {k pos : Nat} (hk : k < e) (hpos : pos < (cc k).first) :
    ClassesInv g (c.erase ((cc k).second pos))
      (Function.update cc k
        { first := (cc k).first - 1
          second := shift_down (cc k).second ((cc k).first - 1 - pos) pos }) e := by
  set cl : ColourClass := { first := (cc k).first - 1
                            second := shift_down (cc k).second ((cc k).first - 1 - pos) pos }
    with hcl
  have hsame : ∀ k2, k2 ≠ k → Function.update cc k cl k2 = cc k2 :=
    fun k2 h2 => Function.update_noteq h2 _ _
  have hk1 : Function.update cc k cl k = cl := Function.update_same _ _ _
  have hfirst : cl.first = (cc k).first - 1 := rfl
  have hsec : ∀ x, x < cl.first →
      cl.second x = (cc k).second (if x < pos then x else x + 1) := by
    intro x hx
    rw [hfirst] at hx
    show shift_down (cc k).second ((cc k).first - 1 - pos) pos x = _
    rw [shift_down_apply]
    by_cases hxp : x < pos
    · rw [if_neg (by omega), if_pos hxp]
    · rw [if_pos (by omega), if_neg hxp]
  have hsig : ∀ x, x < cl.first → (if x < pos then x else x + 1) < (cc k).first := by
    intro x hx
    rw [hfirst] at hx
    split <;> omega
  have hsigne : ∀ x, (if x < pos then x else x + 1) ≠ pos := by
    intro x; split <;> omega
  constructor
  · intro w
    rw [Finset.mem_erase, h.mem_iff]
    constructor
    · rintro ⟨hne, k2, hk2, x, hx, e1⟩
      by_cases hkk : k2 = k
      · rw [hkk] at hx e1
        have hxp : x ≠ pos := fun e2 => hne (by rw [← e1, e2])
        refine ⟨k, hk, if x < pos then x else x - 1, ?_, ?_⟩
        · rw [hk1, hfirst]; split <;> omega
        · rw [hk1, hsec _ (by rw [hfirst]; split <;> omega), ← e1]
          congr 1
          by_cases hxp2 : x < pos
          · rw [if_pos hxp2, if_pos hxp2]
          · rw [if_neg hxp2, if_neg (by omega)]; omega
      · exact ⟨k2, hk2, x, by rw [hsame k2 hkk]; exact hx, by rw [hsame k2 hkk, e1]⟩
    · rintro ⟨k2, hk2, x, hx, e1⟩
      by_cases hkk : k2 = k
      · rw [hkk, hk1] at hx e1
        rw [hsec x hx] at e1
        refine ⟨fun e2 => ?_, k, hk, _, hsig x hx, e1⟩
        rw [← e1] at e2
        exact hsigne x (h.inj k _ k pos hk (hsig x hx) hk hpos e2).2
      · rw [hsame k2 hkk] at hx e1
        refine ⟨fun e2 => ?_, k2, hk2, x, hx, e1⟩
        rw [← e1] at e2
        exact hkk (h.inj k2 x k pos hk2 hx hk hpos e2).1
  · intro k1 x k2 x2 hk1e hx hk2e hx2 e1
    by_cases ha : k1 = k <;> by_cases hb : k2 = k
    · rw [ha] at hx e1
      rw [hb] at hx2 e1
      rw [hk1] at hx hx2 e1
      rw [hsec x hx, hsec x2 hx2] at e1
      have := (h.inj k _ k _ hk (hsig x hx) hk (hsig x2 hx2) e1).2
      refine ⟨by rw [ha, hb], ?_⟩
      split at this <;> split at this <;> omega
    · rw [ha] at hx e1
      rw [hk1] at hx e1
      rw [hsame k2 hb] at hx2 e1
      rw [hsec x hx] at e1
      have := (h.inj k _ k2 x2 hk (hsig x hx) hk2e hx2 e1).1
      exact absurd this.symm hb
    · rw [hb] at hx2 e1
      rw [hk1] at hx2 e1
      rw [hsame k1 ha] at hx e1
      rw [hsec x2 hx2] at e1
      have := (h.inj k1 x k _ hk1e hx hk (hsig x2 hx2) e1).1
      exact absurd this ha
    · rw [hsame k1 ha] at hx e1
      rw [hsame k2 hb] at hx2 e1
      exact h.inj k1 x k2 x2 hk1e hx hk2e hx2 e1
  · intro k1 x y hk1e hx hy hxy
    by_cases ha : k1 = k
    · rw [ha] at hx hy ⊢
      rw [hk1] at hx hy ⊢
      rw [hsec x hx, hsec y hy]
      apply h.indep k _ _ hk (hsig x hx) (hsig y hy)
      split <;> split <;> omega
    · rw [hsame k1 ha] at hx hy ⊢
      exact h.indep k1 x y hk1e hx hy hxy

theorem move_vertex_eq (v k pos nc : Nat) (cc : ColourClasses) (hne : k ≠ nc)
    (hpos : 0 < (cc k).first) :
    move_vertex v k ((cc k).second pos) pos nc cc =
      Function.update
        (Function.update
          (Function.update cc k
            { first := (cc k).first - 1
              second := shift_down (cc k).second ((cc k).first - 1 - pos) pos })
          nc ((cc nc).push ((cc k).second pos)))
        k (ColourClass.push
            { first := (cc k).first - 1
              second := shift_down (cc k).second ((cc k).first - 1 - pos) pos } v) := by
  funext k2
  unfold move_vertex
  by_cases h1 : k2 = k
  · subst h1
    rw [Function.update_same, Function.update_same, Function.update_noteq hne]
    unfold ColourClass.push
    simp only []
    have : (cc k2).first - 1 + 1 = (cc k2).first := by omega
    rw [this]
  · rw [Function.update_noteq h1, Function.update_noteq h1]
    by_cases h2 : k2 = nc
    · subst h2
      rw [Function.update_same, Function.update_same]
    · rw [Function.update_noteq h2, Function.update_noteq h2, Function.update_noteq h1]

/-- The repair move keeps the class invariant. -/
theorem ClassesInv.move {g : FixedBitGraph} {c : Finset Nat} {cc : ColourClasses} {e : Nat}
    (h : ClassesInv g c cc e) {v k pos nc : Nat} (hk : k < e) (hnc : nc < e) (hne : k ≠ nc)
    (hpos : pos < (cc k).first) (hv : v ∉ c)
    (hvadj : ∀ x, x < (cc k).first → x ≠ pos → g.adjacent v ((cc k).second x) = false)
    (huadj : ∀ x, x < (cc nc).first →
      g.adjacent ((cc k).second pos) ((cc nc).second x) = false) :
    ClassesInv g (insert v c) (move_vertex v k ((cc k).second pos) pos nc cc) e := by
  rw [move_vertex_eq v k pos nc cc hne (by omega)]
  have hu : (cc k).second pos ∈ c := (h.mem_iff _).mpr ⟨k, hk, pos, hpos, rfl⟩
  have h1 := h.erase hk hpos
  set cl : ColourClass := { first := (cc k).first - 1
                            second := shift_down (cc k).second ((cc k).first - 1 - pos) pos }
    with hcl
  have e1 : Function.update cc k cl nc = cc nc := Function.update_noteq (Ne.symm hne) _ _
  have h2 := h1.add_member hnc (Finset.not_mem_erase _ _) (by rw [e1]; exact huadj)
  rw [e1, Finset.insert_erase hu] at h2
  have e2 : Function.update (Function.update cc k cl) nc ((cc nc).push ((cc k).second pos)) k
      = cl := by
    rw [Function.update_noteq hne, Function.update_same]
  have h3 := h2.add_member hk hv (by
    rw [e2]
    intro x hx
    have hx2 : x < (cc k).first - 1 := hx
    show g.adjacent v (shift_down (cc k).second ((cc k).first - 1 - pos) pos x) = false
    rw [shift_down_apply]
    by_cases hxp : x < pos
    · rw [if_neg (by omega)]; exact hvadj x (by omega) (by omega)
    · rw [if_pos (by omega)]; exact hvadj (x + 1) (by omega) (by omega))
  rw [e2] at h3
  exact h3

theorem move_vertex_first_ge (v k u pos nc : Nat) (cc : ColourClasses) (k2 : Nat) :
    (cc k2).first ≤ (move_vertex v k u pos nc cc k2).first := by
  unfold move_vertex
  by_cases h1 : k2 = k
  · subst h1
    rw [Function.update_same]
    by_cases h2 : k2 = nc
    · subst h2; rw [Function.update_same]; exact Nat.le_succ _
    · rw [Function.update_noteq h2]
  · rw [Function.update_noteq h1]
    by_cases h2 : k2 = nc
    · subst h2; rw [Function.update_same]; exact Nat.le_succ _
    · rw [Function.update_noteq h2]

theorem count_conflicts_one (g : FixedBitGraph) (v : Nat) (cl : ColourClass) :
    ∀ (todo pos : Nat) (r : Conflicts), r.n_conflicts ≤ 1 →
      (count_conflicts g v cl todo pos r).n_conflicts = 1 →
      (r.n_conflicts = 1 ∧ count_conflicts g v cl todo pos r = r ∧
        ∀ x, pos ≤ x → x < pos + todo → g.adjacent v (cl.second x) = false) ∨
      (r.n_conflicts = 0 ∧ ∃ y, pos ≤ y ∧ y < pos + todo ∧
        (count_conflicts g v cl todo pos r).vertex_to_move = cl.second y ∧
        (count_conflicts g v cl todo pos r).vertex_to_move_pos = y ∧
        g.adjacent v (cl.second y) = true ∧
        ∀ x, pos ≤ x → x < pos + todo → x ≠ y → g.adjacent v (cl.second x) = false) := by
  intro todo
  induction todo with
  | zero =>
    intro pos r _ h1
    rw [count_conflicts] at h1 ⊢
    exact Or.inl ⟨h1, rfl, fun x h2 h3 => absurd h3 (by omega)⟩
  | succ todo ih =>
    intro pos r hr h1
    rw [count_conflicts] at h1 ⊢
    by_cases hadj : g.adjacent v (cl.second pos) = true
    · rw [if_pos hadj] at h1 ⊢
      by_cases hn : r.n_conflicts + 1 > 1
      · rw [if_pos hn] at h1
        simp only at h1
        omega
      · rw [if_neg hn] at h1 ⊢
        have hr0 : r.n_conflicts = 0 := by omega
        rcases ih (pos + 1) _ (by simp only; omega) h1 with ⟨_, h3, h4⟩ | ⟨h2, _⟩
        · right
          refine ⟨hr0, pos, le_refl _, by omega, by rw [h3], by rw [h3], hadj, ?_⟩
          intro x hx1 hx2 hx3
          exact h4 x (by omega) (by omega)
        · simp only at h2; omega
    · rw [if_neg hadj] at h1 ⊢
      have hadj2 : g.adjacent v (cl.second pos) = false := by simpa using hadj
      rcases ih (pos + 1) r hr h1 with ⟨h2, h3, h4⟩ | ⟨h2, y, hy1, hy2, h3, h4, h5, h6⟩
      · left
        refine ⟨h2, h3, fun x hx1 hx2 => ?_⟩
        rcases Nat.eq_or_lt_of_le hx1 with e1 | e1
        · subst e1; exact hadj2
        · exact h4 x (by omega) (by omega)
      · right
        refine ⟨h2, y, by omega, by omega, h3, h4, h5, fun x hx1 hx2 hx3 => ?_⟩
        rcases Nat.eq_or_lt_of_le hx1 with e1 | e1
        · subst e1; exact hadj2
        · exact h6 x (by omega) (by omega) hx3

theorem first_fit_spec (g : FixedBitGraph) (v : Nat) :
    ∀ (todo k : Nat) (cc : ColourClasses),
      ((first_fit g v todo k cc).1 = true →
        ∃ k2, k ≤ k2 ∧ k2 < k + todo ∧ has_conflict g v (cc k2) = false ∧
          (first_fit g v todo k cc).2 = Function.update cc k2 ((cc k2).push v)) ∧
      ((first_fit g v todo k cc).1 = false → (first_fit g v todo k cc).2 = cc ∧
        ∀ k2, k ≤ k2 → k2 < k + todo → has_conflict g v (cc k2) = true) := by
  intro todo
  induction todo with
  | zero =>
    intro k cc
    rw [first_fit]
    exact ⟨fun h => by simp at h, fun _ => ⟨rfl, fun k2 h1 h2 => absurd h2 (by omega)⟩⟩
  | succ todo ih =>
    intro k cc
    rw [first_fit]
    by_cases hc : has_conflict g v (cc k) = true
    · rw [if_pos hc]
      obtain ⟨h1, h2⟩ := ih (k + 1) cc
      constructor
      · intro h
        obtain ⟨k2, a, b, c, d⟩ := h1 h
        exact ⟨k2, by omega, by omega, c, d⟩
      · intro h
        obtain ⟨a, b⟩ := h2 h
        refine ⟨a, fun k2 hk1 hk2 => ?_⟩
        rcases Nat.eq_or_lt_of_le hk1 with e1 | e1
        · subst e1; exact hc
        · exact b k2 (by omega) (by omega)
    · rw [if_neg hc]
      exact ⟨fun _ => ⟨k, le_refl _, by omega, by simpa using hc, rfl⟩, fun h => by simp at h⟩

theorem try_move_spec (g : FixedBitGraph) (v k u pos : Nat) :
    ∀ (todo nc : Nat) (cc : ColourClasses),
      ((try_move g v k u pos todo nc cc).1 = true →
        ∃ n2, nc ≤ n2 ∧ n2 < nc + todo ∧ has_conflict g u (cc n2) = false ∧
          (try_move g v k u pos todo nc cc).2 = move_vertex v k u pos n2 cc) ∧
      ((try_move g v k u pos todo nc cc).1 = false →
        (try_move g v k u pos todo nc cc).2 = cc) := by
  intro todo
  induction todo with
  | zero =>
    intro nc cc
    rw [try_move]
    exact ⟨fun h => by simp at h, fun _ => rfl⟩
  | succ todo ih =>
    intro nc cc
    rw [try_move]
    by_cases hc : has_conflict g u (cc nc) = true
    · rw [if_pos hc]
      obtain ⟨h1, h2⟩ := ih (nc + 1) cc
      refine ⟨fun h => ?_, h2⟩
      obtain ⟨n2, a, b, c, d⟩ := h1 h
      exact ⟨n2, by omega, by omega, c, d⟩
    · rw [if_neg hc]
      exact ⟨fun _ => ⟨nc, le_refl _, by omega, by simpa using hc, rfl⟩, fun h => by simp at h⟩

theorem repair_spec {g : FixedBitGraph} {c : Finset Nat} {e v : Nat} (hv : v ∉ c) :
    ∀ (todo k : Nat) (cc : ColourClasses), ClassesInv g c cc e → k + todo + 1 ≤ e →
      ((repair g v e todo k cc).1 = true →
        ClassesInv g (insert v c) (repair g v e todo k cc).2 e ∧
        ∀ k2, (cc k2).first ≤ ((repair g v e todo k cc).2 k2).first) ∧
      ((repair g v e todo k cc).1 = false → (repair g v e todo k cc).2 = cc) := by
  intro todo
  induction todo with
  | zero =>
    intro k cc _ _
    rw [repair]
    exact ⟨fun h => by simp at h, fun _ => rfl⟩
  | succ todo ih =>
    intro k cc hinv hke
    rw [repair]
    by_cases hn : (count_conflicts g v (cc k) (cc k).first 0
        { n_conflicts := 0, vertex_to_move := -1, vertex_to_move_pos := -1 }).n_conflicts = 1
    · rw [if_pos hn]
      rcases count_conflicts_one g v (cc k) (cc k).first 0 _ (by simp) hn with
        ⟨h1, _⟩ | ⟨_, y, _, hy, hvm, hvp, _, hothers⟩
      · simp at h1
      · rw [hvm, hvp]
        rw [Int.toNat_ofNat, Int.toNat_ofNat]
        obtain ⟨t1, t2⟩ := try_move_spec g v k ((cc k).second y) y (e - (k + 1)) (k + 1) cc
        by_cases hres : (try_move g v k ((cc k).second y) y (e - (k + 1)) (k + 1) cc).1 = true
        · rw [if_pos hres]
          refine ⟨fun _ => ?_, fun h => by rw [hres] at h; simp at h⟩
          obtain ⟨n2, hn1, hn2, hn3, hn4⟩ := t1 hres
          rw [hn4]
          refine ⟨?_, fun k2 => move_vertex_first_ge _ _ _ _ _ _ _⟩
          exact hinv.move (by omega) (by omega) (by omega) (by omega) hv
            (fun x hx hxy => hothers x (Nat.zero_le _) (by omega) hxy)
            (has_conflict_eq_false.mp hn3)
        · rw [if_neg hres]
          have hres2 := t2 (by simpa using hres)
          rw [hres2]
          exact ih (k + 1) cc hinv (by omega)
    · rw [if_neg hn]
      simp only [Bool.false_eq_true, if_false]
      exact ih (k + 1) cc hinv (by omega)

theorem open_class_pos {cc : ColourClasses} {e v : Nat} {second : Nat → Nat}
    (hpos : ∀ k, k < e → 0 < (cc k).first) :
    ∀ k, k < e + 1 →
      0 < (Function.update cc e { first := 1, second := Function.update second 0 v } k).first := by
  intro k hk
  rcases Nat.lt_succ_iff_lt_or_eq.mp hk with h1 | h1
  · rw [Function.update_noteq (by omega)]; exact hpos k h1
  · subst h1; rw [Function.update_same]; exact Nat.one_pos

theorem repair_step_spec {g : FixedBitGraph} {c : Finset Nat} {e v : Nat} (delta : Int)
    (selective : Bool) {cc : ColourClasses} (hv : v ∉ c) (hinv : ClassesInv g c cc e)
    (hpos : ∀ k, k < e → 0 < (cc k).first) :
    ClassesInv g (insert v c) (repair_step g delta selective v cc e).1
        (repair_step g delta selective v cc e).2 ∧
      ∀ k, k < (repair_step g delta selective v cc e).2 →
        0 < ((repair_step g delta selective v cc e).1 k).first := by
  unfold repair_step
  simp only []
  obtain ⟨f1, f2⟩ := first_fit_spec g v e 0 cc
  by_cases hfit : (first_fit g v e 0 cc).1 = true
  · rw [if_pos hfit]
    obtain ⟨k2, _, hk2, hc, heq⟩ := f1 hfit
    rw [heq]
    simp only []
    refine ⟨hinv.add_member (by omega) hv (has_conflict_eq_false.mp hc), fun k hk => ?_⟩
    by_cases hkk : k = k2
    · subst hkk; rw [Function.update_same]; exact Nat.succ_pos _
    · rw [Function.update_noteq hkk]; exact hpos k hk
  · rw [if_neg hfit]
    obtain ⟨heq, _⟩ := f2 (by simpa using hfit)
    rw [heq]
    by_cases hsel : ((! selective) || decide ((e : Int) ≥ delta)) = true
    · rw [if_pos hsel]
      by_cases he : e = 0
      · subst he
        rw [repair]
        simp only [Bool.false_eq_true, if_false]
        exact ⟨hinv.open_class hv _, open_class_pos hpos⟩
      · obtain ⟨r1, r2⟩ := repair_spec hv (e - 1) 0 cc hinv (by omega)
        by_cases hrep : (repair g v e (e - 1) 0 cc).1 = true
        · rw [if_pos hrep]
          obtain ⟨a, b⟩ := r1 hrep
          exact ⟨a, fun k hk => Nat.lt_of_lt_of_le (hpos k hk) (b k)⟩
        · rw [if_neg hrep]
          rw [r2 (by simpa using hrep)]
          exact ⟨hinv.open_class hv _, open_class_pos hpos⟩
    · rw [if_neg hsel]
      simp only [Bool.false_eq_true, if_false]
      exact ⟨hinv.open_class hv _, open_class_pos hpos⟩

theorem ClassesInv.start (g : FixedBitGraph) (cc : ColourClasses) : ClassesInv g ∅ cc 0 where
  mem_iff := fun v => by simp
  inj := fun k x k2 x2 h => absurd h (by omega)
  indep := fun k x y h => absurd h (by omega)

theorem repair_loop_spec (g : FixedBitGraph) (delta : Int) (selective : Bool)
    (p : FixedBitSet) :
    ∀ (fuel : Nat) (s : RepairState), s.p_left ⊆ p →
      ClassesInv g (p \ s.p_left) s.colour_classes s.colour_classes_end →
      (∀ k, k < s.colour_classes_end → 0 < (s.colour_classes k).first) →
      s.p_left.card ≤ fuel →
      ∃ t, repair_loop g delta selective fuel s = some t ∧
        ClassesInv g p t.colour_classes t.colour_classes_end ∧
        ∀ k, k < t.colour_classes_end → 0 < (t.colour_classes k).first := by
  intro fuel
  induction fuel with
  | zero =>
    intro s _ hinv hpos hf
    have he : s.p_left = ∅ := Finset.card_eq_zero.mp (Nat.le_zero.mp hf)
    refine ⟨s, by simp [repair_loop, FixedBitSet.empty, he], ?_, hpos⟩
    rw [he, Finset.sdiff_empty] at hinv
    exact hinv
  | succ fuel ih =>
    intro s hsub hinv hpos hf
    rw [repair_loop]
    cases hfs : s.p_left.first_set_bit with
    | none =>
      have he : s.p_left = ∅ := first_set_bit_eq_none.mp hfs
      rw [he, Finset.sdiff_empty] at hinv
      exact ⟨s, rfl, hinv, hpos⟩
    | some v =>
      simp only []
      obtain ⟨hvl, _⟩ := first_set_bit_eq_some hfs
      obtain ⟨h1, h2⟩ := repair_step_spec delta selective
        (show v ∉ p \ s.p_left from fun h => (Finset.mem_sdiff.mp h).2 hvl) hinv hpos
      have hset : insert v (p \ s.p_left) = p \ s.p_left.unset v := by
        ext w
        simp only [Finset.mem_insert, Finset.mem_sdiff, FixedBitSet.unset, Finset.mem_erase]
        constructor
        · rintro (e1 | ⟨a, b⟩)
          · subst e1; exact ⟨hsub hvl, fun h => h.1 rfl⟩
          · exact ⟨a, fun h => b h.2⟩
        · rintro ⟨a, b⟩
          by_cases hwv : w = v
          · exact Or.inl hwv
          · exact Or.inr ⟨a, fun h => b ⟨hwv, h⟩⟩
      rw [hset] at h1
      apply ih _ ((Finset.erase_subset _ _).trans hsub) h1 h2
      have := Finset.card_erase_of_mem hvl
      have hpos2 : 0 < s.p_left.card := Finset.card_pos.mpr ⟨v, hvl⟩
      simp only [FixedBitSet.unset]
      omega

theorem mem_classMembers {cc : ColourClasses} {k v : Nat} :
    v ∈ classMembers cc k ↔ ∃ k2, k2 < k ∧ ∃ x, x < (cc k2).first ∧ (cc k2).second x = v := by
  simp [classMembers]

theorem write_class_spec {R : Nat → Nat → Prop} (colour : Nat) (cl : ColourClass) :
    ∀ (todo pos : Nat) (o : CCOResult) (C : Finset Nat) (col : Nat),
      Placed R C o.i o.p_order o.p_bounds col →
      (pos = 0 → colour = col + 1) → (0 < pos → colour = col ∧ 0 < o.i) →
      (∀ a, a < o.i → o.p_bounds a = colour → ∃ x, x < pos ∧ o.p_order a = cl.second x) →
      (∀ x, pos ≤ x → x < pos + todo → cl.second x ∉ C) →
      (∀ x y, x < pos + todo → y < pos + todo → cl.second x = cl.second y → x = y) →
      (∀ x y, x < pos + todo → y < pos + todo → x ≠ y → R (cl.second x) (cl.second y)) →
      (write_class colour cl todo pos o).i = o.i + todo ∧
      Placed R (C ∪ (Finset.Ico pos (pos + todo)).image cl.second) (o.i + todo)
        (write_class colour cl todo pos o).p_order (write_class colour cl todo pos o).p_bounds
        (if pos + todo = 0 then col else colour) ∧
      ∀ k, o.i + todo ≤ k →
        (write_class colour cl todo pos o).p_order k = o.p_order k ∧
        (write_class colour cl todo pos o).p_bounds k = o.p_bounds k := by
  intro todo
  induction todo with
  | zero =>
    intro pos o C col hpl h0 h1 _ _ _ _
    refine ⟨rfl, ?_, fun _ _ => ⟨rfl, rfl⟩⟩
    simp only [write_class, Nat.add_zero, Finset.Ico_self, Finset.image_empty,
      Finset.union_empty]
    by_cases hp : pos = 0
    · rw [if_pos hp]; exact hpl
    · rw [if_neg hp, (h1 (by omega)).1]; exact hpl
  | succ todo ih =>
    intro pos o C col hpl h0 h1 hcol hnot hinj hR
    rw [write_class]
    have hv : cl.second pos ∉ C := hnot pos (le_refl _) (by omega)
    have hpl1 : Placed R (insert (cl.second pos) C) (o.i + 1)
        (Function.update o.p_order o.i (cl.second pos))
        (Function.update o.p_bounds o.i colour) colour := by
      by_cases hp : pos = 0
      · rw [h0 hp]; exact hpl.push hv
      · obtain ⟨e1, e2⟩ := h1 (by omega)
        rw [e1]
        refine hpl.push_same hv e2 (fun a ha hb => ?_)
        obtain ⟨x, hx, e3⟩ := hcol a ha (by rw [hb, e1])
        rw [e3]
        exact hR x pos (by omega) (by omega) (by omega)
    obtain ⟨r1, r2, r3⟩ := ih (pos + 1)
      { p_order := Function.update o.p_order o.i (cl.second pos)
        p_bounds := Function.update o.p_bounds o.i colour
        i := o.i + 1 } (insert (cl.second pos) C) colour hpl1
      (fun h => absurd h (by omega)) (fun _ => ⟨rfl, Nat.succ_pos _⟩)
      (fun a ha hb => by
        simp only at ha hb ⊢
        rcases Nat.lt_succ_iff_lt_or_eq.mp ha with h2 | h2
        · rw [Function.update_noteq (by omega)] at hb ⊢
          by_cases hp : pos = 0
          · have := hpl.bounds_le a h2
            have := h0 hp
            omega
          · obtain ⟨x, hx, e3⟩ := hcol a h2 hb
            exact ⟨x, by omega, e3⟩
        · subst h2
          exact ⟨pos, by omega, by rw [Function.update_same]⟩)
      (fun x hx1 hx2 hc => by
        rcases Finset.mem_insert.mp hc with e1 | e1
        · have := hinj x pos (by omega) (by omega) e1
          omega
        · exact hnot x (by omega) (by omega) e1)
      (fun x y hx hy e1 => hinj x y (by omega) (by omega) e1)
      (fun x y hx hy hxy => hR x y (by omega) (by omega) hxy)
    simp only [] at r1 r2 r3
    have hset : insert (cl.second pos) C ∪ (Finset.Ico (pos + 1) (pos + 1 + todo)).image cl.second
        = C ∪ (Finset.Ico pos (pos + (todo + 1))).image cl.second := by
      ext w
      simp only [Finset.mem_union, Finset.mem_insert, Finset.mem_image, Finset.mem_Ico]
      constructor
      · rintro ((e | hw) | ⟨m, hm, e⟩)
        · exact Or.inr ⟨pos, ⟨le_refl _, by omega⟩, e.symm⟩
        · exact Or.inl hw
        · exact Or.inr ⟨m, ⟨by omega, by omega⟩, e⟩
      · rintro (hw | ⟨m, hm, e⟩)
        · exact Or.inl (Or.inr hw)
        · by_cases hmn : m = pos
          · subst hmn; exact Or.inl (Or.inl e.symm)
          · exact Or.inr ⟨m, ⟨by omega, by omega⟩, e⟩
    rw [hset, if_neg (by omega)] at r2
    have hi : o.i + 1 + todo = o.i + (todo + 1) := by omega
    rw [hi] at r1 r2 r3
    rw [if_neg (by omega)]
    refine ⟨r1, r2, fun k hk => ?_⟩
    obtain ⟨e1, e2⟩ := r3 k hk
    rw [e1, e2]
    exact ⟨Function.update_noteq (by omega) _ _, Function.update_noteq (by omega) _ _⟩

theorem classMembers_succ (cc : ColourClasses) (k : Nat) :
    classMembers cc (k + 1) =
      classMembers cc k ∪ (Finset.range (cc k).first).image (cc k).second := by
  ext w
  simp only [mem_classMembers, Finset.mem_union, Finset.mem_image, Finset.mem_range]
  constructor
  · rintro ⟨k2, hk2, x, hx, e1⟩
    rcases Nat.lt_succ_iff_lt_or_eq.mp hk2 with h1 | h1
    · exact Or.inl ⟨k2, h1, x, hx, e1⟩
    · subst h1; exact Or.inr ⟨x, hx, e1⟩
  · rintro (⟨k2, hk2, x, hx, e1⟩ | ⟨x, hx, e1⟩)
    · exact ⟨k2, by omega, x, hx, e1⟩
    · exact ⟨k, by omega, x, hx, e1⟩

theorem ClassesInv.not_mem_lower {g : FixedBitGraph} {p : Finset Nat} {cc : ColourClasses}
    {e k x : Nat} (h : ClassesInv g p cc e) (hk : k < e) (hx : x < (cc k).first) :
    (cc k).second x ∉ classMembers cc k := by
  intro hc
  obtain ⟨k2, hk2, x2, hx2, e1⟩ := mem_classMembers.mp hc
  have := (h.inj k2 x2 k x (by omega) hx2 hk hx e1).1
  omega

theorem ClassesInv.members_sub {g : FixedBitGraph} {p : Finset Nat} {cc : ColourClasses}
    {e k : Nat} (h : ClassesInv g p cc e) (hk : k ≤ e) : classMembers cc k ⊆ p := by
  intro w hw
  obtain ⟨k2, hk2, x, hx, e1⟩ := mem_classMembers.mp hw
  exact (h.mem_iff w).mpr ⟨k2, by omega, x, hx, e1⟩

theorem write_classes_spec {g : FixedBitGraph} {p : FixedBitSet} {cc : ColourClasses}
    {e_end : Nat} {po pb : Nat → Nat} {do_defer : Bool}
    (hinv : ClassesInv g p cc e_end) (hpos : ∀ k, k < e_end → 0 < (cc k).first) :
    ∀ (todo k : Nat) (e : Emit), k + todo = e_end →
      EmitInv (NonAdj g) p cc k po pb do_defer e →
      EmitInv (NonAdj g) p cc e_end po pb do_defer (write_classes do_defer cc todo k e) := by
  intro todo
  induction todo with
  | zero =>
    intro k e hk he
    have : k = e_end := by omega
    subst this
    exact he
  | succ todo ih =>
    intro k e hk he
    rw [write_classes]
    have hke : k < e_end := by omega
    by_cases hd : (do_defer && decide ((cc k).first = 1)) = true
    · rw [if_pos hd]
      have hd1 : do_defer = true := by
        cases do_defer
        · simp at hd
        · rfl
      have hf1 : (cc k).first = 1 := by
        rw [hd1] at hd
        simpa using hd
      have hnot := hinv.not_mem_lower hke (show 0 < (cc k).first by omega)
      apply ih (k + 1) _ (by omega)
      constructor
      · simp only []
        have hset : classMembers cc (k + 1) \
            (Finset.range (e.d + 1)).image (Function.update e.defer e.d ((cc k).second 0)) =
            classMembers cc k \ (Finset.range e.d).image e.defer := by
          ext w
          rw [classMembers_succ]
          simp only [Finset.mem_sdiff, Finset.mem_union, Finset.mem_image, Finset.mem_range, hf1]
          constructor
          · rintro ⟨hw1, hw2⟩
            have hne : w ≠ (cc k).second 0 := fun e1 =>
              hw2 ⟨e.d, by omega, by rw [Function.update_same, e1]⟩
            refine ⟨?_, ?_⟩
            · rcases hw1 with h1 | ⟨x, hx, e1⟩
              · exact h1
              · have hx0 : x = 0 := by omega
                subst hx0
                exact absurd e1.symm hne
            · rintro ⟨n, hn, e1⟩
              exact hw2 ⟨n, by omega, by rw [Function.update_noteq (by omega), e1]⟩
          · rintro ⟨hw1, hw2⟩
            refine ⟨Or.inl hw1, ?_⟩
            rintro ⟨n, hn, e1⟩
            rcases Nat.lt_succ_iff_lt_or_eq.mp hn with h2 | h2
            · rw [Function.update_noteq (by omega)] at e1
              exact hw2 ⟨n, h2, e1⟩
            · subst h2
              rw [Function.update_same] at e1
              exact hnot (e1 ▸ hw1)
        rw [hset]
        exact he.placed
      · intro n hn
        simp only at hn ⊢
        rw [classMembers_succ]
        rcases Nat.lt_succ_iff_lt_or_eq.mp hn with h2 | h2
        · rw [Function.update_noteq (by omega)]
          exact Finset.mem_union_left _ (he.defer_mem n h2)
        · subst h2
          rw [Function.update_same]
          exact Finset.mem_union_right _
            (Finset.mem_image.mpr ⟨0, Finset.mem_range.mpr (by omega), rfl⟩)
      · intro a b ha hb e1
        simp only at ha hb e1
        rcases Nat.lt_succ_iff_lt_or_eq.mp ha with h2 | h2 <;>
          rcases Nat.lt_succ_iff_lt_or_eq.mp hb with h3 | h3
        · rw [Function.update_noteq (by omega), Function.update_noteq (by omega)] at e1
          exact he.defer_inj a b h2 h3 e1
        · subst h3
          rw [Function.update_noteq (by omega), Function.update_same] at e1
          exact absurd (e1 ▸ he.defer_mem a h2) hnot
        · subst h2
          rw [Function.update_same, Function.update_noteq (by omega)] at e1
          exact absurd (e1 ▸ he.defer_mem b h3) hnot
        · omega
      · intro h
        rw [hd1] at h
        simp at h
      · exact he.frame
    · rw [if_neg hd]
      have hD : ∀ w, w ∈ (Finset.range e.d).image e.defer → w ∈ classMembers cc k := by
        intro w hw
        obtain ⟨n, hn, e1⟩ := Finset.mem_image.mp hw
        exact e1 ▸ he.defer_mem n (Finset.mem_range.mp hn)
      obtain ⟨w1, w2, w3⟩ := write_class_spec (R := NonAdj g) (e.colour + 1) (cc k)
        (cc k).first 0 e.out _ e.colour he.placed (fun _ => rfl) (fun h => absurd h (by omega))
        (fun a ha hb => by
          have := he.placed.bounds_le a ha
          omega)
        (fun x _ hx hc => hinv.not_mem_lower hke (by omega) (Finset.mem_sdiff.mp hc).1)
        (fun x y hx hy e1 => (hinv.inj k x k y hke (by omega) hke (by omega) e1).2)
        (fun x y hx hy hxy => hinv.indep k x y hke (by omega) (by omega) hxy)
      have hset : (classMembers cc k \ (Finset.range e.d).image e.defer) ∪
          (Finset.Ico 0 (0 + (cc k).first)).image (cc k).second =
          classMembers cc (k + 1) \ (Finset.range e.d).image e.defer := by
        ext w
        rw [classMembers_succ]
        simp only [Finset.mem_sdiff, Finset.mem_union, Finset.mem_image, Finset.mem_range,
          Finset.mem_Ico, Nat.zero_add, Nat.zero_le, true_and]
        constructor
        · rintro (⟨h1, h2⟩ | ⟨x, hx, e1⟩)
          · exact ⟨Or.inl h1, h2⟩
          · refine ⟨Or.inr ⟨x, hx, e1⟩, ?_⟩
            rintro ⟨n, hn, e2⟩
            have := he.defer_mem n hn
            rw [e2, ← e1] at this
            exact hinv.not_mem_lower hke hx this
        · rintro ⟨h1 | h1, h2⟩
          · exact Or.inl ⟨h1, h2⟩
          · exact Or.inr h1
      rw [hset, if_neg (by have := hpos k hke; omega)] at w2
      have hcard := w2.card_eq
      have hsub : classMembers cc (k + 1) \ (Finset.range e.d).image e.defer ⊆ p :=
        (Finset.sdiff_subset).trans (hinv.members_sub (by omega))
      have hle := Finset.card_le_card hsub
      apply ih (k + 1) _ (by omega)
      constructor
      · simp only []
        rw [w1]
        exact w2
      · intro n hn
        rw [classMembers_succ]
        exact Finset.mem_union_left _ (he.defer_mem n hn)
      · exact he.defer_inj
      · exact he.no_defer
      · intro j hj
        simp only []
        obtain ⟨e1, e2⟩ := w3 j (by omega)
        rw [e1, e2]
        exact he.frame j hj

theorem Placed.mono {R S : Nat → Nat → Prop} {c : Finset Nat} {i : Nat}
    {order bounds : Nat → Nat} {colour : Nat} (h : Placed R c i order bounds colour)
    (hRS : ∀ v w, R v w → S v w) : Placed S c i order bounds colour :=
  { h with sound := fun a b hab hb e => hRS _ _ (h.sound a b hab hb e) }

theorem colour_class_order_with_repair_spec (g : FixedBitGraph) (p : FixedBitSet)
    (po pb : Nat → Nat) (delta : Int) (selective do_defer : Bool)
    (colour_classes : ColourClasses) (defer : Nat → Nat) :
    ∃ r, colour_class_order_with_repair g p po pb delta selective do_defer colour_classes defer
        = some r ∧ OutSpec (NonAdj g) p po pb r := by
  obtain ⟨t, ht, hinv, hpos⟩ := repair_loop_spec g delta selective p p.popcount
    { p_left := p, colour_classes := colour_classes, colour_classes_end := 0 }
    (Finset.Subset.refl _) (by simpa using ClassesInv.start g colour_classes)
    (fun k hk => absurd hk (by simp)) (le_refl _)
  refine ⟨_, by rw [colour_class_order_with_repair, ht]; rfl, ?_⟩
  have hemit := @write_classes_spec g p t.colour_classes t.colour_classes_end po pb do_defer
    hinv hpos
    t.colour_classes_end 0
    { out := { p_order := po, p_bounds := pb, i := 0 }, colour := 0, d := 0, defer := defer }
    (by omega)
    { placed := by simpa [classMembers] using Placed.empty (NonAdj g) po pb
      defer_mem := fun n hn => absurd hn (by simp)
      defer_inj := fun a b ha => absurd ha (by simp)
      no_defer := fun _ => rfl
      frame := fun j _ => ⟨rfl, rfl⟩ }
  set e := write_classes do_defer t.colour_classes t.colour_classes_end 0
    { out := { p_order := po, p_bounds := pb, i := 0 }, colour := 0, d := 0, defer := defer }
    with he
  have hall : classMembers t.colour_classes t.colour_classes_end = p := by
    ext w
    rw [mem_classMembers, hinv.mem_iff]
  have hpl := hemit.placed
  rw [hall] at hpl
  simp only []
  cases do_defer with
  | false =>
    have hd := hemit.no_defer rfl
    rw [hd] at hpl
    simp only [Finset.range_zero, Finset.image_empty, Finset.sdiff_empty] at hpl
    have hc := hpl.card_eq
    simp only [Bool.false_eq_true, if_false]
    exact ⟨hc.symm, ⟨_, hc ▸ hpl⟩, hemit.frame⟩
  | true =>
    simp only [if_true]
    obtain ⟨h1, h2, h3⟩ := append_deferred_spec (R := NonAdj g) e.defer e.d 0 e.colour e.out _
      hpl
      (fun m _ hm hc => (Finset.mem_sdiff.mp hc).2
        (Finset.mem_image.mpr ⟨m, Finset.mem_range.mpr (by omega), rfl⟩))
      (fun a b _ ha _ hb e1 => hemit.defer_inj a b (by omega) (by omega) e1)
    have hset : (p \ (Finset.range e.d).image e.defer) ∪
        (Finset.Ico 0 (0 + e.d)).image e.defer = p := by
      ext w
      simp only [Finset.mem_union, Finset.mem_sdiff, Finset.mem_image, Finset.mem_range,
        Finset.mem_Ico, Nat.zero_add, Nat.zero_le, true_and]
      constructor
      · rintro (⟨hw, _⟩ | ⟨m, hm, e1⟩)
        · exact hw
        · exact hall ▸ (e1 ▸ hemit.defer_mem m hm)
      · intro hw
        by_cases hc : ∃ a, a < e.d ∧ e.defer a = w
        · exact Or.inr hc
        · exact Or.inl ⟨hw, hc⟩
    rw [hset] at h2
    have hc := h2.card_eq
    rw [← hc] at h1 h2 h3
    exact ⟨h1, ⟨_, h2⟩, fun k hk => by
      obtain ⟨e1, e2⟩ := h3 k (by omega)
      rw [e1, e2]
      have := h2.card_eq
      exact hemit.frame k (by omega)⟩

theorem Placed.bounds_mono {R : Nat → Nat → Prop} {c : Finset Nat} {i : Nat}
    {order bounds : Nat → Nat} {colour : Nat} (h : Placed R c i order bounds colour) :
    ∀ b a, a ≤ b → b < i → bounds a ≤ bounds b := by
  intro b
  induction b with
  | zero => intro a ha _; have : a = 0 := by omega
            subst this; exact le_refl _
  | succ b ih =>
    intro a ha hb
    rcases Nat.eq_or_lt_of_le ha with e | e
    · subst e; exact le_refl _
    · have h1 := ih a (by omega) (by omega)
      rcases h.bounds_step b hb with e2 | e2 <;> omega

/-- Replacing the member at `pos` of a colour class by `v` and moving the slot to the end `last`
of the class: the positions `[pos, last)` take the following entry, `last` takes `v`. -/
theorem Placed.replace {R : Nat → Nat → Prop} {c : Finset Nat} {i : Nat}
    {order bounds : Nat → Nat} {colour : Nat} (h : Placed R c i order bounds colour)
    (hsymm : ∀ x y, R x y → R y x) {v pos last : Nat} (hpl : pos ≤ last) (hli : last < i)
    (hconst : ∀ k, pos ≤ k → k ≤ last → bounds k = bounds pos) (hv : v ∉ c)
    (hR : ∀ k, k < i → bounds k = bounds pos → k ≠ pos → R v (order k)) :
    Placed R (insert v (c.erase (order pos))) i
      (fun k => if pos ≤ k ∧ k < last then order (k + 1) else if k = last then v else order k)
      bounds colour := by
  set order2 : Nat → Nat :=
    fun k => if pos ≤ k ∧ k < last then order (k + 1) else if k = last then v else order k
    with ho2
  have e_mid : ∀ k, pos ≤ k → k < last → order2 k = order (k + 1) := by
    intro k h1 h2
    simp only [ho2]; rw [if_pos ⟨h1, h2⟩]
  have e_last : order2 last = v := by
    simp [ho2]
  have e_out : ∀ k, (k < pos ∨ last < k) → order2 k = order k := by
    intro k hk
    simp only [ho2]; rw [if_neg (by omega), if_neg (by omega)]
  -- every new entry other than `v` is an old entry of the same colour, not the one at `pos`
  have hsrc : ∀ k, k < i → k ≠ last →
      ∃ k0, k0 < i ∧ k0 ≠ pos ∧ order2 k = order k0 ∧ bounds k0 = bounds k ∧
        ((k0 = k ∧ ¬ (pos ≤ k ∧ k < last)) ∨ (k0 = k + 1 ∧ pos ≤ k ∧ k < last)) := by
    intro k hk hkl
    by_cases h1 : pos ≤ k ∧ k < last
    · exact ⟨k + 1, by omega, by omega, e_mid k h1.1 h1.2,
        by rw [hconst (k + 1) (by omega) (by omega), hconst k h1.1 (by omega)], Or.inr ⟨rfl, h1⟩⟩
    · exact ⟨k, hk, by omega, e_out k (by omega), rfl, Or.inl ⟨rfl, h1⟩⟩
  have hne : ∀ k, k < i → k ≠ pos → order k ≠ v :=
    fun k hk _ e => hv ((h.mem_iff v).mpr ⟨k, hk, e⟩)
  constructor
  · intro w
    rw [Finset.mem_insert, Finset.mem_erase, h.mem_iff]
    constructor
    · rintro (e | ⟨hw, k0, hk0, e⟩)
      · exact ⟨last, hli, by rw [e_last, e]⟩
      · have hk0p : k0 ≠ pos := fun e2 => hw (by rw [← e, e2])
        by_cases h1 : pos < k0 ∧ k0 ≤ last
        · exact ⟨k0 - 1, by omega, by
            rw [e_mid (k0 - 1) (by omega) (by omega)]
            have : k0 - 1 + 1 = k0 := by omega
            rw [this, e]⟩
        · exact ⟨k0, hk0, by rw [e_out k0 (by omega), e]⟩
    · rintro ⟨k, hk, e⟩
      by_cases hkl : k = last
      · subst hkl; exact Or.inl (by rw [← e, e_last])
      · obtain ⟨k0, a, b, c1, _, _⟩ := hsrc k hk hkl
        right
        rw [c1] at e
        refine ⟨fun e2 => b ?_, k0, a, e⟩
        exact h.inj k0 pos a (by omega) (by rw [e, e2])
  · intro a b ha hb e
    by_cases hal : a = last <;> by_cases hbl : b = last
    · omega
    · obtain ⟨k0, a1, b1, c1, _, _⟩ := hsrc b hb hbl
      rw [hal, e_last, c1] at e
      exact absurd e.symm (hne k0 a1 b1)
    · obtain ⟨k0, a1, b1, c1, _, _⟩ := hsrc a ha hal
      rw [hbl, e_last, c1] at e
      exact absurd e (hne k0 a1 b1)
    · obtain ⟨k0, a1, _, c1, _, d1⟩ := hsrc a ha hal
      obtain ⟨k1, a2, _, c2, _, d2⟩ := hsrc b hb hbl
      rw [c1, c2] at e
      have := h.inj k0 k1 a1 a2 e
      omega
  · intro a b hab hb e
    by_cases hal : a = last <;> by_cases hbl : b = last
    · omega
    · obtain ⟨k0, a1, b1, c1, c2, _⟩ := hsrc b hb hbl
      rw [hal, e_last, c1]
      apply hR k0 a1 _ b1
      rw [c2, ← e, hal]
      exact hconst last hpl (le_refl _)
    · obtain ⟨k0, a1, b1, c1, c2, _⟩ := hsrc a (by omega) hal
      rw [hbl, e_last, c1]
      apply hsymm
      apply hR k0 a1 _ b1
      rw [c2, e, hbl]
      exact hconst last hpl (le_refl _)
    · obtain ⟨k0, a1, _, c1, c2, d1⟩ := hsrc a (by omega) hal
      obtain ⟨k1, a2, _, c3, c4, d2⟩ := hsrc b hb hbl
      rw [c1, c3]
      exact h.sound k0 k1 (by omega) a2 (by rw [c2, c4, e])
  · exact h.bounds_zero
  · exact h.bounds_step
  · exact h.bounds_last
  · exact h.bounds_le
  · exact h.colour_zero

/-- Inserting a vertex `w` at position `x`, the end of the colour class of `x - 1`; the entries
from `x` on move up by one. -/
theorem Placed.insert_at {R : Nat → Nat → Prop} {c : Finset Nat} {i : Nat}
    {order bounds : Nat → Nat} {colour : Nat} (h : Placed R c i order bounds colour)
    (hsymm : ∀ x y, R x y → R y x) {w x : Nat} (hx0 : 0 < x) (hxi : x < i)
    (hend : bounds x ≠ bounds (x - 1)) (hw : w ∉ c)
    (hR : ∀ k, k < x → bounds k = bounds (x - 1) → R w (order k)) :
    Placed R (insert w c) (i + 1)
      (fun k => if k = x then w else if x < k ∧ k ≤ i + 1 then order (k - 1) else order k)
      (fun k => if k = x then bounds (x - 1)
        else if x < k ∧ k ≤ i + 1 then bounds (k - 1) else bounds k)
      colour := by
  set order2 : Nat → Nat :=
    fun k => if k = x then w else if x < k ∧ k ≤ i + 1 then order (k - 1) else order k
    with ho2
  set bounds2 : Nat → Nat :=
    fun k => if k = x then bounds (x - 1)
      else if x < k ∧ k ≤ i + 1 then bounds (k - 1) else bounds k
    with hb2
  have o_x : order2 x = w := by simp [ho2]
  have b_x : bounds2 x = bounds (x - 1) := by simp [hb2]
  have o_lo : ∀ k, k < x → order2 k = order k := by
    intro k hk; simp only [ho2]; rw [if_neg (by omega), if_neg (by omega)]
  have b_lo : ∀ k, k < x → bounds2 k = bounds k := by
    intro k hk; simp only [hb2]; rw [if_neg (by omega), if_neg (by omega)]
  have o_hi : ∀ k, x < k → k ≤ i → order2 k = order (k - 1) := by
    intro k hk1 hk2; simp only [ho2]; rw [if_neg (by omega), if_pos (by omega)]
  have b_hi : ∀ k, x < k → k ≤ i → bounds2 k = bounds (k - 1) := by
    intro k hk1 hk2; simp only [hb2]; rw [if_neg (by omega), if_pos (by omega)]
  have hne : ∀ k, k < i → order k ≠ w := fun k hk e => hw ((h.mem_iff w).mpr ⟨k, hk, e⟩)
  have hgt : ∀ k, x ≤ k → k < i → bounds (x - 1) < bounds k := by
    intro k hk1 hk2
    have h1 := h.bounds_mono k x hk1 hk2
    have h2 := h.bounds_mono x (x - 1) (by omega) hxi
    omega
  -- every new entry other than `w` is an old entry of the same colour
  have hsrc : ∀ k, k < i + 1 → k ≠ x →
      ∃ k0, k0 < i ∧ order2 k = order k0 ∧ bounds2 k = bounds k0 ∧
        ((k < x ∧ k0 = k) ∨ (x < k ∧ k0 + 1 = k)) := by
    intro k hk hkx
    by_cases h1 : k < x
    · exact ⟨k, by omega, o_lo k h1, b_lo k h1, Or.inl ⟨h1, rfl⟩⟩
    · exact ⟨k - 1, by omega, o_hi k (by omega) (by omega), b_hi k (by omega) (by omega),
        Or.inr ⟨by omega, by omega⟩⟩
  constructor
  · intro u
    rw [Finset.mem_insert, h.mem_iff]
    constructor
    · rintro (e | ⟨k0, hk0, e⟩)
      · exact ⟨x, by omega, by rw [o_x, e]⟩
      · by_cases h1 : k0 < x
        · exact ⟨k0, by omega, by rw [o_lo k0 h1, e]⟩
        · exact ⟨k0 + 1, by omega, by rw [o_hi (k0 + 1) (by omega) (by omega)]; exact e⟩
    · rintro ⟨k, hk, e⟩
      by_cases hkx : k = x
      · subst hkx; exact Or.inl (by rw [← e, o_x])
      · obtain ⟨k0, a, b, _⟩ := hsrc k hk hkx
        exact Or.inr ⟨k0, a, by rw [← b, e]⟩
  · intro a b ha hb e
    by_cases hax : a = x <;> by_cases hbx : b = x
    · omega
    · obtain ⟨k0, a1, b1, _⟩ := hsrc b hb hbx
      rw [hax, o_x, b1] at e
      exact absurd e.symm (hne k0 a1)
    · obtain ⟨k0, a1, b1, _⟩ := hsrc a ha hax
      rw [hbx, o_x, b1] at e
      exact absurd e (hne k0 a1)
    · obtain ⟨k0, a1, b1, _, d1⟩ := hsrc a ha hax
      obtain ⟨k1, a2, b2, _, d2⟩ := hsrc b hb hbx
      rw [b1, b2] at e
      have := h.inj k0 k1 a1 a2 e
      omega
  · intro a b hab hb e
    by_cases hax : a = x <;> by_cases hbx : b = x
    · omega
    · obtain ⟨k0, a1, b1, c1, d1⟩ := hsrc b hb hbx
      exfalso
      rw [hax, b_x, c1] at e
      have := hgt k0 (by omega) a1
      omega
    · obtain ⟨k0, a1, b1, c1, d1⟩ := hsrc a (by omega) hax
      rw [hbx, o_x, b1]
      apply hsymm
      apply hR k0 (by omega)
      rw [← c1, e, hbx, b_x]
    · obtain ⟨k0, a1, b1, c1, d1⟩ := hsrc a (by omega) hax
      obtain ⟨k1, a2, b2, c2, d2⟩ := hsrc b hb hbx
      rw [b1, b2]
      exact h.sound k0 k1 (by omega) a2 (by rw [← c1, ← c2, e])
  · intro _
    rw [b_lo 0 hx0]
    exact h.bounds_zero (by omega)
  · intro k hk
    by_cases h1 : k + 1 < x
    · rw [b_lo (k + 1) h1, b_lo k (by omega)]
      exact h.bounds_step k (by omega)
    · by_cases h2 : k + 1 = x
      · left
        rw [h2, b_x, b_lo k (by omega)]
        congr 1
        omega
      · by_cases h3 : k = x
        · subst h3
          rw [b_x, b_hi (k + 1) (by omega) (by omega), Nat.add_sub_cancel]
          have := h.bounds_step (k - 1) (by omega)
          have e1 : k - 1 + 1 = k := by omega
          rw [e1] at this
          exact this
        · rw [b_hi (k + 1) (by omega) (by omega), b_hi k (by omega) (by omega),
            Nat.add_sub_cancel]
          have := h.bounds_step (k - 1) (by omega)
          have e1 : k - 1 + 1 = k := by omega
          rw [e1] at this
          exact this
  · intro _
    rw [Nat.add_sub_cancel, b_hi i hxi (le_refl _)]
    exact h.bounds_last (by omega)
  · intro k hk
    by_cases hkx : k = x
    · rw [hkx, b_x]; exact h.bounds_le (x - 1) (by omega)
    · obtain ⟨k0, a1, _, c1, _⟩ := hsrc k hk hkx
      rw [c1]; exact h.bounds_le k0 a1
  · intro h0; omega

theorem shift_up_apply :
    ∀ (todo z : Nat) (a : Nat → Nat) (k : Nat), todo ≤ z + 1 →
      shift_up a todo z k = if z + 1 - todo < k ∧ k ≤ z + 1 then a (k - 1) else a k := by
  intro todo
  induction todo with
  | zero =>
    intro z a k _
    rw [shift_up, if_neg (by omega)]
  | succ todo ih =>
    intro z a k hz
    rw [shift_up]
    rcases Nat.eq_zero_or_pos z with hz0 | hz0
    · subst hz0
      have ht : todo = 0 := by omega
      subst ht
      rw [shift_up]
      by_cases hk : k = 1
      · subst hk; rw [Function.update_same, if_pos (by omega)]
      · rw [Function.update_noteq (by omega), if_neg (by omega)]
    · rw [ih (z - 1) _ k (by omega)]
      by_cases h1 : z - 1 + 1 - todo < k ∧ k ≤ z - 1 + 1
      · rw [if_pos h1, if_pos (by omega), Function.update_noteq (by omega)]
      · rw [if_neg h1]
        by_cases h2 : k = z + 1
        · subst h2
          rw [Function.update_same, if_pos (by omega), Nat.add_sub_cancel]
        · rw [Function.update_noteq h2, if_neg (by omega)]

theorem close_gap_spec (bounds : Nat → Nat) :
    ∀ (todo pos : Nat) (order : Nat → Nat) (last : Nat), pos ≤ last →
      (∀ k, pos ≤ k → k < last → bounds k = bounds (k + 1)) →
      bounds last ≠ bounds (last + 1) → last - pos < todo →
      close_gap bounds todo pos order =
        some (fun k => if pos ≤ k ∧ k < last then order (k + 1) else order k, last) := by
  intro todo
  induction todo with
  | zero => intro pos order last _ _ _ h; omega
  | succ todo ih =>
    intro pos order last hpl hconst hend hfuel
    rw [close_gap]
    by_cases he : bounds pos = bounds (pos + 1)
    · rw [if_pos he]
      have hlt : pos < last := by
        rcases Nat.eq_or_lt_of_le hpl with e | e
        · subst e; exact absurd he hend
        · exact e
      rw [ih (pos + 1) _ last (by omega) (fun k h1 h2 => hconst k (by omega) h2) hend (by omega)]
      congr 1
      refine Prod.ext ?_ rfl
      funext k
      simp only []
      by_cases h1 : pos + 1 ≤ k ∧ k < last
      · rw [if_pos h1, if_pos (by omega), Function.update_noteq (by omega)]
      · rw [if_neg h1]
        by_cases h2 : k = pos
        · subst h2; rw [Function.update_same, if_pos (by omega)]
        · rw [Function.update_noteq h2, if_neg (by omega)]
    · rw [if_neg he]
      have hlt : pos = last := by
        rcases Nat.eq_or_lt_of_le hpl with e | e
        · exact e
        · exact absurd (hconst pos (le_refl _) e) he
      subst hlt
      congr 1
      refine Prod.ext ?_ rfl
      funext k
      simp only []
      rw [if_neg (by omega)]

theorem skip_class_spec (bounds : Nat → Nat) (i c : Nat) :
    ∀ (todo x stop : Nat), x ≤ stop →
      (∀ k, x ≤ k → k < stop → k < i ∧ bounds k = c) → ¬ (stop < i ∧ bounds stop = c) →
      stop - x ≤ todo → skip_class bounds i c todo x = stop := by
  intro todo
  induction todo with
  | zero =>
    intro x stop h1 _ _ h2
    rw [skip_class]; omega
  | succ todo ih =>
    intro x stop hxs hin hstop hfuel
    rw [skip_class]
    by_cases hc : x < i ∧ bounds x = c
    · rw [if_pos hc]
      have hlt : x < stop := by
        rcases Nat.eq_or_lt_of_le hxs with e | e
        · subst e; exact absurd hc hstop
        · exact e
      exact ih (x + 1) stop (by omega) (fun k h1 h2 => hin k (by omega) h2) hstop (by omega)
    · rw [if_neg hc]
      rcases Nat.eq_or_lt_of_le hxs with e | e
      · exact e
      · exact absurd (hin x (le_refl _) e) hc

/-- The in-place move computes the composition of `Placed.replace` and `Placed.insert_at`. -/
theorem splice_eq (v i pos last x : Nat) (order bounds : Nat → Nat)
    (hpl : pos ≤ last) (hlx : last + 1 < x) (hxi : x ≤ i)
    (hconst : ∀ k, pos ≤ k → k ≤ last → bounds k = bounds pos)
    (hend : bounds (last + 1) ≠ bounds last) :
    splice v i pos x (bounds (x - 1)) order bounds =
      some
        (fun k => if k = x then order pos
          else if x < k ∧ k ≤ i + 1 then
            (fun k => if pos ≤ k ∧ k < last then order (k + 1)
              else if k = last then v else order k) (k - 1)
          else (fun k => if pos ≤ k ∧ k < last then order (k + 1)
              else if k = last then v else order k) k,
         fun k => if k = x then bounds (x - 1)
          else if x < k ∧ k ≤ i + 1 then bounds (k - 1) else bounds k) := by
  have hb1 : ∀ k, shift_up bounds (i + 1 - x) i k =
      if x < k ∧ k ≤ i + 1 then bounds (k - 1) else bounds k := by
    intro k
    rw [shift_up_apply _ _ _ _ (by omega)]
    have : i + 1 - (i + 1 - x) = x := by omega
    rw [this]
  have ho1 : ∀ k, shift_up order (i + 1 - x) i k =
      if x < k ∧ k ≤ i + 1 then order (k - 1) else order k := by
    intro k
    rw [shift_up_apply _ _ _ _ (by omega)]
    have : i + 1 - (i + 1 - x) = x := by omega
    rw [this]
  have hb2 : ∀ k, k < x →
      Function.update (shift_up bounds (i + 1 - x) i) x (bounds (x - 1)) k = bounds k := by
    intro k hk
    rw [Function.update_noteq (by omega), hb1, if_neg (by omega)]
  unfold splice
  simp only []
  rw [close_gap_spec _ (i + 1) pos _ last hpl
    (fun k h1 h2 => by
      rw [hb2 k (by omega), hb2 (k + 1) (by omega), hconst k h1 (by omega),
        hconst (k + 1) (by omega) (by omega)])
    (by rw [hb2 last (by omega), hb2 (last + 1) (by omega)]; exact fun e => hend e.symm)
    (by omega)]
  simp only [Option.map_some']
  congr 1
  refine Prod.ext ?_ ?_
  · funext k
    simp only []
    by_cases hkl : k = last
    · subst hkl
      rw [Function.update_same, if_neg (by omega), if_neg (by omega), if_neg (by omega),
        if_pos rfl]
    · rw [Function.update_noteq hkl]
      by_cases h1 : pos ≤ k ∧ k < last
      · rw [if_pos h1, Function.update_noteq (by omega), ho1, if_neg (by omega),
          if_neg (by omega), if_neg (by omega), if_pos h1]
      · rw [if_neg h1]
        by_cases hkx : k = x
        · subst hkx
          rw [Function.update_same, ho1, if_neg (by omega), if_pos rfl]
        · rw [Function.update_noteq hkx, ho1, if_neg hkx]
          by_cases h2 : x < k ∧ k ≤ i + 1
          · rw [if_pos h2, if_pos h2, if_neg (by omega), if_neg (by omega)]
          · rw [if_neg h2, if_neg h2, if_neg h1, if_neg hkl]
  · funext k
    simp only []
    by_cases hkx : k = x
    · subst hkx
      rw [Function.update_same, if_pos rfl]
    · rw [Function.update_noteq hkx, hb1, if_neg hkx]

theorem find_target_spec (g : FixedBitGraph) (order bounds : Nat → Nat) (u : Nat) :
    ∀ (todo x ncc : Nat) (conflict : Bool) (s x1 c1 : Nat), s ≤ x →
      (∀ k, s ≤ k → k < x → bounds k = ncc) →
      (conflict = false → ∀ k, s ≤ k → k < x → g.adjacent u (order k) = false) →
      (s = x → ncc = bounds x) → (0 < s ∧ bounds (s - 1) ≠ bounds s) →
      find_target g order bounds u todo x ncc conflict = some (x1, c1) →
      ∃ s1, s ≤ s1 ∧ s1 < x1 ∧ x1 < x + todo ∧ (0 < s1 ∧ bounds (s1 - 1) ≠ bounds s1) ∧
        (∀ k, s1 ≤ k → k < x1 → bounds k = c1 ∧ g.adjacent u (order k) = false) ∧
        bounds x1 ≠ c1 := by
  intro todo
  induction todo with
  | zero =>
    intro x ncc conflict s x1 c1 _ _ _ _ _ h
    rw [find_target] at h
    exact absurd h (by simp)
  | succ todo ih =>
    intro x ncc conflict s x1 c1 hsx hconst hconf hinit hB h
    rw [find_target] at h
    by_cases hne : ncc ≠ bounds x
    · rw [if_pos hne] at h
      have hlt : s < x := by
        rcases Nat.eq_or_lt_of_le hsx with e | e
        · exact absurd (hinit e) hne
        · exact e
      cases hc : conflict with
      | false =>
        rw [hc] at h
        simp only [Bool.not_false, if_true, Option.some.injEq, Prod.mk.injEq] at h
        obtain ⟨e1, e2⟩ := h
        subst e1; subst e2
        exact ⟨s, le_refl _, hlt, by omega, hB,
          fun k h1 h2 => ⟨hconst k h1 h2, hconf hc k h1 h2⟩, fun e => hne e.symm⟩
      | true =>
        rw [hc] at h
        simp only [Bool.not_true, Bool.false_eq_true, if_false] at h
        obtain ⟨s1, a, b, c, d, e, f⟩ := ih (x + 1) (bounds x) _ x x1 c1 (by omega)
          (fun k h1 h2 => by
            have : k = x := by omega
            rw [this])
          (fun hf k h1 h2 => by
            have : k = x := by omega
            rw [this]; exact hf)
          (fun e => absurd e (by omega))
          ⟨by omega, by
            rw [hconst (x - 1) (by omega) (by omega)]; exact hne⟩
          h
        exact ⟨s1, by omega, b, by omega, d, e, f⟩
    · rw [if_neg hne] at h
      have heq : ncc = bounds x := by
        by_contra hcon; exact hne hcon
      obtain ⟨s1, a, b, c, d, e, f⟩ := ih (x + 1) ncc _ s x1 c1 (by omega)
        (fun k h1 h2 => by
          rcases Nat.lt_succ_iff_lt_or_eq.mp h2 with h3 | h3
          · exact hconst k h1 h3
          · rw [h3, heq])
        (fun hf k h1 h2 => by
          have hf2 : conflict = false ∧ g.adjacent u (order x) = false := by
            simpa using hf
          rcases Nat.lt_succ_iff_lt_or_eq.mp h2 with h3 | h3
          · exact hconf hf2.1 k h1 h3
          · rw [h3]; exact hf2.2)
        (fun e => absurd e (by omega))
        hB h
      exact ⟨s1, a, b, by omega, d, e, f⟩

theorem nonAdj_symm (g : FixedBitGraph) : ∀ x y, NonAdj g x y → NonAdj g y x := by
  intro x y h
  unfold NonAdj at h ⊢
  rw [adjacent_comm]; exact h

theorem try_recolour_spec {g : FixedBitGraph} {C : Finset Nat} {i colour : Nat}
    {order bounds : Nat → Nat} (hpl : Placed (NonAdj g) C i order bounds colour)
    {v s c w : Nat} (hv : v ∉ C) (hsc : s ≤ c) (hcw : c < w) (hwi : w < i)
    (hconst : ∀ k, s ≤ k → k < w → bounds k = bounds (w - 1))
    (hstart : s = 0 ∨ bounds (s - 1) ≠ bounds s) (hend : bounds (w - 1) ≠ bounds w)
    (hothers : ∀ k, s ≤ k → k < w → k ≠ c → g.adjacent v (order k) = false) :
    ∃ res, try_recolour g v i order bounds c = some res ∧
      ∀ po2 pb2, res = some (po2, pb2) →
        Placed (NonAdj g) (insert v C) (i + 1) po2 pb2 colour ∧
        ∀ k, i + 1 < k → po2 k = order k ∧ pb2 k = bounds k := by
  unfold try_recolour
  have hmono := hpl.bounds_mono
  have hcc : bounds c = bounds (w - 1) := hconst c hsc hcw
  have hskip : skip_class bounds i (bounds c) (i - c) c = w :=
    skip_class_spec bounds i (bounds c) (i - c) c w (by omega)
      (fun k h1 h2 => ⟨by omega, by rw [hconst k (by omega) h2, hcc]⟩)
      (fun h => hend (by rw [← hcc, h.2])) (by omega)
  rw [hskip]
  simp only []
  cases hft : find_target g order bounds (order c) (i - w) w (bounds w) false with
  | none => exact ⟨none, rfl, fun _ _ h => absurd h (by simp)⟩
  | some r =>
    obtain ⟨x1, c1⟩ := r
    simp only []
    obtain ⟨s1, hs1, hs1x, hx1, hB, hcls, hx1e⟩ := find_target_spec g order bounds (order c)
      (i - w) w (bounds w) false w x1 c1 (le_refl _) (fun k h1 h2 => absurd h2 (by omega))
      (fun _ k h1 h2 => absurd h2 (by omega)) (fun _ => rfl)
      ⟨by omega, hend⟩ hft
    have hc1 : c1 = bounds (x1 - 1) := ((hcls (x1 - 1) (by omega) (by omega)).1).symm
    have hlast : w - 1 + 1 = w := by omega
    rw [hc1, splice_eq v i c (w - 1) x1 order bounds (by omega) (by omega) (by omega)
      (fun k h1 h2 => by rw [hconst k (by omega) (by omega), hcc])
      (by rw [hlast]; exact fun e => hend e.symm)]
    refine ⟨_, rfl, ?_⟩
    intro po2 pb2 hres
    simp only [Option.map_some', Option.some.injEq, Prod.mk.injEq] at hres
    obtain ⟨e1, e2⟩ := hres
    have hu : order c ∈ C := (hpl.mem_iff _).mpr ⟨c, by omega, rfl⟩
    have hrep := @Placed.replace _ _ _ _ _ _ hpl (nonAdj_symm g) v c (w - 1) (by omega)
      (by omega) (fun k h1 h2 => by rw [hconst k (by omega) (by omega), hcc]) hv
      (fun k hk hb hkc => by
        have hks : s ≤ k := by
          by_contra hcon
          rcases hstart with h0 | h0
          · omega
          · have m1 := hmono (s - 1) k (by omega) (by omega)
            have m2 := hmono s (s - 1) (by omega) (by omega)
            have m3 := hconst s (le_refl _) (by omega)
            omega
        have hkw : k < w := by
          by_contra hcon
          have m1 := hmono k w (by omega) hk
          have m2 := hmono w (w - 1) (by omega) (by omega)
          omega
        exact hothers k hks hkw hkc)
    have hins := hrep.insert_at (nonAdj_symm g) (w := order c) (x := x1) (by omega) (by omega)
      (by rw [← hc1]; exact hx1e)
      (by
        intro hmem
        rcases Finset.mem_insert.mp hmem with e3 | e3
        · exact hv (e3 ▸ hu)
        · exact (Finset.mem_erase.mp e3).1 rfl)
      (fun k hk hb => by
        have hks : s1 ≤ k := by
          by_contra hcon
          have m1 := hmono (s1 - 1) k (by omega) (by omega)
          have m2 := hmono s1 (s1 - 1) (by omega) (by omega)
          have m3 := (hcls s1 (le_refl _) hs1x).1
          omega
        show NonAdj g (order c)
          (if c ≤ k ∧ k < w - 1 then order (k + 1) else if k = w - 1 then v else order k)
        rw [if_neg (by omega), if_neg (by omega)]
        exact (hcls k hks hk).2)
    have hset : insert (order c) (insert v (C.erase (order c))) = insert v C := by
      ext z
      simp only [Finset.mem_insert, Finset.mem_erase]
      constructor
      · rintro (e3 | e3 | ⟨_, e3⟩)
        · exact Or.inr (e3 ▸ hu)
        · exact Or.inl e3
        · exact Or.inr e3
      · rintro (e3 | e3)
        · exact Or.inr (Or.inl e3)
        · by_cases hz : z = order c
          · exact Or.inl hz
          · exact Or.inr (Or.inr ⟨hz, e3⟩)
    rw [hset] at hins
    rw [← e1, ← e2]
    refine ⟨hins, fun k hk => ?_⟩
    simp only []
    rw [if_neg (by omega), if_neg (by omega), if_neg (by omega), if_neg (by omega),
      if_neg (by omega), if_neg (by omega)]
    exact ⟨rfl, rfl⟩

theorem scanInv_step {g : FixedBitGraph} {v : Nat} {order bounds : Nat → Nat} {w s : Nat}
    {sc1 : Scan} (hs : s ≤ w) (hprev : sc1.prev_colour = bounds w)
    (hconst : ∀ k, s ≤ k → k < w → bounds k = bounds w)
    (hstart : s = 0 ∨ bounds (s - 1) ≠ bounds s)
    (h0 : sc1.n_conflicts = 0 → ∀ k, s ≤ k → k < w → g.adjacent v (order k) = false)
    (h1 : sc1.n_conflicts = 1 → ∃ c : Nat, sc1.conflicting_vertex_pos = (c : Int) ∧ s ≤ c ∧
      c < w ∧ g.adjacent v (order c) = true ∧
      ∀ k, s ≤ k → k < w → k ≠ c → g.adjacent v (order k) = false) :
    ScanInv g v order bounds (w + 1)
      (if sc1.n_conflicts < 2 ∧ g.adjacent v (order w) = true then
        { sc1 with n_conflicts := sc1.n_conflicts + 1, conflicting_vertex_pos := w }
       else sc1) := by
  constructor
  · intro h; omega
  · intro _
    refine ⟨s, by omega, ?_, ?_, hstart, ?_, ?_⟩
    · rw [Nat.add_sub_cancel]
      split
      · exact hprev
      · exact hprev
    · intro k hk1 hk2
      rw [Nat.add_sub_cancel]
      rcases Nat.lt_succ_iff_lt_or_eq.mp hk2 with h2 | h2
      · exact hconst k hk1 h2
      · rw [h2]
    · by_cases hc : sc1.n_conflicts < 2 ∧ g.adjacent v (order w) = true
      · rw [if_pos hc]
        intro h; simp only at h; omega
      · rw [if_neg hc]
        intro hn k hk1 hk2
        rcases Nat.lt_succ_iff_lt_or_eq.mp hk2 with h2 | h2
        · exact h0 hn k hk1 h2
        · rw [h2]
          have : ¬ (g.adjacent v (order w) = true) := fun h => hc ⟨by omega, h⟩
          simpa using this
    · by_cases hc : sc1.n_conflicts < 2 ∧ g.adjacent v (order w) = true
      · rw [if_pos hc]
        intro hn
        simp only at hn
        have hn0 : sc1.n_conflicts = 0 := by omega
        refine ⟨w, rfl, hs, by omega, hc.2, fun k hk1 hk2 hk3 => ?_⟩
        exact h0 hn0 k hk1 (by omega)
      · rw [if_neg hc]
        intro hn
        obtain ⟨c, a1, a2, a3, a4, a5⟩ := h1 hn
        refine ⟨c, a1, a2, by omega, a4, fun k hk1 hk2 hk3 => ?_⟩
        rcases Nat.lt_succ_iff_lt_or_eq.mp hk2 with h2 | h2
        · exact a5 k hk1 h2 hk3
        · rw [h2]
          have : ¬ (g.adjacent v (order w) = true) := fun h => hc ⟨by omega, h⟩
          simpa using this

theorem scan_spec {g : FixedBitGraph} {C : Finset Nat} {i colour : Nat}
    {order bounds : Nat → Nat} (hpl : Placed (NonAdj g) C i order bounds colour)
    {v : Nat} (hv : v ∉ C) :
    ∀ (todo w : Nat) (sc : Scan), w + todo = i → ScanInv g v order bounds w sc →
      ∃ res, scan g v i order bounds todo w sc = some res ∧
        ∀ po2 pb2, res = some (po2, pb2) →
          Placed (NonAdj g) (insert v C) (i + 1) po2 pb2 colour ∧
          ∀ k, i + 1 < k → po2 k = order k ∧ pb2 k = bounds k := by
  intro todo
  induction todo with
  | zero =>
    intro w sc _ _
    exact ⟨none, by rw [scan], fun _ _ h => absurd h (by simp)⟩
  | succ todo ih =>
    intro w sc hw hinv
    have hwi : w < i := by omega
    -- the counting part of the body, entered with a state that describes `[s, w)`
    have hcount : ∀ (sc1 : Scan) (s : Nat), s ≤ w → sc1.prev_colour = bounds w →
        (∀ k, s ≤ k → k < w → bounds k = bounds w) →
        (s = 0 ∨ bounds (s - 1) ≠ bounds s) →
        (sc1.n_conflicts = 0 → ∀ k, s ≤ k → k < w → g.adjacent v (order k) = false) →
        (sc1.n_conflicts = 1 → ∃ c : Nat, sc1.conflicting_vertex_pos = (c : Int) ∧ s ≤ c ∧
          c < w ∧ g.adjacent v (order c) = true ∧
          ∀ k, s ≤ k → k < w → k ≠ c → g.adjacent v (order k) = false) →
        ∃ res, (if sc1.n_conflicts < 2 ∧ g.adjacent v (order w) = true then
            scan g v i order bounds todo (w + 1)
              { sc1 with n_conflicts := sc1.n_conflicts + 1, conflicting_vertex_pos := w }
          else scan g v i order bounds todo (w + 1) sc1) = some res ∧
          ∀ po2 pb2, res = some (po2, pb2) →
            Placed (NonAdj g) (insert v C) (i + 1) po2 pb2 colour ∧
            ∀ k, i + 1 < k → po2 k = order k ∧ pb2 k = bounds k := by
      intro sc1 s a1 a2 a3 a4 a5 a6
      have hstep := @scanInv_step g v order bounds w s sc1 a1 a2 a3 a4 a5 a6
      by_cases hc : sc1.n_conflicts < 2 ∧ g.adjacent v (order w) = true
      · rw [if_pos hc] at hstep ⊢
        exact ih (w + 1) _ (by omega) hstep
      · rw [if_neg hc] at hstep ⊢
        exact ih (w + 1) _ (by omega) hstep
    rw [scan]
    simp only []
    by_cases hb : sc.prev_colour ≠ bounds w
    · rw [if_pos hb]
      have hstart : w = 0 ∨ bounds (w - 1) ≠ bounds w := by
        rcases Nat.eq_zero_or_pos w with h0 | h0
        · exact Or.inl h0
        · obtain ⟨s, _, a2, _⟩ := hinv.pos h0
          exact Or.inr (by rw [← a2]; exact hb)
      have hfin := hcount
        { prev_colour := bounds w, n_conflicts := 0, conflicting_vertex_pos := -1 } w
        (le_refl _) rfl (fun k h1 h2 => absurd h2 (by omega)) hstart
        (fun _ k h1 h2 => absurd h2 (by omega)) (fun h => absurd h (by simp))
      by_cases hn : sc.n_conflicts = 1
      · rw [if_pos hn]
        have hw0 : 0 < w := by
          by_contra hcon
          have := (hinv.zero (by omega)).2
          omega
        obtain ⟨s, a1, a2, a3, a4, _, a6⟩ := hinv.pos hw0
        obtain ⟨c, b1, b2, b3, _, b5⟩ := a6 hn
        rw [b1, Int.toNat_ofNat]
        obtain ⟨res, r1, r2⟩ := try_recolour_spec hpl hv b2 b3 hwi a3 a4
          (by rw [← a2]; exact hb) b5
        rw [r1]
        cases res with
        | none => exact hfin
        | some r => exact ⟨some r, rfl, r2⟩
      · rw [if_neg hn]
        exact hfin
    · rw [if_neg hb]
      have hb2 : sc.prev_colour = bounds w := by
        by_contra hcon; exact hb hcon
      have hw0 : 0 < w := by
        by_contra hcon
        have hw00 : w = 0 := by omega
        have h1 := (hinv.zero hw00).1
        have h2 := hpl.bounds_zero (by omega)
        rw [hw00] at hb2
        omega
      obtain ⟨s, a1, a2, a3, a4, a5, a6⟩ := hinv.pos hw0
      have hbw : bounds (w - 1) = bounds w := by rw [← a2, hb2]
      exact hcount sc s (by omega) hb2 (fun k h1 h2 => by rw [a3 k h1 h2, hbw]) a4 a5 a6

theorem compat_nonAdj (g : FixedBitGraph) : ∀ v w, Compat g false v w → NonAdj g v w := by
  intro v w h
  unfold Compat at h
  simp only [Bool.false_eq_true, if_false] at h
  exact h.2

theorem insert_sdiff_unset {p l : Finset Nat} {v : Nat} (hsub : l ⊆ p) (hv : v ∈ l) :
    insert v (p \ l) = p \ FixedBitSet.unset l v := by
  ext w
  simp only [Finset.mem_insert, Finset.mem_sdiff, FixedBitSet.unset, Finset.mem_erase]
  constructor
  · rintro (e1 | ⟨a, b⟩)
    · subst e1; exact ⟨hsub hv, fun h => h.1 rfl⟩
    · exact ⟨a, fun h => b h.2⟩
  · rintro ⟨a, b⟩
    by_cases hwv : w = v
    · exact Or.inl hwv
    · exact Or.inr ⟨a, fun h => b ⟨hwv, h⟩⟩

theorem fast_loop_spec (g : FixedBitGraph) (delta : Int) (selective : Bool) (p : FixedBitSet)
    (po pb : Nat → Nat) :
    ∀ (fuel : Nat) (s : FastState), s.p_left ⊆ p →
      Placed (NonAdj g) (p \ s.p_left) s.i s.p_order s.p_bounds s.colour →
      (∀ k, p.card < k → s.p_order k = po k ∧ s.p_bounds k = pb k) →
      s.p_left.card ≤ fuel →
      ∃ t, fast_loop g delta selective fuel s = some t ∧
        FastSpec (NonAdj g) p po pb ⟨t.p_order, t.p_bounds, t.i⟩ := by
  intro fuel
  induction fuel with
  | zero =>
    intro s _ hpl hfr hf
    have he : s.p_left = ∅ := Finset.card_eq_zero.mp (Nat.le_zero.mp hf)
    refine ⟨s, by simp [fast_loop, FixedBitSet.empty, he], ?_⟩
    rw [he, Finset.sdiff_empty] at hpl
    have hi := hpl.card_eq
    exact ⟨hi.symm, ⟨s.colour, hi ▸ hpl⟩, hfr⟩
  | succ fuel ih =>
    intro s hsub hpl hfr hf
    rw [fast_loop]
    cases hfs : s.p_left.first_set_bit with
    | none =>
      have he : s.p_left = ∅ := first_set_bit_eq_none.mp hfs
      rw [he, Finset.sdiff_empty] at hpl
      have hi := hpl.card_eq
      exact ⟨s, rfl, hi.symm, ⟨s.colour, hi ▸ hpl⟩, hfr⟩
    | some v =>
      simp only []
      obtain ⟨hvl, _⟩ := first_set_bit_eq_some hfs
      have hvC : v ∉ p \ s.p_left := fun h => (Finset.mem_sdiff.mp h).2 hvl
      have hci := hpl.card_eq
      have hcs := card_sdiff_add hsub
      have hpos : 0 < s.p_left.card := Finset.card_pos.mpr ⟨v, hvl⟩
      have hcu := Finset.card_erase_of_mem hvl
      -- the two ways in which an iteration ends
      have hrec : ∀ r : (Nat → Nat) × (Nat → Nat),
          (Placed (NonAdj g) (insert v (p \ s.p_left)) (s.i + 1) r.1 r.2 s.colour ∧
            ∀ k, s.i + 1 < k → r.1 k = s.p_order k ∧ r.2 k = s.p_bounds k) →
          ∃ t, fast_loop g delta selective fuel
              { s with p_left := s.p_left.unset v, i := s.i + 1, p_order := r.1,
                       p_bounds := r.2 } = some t ∧
            FastSpec (NonAdj g) p po pb ⟨t.p_order, t.p_bounds, t.i⟩ := by
        intro r hr
        obtain ⟨h1, h2⟩ := hr
        rw [insert_sdiff_unset hsub hvl] at h1
        apply ih _ ((Finset.erase_subset _ _).trans hsub) h1
        · intro k hk
          obtain ⟨e1, e2⟩ := h2 k (by omega)
          simp only []
          rw [e1, e2]
          exact hfr k hk
        · simp only [FixedBitSet.unset]
          omega
      have hgreedy : ∃ t, (match colour_one_class g false (s.colour + 1) s.p_left.popcount
            s.p_left { p_left := s.p_left, i := s.i, p_order := s.p_order,
                       p_bounds := s.p_bounds, number_with_this_colour := 0 } with
          | none => none
          | some t =>
            fast_loop g delta selective fuel
              { p_left := t.p_left, colour := s.colour + 1, i := t.i, p_order := t.p_order,
                p_bounds := t.p_bounds }) = some t ∧
            FastSpec (NonAdj g) p po pb ⟨t.p_order, t.p_bounds, t.i⟩ := by
        obtain ⟨t1, ht1, sp⟩ := colour_one_class_spec g false (s.colour + 1)
          s.p_left.popcount s.p_left
          { p_left := s.p_left, i := s.i, p_order := s.p_order, p_bounds := s.p_bounds,
            number_with_this_colour := 0 }
          (Finset.Subset.refl _) (le_refl _)
        rw [ht1]
        simp only []
        have hpl1 := Placed.extend_class (s :=
            { p_left := s.p_left, i := s.i, p_order := s.p_order, p_bounds := s.p_bounds,
              number_with_this_colour := 0 })
          hpl sp (compat_nonAdj g) (Finset.Subset.refl _) ⟨v, hvl⟩
          (fun v hv => (Finset.mem_sdiff.mp hv).2)
        simp only [] at hpl1
        rw [sdiff_union_sdiff sp.left_sub hsub] at hpl1
        have hce := sp.card_eq
        simp only [] at hce
        have hilt : s.i < t1.i := (sp.first v hfs).1
        apply ih _ (sp.left_sub.trans hsub) hpl1
        · intro k hk
          simp only []
          rw [sp.order_out k (Or.inr (by omega)), sp.bounds_out k (Or.inr (by omega))]
          exact hfr k hk
        · simp only []
          omega
      by_cases hsel : ((! selective) || decide ((s.colour : Int) + 1 ≥ delta)) = true
      · rw [if_pos hsel]
        obtain ⟨res, r1, r2⟩ := scan_spec hpl hvC s.i 0
          { prev_colour := 0, conflicting_vertex_pos := -1, n_conflicts := 0 } (by omega)
          { zero := fun _ => ⟨rfl, rfl⟩, pos := fun h => absurd h (by omega) }
        rw [r1]
        cases res with
        | none => exact hgreedy
        | some r => exact hrec r (r2 r.1 r.2 rfl)
      · rw [if_neg hsel]
        exact hgreedy

theorem colour_class_order_with_repair_fast_spec (g : FixedBitGraph) (p : FixedBitSet)
    (po pb : Nat → Nat) (delta : Int) (selective : Bool) :
    ∃ r, colour_class_order_with_repair_fast g p po pb delta selective = some r ∧
      FastSpec (NonAdj g) p po pb r := by
  obtain ⟨t, ht, hs⟩ := fast_loop_spec g delta selective p po pb p.popcount
    { p_left := p, colour := 0, i := 0, p_order := po, p_bounds := pb }
    (Finset.Subset.refl _) (by simpa using Placed.empty _ po pb) (fun k _ => ⟨rfl, rfl⟩)
    (le_refl _)
  exact ⟨_, by rw [colour_class_order_with_repair_fast, ht]; rfl, hs⟩

theorem Placed.perm {R : Nat → Nat → Prop} {c : Finset Nat} {i : Nat}
    {order bounds : Nat → Nat} {colour : Nat} (h : Placed R c i order bounds colour) :
    ((List.range i).map order).Nodup ∧ ((List.range i).map order).toFinset = c := by
  constructor
  · refine (List.nodup_map_iff_inj_on (List.nodup_range i)).mpr ?_
    intro a ha b hb e
    exact h.inj a b (List.mem_range.mp ha) (List.mem_range.mp hb) e
  · ext v
    rw [h.mem_iff]
    simp

theorem OutSpec.weaken {R S : Nat → Nat → Prop} {p : FixedBitSet} {po pb : Nat → Nat}
    {r : CCOResult} (h : OutSpec R p po pb r) (hRS : ∀ v w, R v w → S v w) :
    OutSpec S p po pb r :=
  { h with placed := h.placed.imp fun _ hp => hp.mono hRS }

theorem OutSpec.toFast {R : Nat → Nat → Prop} {p : FixedBitSet} {po pb : Nat → Nat}
    {r : CCOResult} (h : OutSpec R p po pb r) : FastSpec R p po pb r :=
  { i_eq := h.i_eq, placed := h.placed, frame := fun k hk => h.frame k (by omega) }

/-- The contract of the dispatcher for the variants that do not work in place. -/
theorem colour_class_order_spec (perm : CCOPermutations) (g : FixedBitGraph) (inverse : Bool)
    (p : FixedBitSet) (po pb : Nat → Nat) (delta : Int) (m : Scratch)
    (hfast : perm.in_place = false) (hinv : perm.repairs = true → inverse = false) :
    ∃ r, colour_class_order perm g inverse p po pb delta m = some r ∧
      OutSpec (fun v w => inverse = false → NonAdj g v w) p po pb r := by
  have hcompat : ∀ v w, Compat g inverse v w → inverse = false → NonAdj g v w := by
    intro v w h hi
    subst hi
    exact compat_nonAdj g v w h
  cases perm with
  | None =>
    obtain ⟨r, h1, h2⟩ := colour_class_order_none_spec g inverse p po pb
    exact ⟨r, h1, h2.weaken hcompat⟩
  | Defer1 =>
    obtain ⟨r, h1, h2⟩ := colour_class_order_defer1_spec g inverse p po pb m.defer
    exact ⟨r, h1, h2.weaken hcompat⟩
  | RepairAll =>
    obtain ⟨r, h1, h2⟩ := colour_class_order_with_repair_spec g p po pb delta false false
      m.colour_classes m.defer
    refine ⟨r, ?_, h2.weaken fun _ _ h _ => h⟩
    rw [colour_class_order, hinv rfl]
    exact h1
  | RepairAllDefer1 =>
    obtain ⟨r, h1, h2⟩ := colour_class_order_with_repair_spec g p po pb delta false true
      m.colour_classes m.defer
    refine ⟨r, ?_, h2.weaken fun _ _ h _ => h⟩
    rw [colour_class_order, hinv rfl]
    exact h1
  | RepairSelected =>
    obtain ⟨r, h1, h2⟩ := colour_class_order_with_repair_spec g p po pb delta true false
      m.colour_classes m.defer
    refine ⟨r, ?_, h2.weaken fun _ _ h _ => h⟩
    rw [colour_class_order, hinv rfl]
    exact h1
  | RepairSelectedDefer1 =>
    obtain ⟨r, h1, h2⟩ := colour_class_order_with_repair_spec g p po pb delta true true
      m.colour_classes m.defer
    refine ⟨r, ?_, h2.weaken fun _ _ h _ => h⟩
    rw [colour_class_order, hinv rfl]
    exact h1
  | RepairSelectedFast => exact absurd hfast (by decide)
  | RepairAllFast => exact absurd hfast (by decide)

/-- The contract of the dispatcher for every variant. -/
theorem colour_class_order_fast_spec (perm : CCOPermutations) (g : FixedBitGraph)
    (inverse : Bool) (p : FixedBitSet) (po pb : Nat → Nat) (delta : Int) (m : Scratch)
    (hinv : perm.repairs = true → inverse = false) :
    ∃ r, colour_class_order perm g inverse p po pb delta m = some r ∧
      FastSpec (fun v w => inverse = false → NonAdj g v w) p po pb r := by
  cases hf : perm.in_place with
  | false =>
    obtain ⟨r, h1, h2⟩ := colour_class_order_spec perm g inverse p po pb delta m hf hinv
    exact ⟨r, h1, h2.toFast⟩
  | true =>
    cases perm with
    | RepairSelectedFast =>
      obtain ⟨r, h1, h2⟩ := colour_class_order_with_repair_fast_spec g p po pb delta true
      refine ⟨r, ?_, { h2 with placed := h2.placed.imp fun _ hp => hp.mono fun _ _ h _ => h }⟩
      rw [colour_class_order, hinv rfl]
      exact h1
    | RepairAllFast =>
      obtain ⟨r, h1, h2⟩ := colour_class_order_with_repair_fast_spec g p po pb delta false
      refine ⟨r, ?_, { h2 with placed := h2.placed.imp fun _ hp => hp.mono fun _ _ h _ => h }⟩
      rw [colour_class_order, hinv rfl]
      exact h1
    | None => exact absurd hf (by decide)
    | Defer1 => exact absurd hf (by decide)
    | RepairAll => exact absurd hf (by decide)
    | RepairAllDefer1 => exact absurd hf (by decide)
    | RepairSelected => exact absurd hf (by decide)
    | RepairSelectedDefer1 => exact absurd hf (by decide)

/-! ## Claims on the colour class orderings -/

/-- C5. Colouring soundness of the bitset greedy variants: in non-inverse mode the outputs of
`colour_class_order` for `None` and for `Defer1` never give the same `p_bounds` value to two
adjacent vertices: for all positions `a < b < |P|` with `p_bounds[a] = p_bounds[b]`, the
vertices `p_order[a]` and `p_order[b]` are not adjacent (in either direction). -/
theorem C5_greedy_colouring_sound (g : FixedBitGraph) (p : FixedBitSet)
    (p_order p_bounds defer : Nat → Nat) :
    (∃ r, colour_class_order_none g false p p_order p_bounds = some r ∧
      ∀ a b, a < b → b < p.card → r.p_bounds a = r.p_bounds b →
        g.adjacent (r.p_order a) (r.p_order b) = false ∧
        g.adjacent (r.p_order b) (r.p_order a) = false) ∧
    (∃ r, colour_class_order_defer1 g false p p_order p_bounds defer = some r ∧
      ∀ a b, a < b → b < p.card → r.p_bounds a = r.p_bounds b →
        g.adjacent (r.p_order a) (r.p_order b) = false ∧
        g.adjacent (r.p_order b) (r.p_order a) = false) := by
  constructor
  · obtain ⟨r, h1, h2⟩ := colour_class_order_none_spec g false p p_order p_bounds
    obtain ⟨colour, hp⟩ := h2.placed
    refine ⟨r, h1, fun a b hab hb e => ?_⟩
    have := compat_nonAdj g _ _ (hp.sound a b hab hb e)
    exact ⟨this, nonAdj_symm g _ _ this⟩
  · obtain ⟨r, h1, h2⟩ := colour_class_order_defer1_spec g false p p_order p_bounds defer
    obtain ⟨colour, hp⟩ := h2.placed
    refine ⟨r, h1, fun a b hab hb e => ?_⟩
    have := compat_nonAdj g _ _ (hp.sound a b hab hb e)
    exact ⟨this, nonAdj_symm g _ _ this⟩

/-- C6. Colouring soundness of the buffer-based repair variants: for every graph, candidate set
`P`, threshold `delta`, every choice of the flags `selective` and `do_defer` (`RepairAll`,
`RepairAllDefer1`, `RepairSelected`, `RepairSelectedDefer1`) and every content of the scratch
memory, `colour_class_order_with_repair` returns, and never gives the same `p_bounds` value to
two adjacent vertices. The relocation of a vertex is covered: the statement is about the final
arrays. -/
theorem C6_repair_colouring_sound (g : FixedBitGraph) (p : FixedBitSet)
    (p_order p_bounds : Nat → Nat) (delta : Int) (selective do_defer : Bool)
    (colour_classes : ColourClasses) (defer : Nat → Nat) :
    ∃ r, colour_class_order_with_repair g p p_order p_bounds delta selective do_defer
        colour_classes defer = some r ∧
      ∀ a b, a < b → b < p.card → r.p_bounds a = r.p_bounds b →
        g.adjacent (r.p_order a) (r.p_order b) = false ∧
        g.adjacent (r.p_order b) (r.p_order a) = false := by
  obtain ⟨r, h1, h2⟩ := colour_class_order_with_repair_spec g p p_order p_bounds delta
    selective do_defer colour_classes defer
  obtain ⟨colour, hp⟩ := h2.placed
  refine ⟨r, h1, fun a b hab hb e => ?_⟩
  have := hp.sound a b hab hb e
  exact ⟨this, nonAdj_symm g _ _ this⟩

/-- C7. Colouring soundness of the in-place repair variants: for every graph, candidate set `P`
with `|P|` below the array capacity `cap`, and `delta`, `colour_class_order_with_repair_fast`
(`RepairAllFast` for `selective = false`, `RepairSelectedFast` for `selective = true`) returns,
touches no index from `cap` on, and never gives the same `p_bounds` value to two adjacent
vertices, the in-place splice included. -/
theorem C7_fast_repair_colouring_sound (g : FixedBitGraph) (p : FixedBitSet)
    (p_order p_bounds : Nat → Nat) (delta : Int) (selective : Bool) (cap : Nat)
    (hcap : p.card < cap) :
    ∃ r, colour_class_order_with_repair_fast g p p_order p_bounds delta selective = some r ∧
      (∀ k, cap ≤ k → r.p_order k = p_order k ∧ r.p_bounds k = p_bounds k) ∧
      ∀ a b, a < b → b < p.card → r.p_bounds a = r.p_bounds b →
        g.adjacent (r.p_order a) (r.p_order b) = false ∧
        g.adjacent (r.p_order b) (r.p_order a) = false := by
  obtain ⟨r, h1, h2⟩ := colour_class_order_with_repair_fast_spec g p p_order p_bounds delta
    selective
  obtain ⟨colour, hp⟩ := h2.placed
  refine ⟨r, h1, fun k hk => h2.frame k (by omega), fun a b hab hb e => ?_⟩
  have := hp.sound a b hab hb e
  exact ⟨this, nonAdj_symm g _ _ this⟩

/-- Witness for C7: the graph on five vertices with edges 01, 02, 12, 14, 24, 34, on which the
in-place repair moves vertex 3 and reuses its slot for vertex 4; capacity 64. -/
theorem C7_fast_repair_colouring_sound_witness :
    ∃ r, colour_class_order_with_repair_fast
        ⟨5, [(0, 1), (0, 2), (1, 2), (1, 4), (2, 4), (3, 4)]⟩ {0, 1, 2, 3, 4}
        (fun _ => 0) (fun _ => 0) 0 false = some r ∧
      (∀ k, 64 ≤ k → r.p_order k = 0 ∧ r.p_bounds k = 0) ∧
      ∀ a b, a < b → b < ({0, 1, 2, 3, 4} : Finset Nat).card →
        r.p_bounds a = r.p_bounds b →
        FixedBitGraph.adjacent ⟨5, [(0, 1), (0, 2), (1, 2), (1, 4), (2, 4), (3, 4)]⟩
          (r.p_order a) (r.p_order b) = false ∧
        FixedBitGraph.adjacent ⟨5, [(0, 1), (0, 2), (1, 2), (1, 4), (2, 4), (3, 4)]⟩
          (r.p_order b) (r.p_order a) = false :=
  C7_fast_repair_colouring_sound ⟨5, [(0, 1), (0, 2), (1, 2), (1, 4), (2, 4), (3, 4)]⟩
    {0, 1, 2, 3, 4} (fun _ => 0) (fun _ => 0) 0 false 64 (by decide)

/-- C9. For `RepairAllFast` and `RepairSelectedFast`, for every graph, candidate set `P` with
`|P|` below the array capacity `cap`, and `delta`, `colour_class_order_with_repair_fast`
returns, touches no index from `cap` on, and the first `|P|` entries of `p_order` list every set
bit of `P` exactly once: the in-place shift and splice neither lose nor duplicate a vertex. -/
theorem C9_fast_order_is_permutation (g : FixedBitGraph) (p : FixedBitSet)
    (p_order p_bounds : Nat → Nat) (delta : Int) (selective : Bool) (cap : Nat)
    (hcap : p.card < cap) :
    ∃ r, colour_class_order_with_repair_fast g p p_order p_bounds delta selective = some r ∧
      r.i = p.card ∧
      (∀ k, cap ≤ k → r.p_order k = p_order k ∧ r.p_bounds k = p_bounds k) ∧
      ((List.range p.card).map r.p_order).Nodup ∧
      ((List.range p.card).map r.p_order).toFinset = p := by
  obtain ⟨r, h1, h2⟩ := colour_class_order_with_repair_fast_spec g p p_order p_bounds delta
    selective
  obtain ⟨colour, hp⟩ := h2.placed
  exact ⟨r, h1, h2.i_eq, fun k hk => h2.frame k (by omega), hp.perm.1, hp.perm.2⟩

/-- Witness for C9: `RepairSelectedFast` with `delta = 2` on the graph with edges 01, 02, 12,
14, 24, 34; capacity 64. -/
theorem C9_fast_order_is_permutation_witness :
    ∃ r, colour_class_order_with_repair_fast
        ⟨5, [(0, 1), (0, 2), (1, 2), (1, 4), (2, 4), (3, 4)]⟩ {0, 1, 2, 3, 4}
        (fun _ => 7) (fun _ => 8) 2 true = some r ∧
      r.i = ({0, 1, 2, 3, 4} : Finset Nat).card ∧
      (∀ k, 64 ≤ k → r.p_order k = 7 ∧ r.p_bounds k = 8) ∧
      ((List.range ({0, 1, 2, 3, 4} : Finset Nat).card).map r.p_order).Nodup ∧
      ((List.range ({0, 1, 2, 3, 4} : Finset Nat).card).map r.p_order).toFinset
        = {0, 1, 2, 3, 4} :=
  C9_fast_order_is_permutation ⟨5, [(0, 1), (0, 2), (1, 2), (1, 4), (2, 4), (3, 4)]⟩
    {0, 1, 2, 3, 4} (fun _ => 7) (fun _ => 8) 2 true 64 (by decide)

/-! ## Subgraph isomorphism: the propagators only remove values -/

theorem Shrunk.same (d : Domain) : Shrunk d d := ⟨rfl, Finset.Subset.refl _⟩

theorem Shrunk.chain {a b c : Domain} (h1 : Shrunk a b) (h2 : Shrunk b c) : Shrunk a c :=
  ⟨h2.1.trans h1.1, h2.2.trans h1.2⟩

theorem Shrinks.rfl_ (D : Domains) : Shrinks D D := by
  induction D with
  | nil => exact List.Forall₂.nil
  | cons d D ih => exact List.Forall₂.cons (Shrunk.same d) ih

theorem Shrinks.trans_ {A B C : Domains} (h1 : Shrinks A B) (h2 : Shrinks B C) :
    Shrinks A C := by
  induction h1 generalizing C with
  | nil => cases h2; exact List.Forall₂.nil
  | cons hd _ ih =>
    cases h2 with
    | cons hd2 tl2 => exact List.Forall₂.cons (hd.chain hd2) (ih tl2)

theorem Shrinks.map_v {A B : Domains} (h : Shrinks A B) :
    B.map (fun d => d.v) = A.map (fun d => d.v) := by
  induction h with
  | nil => rfl
  | cons hd _ ih => simp only [List.map_cons, ih, hd.1]

theorem Shrinks.length_eq {A B : Domains} (h : Shrinks A B) : B.length = A.length := by
  have := congrArg List.length h.map_v
  simpa using this

theorem Shrinks.mem {A B : Domains} (h : Shrinks A B) {d2 : Domain} (hd : d2 ∈ B) :
    ∃ d1, d1 ∈ A ∧ Shrunk d1 d2 := by
  induction h with
  | nil => cases hd
  | cons hd1 _ ih =>
    rcases List.mem_cons.mp hd with e | e
    · subst e; exact ⟨_, List.mem_cons_self _ _, hd1⟩
    · obtain ⟨d1, a, b⟩ := ih e
      exact ⟨d1, List.mem_cons_of_mem _ a, b⟩

theorem Shrinks.set {D : Domains} :
    ∀ (idx : Nat) (d d1 : Domain), D.get? idx = some d → Shrunk d d1 →
      Shrinks D (D.set idx d1) := by
  induction D with
  | nil => intro idx d d1 h; simp at h
  | cons x D ih =>
    intro idx d d1 h hs
    cases idx with
    | zero =>
      simp only [List.get?_cons_zero, Option.some.injEq] at h
      subst h
      exact List.Forall₂.cons hs (Shrinks.rfl_ D)
    | succ n =>
      simp only [List.get?_cons_succ] at h
      exact List.Forall₂.cons (Shrunk.same x) (ih n d d1 h hs)

theorem cheap_loop_shrinks (backjump : Bool) :
    ∀ (order : List Nat) (c : Counting) (b : Bool) (c2 : Counting),
      cheap_all_different_loop backjump order c = some (b, c2) → Shrinks c.domains c2.domains := by
  intro order
  induction order with
  | nil =>
    intro c b c2 h
    simp only [cheap_all_different_loop, Option.some.injEq, Prod.mk.injEq] at h
    rw [← h.2]
    exact Shrinks.rfl_ _
  | cons idx rest ih =>
    intro c b c2 h
    rw [cheap_all_different_loop] at h
    cases hget : c.domains.get? idx with
    | none => rw [hget] at h; simp at h
    | some d =>
      rw [hget] at h
      simp only [] at h
      have hstep : Shrinks c.domains (c.domains.set idx
          { v := d.v
            popcount := (d.values.intersect_with_complement c.hall).popcount
            values := d.values.intersect_with_complement c.hall }) :=
        Shrinks.set idx d _ hget ⟨rfl, Finset.sdiff_subset⟩
      split at h
      · simp only [Option.some.injEq, Prod.mk.injEq] at h
        rw [← h.2]; exact hstep
      · split at h
        · simp only [Option.some.injEq, Prod.mk.injEq] at h
          rw [← h.2]; exact hstep
        · split at h
          · exact hstep.trans_ (ih _ b c2 h)
          · exact hstep.trans_ (ih _ b c2 h)

theorem cheap_all_different_shrinks {s : SGI} {D D2 : Domains} {F F2 : FailedVariables}
    {b : Bool} (h : cheap_all_different s D F = some (b, D2, F2)) : Shrinks D D2 := by
  unfold cheap_all_different at h
  simp only [] at h
  cases hl : cheap_all_different_loop s.cfg.backjump
      (s.ext.sort_domains
        (fun a b =>
          decide ((D.getD a ⟨0, 0, ∅⟩).popcount < (D.getD b ⟨0, 0, ∅⟩).popcount) ||
            (decide ((D.getD a ⟨0, 0, ∅⟩).popcount = (D.getD b ⟨0, 0, ∅⟩).popcount) &&
              decide (s.pattern_degree_tiebreak (D.getD a ⟨0, 0, ∅⟩).v >
                s.pattern_degree_tiebreak (D.getD b ⟨0, 0, ∅⟩).v)))
        (List.range D.length))
      { domains := D, failed := F, domains_so_far := ∅, hall := ∅, neighbours_so_far := 0 } with
  | none => rw [hl] at h; simp at h
  | some r =>
    rw [hl] at h
    simp only [Option.map_some', Option.some.injEq, Prod.mk.injEq] at h
    have := cheap_loop_shrinks _ _ _ r.1 r.2 hl
    rw [← h.2.1]
    exact this

theorem enumFrom_map_shrinks (f : Nat × Domain → Domain) (hf : ∀ id, Shrunk id.2 (f id)) :
    ∀ (D : Domains) (n : Nat), Shrinks D ((D.enumFrom n).map f) := by
  intro D
  induction D with
  | nil => intro n; exact List.Forall₂.nil
  | cons d D ih =>
    intro n
    simp only [List.enumFrom_cons, List.map_cons]
    exact List.Forall₂.cons (hf (n, d)) (ih (n + 1))

theorem regin_all_different_shrinks {s : SGI} {D D2 : Domains} {b : Bool}
    (h : regin_all_different s D = some (b, D2)) : Shrinks D D2 := by
  unfold regin_all_different at h
  simp only [] at h
  split at h
  · simp only [Option.some.injEq, Prod.mk.injEq] at h
    rw [← h.2]; exact Shrinks.rfl_ _
  · split at h
    · simp only [Option.some.injEq, Prod.mk.injEq] at h
      rw [← h.2]; exact Shrinks.rfl_ _
    · split at h
      · simp at h
      · simp only [Option.some.injEq, Prod.mk.injEq] at h
        rw [← h.2]
        refine enumFrom_map_shrinks _ ?_ D 0
        intro id
        exact ⟨rfl, Finset.filter_subset _ _⟩

theorem prepare_for_search_shrinks (D : Domains) : Shrinks D (prepare_for_search D) := by
  unfold prepare_for_search
  induction D with
  | nil => exact List.Forall₂.nil
  | cons d D ih => exact List.Forall₂.cons ⟨rfl, Finset.Subset.refl _⟩ ih

theorem assign_fold_sub (s : SGI) (branch_v f_v v : Nat) :
    ∀ (gs : List Nat) (init : FixedBitSet),
      gs.foldl
        (fun vals g =>
          if (s.pattern_graphs g).adjacent branch_v v then
            (s.target_graphs g).intersect_with_row f_v vals
          else vals) init ⊆ init := by
  intro gs
  induction gs with
  | nil => intro init; exact Finset.Subset.refl _
  | cons g gs ih =>
    intro init
    rw [List.foldl_cons]
    refine (ih _).trans ?_
    split
    · exact Finset.filter_subset _ _
    · exact Finset.Subset.refl _

theorem assign_fold_mem (s : SGI) (branch_v f_v v g0 : Nat)
    (hadj : (s.pattern_graphs g0).adjacent branch_v v = true) :
    ∀ (gs : List Nat) (init : FixedBitSet), g0 ∈ gs →
      ∀ j, j ∈ gs.foldl
        (fun vals g =>
          if (s.pattern_graphs g).adjacent branch_v v then
            (s.target_graphs g).intersect_with_row f_v vals
          else vals) init → (s.target_graphs g0).adjacent f_v j = true := by
  intro gs
  induction gs with
  | nil => intro init h; cases h
  | cons g gs ih =>
    intro init hmem j hj
    rw [List.foldl_cons] at hj
    rcases List.mem_cons.mp hmem with e | e
    · subst e
      have := assign_fold_sub s branch_v f_v v gs _ hj
      rw [if_pos hadj] at this
      exact (mem_row.mp this).2
    · exact ih _ e j hj

theorem assign_domains_spec (s : SGI) (g branch_v f_v g_end : Nat) (hg : g < g_end) :
    ∀ (D : Domains) (F : FailedVariables),
      (assign_domains s branch_v f_v g_end D F).1 = true →
      List.Forall₂ (Assigned s g branch_v f_v) D (assign_domains s branch_v f_v g_end D F).2.1 := by
  intro D
  induction D with
  | nil => intro F _; exact List.Forall₂.nil
  | cons d D ih =>
    intro F h
    rw [assign_domains] at h ⊢
    simp only [] at h ⊢
    split at h
    · simp at h
    · rename_i hpc
      rw [if_neg hpc]
      simp only [] at h ⊢
      refine List.Forall₂.cons ⟨rfl, ?_, ?_, ?_⟩ (ih F h)
      · exact (assign_fold_sub s branch_v f_v d.v _ _).trans (Finset.erase_subset _ _)
      · intro hc
        have := assign_fold_sub s branch_v f_v d.v _ _ hc
        exact (Finset.not_mem_erase f_v d.values) this
      · intro hadj j hj
        exact assign_fold_mem s branch_v f_v d.v g hadj _ _ (List.mem_range.mpr hg) j hj

theorem Assigned.shrunk {s : SGI} {g branch_v f_v : Nat} {a b c : Domain}
    (h1 : Assigned s g branch_v f_v a b) (h2 : Shrunk b c) : Assigned s g branch_v f_v a c :=
  ⟨h2.1.trans h1.1, h2.2.trans h1.2.1, fun hc => h1.2.2.1 (h2.2 hc),
    fun hadj j hj => h1.2.2.2 hadj j (h2.2 hj)⟩

theorem forall2_assigned_shrinks {s : SGI} {g branch_v f_v : Nat} {A B C : Domains}
    (h1 : List.Forall₂ (Assigned s g branch_v f_v) A B) (h2 : Shrinks B C) :
    List.Forall₂ (Assigned s g branch_v f_v) A C := by
  induction h1 generalizing C with
  | nil => cases h2; exact List.Forall₂.nil
  | cons hd _ ih =>
    cases h2 with
    | cons hd2 tl2 => exact List.Forall₂.cons (hd.shrunk hd2) (ih tl2)

theorem assign_spec {s : SGI} {D D2 : Domains} {g branch_v f_v g_end : Nat}
    {F F2 : FailedVariables} (hg : g < g_end)
    (h : assign s D branch_v f_v g_end F = some (true, D2, F2)) :
    List.Forall₂ (Assigned s g branch_v f_v) D D2 := by
  unfold assign at h
  simp only [] at h
  cases h1 : (assign_domains s branch_v f_v g_end D F).1 with
  | false =>
    rw [h1] at h
    simp only [Bool.not_false, if_true, Option.some.injEq] at h
    rw [h] at h1
    simp at h1
  | true =>
    have hA := assign_domains_spec s g branch_v f_v g_end hg D F h1
    rw [h1] at h
    simp only [Bool.not_true, Bool.false_eq_true, if_false] at h
    -- the cheap all-different stage
    have hcheap : ∀ (c : Option (Bool × Domains × FailedVariables)),
        (c = (if s.cfg.use_cheap_all_different = true then
            (cheap_all_different s (assign_domains s branch_v f_v g_end D F).2.1 ∅).map fun c =>
              if c.1 = true then (true, c.2.1, (assign_domains s branch_v f_v g_end D F).2.2)
              else (false, c.2.1, FailedVariables.add_all s.cfg.backjump
                (assign_domains s branch_v f_v g_end D F).2.2 c.2.2)
          else some (assign_domains s branch_v f_v g_end D F))) →
        ∀ D1 F1, c = some (true, D1, F1) →
          List.Forall₂ (Assigned s g branch_v f_v) D D1 := by
      intro c hc D1 F1 hc1
      rw [hc1] at hc
      split at hc
      · cases hch : cheap_all_different s (assign_domains s branch_v f_v g_end D F).2.1 ∅ with
        | none => rw [hch] at hc; simp at hc
        | some r =>
          rw [hch] at hc
          obtain ⟨b, D3, F3⟩ := r
          have hs := cheap_all_different_shrinks hch
          simp only [Option.map_some', Option.some.injEq] at hc
          split at hc
          · simp only [Prod.mk.injEq, true_and] at hc
            rw [hc.1]
            exact forall2_assigned_shrinks hA hs
          · simp at hc
      · simp only [Option.some.injEq] at hc
        have : (assign_domains s branch_v f_v g_end D F).2.1 = D1 := by rw [← hc]
        rw [← this]
        exact hA
    generalize hcdef : (if s.cfg.use_cheap_all_different = true then
            (cheap_all_different s (assign_domains s branch_v f_v g_end D F).2.1 ∅).map fun c =>
              if c.1 = true then (true, c.2.1, (assign_domains s branch_v f_v g_end D F).2.2)
              else (false, c.2.1, FailedVariables.add_all s.cfg.backjump
                (assign_domains s branch_v f_v g_end D F).2.2 c.2.2)
          else some (assign_domains s branch_v f_v g_end D F)) = c at h
    have hc := hcheap c hcdef.symm
    match c, h, hc with
    | none, h, _ => simp at h
    | some (false, D1, F1), h, _ => simp at h
    | some (true, D1, F1), h, hc =>
      have hA1 := hc D1 F1 rfl
      simp only [] at h
      split at h
      · cases hr : regin_all_different s D1 with
        | none => rw [hr] at h; simp at h
        | some r =>
          obtain ⟨b, D3⟩ := r
          rw [hr] at h
          cases b with
          | false => simp at h
          | true =>
            simp only [Option.some.injEq, Prod.mk.injEq, true_and] at h
            rw [← h.1]
            exact forall2_assigned_shrinks hA1 (regin_all_different_shrinks hr)
      · simp only [Option.some.injEq, Prod.mk.injEq, true_and] at h
        rw [← h.1]
        exact hA1

/-! ## Subgraph isomorphism: soundness of the search -/

theorem NodeInv.agree {s : SGI} {g : Nat} {S : Finset Nat} {A A2 : Assignments} {D : Domains}
    (h : NodeInv s g S A D) (hA : ∀ u, u ∈ S → A2 u = A u) : NodeInv s g S A2 D where
  vs_nodup := h.vs_nodup
  cover := h.cover
  disj := h.disj
  range_ok := fun u hu => by rw [hA u hu]; exact h.range_ok u hu
  inj := fun u u2 hu hu2 e => h.inj u u2 hu hu2 (by rw [← hA u hu, ← hA u2 hu2, e])
  adj := fun u u2 hu hu2 e => by rw [hA u hu, hA u2 hu2]; exact h.adj u u2 hu hu2 e
  dom := fun d hd j hj => by
    obtain ⟨a, b, c, e⟩ := h.dom d hd j hj
    exact ⟨a, fun u hu => by rw [hA u hu]; exact b u hu,
      fun u hu hadj => by rw [hA u hu]; exact c u hu hadj, e⟩

theorem NodeInv.leaf {s : SGI} {g : Nat} {S : Finset Nat} {A : Assignments} (h : NodeInv s g S A []) :
    Solution s g A := by
  have hS : ∀ i, i < s.pattern_size → i ∈ S := by
    intro i hi
    rcases h.cover i hi with e | e
    · exact e
    · simp at e
  exact ⟨fun i hi => h.range_ok i (hS i hi),
    fun i j hi hj e => h.inj i j (hS i hi) (hS j hj) e,
    fun i j hi hj e => h.adj i j (hS i hi) (hS j hj) e⟩

theorem forall2_mem_right {α β : Type} {R : α → β → Prop} {l1 : List α} {l2 : List β}
    (h : List.Forall₂ R l1 l2) {b : β} (hb : b ∈ l2) : ∃ a, a ∈ l1 ∧ R a b := by
  induction h with
  | nil => cases hb
  | cons hd _ ih =>
    rcases List.mem_cons.mp hb with e | e
    · subst e; exact ⟨_, List.mem_cons_self _ _, hd⟩
    · obtain ⟨a, a1, a2⟩ := ih e
      exact ⟨a, List.mem_cons_of_mem _ a1, a2⟩

theorem forall2_assigned_map_v {s : SGI} {g branch_v f_v : Nat} {A B : Domains}
    (h : List.Forall₂ (Assigned s g branch_v f_v) A B) :
    B.map (fun d => d.v) = A.map (fun d => d.v) := by
  induction h with
  | nil => rfl
  | cons hd _ ih => simp only [List.map_cons, ih, hd.1]

/-- Descending into a child: the branch variable joins the assigned ones. -/
theorem NodeInv.descend {s : SGI} {g : Nat} {S : Finset Nat} {A : Assignments} {D D2 : Domains}
    (h : NodeInv s g S A D) {bd : Domain} (hbd : bd ∈ D) {f_v : Nat} (hf : f_v ∈ bd.values)
    (hD2 : List.Forall₂ (Assigned s g bd.v f_v) (D.filter fun d => d.v ≠ bd.v) D2) :
    NodeInv s g (insert bd.v S) (Function.update A bd.v f_v) D2 := by
  have hbS : bd.v ∉ S := h.disj bd hbd
  have hold : ∀ u, u ∈ S → Function.update A bd.v f_v u = A u := by
    intro u hu
    refine Function.update_noteq ?_ _ _
    intro e
    rw [e] at hu
    exact hbS hu
  have hnew : Function.update A bd.v f_v bd.v = f_v := Function.update_same _ _ _
  obtain ⟨f1, f2, f3, f4⟩ := h.dom bd hbd f_v hf
  have hmap := forall2_assigned_map_v hD2
  have hfilter : ((D.filter fun d => d.v ≠ bd.v).map fun d => d.v) =
      (D.map fun d => d.v).filter fun v => v ≠ bd.v := by
    rw [List.filter_map]
    rfl
  constructor
  · rw [hmap, hfilter]
    exact h.vs_nodup.filter _
  · intro i hi
    by_cases hib : i = bd.v
    · exact Or.inl (hib ▸ Finset.mem_insert_self _ _)
    · rcases h.cover i hi with e | e
      · exact Or.inl (Finset.mem_insert_of_mem e)
      · right
        rw [hmap, hfilter]
        exact List.mem_filter.mpr ⟨e, by simpa using hib⟩
  · intro d hd
    obtain ⟨d1, hd1, ha⟩ := forall2_mem_right hD2 hd
    obtain ⟨hd1D, hd1v⟩ := List.mem_filter.mp hd1
    have hne : d1.v ≠ bd.v := by simpa using hd1v
    intro hc
    rcases Finset.mem_insert.mp hc with e | e
    · exact hne (ha.1 ▸ e)
    · exact h.disj d1 hd1D (ha.1 ▸ e)
  · intro u hu
    rcases Finset.mem_insert.mp hu with e | e
    · rw [e, hnew]; exact f1
    · rw [hold u e]; exact h.range_ok u e
  · intro u u2 hu hu2 e
    rcases Finset.mem_insert.mp hu with e1 | e1 <;> rcases Finset.mem_insert.mp hu2 with e2 | e2
    · rw [e1, e2]
    · rw [e1, hnew, hold u2 e2] at e
      exact absurd e.symm (f2 u2 e2)
    · rw [e2, hnew, hold u e1] at e
      exact absurd e (f2 u e1)
    · rw [hold u e1, hold u2 e2] at e
      exact h.inj u u2 e1 e2 e
  · intro u u2 hu hu2 e
    rcases Finset.mem_insert.mp hu with e1 | e1 <;> rcases Finset.mem_insert.mp hu2 with e2 | e2
    · rw [e1, e2] at e ⊢
      rw [hnew]
      exact f4 e
    · rw [e1] at e ⊢
      rw [hnew, hold u2 e2, adjacent_comm]
      rw [adjacent_comm] at e
      exact f3 u2 e2 e
    · rw [e2] at e ⊢
      rw [hnew, hold u e1]
      exact f3 u e1 e
    · rw [hold u e1, hold u2 e2]
      exact h.adj u u2 e1 e2 e
  · intro d hd j hj
    obtain ⟨d1, hd1, ha⟩ := forall2_mem_right hD2 hd
    obtain ⟨hd1D, _⟩ := List.mem_filter.mp hd1
    obtain ⟨a1, a2, a3, a4⟩ := ha
    obtain ⟨g1, g2, g3, g4⟩ := h.dom d1 hd1D j (a2 hj)
    refine ⟨g1, ?_, ?_, ?_⟩
    · intro u hu
      rcases Finset.mem_insert.mp hu with e1 | e1
      · rw [e1, hnew]
        exact fun e => a3 (e ▸ hj)
      · rw [hold u e1]; exact g2 u e1
    · intro u hu hadj
      rw [a1] at hadj
      rcases Finset.mem_insert.mp hu with e1 | e1
      · rw [e1] at hadj ⊢
        rw [hnew]
        exact a4 hadj j hj
      · rw [hold u e1]; exact g3 u e1 hadj
    · rw [a1]; exact g4

theorem select_branch_domain_mem (s : SGI) :
    ∀ (D : Domains) (acc : Option Domain) (b : Domain),
      D.foldl
        (fun (branch_domain : Option Domain) d =>
          match branch_domain with
          | none => some d
          | some b =>
            if s.cfg.dom_plus_deg then
              if d.popcount < b.popcount ∨
                  (d.popcount = b.popcount ∧
                    s.pattern_degree_tiebreak d.v > s.pattern_degree_tiebreak b.v) then some d
              else some b
            else
              if d.popcount < b.popcount ∨ (d.popcount = b.popcount ∧ d.v < b.v) then some d
              else some b)
        acc = some b → acc = some b ∨ b ∈ D := by
  intro D
  induction D with
  | nil => intro acc b h; exact Or.inl h
  | cons d D ih =>
    intro acc b h
    rw [List.foldl_cons] at h
    rcases ih _ b h with e | e
    · cases acc with
      | none =>
        simp only [Option.some.injEq] at e
        exact Or.inr (e ▸ List.mem_cons_self _ _)
      | some a =>
        simp only at e
        split at e
        · split at e
          · simp only [Option.some.injEq] at e
            exact Or.inr (e ▸ List.mem_cons_self _ _)
          · exact Or.inl e
        · split at e
          · simp only [Option.some.injEq] at e
            exact Or.inr (e ▸ List.mem_cons_self _ _)
          · exact Or.inl e
    · exact Or.inr (List.mem_cons_of_mem _ e)

theorem foldl_some_of_some {α β : Type} (f : Option β → α → Option β)
    (hf : ∀ a d, ∃ b, f (some a) d = some b) :
    ∀ (D : List α) (a : β), ∃ b, D.foldl f (some a) = some b := by
  intro D
  induction D with
  | nil => intro a; exact ⟨a, rfl⟩
  | cons x D ih =>
    intro a
    rw [List.foldl_cons]
    obtain ⟨b, hb⟩ := hf a x
    rw [hb]
    exact ih b

theorem select_branch_domain_none {s : SGI} {D : Domains}
    (h : select_branch_domain s D = none) : D = [] := by
  cases D with
  | nil => rfl
  | cons d D =>
    exfalso
    unfold select_branch_domain at h
    rw [List.foldl_cons] at h
    have key : ∀ (o : Option Domain), o = none →
        ∀ f : Option Domain → Domain → Option Domain, o = D.foldl f (some d) →
          (∀ a x, ∃ b, f (some a) x = some b) → False := by
      intro o ho f hof hf
      obtain ⟨b, hb⟩ := foldl_some_of_some f hf D d
      rw [hof, hb] at ho
      cases ho
    refine key _ h _ rfl ?_
    intro a x
    dsimp only
    split_ifs <;> exact ⟨_, rfl⟩

theorem search_values_sound (s : SGI) (g g_end : Nat) (hg : g < g_end)
    (child : Assignments → Domains → Nat → Option SearchOut) (hchild : SearchSound s g child)
    (S : Finset Nat) (D : Domains) (bd : Domain) (hbd : bd ∈ D) :
    ∀ (fuel : Nat) (remaining : FixedBitSet) (shared : FailedVariables) (A : Assignments)
      (n : Nat) (out : SearchOut),
      NodeInv s g S A D → remaining ⊆ bd.values →
      search_values s g_end child D bd.v fuel remaining shared A n = some out →
        (∀ u, u ∈ S → out.assignments u = A u) ∧
          (out.result = Search.Satisfiable → Solution s g out.assignments) := by
  intro fuel
  induction fuel with
  | zero =>
    intro remaining shared A n out hinv hrem h
    unfold search_values at h
    split at h
    · cases h
      exact ⟨fun _ _ => rfl, fun e => by cases e⟩
    · cases h
  | succ fuel ih =>
    intro remaining shared A n out hinv hrem h
    unfold search_values at h
    have hbS : bd.v ∉ S := hinv.disj bd hbd
    have hold : ∀ (f_v u : Nat), u ∈ S → Function.update A bd.v f_v u = A u := by
      intro f_v u hu
      refine Function.update_noteq ?_ _ _
      intro e
      rw [e] at hu
      exact hbS hu
    cases hfs : remaining.first_set_bit with
    | none =>
      rw [hfs] at h
      cases h
      exact ⟨fun _ _ => rfl, fun e => by cases e⟩
    | some f_v =>
      rw [hfs] at h
      simp only [] at h
      have hfrem : f_v ∈ remaining := (first_set_bit_eq_some hfs).1
      have hrem2 : FixedBitSet.unset remaining f_v ⊆ bd.values :=
        fun x hx => hrem (Finset.mem_of_mem_erase hx)
      cases hassign : assign s (D.filter fun d => d.v ≠ bd.v) bd.v f_v g_end shared with
      | none => rw [hassign] at h; cases h
      | some res =>
        obtain ⟨ok, D2, shared1⟩ := res
        rw [hassign] at h
        cases ok with
        | false =>
          simp only [] at h
          obtain ⟨h1, h2⟩ := ih _ _ _ _ _ (hinv.agree (hold f_v)) hrem2 h
          exact ⟨fun u hu => by rw [h1 u hu, hold f_v u hu], h2⟩
        | true =>
          simp only [] at h
          have hD2 := assign_spec hg hassign
          have hinv2 := hinv.descend hbd (hrem hfrem) hD2
          cases hc : child (Function.update A bd.v f_v) D2 n with
          | none => rw [hc] at h; cases h
          | some r =>
            rw [hc] at h
            simp only [] at h
            obtain ⟨c1, c2⟩ := hchild _ _ _ _ _ hinv2 hc
            have hframe : ∀ u, u ∈ S → r.assignments u = A u := by
              intro u hu
              rw [c1 u (Finset.mem_insert_of_mem hu), hold f_v u hu]
            cases hr : r.result with
            | Satisfiable =>
              rw [hr] at h
              cases h
              exact ⟨hframe, fun _ => c2 hr⟩
            | Aborted =>
              rw [hr] at h
              cases h
              exact ⟨hframe, fun e => by cases e⟩
            | Unsatisfiable =>
              rw [hr] at h
              simp only [] at h
              split at h
              · cases h
                exact ⟨hframe, fun e => by rw [hr] at e; cases e⟩
              · obtain ⟨h1, h2⟩ := ih _ _ _ _ _ (hinv.agree hframe) hrem2 h
                exact ⟨fun u hu => by rw [h1 u hu, hframe u hu], h2⟩

theorem search_sound (s : SGI) (abort : Nat → Bool) (g g_end : Nat) (hg : g < g_end) :
    ∀ fuel, SearchSound s g (fun a d n => search s abort g_end fuel a d n) := by
  intro fuel
  induction fuel with
  | zero =>
    intro S A D n out _ h
    simp only [search] at h
    cases h
  | succ fuel ih =>
    intro S A D n out hinv h
    simp only [search] at h
    split at h
    · cases h
      exact ⟨fun _ _ => rfl, fun e => by cases e⟩
    · cases hsel : select_branch_domain s D with
      | none =>
        rw [hsel] at h
        cases h
        have hD : D = [] := select_branch_domain_none hsel
        subst hD
        exact ⟨fun _ _ => rfl, fun _ => hinv.leaf⟩
      | some bd =>
        rw [hsel] at h
        simp only [] at h
        have hbd : bd ∈ D := by
          rcases select_branch_domain_mem s D none bd hsel with e | e
          · cases e
          · exact e
        exact search_values_sound s g g_end hg _ ih S D bd hbd _ _ _ _ _ _ hinv
          (Finset.Subset.refl _) h

/-! ## Subgraph isomorphism: the root of the search -/

theorem NodeInv.shrinks {s : SGI} {g : Nat} {S : Finset Nat} {A : Assignments} {D D2 : Domains}
    (h : NodeInv s g S A D) (hs : Shrinks D D2) : NodeInv s g S A D2 where
  vs_nodup := by rw [hs.map_v]; exact h.vs_nodup
  cover := fun i hi => by rw [hs.map_v]; exact h.cover i hi
  disj := fun d hd => by
    obtain ⟨d1, hd1, e, _⟩ := hs.mem hd
    rw [e]; exact h.disj d1 hd1
  range_ok := h.range_ok
  inj := h.inj
  adj := h.adj
  dom := fun d hd j hj => by
    obtain ⟨d1, hd1, e, hsub⟩ := hs.mem hd
    rw [e]; exact h.dom d1 hd1 j (hsub hj)

theorem initialise_domains_loop_spec (s : SGI) :
    ∀ (fuel remaining : Nat) (allowed : FixedBitSet) (b : Bool) (D : Domains),
      initialise_domains_loop s fuel remaining allowed = some (b, D) →
        ∃ allowed2 : FixedBitSet, D = (List.range s.pattern_size).map fun i =>
          { v := i
            popcount := FixedBitSet.popcount ((Finset.range s.target_size).filter fun j =>
              domain_ok s allowed2 i j = true)
            values := (Finset.range s.target_size).filter fun j =>
              domain_ok s allowed2 i j = true } := by
  intro fuel
  induction fuel with
  | zero =>
    intro remaining allowed b D h
    simp only [initialise_domains_loop] at h
    cases h
  | succ fuel ih =>
    intro remaining allowed b D h
    simp only [initialise_domains_loop] at h
    split at h
    · simp only [Option.some.injEq, Prod.mk.injEq] at h
      exact ⟨allowed, h.2.symm⟩
    · split at h
      · simp only [Option.some.injEq, Prod.mk.injEq] at h
        exact ⟨allowed, h.2.symm⟩
      · exact ih _ _ _ _ h

theorem domain_ok_loops {s : SGI} {g : Nat} (hg : g < s.g_end) {allowed : FixedBitSet} {i j : Nat}
    (h : domain_ok s allowed i j = true) :
    (s.pattern_graphs g).adjacent i i = true → (s.target_graphs g).adjacent j j = true := by
  unfold domain_ok at h
  simp only [Bool.and_eq_true, List.all_eq_true, List.mem_range] at h
  have h0 := (h.1.1 g hg).2
  intro hp
  rw [hp] at h0
  simpa using h0

theorem initialise_domains_nodeInv {s : SGI} {g : Nat} (hg : g < s.g_end) {b : Bool} {D : Domains}
    (A : Assignments) (h : initialise_domains s = some (b, D)) : NodeInv s g ∅ A D := by
  unfold initialise_domains at h
  obtain ⟨allowed, hD⟩ := initialise_domains_loop_spec s _ _ _ _ _ h
  have hmap : D.map (fun d => d.v) = List.range s.pattern_size := by
    rw [hD, List.map_map]
    exact List.map_id _
  constructor
  · rw [hmap]; exact List.nodup_range _
  · intro i hi
    right
    rw [hmap]
    exact List.mem_range.mpr hi
  · intro d _
    exact Finset.not_mem_empty _
  · intro u hu
    exact absurd hu (Finset.not_mem_empty _)
  · intro u _ hu
    exact absurd hu (Finset.not_mem_empty _)
  · intro u _ hu
    exact absurd hu (Finset.not_mem_empty _)
  · intro d hd j hj
    rw [hD] at hd
    obtain ⟨i, _, rfl⟩ := List.mem_map.mp hd
    simp only [Finset.mem_filter, Finset.mem_range] at hj
    exact ⟨hj.1, fun u hu => absurd hu (Finset.not_mem_empty _),
      fun u hu => absurd hu (Finset.not_mem_empty _), domain_ok_loops hg hj.2⟩

theorem run_solution {s : SGI} {abort : Nat → Bool} {r : SubgraphIsomorphismResult}
    (h : s.run abort = some r) (hne : r.isomorphism ≠ []) :
    s.full_pattern_size ≤ s.target_size ∧
      ∃ A, (∀ g, g < s.g_end → Solution s g A) ∧ save_result s A = some r.isomorphism := by
  unfold SGI.run at h
  split at h
  · cases h; exact absurd rfl hne
  · rename_i hsize
    refine ⟨Nat.le_of_not_gt hsize, ?_⟩
    cases hi : initialise_domains s with
    | none => rw [hi] at h; cases h
    | some bi =>
      obtain ⟨b, D0⟩ := bi
      rw [hi] at h
      cases b with
      | false => cases h; exact absurd rfl hne
      | true =>
        simp only [] at h
        cases hc : cheap_all_different s D0 ∅ with
        | none => rw [hc] at h; cases h
        | some bc =>
          obtain ⟨b, D1, F1⟩ := bc
          rw [hc] at h
          cases b with
          | false => cases h; exact absurd rfl hne
          | true =>
            simp only [] at h
            cases hr : (if s.cfg.use_full_all_different then regin_all_different s D1
                else some (true, D1)) with
            | none => rw [hr] at h; cases h
            | some br =>
              obtain ⟨b, D2⟩ := br
              rw [hr] at h
              cases b with
              | false => cases h; exact absurd rfl hne
              | true =>
                simp only [] at h
                have h12 : Shrinks D1 D2 := by
                  split at hr
                  · exact regin_all_different_shrinks hr
                  · simp only [Option.some.injEq, Prod.mk.injEq, true_and] at hr
                    rw [hr]; exact Shrinks.rfl_ _
                have hinv : ∀ g, g < s.g_end →
                    NodeInv s g ∅ (fun _ => 4294967295) (prepare_for_search D2) :=
                  fun g hg => (((initialise_domains_nodeInv hg _ hi).shrinks
                    (cheap_all_different_shrinks hc)).shrinks h12).shrinks
                    (prepare_for_search_shrinks D2)
                cases hs : search s abort s.g_end ((prepare_for_search D2).length + 1)
                    (fun _ => 4294967295) (prepare_for_search D2) 0 with
                | none => rw [hs] at h; cases h
                | some out =>
                  rw [hs] at h
                  simp only [SGI.finish] at h
                  cases hres : out.result with
                  | Aborted => rw [hres] at h; cases h; exact absurd rfl hne
                  | Unsatisfiable => rw [hres] at h; cases h; exact absurd rfl hne
                  | Satisfiable =>
                    rw [hres] at h
                    simp only [] at h
                    cases hsave : save_result s out.assignments with
                    | none => rw [hsave] at h; cases h
                    | some m =>
                      rw [hsave] at h
                      cases h
                      exact ⟨out.assignments, fun g hg =>
                        (search_sound s abort g s.g_end hg _ _ _ _ _ _ (hinv g hg) hs).2 hres,
                        hsave⟩

/-! ## Subgraph isomorphism: the recoded graphs and `save_result` -/

theorem graph_adjacent_comm (g : Graph) (a b : Nat) : g.adjacent a b = g.adjacent b a := by
  unfold Graph.adjacent
  rw [Bool.or_comm (g.edges.contains (a, b)), Bool.and_comm (decide (a < g.size))]

theorem graph_degree_pos {g : Graph} {a b : Nat} (h : g.adjacent a b = true) :
    g.degree a ≠ 0 := by
  unfold Graph.degree
  have hb : b < g.size := by
    unfold Graph.adjacent at h
    simp only [Bool.and_eq_true, decide_eq_true_eq] at h
    exact h.1.2
  have hmem : b ∈ (List.range g.size).filter fun b => g.adjacent a b :=
    List.mem_filter.mpr ⟨List.mem_range.mpr hb, h⟩
  intro h0
  rw [List.length_eq_zero] at h0
  rw [h0] at hmem
  cases hmem

theorem recode_adjacent (g : Graph) (order : List Nat) (n i j : Nat) :
    (recode g order n).adjacent i j = true ↔
      i < n ∧ j < n ∧ g.adjacent (order.getD i 0) (order.getD j 0) = true := by
  unfold recode FixedBitGraph.adjacent
  simp only [Bool.and_eq_true, decide_eq_true_eq, Bool.or_eq_true, List.elem_eq_mem,
    List.mem_filter, List.mem_flatMap, List.mem_map, List.mem_range, Prod.mk.injEq]
  constructor
  · rintro ⟨⟨hi, hj⟩, h | h⟩
    · exact ⟨hi, hj, h.2⟩
    · refine ⟨hi, hj, ?_⟩
      rw [graph_adjacent_comm]
      exact h.2
  · rintro ⟨hi, hj, h⟩
    exact ⟨⟨hi, hj⟩, Or.inl ⟨⟨i, hi, j, hj, rfl, rfl⟩, h⟩⟩

theorem emplace_fresh {m : List (Nat × Nat)} {key : Nat} (value : Nat)
    (h : key ∉ m.map Prod.fst) : emplace m key value = m ++ [(key, value)] := by
  unfold emplace
  rw [if_neg]
  intro hany
  rw [List.any_eq_true] at hany
  obtain ⟨e, he, hk⟩ := hany
  simp only [decide_eq_true_eq] at hk
  exact h (List.mem_map.mpr ⟨e, he, hk⟩)

theorem foldl_emplace (kf vf : Nat → Nat) :
    ∀ (l : List Nat) (m : List (Nat × Nat)),
      (∀ v, v ∈ l → kf v ∉ m.map Prod.fst) → (l.map kf).Nodup →
        l.foldl (fun m v => emplace m (kf v) (vf v)) m = m ++ l.map fun v => (kf v, vf v) := by
  intro l
  induction l with
  | nil => intro m _ _; simp
  | cons a l ih =>
    intro m hm hnd
    rw [List.foldl_cons, emplace_fresh _ (hm a (List.mem_cons_self _ _))]
    rw [List.map_cons, List.nodup_cons] at hnd
    rw [ih _ _ hnd.2]
    · simp
    · intro v hv
      rw [List.map_append, List.mem_append]
      rintro (h | h)
      · exact hm v (List.mem_cons_of_mem _ hv) h
      · simp only [List.map_cons, List.map_nil, List.mem_singleton] at h
        exact hnd.1 (h ▸ List.mem_map_of_mem kf hv)

theorem skip_used_spec (m : List (Nat × Nat)) :
    ∀ (fuel t t1 : Nat), skip_used m fuel t = some t1 →
      t ≤ t1 ∧ t1 ∉ m.map Prod.snd ∧ ∀ x, t ≤ x → x < t1 → x ∈ m.map Prod.snd := by
  intro fuel
  induction fuel with
  | zero => intro t t1 h; simp only [skip_used] at h; cases h
  | succ fuel ih =>
    intro t t1 h
    simp only [skip_used] at h
    split at h
    · rename_i hany
      obtain ⟨h1, h2, h3⟩ := ih _ _ h
      refine ⟨by omega, h2, ?_⟩
      intro x hx hx1
      by_cases hxt : x = t
      · rw [List.any_eq_true] at hany
        obtain ⟨e, he, hk⟩ := hany
        simp only [decide_eq_true_eq] at hk
        rw [hxt, ← hk]
        exact List.mem_map_of_mem Prod.snd he
      · exact h3 x (by omega) hx1
    · rename_i hany
      simp only [Option.some.injEq] at h
      subst h
      refine ⟨le_refl _, ?_, fun x hx hx1 => by omega⟩
      intro hmem
      apply hany
      rw [List.any_eq_true]
      obtain ⟨e, he, hk⟩ := List.mem_map.mp hmem
      exact ⟨e, he, by simpa using hk⟩

theorem range_sub_length_le {l : List Nat} {t : Nat} (h : ∀ x, x < t → x ∈ l) :
    t ≤ l.length := by
  have hsub : Finset.range t ⊆ l.toFinset := by
    intro x hx
    exact List.mem_toFinset.mpr (h x (Finset.mem_range.mp hx))
  calc t = (Finset.range t).card := (Finset.card_range t).symm
    _ ≤ l.toFinset.card := Finset.card_le_card hsub
    _ ≤ l.length := List.toFinset_card_le l

theorem save_isolated_spec :
    ∀ (iso : List Nat) (t : Nat) (m res : List (Nat × Nat)),
      save_isolated iso t m = some res →
      (∀ v, v ∈ iso → v ∉ m.map Prod.fst) → iso.Nodup →
      (∀ x, x < t → x ∈ m.map Prod.snd) → (m.map Prod.snd).Nodup →
        res.map Prod.fst = m.map Prod.fst ++ iso ∧ (res.map Prod.snd).Nodup ∧
          ∀ e, e ∈ res → e ∈ m ∨ (e.1 ∈ iso ∧ e.2 < m.length + iso.length) := by
  intro iso
  induction iso with
  | nil =>
    intro t m res h _ _ _ hnd
    simp only [save_isolated, Option.some.injEq] at h
    subst h
    exact ⟨by simp, hnd, fun e he => Or.inl he⟩
  | cons v rest ih =>
    intro t m res h hkeys hiso hlow hnd
    simp only [save_isolated] at h
    cases hsk : skip_used m (m.length + 1) t with
    | none => rw [hsk] at h; cases h
    | some t1 =>
      rw [hsk] at h
      simp only [] at h
      obtain ⟨s1, s2, s3⟩ := skip_used_spec m _ _ _ hsk
      rw [emplace_fresh t1 (hkeys v (List.mem_cons_self _ _))] at h
      rw [List.nodup_cons] at hiso
      have hall : ∀ x, x < t1 → x ∈ m.map Prod.snd := by
        intro x hx
        by_cases hxt : x < t
        · exact hlow x hxt
        · exact s3 x (by omega) hx
      have ht1 : t1 ≤ m.length := by
        have := range_sub_length_le hall
        rwa [List.length_map] at this
      obtain ⟨r1, r2, r3⟩ := ih t1 (m ++ [(v, t1)]) res h
        (by
          intro w hw
          rw [List.map_append, List.mem_append]
          rintro (hm | hm)
          · exact hkeys w (List.mem_cons_of_mem _ hw) hm
          · simp only [List.map_cons, List.map_nil, List.mem_singleton] at hm
            exact hiso.1 (hm ▸ hw))
        hiso.2
        (by
          intro x hx
          rw [List.map_append, List.mem_append]
          exact Or.inl (hall x hx))
        (by
          rw [List.map_append]
          refine List.Nodup.append hnd (List.nodup_singleton _) ?_
          intro x hx hx1
          simp only [List.map_cons, List.map_nil, List.mem_singleton] at hx1
          exact s2 (hx1 ▸ hx))
      refine ⟨by rw [r1]; simp, r2, ?_⟩
      intro e he
      rcases r3 e he with h1 | ⟨h1, h2⟩
      · rcases List.mem_append.mp h1 with h3 | h3
        · exact Or.inl h3
        · simp only [List.mem_singleton] at h3
          right
          rw [h3]
          exact ⟨List.mem_cons_self _ _, by simp only [List.length_cons]; omega⟩
      · right
        refine ⟨List.mem_cons_of_mem _ h1, ?_⟩
        simp only [List.length_append, List.length_singleton, List.length_cons, List.length_nil] at h2 ⊢
        omega

theorem map_getD_range (l : List Nat) :
    (List.range l.length).map (fun v => l.getD v 0) = l := by
  apply List.ext_getElem
  · simp
  · intro n h1 h2
    simp only [List.getElem_map, List.getElem_range]
    exact List.getD_eq_getElem l 0 h2

theorem filter_length_add (p : Nat → Bool) (l : List Nat) :
    (l.filter p).length + (l.filter fun v => ! p v).length = l.length := by
  induction l with
  | nil => rfl
  | cons a l ih =>
    cases hp : p a
    · simp only [List.filter_cons, hp, Bool.not_false, if_true, List.length_cons]
      simp only [Bool.false_eq_true, if_false]
      omega
    · simp only [List.filter_cons, hp, Bool.not_true, if_true, List.length_cons]
      simp only [Bool.false_eq_true, if_false]
      omega


theorem save_result_entries {s : SGI} (hw : WellFormed s) {A : Assignments}
    (hrange : ∀ i, i < s.pattern_size → A i < s.target_size)
    (hinj : ∀ i j, i < s.pattern_size → j < s.pattern_size → A i = A j → i = j)
    {m : List (Nat × Nat)} (hsave : save_result s A = some m) : Entries s A m := by
  have hto_nd : s.target_order.Nodup := hw.to_perm.nodup_iff.mpr (List.nodup_range _)
  have hto_len : s.target_order.length = s.target_size := by
    rw [hw.to_perm.length_eq, List.length_range]
  have hm0 : (List.range s.pattern_size).foldl
      (fun m v => emplace m (s.pattern_order.getD v 0) (s.target_order.getD (A v) 0)) [] =
      (List.range s.pattern_size).map fun v =>
        (s.pattern_order.getD v 0, s.target_order.getD (A v) 0) := by
    rw [foldl_emplace (fun v => s.pattern_order.getD v 0)
      (fun v => s.target_order.getD (A v) 0)]
    · simp
    · intro v _; simp
    · rw [← hw.po_length, map_getD_range]; exact hw.po_nodup
  unfold save_result at hsave
  rw [hm0] at hsave
  have hkeys0 : ((List.range s.pattern_size).map fun v =>
      (s.pattern_order.getD v 0, s.target_order.getD (A v) 0)).map Prod.fst =
      s.pattern_order := by
    rw [List.map_map, ← hw.po_length]
    exact map_getD_range s.pattern_order
  have hvals0 : (((List.range s.pattern_size).map fun v =>
      (s.pattern_order.getD v 0, s.target_order.getD (A v) 0)).map Prod.snd).Nodup := by
    rw [List.map_map]
    refine List.Nodup.map_on ?_ (List.nodup_range _)
    intro x hx y hy hxy
    have hx1 := List.mem_range.mp hx
    have hy1 := List.mem_range.mp hy
    simp only [Function.comp] at hxy
    rw [List.getD_eq_getElem _ 0 (by rw [hto_len]; exact hrange x hx1),
      List.getD_eq_getElem _ 0 (by rw [hto_len]; exact hrange y hy1)] at hxy
    exact hinj x y hx1 hy1 ((List.Nodup.getElem_inj_iff hto_nd).mp hxy)
  obtain ⟨r1, r2, r3⟩ := save_isolated_spec s.isolated_vertices 0 _ _ hsave
    (by rw [hkeys0]; exact hw.disj) hw.iso_nodup
    (fun x hx => absurd hx (Nat.not_lt_zero x)) hvals0
  rw [hkeys0] at r1
  refine ⟨r1, r2, ?_⟩
  intro e he
  rcases r3 e he with h | ⟨h1, h2⟩
  · obtain ⟨i, hi, rfl⟩ := List.mem_map.mp h
    exact Or.inl ⟨i, List.mem_range.mp hi, rfl, rfl⟩
  · right
    refine ⟨h1, ?_⟩
    simpa only [List.length_map, List.length_range] using h2

theorem make_wellFormed (cfg : Config) (ext : Externals) (target pattern : Graph)
    (hsort : (ext.degree_sort target).Perm (List.range target.size)) :
    WellFormed (SGI.make cfg ext target pattern) := by
  have hlen := filter_length_add (fun v => (! cfg.induced) && decide (pattern.degree v = 0))
    (List.range pattern.size)
  rw [List.length_range] at hlen
  refine ⟨(List.nodup_range _).filter _, (List.nodup_range _).filter _, ?_, ?_, ?_, hsort⟩
  · intro v hv hv2
    have h1 := (List.mem_filter.mp hv).2
    have h2 := (List.mem_filter.mp hv2).2
    rw [h1] at h2
    cases h2
  · show ((List.range pattern.size).filter fun v =>
        ! ((! cfg.induced) && decide (pattern.degree v = 0))).length =
      pattern.size - ((List.range pattern.size).filter fun v =>
        (! cfg.induced) && decide (pattern.degree v = 0)).length
    omega
  · show pattern.size - ((List.range pattern.size).filter fun v =>
        (! cfg.induced) && decide (pattern.degree v = 0)).length +
      ((List.range pattern.size).filter fun v =>
        (! cfg.induced) && decide (pattern.degree v = 0)).length = pattern.size
    omega

theorem make_pattern_graph (cfg : Config) (ext : Externals) (target pattern : Graph) :
    (SGI.make cfg ext target pattern).pattern_graphs 0 =
      recode pattern (SGI.make cfg ext target pattern).pattern_order
        (SGI.make cfg ext target pattern).pattern_size := rfl

theorem make_target_graph (cfg : Config) (ext : Externals) (target pattern : Graph) :
    (SGI.make cfg ext target pattern).target_graphs 0 =
      recode target (SGI.make cfg ext target pattern).target_order target.size := rfl

theorem make_isolated {cfg : Config} {ext : Externals} {target pattern : Graph} {v : Nat}
    (h : v ∈ (SGI.make cfg ext target pattern).isolated_vertices) :
    cfg.induced = false ∧ pattern.degree v = 0 := by
  have h1 := (List.mem_filter.mp h).2
  simpa using h1

theorem make_key_lt {cfg : Config} {ext : Externals} {target pattern : Graph} {v : Nat}
    (h : v ∈ (SGI.make cfg ext target pattern).pattern_order ++
      (SGI.make cfg ext target pattern).isolated_vertices) : v < pattern.size := by
  rcases List.mem_append.mp h with h | h
  · exact List.mem_range.mp (List.mem_filter.mp h).1
  · exact List.mem_range.mp (List.mem_filter.mp h).1

theorem make_key_mem {cfg : Config} {ext : Externals} {target pattern : Graph} {v : Nat}
    (hv : v < pattern.size) :
    v ∈ (SGI.make cfg ext target pattern).pattern_order ++
      (SGI.make cfg ext target pattern).isolated_vertices := by
  rw [List.mem_append]
  cases hp : ((! cfg.induced) && decide (pattern.degree v = 0))
  · exact Or.inl (List.mem_filter.mpr ⟨List.mem_range.mpr hv, by rw [hp]; rfl⟩)
  · exact Or.inr (List.mem_filter.mpr ⟨List.mem_range.mpr hv, hp⟩)

/-- What `run` returns on an instance built by the constructor, when the map is not empty. -/
theorem run_make_entries (cfg : Config) (ext : Externals) (target pattern : Graph)
    (abort : Nat → Bool) (r : SubgraphIsomorphismResult)
    (hsort : (ext.degree_sort target).Perm (List.range target.size))
    (hg : 0 < cfg.max_graphs)
    (hrun : (SGI.make cfg ext target pattern).run abort = some r)
    (hne : r.isomorphism ≠ []) :
    pattern.size ≤ target.size ∧
      ∃ A, (∀ g, g < cfg.max_graphs.toNat → Solution (SGI.make cfg ext target pattern) g A) ∧
        (∀ i, i < (SGI.make cfg ext target pattern).pattern_size → A i < target.size) ∧
        (∀ i j, i < (SGI.make cfg ext target pattern).pattern_size →
          j < (SGI.make cfg ext target pattern).pattern_size → A i = A j → i = j) ∧
        Entries (SGI.make cfg ext target pattern) A r.isomorphism := by
  obtain ⟨hsize, A, hsol, hsave⟩ := run_solution hrun hne
  have hw := make_wellFormed cfg ext target pattern hsort
  have hg2 : 0 < cfg.max_graphs.toNat := by omega
  exact ⟨hsize, A, hsol, (hsol 0 hg2).range_ok, (hsol 0 hg2).inj,
    save_result_entries hw (hsol 0 hg2).range_ok (hsol 0 hg2).inj hsave⟩

/-- The map returned by `run` is a subgraph isomorphism in the original labels. -/
theorem run_make_sound (cfg : Config) (ext : Externals) (target pattern : Graph)
    (abort : Nat → Bool) (r : SubgraphIsomorphismResult)
    (hsort : (ext.degree_sort target).Perm (List.range target.size))
    (hg : 0 < cfg.max_graphs)
    (hrun : (SGI.make cfg ext target pattern).run abort = some r)
    (hne : r.isomorphism ≠ []) :
    (∀ v, v < pattern.size → ∃ t, (v, t) ∈ r.isomorphism) ∧
      (r.isomorphism.map Prod.fst).Nodup ∧ (r.isomorphism.map Prod.snd).Nodup ∧
      (∀ e, e ∈ r.isomorphism → e.1 < pattern.size ∧ e.2 < target.size) ∧
      ∀ u v tu tv, (u, tu) ∈ r.isomorphism → (v, tv) ∈ r.isomorphism →
        pattern.adjacent u v = true → target.adjacent tu tv = true := by
  obtain ⟨hsize, A, hsol, hrange, _, hent⟩ :=
    run_make_entries cfg ext target pattern abort r hsort hg hrun hne
  have hw := make_wellFormed cfg ext target pattern hsort
  have hg2 : 0 < cfg.max_graphs.toNat := by omega
  have hto_len : (ext.degree_sort target).length = target.size := by
    rw [hsort.length_eq, List.length_range]
  have hto_lt : ∀ x, x ∈ ext.degree_sort target → x < target.size := by
    intro x hx
    exact List.mem_range.mp (hsort.mem_iff.mp hx)
  have hentry : ∀ u tu w, (u, tu) ∈ r.isomorphism → pattern.adjacent u w = true →
      ∃ i, i < (SGI.make cfg ext target pattern).pattern_size ∧
        u = (SGI.make cfg ext target pattern).pattern_order.getD i 0 ∧
        tu = (ext.degree_sort target).getD (A i) 0 := by
    intro u tu w hu hadj
    rcases hent.shape _ hu with h | ⟨h, _⟩
    · exact h
    · exact absurd (make_isolated h).2 (graph_degree_pos hadj)
  refine ⟨?_, ?_, hent.vals_nodup, ?_, ?_⟩
  · intro v hv
    have hmem : v ∈ r.isomorphism.map Prod.fst := by
      rw [hent.keys]
      exact make_key_mem hv
    obtain ⟨e, he, hev⟩ := List.mem_map.mp hmem
    exact ⟨e.2, by rw [← hev]; exact he⟩
  · rw [hent.keys]
    exact List.Nodup.append hw.po_nodup hw.iso_nodup (fun v hv hv2 => hw.disj v hv2 hv)
  · intro e he
    constructor
    · exact make_key_lt (hent.keys ▸ List.mem_map_of_mem Prod.fst he)
    · rcases hent.shape e he with ⟨i, hi, _, h2⟩ | ⟨_, h⟩
      · rw [h2]
        show (ext.degree_sort target).getD (A i) 0 < target.size
        rw [List.getD_eq_getElem _ 0 (by rw [hto_len]; exact hrange i hi)]
        exact hto_lt _ (List.getElem_mem _)
      · have hfull : (SGI.make cfg ext target pattern).pattern_size +
            (SGI.make cfg ext target pattern).isolated_vertices.length = pattern.size :=
          hw.full
        omega
  · intro u v tu tv hu hv hadj
    obtain ⟨i, hi, hui, htui⟩ := hentry u tu v hu hadj
    obtain ⟨j, hj, hvj, htvj⟩ := hentry v tv u hv (by rw [graph_adjacent_comm]; exact hadj)
    have hp : ((SGI.make cfg ext target pattern).pattern_graphs 0).adjacent i j = true := by
      rw [make_pattern_graph, recode_adjacent]
      exact ⟨hi, hj, by rw [← hui, ← hvj]; exact hadj⟩
    have ht := (hsol 0 hg2).adj i j hi hj hp
    rw [make_target_graph, recode_adjacent] at ht
    rw [htui, htvj]
    exact ht.2.2

/-- In induced mode the map returned by `run` keeps distinct non-adjacent vertices apart, when
one of the filter graph pairs is a complement pair. -/
theorem run_make_induced (cfg : Config) (ext : Externals) (target pattern : Graph)
    (abort : Nat → Bool) (r : SubgraphIsomorphismResult)
    (hind : cfg.induced = true)
    (hsort : (ext.degree_sort target).Perm (List.range target.size))
    (hcomp : ∃ g, ComplementPair (SGI.make cfg ext target pattern) g)
    (hrun : (SGI.make cfg ext target pattern).run abort = some r) :
    ∀ u v tu tv, (u, tu) ∈ r.isomorphism → (v, tv) ∈ r.isomorphism → u ≠ v →
      pattern.adjacent u v = false → target.adjacent tu tv = false := by
  intro u v tu tv hu hv huv hadj
  have hne : r.isomorphism ≠ [] := by
    intro h
    rw [h] at hu
    cases hu
  obtain ⟨g, hg, hcp, hct⟩ := hcomp
  have hg0 : 0 < cfg.max_graphs := by
    have : g < cfg.max_graphs.toNat := hg
    omega
  obtain ⟨_, A, hsol, hrange, _, hent⟩ :=
    run_make_entries cfg ext target pattern abort r hsort hg0 hrun hne
  have hentry : ∀ e, e ∈ r.isomorphism →
      ∃ i, i < (SGI.make cfg ext target pattern).pattern_size ∧
        e.1 = (SGI.make cfg ext target pattern).pattern_order.getD i 0 ∧
        e.2 = (ext.degree_sort target).getD (A i) 0 := by
    intro e he
    rcases hent.shape _ he with h | ⟨h, _⟩
    · exact h
    · have := (make_isolated h).1
      rw [hind] at this
      cases this
  obtain ⟨i, hi, hui, htui⟩ := hentry _ hu
  obtain ⟨j, hj, hvj, htvj⟩ := hentry _ hv
  simp only at hui htui hvj htvj
  have hij : i ≠ j := by
    intro e
    apply huv
    rw [hui, hvj, e]
  have hp0 : ((SGI.make cfg ext target pattern).pattern_graphs 0).adjacent i j = false := by
    rw [Bool.eq_false_iff]
    intro h
    rw [make_pattern_graph, recode_adjacent] at h
    rw [← hui, ← hvj, hadj] at h
    cases h.2.2
  have ht := (hsol g hg).adj i j hi hj (hcp i hi j hj hij hp0)
  have ht0 := hct _ (hrange i hi) _ (hrange j hj) ht
  rw [Bool.eq_false_iff]
  intro h
  have : ((SGI.make cfg ext target pattern).target_graphs 0).adjacent (A i) (A j) = true := by
    rw [make_target_graph, recode_adjacent]
    refine ⟨hrange i hi, hrange j hj, ?_⟩
    show target.adjacent ((ext.degree_sort target).getD (A i) 0)
      ((ext.degree_sort target).getD (A j) 0) = true
    rw [← htui, ← htvj]
    exact h
  rw [this] at ht0
  cases ht0

/-! ## Claims about the subgraph isomorphism solver -/

/-- C1: SGI soundness. For every pattern, target and configuration with at least one filter
graph, and every external `degree_sort` that permutes the target vertices: if `run` returns a
non-empty isomorphism, then it has an entry for every pattern vertex, no key and no value occurs
twice, the values are target vertices, and adjacent pattern vertices go to adjacent target
vertices, all in the original labels. -/
theorem C1_sgi_soundness (cfg : Config) (ext : Externals) (target pattern : Graph)
    (abort : Nat → Bool) (r : SubgraphIsomorphismResult)
    (hsort : (ext.degree_sort target).Perm (List.range target.size))
    (hg : 0 < cfg.max_graphs)
    (hrun : (SGI.make cfg ext target pattern).run abort = some r)
    (hne : r.isomorphism ≠ []) :
    (∀ v, v < pattern.size → ∃ t, (v, t) ∈ r.isomorphism) ∧
      (r.isomorphism.map Prod.fst).Nodup ∧ (r.isomorphism.map Prod.snd).Nodup ∧
      (∀ e, e ∈ r.isomorphism → e.1 < pattern.size ∧ e.2 < target.size) ∧
      ∀ u v tu tv, (u, tu) ∈ r.isomorphism → (v, tv) ∈ r.isomorphism →
        pattern.adjacent u v = true → target.adjacent tu tv = true :=
  run_make_sound cfg ext target pattern abort r hsort hg hrun hne

set_option maxRecDepth 100000 in
/-- C1 at the pattern `P3` and the target `K3`: the solver returns `0 ↦ 1, 1 ↦ 0, 2 ↦ 2`. -/
theorem C1_sgi_soundness_witness :
    (SGI.make (plainConfig false) refExternals K3 P3).run never =
        some ⟨[(0, 1), (1, 0), (2, 2)], 4⟩ ∧
      (∀ v, v < P3.size → ∃ t, (v, t) ∈ [(0, 1), (1, 0), (2, 2)]) ∧
      (([(0, 1), (1, 0), (2, 2)] : List (Nat × Nat)).map Prod.fst).Nodup ∧
      (([(0, 1), (1, 0), (2, 2)] : List (Nat × Nat)).map Prod.snd).Nodup ∧
      (∀ e, e ∈ [(0, 1), (1, 0), (2, 2)] → e.1 < P3.size ∧ e.2 < K3.size) ∧
      ∀ u v tu tv, (u, tu) ∈ [(0, 1), (1, 0), (2, 2)] → (v, tv) ∈ [(0, 1), (1, 0), (2, 2)] →
        P3.adjacent u v = true → K3.adjacent tu tv = true :=
  ⟨by decide!,
    C1_sgi_soundness (plainConfig false) refExternals K3 P3 never ⟨[(0, 1), (1, 0), (2, 2)], 4⟩
      (by decide) (by decide) (by decide!) (by decide)⟩

/-- C3: induced SGI soundness. In induced mode, when one of the filter graph pairs is the
complement pair, every map that `run` returns sends two distinct non-adjacent pattern vertices
to non-adjacent target vertices. -/
theorem C3_induced_soundness (cfg : Config) (ext : Externals) (target pattern : Graph)
    (abort : Nat → Bool) (r : SubgraphIsomorphismResult)
    (hind : cfg.induced = true)
    (hsort : (ext.degree_sort target).Perm (List.range target.size))
    (hcomp : ∃ g, ComplementPair (SGI.make cfg ext target pattern) g)
    (hrun : (SGI.make cfg ext target pattern).run abort = some r) :
    ∀ u v tu tv, (u, tu) ∈ r.isomorphism → (v, tv) ∈ r.isomorphism → u ≠ v →
      pattern.adjacent u v = false → target.adjacent tu tv = false :=
  run_make_induced cfg ext target pattern abort r hind hsort hcomp hrun

set_option maxRecDepth 100000 in
/-- C3 at the pattern `P3`: in induced mode it is found in the cycle `C4` with the ends of the
path kept apart, and it is not found in the triangle `K3`. -/
theorem C3_induced_soundness_witness :
    (SGI.make (plainConfig true) refExternals K3 P3).run never = some ⟨[], 0⟩ ∧
      (SGI.make (plainConfig true) refExternals C4 P3).run never =
        some ⟨[(0, 1), (1, 0), (2, 3)], 4⟩ ∧
      ∀ u v tu tv, (u, tu) ∈ [(0, 1), (1, 0), (2, 3)] → (v, tv) ∈ [(0, 1), (1, 0), (2, 3)] →
        u ≠ v → P3.adjacent u v = false → C4.adjacent tu tv = false :=
  ⟨by decide!, by decide!,
    C3_induced_soundness (plainConfig true) refExternals C4 P3 never ⟨[(0, 1), (1, 0), (2, 3)], 4⟩
      rfl (by decide) ⟨1, by unfold ComplementPair; decide!⟩ (by decide!)⟩

set_option maxRecDepth 100000 in
/-- Without backjumping, and with the other toggles of `gbbj_nosup_subgraph_isomorphism`, the
solver finds `hallEmbedding` after 17 nodes. -/
theorem run_hall_plain :
    (SGI.make (plainConfig false) refExternals hallTarget hallPattern).run never =
      some ⟨[(0, 6), (1, 1), (2, 2), (3, 0), (4, 4), (5, 3), (6, 5)], 17⟩ := by
  decide!

set_option maxRecDepth 100000 in
/-- `gbbj_nosup_subgraph_isomorphism` gives up after 11 nodes. -/
theorem run_hall_backjump :
    gbbj_nosup_subgraph_isomorphism refExternals (hallPattern, hallTarget) false never =
      some ⟨[], 11⟩ := by
  decide!

/-- `hallEmbedding` is an injective map into the target that preserves adjacency. -/
theorem hallEmbedding_ok :
    (∀ u, u < hallPattern.size → hallEmbedding.getD u 0 < hallTarget.size) ∧
      (∀ u, u < hallPattern.size → ∀ v, v < hallPattern.size →
        hallEmbedding.getD u 0 = hallEmbedding.getD v 0 → u = v) ∧
      ∀ u, u < hallPattern.size → ∀ v, v < hallPattern.size →
        hallPattern.adjacent u v = true →
          hallTarget.adjacent (hallEmbedding.getD u 0) (hallEmbedding.getD v 0) = true := by
  decide

/-- C2: SGI completeness fails for `gbbj_nosup_subgraph_isomorphism` in non-induced mode. The
abort flag is never set, the configuration has one filter graph pair only (so there is no
supplemental pair), `hallEmbedding` is an injective adjacency-preserving map of the non-empty
pattern into the target, and the function returns the empty map, after 11 nodes. -/
theorem C2_completeness_fails_with_backjumping :
    (gbbj_nosup_config false).max_graphs = 1 ∧ hallPattern.size ≠ 0 ∧
      ((∀ u, u < hallPattern.size → hallEmbedding.getD u 0 < hallTarget.size) ∧
        (∀ u, u < hallPattern.size → ∀ v, v < hallPattern.size →
          hallEmbedding.getD u 0 = hallEmbedding.getD v 0 → u = v) ∧
        ∀ u, u < hallPattern.size → ∀ v, v < hallPattern.size →
          hallPattern.adjacent u v = true →
            hallTarget.adjacent (hallEmbedding.getD u 0) (hallEmbedding.getD v 0) = true) ∧
      gbbj_nosup_subgraph_isomorphism refExternals (hallPattern, hallTarget) false never =
        some ⟨[], 11⟩ :=
  ⟨by decide, by decide, hallEmbedding_ok, run_hall_backjump⟩

/-- C4: backjumping changes the answer. `gbbj_nosup_subgraph_isomorphism` in non-induced mode
runs the configuration `gbbj_nosup_config false`; the configuration that differs from it in
`backjump` only is `plainConfig false`. On the same instance the solver without backjumping
returns a map defined on all seven pattern vertices, after 17 nodes, and
`gbbj_nosup_subgraph_isomorphism` returns the empty map, after 11 nodes. -/
theorem C4_backjumping_changes_answer :
    plainConfig false = { gbbj_nosup_config false with backjump := false } ∧
      (SGI.make (plainConfig false) refExternals hallTarget hallPattern).run never =
        some ⟨[(0, 6), (1, 1), (2, 2), (3, 0), (4, 4), (5, 3), (6, 5)], 17⟩ ∧
      gbbj_nosup_subgraph_isomorphism refExternals (hallPattern, hallTarget) false never =
        some ⟨[], 11⟩ :=
  ⟨rfl, run_hall_plain, run_hall_backjump⟩

/-! ## Claims about failures and the abort flag -/

theorem run_of_preSearchFailure {s : SGI} (abort : Nat → Bool) (h : PreSearchFailure s) :
    s.run abort = some ⟨[], 0⟩ := by
  unfold SGI.run
  rcases h with h | ⟨D, h⟩ | ⟨D, D1, F, h1, h2⟩ | ⟨D, D1, F, D2, h1, h2, h3, h4⟩
  · rw [if_pos h]
  · by_cases hs : s.full_pattern_size > s.target_size
    · rw [if_pos hs]
    · rw [if_neg hs, h]
  · by_cases hs : s.full_pattern_size > s.target_size
    · rw [if_pos hs]
    · rw [if_neg hs, h1]
      simp only [h2]
  · by_cases hs : s.full_pattern_size > s.target_size
    · rw [if_pos hs]
    · rw [if_neg hs, h1]
      simp only [h2, h3, if_true, h4]

/-- C14: pre-search failures report zero nodes. When the pattern has more vertices than the
target, or `initialise_domains` fails, or the cheap or full all-different call of `run` fails,
`run` returns the empty isomorphism with `nodes = 0`, whatever the abort flag does; and
`gb_subgraph_isomorphism` returns the same for a pattern larger than the target. -/
theorem C14_pre_search_failures_zero_nodes (s : SGI) (ext : Externals) (graphs : Graph × Graph)
    (induced : Bool) (abort : Nat → Bool) :
    (PreSearchFailure s → s.run abort = some ⟨[], 0⟩) ∧
      (graphs.1.size > graphs.2.size →
        gb_subgraph_isomorphism ext graphs induced abort = some ⟨[], 0⟩) := by
  refine ⟨run_of_preSearchFailure abort, ?_⟩
  intro h
  unfold gb_subgraph_isomorphism
  rw [if_pos h]

set_option maxRecDepth 100000 in
/-- C14 at the pattern `P3` and the target `K3` in induced mode, where the cheap all-different
call of `run` finds the empty domain of the middle vertex, and at the pattern `C4` with the
target `K3` for the entry point. -/
theorem C14_pre_search_failures_zero_nodes_witness :
    (SGI.make (plainConfig true) refExternals K3 P3).run never = some ⟨[], 0⟩ ∧
      gb_subgraph_isomorphism refExternals (C4, K3) false never = some ⟨[], 0⟩ :=
  ⟨(C14_pre_search_failures_zero_nodes (SGI.make (plainConfig true) refExternals K3 P3)
      refExternals (C4, K3) false never).1
      (Or.inr (Or.inr (Or.inl
        ⟨[⟨0, 3, {0, 1, 2}⟩, ⟨1, 0, ∅⟩, ⟨2, 3, {0, 1, 2}⟩],
          [⟨0, 3, {0, 1, 2}⟩, ⟨1, 0, ∅⟩, ⟨2, 3, {0, 1, 2}⟩], ∅, by decide!, by decide!⟩))),
    (C14_pre_search_failures_zero_nodes (SGI.make (plainConfig true) refExternals K3 P3)
      refExternals (C4, K3) false never).2 (by decide)⟩

theorem search_values_flags (s : SGI) (abort : Nat → Bool) (g_end : Nat)
    (child : Assignments → Domains → Nat → Option SearchOut)
    (hchild : ∀ A D n out, child A D n = some out → FlagsRead abort n out)
    (D : Domains) (branch_v : Nat) :
    ∀ (fuel : Nat) (remaining : FixedBitSet) (shared : FailedVariables) (A : Assignments)
      (n : Nat) (out : SearchOut),
      search_values s g_end child D branch_v fuel remaining shared A n = some out →
        FlagsRead abort n out := by
  intro fuel
  induction fuel with
  | zero =>
    intro remaining shared A n out h
    unfold search_values at h
    split at h
    · cases h
      exact ⟨le_refl _, fun k h1 h2 => absurd h2 (Nat.not_lt.mpr h1), fun e => by cases e⟩
    · cases h
  | succ fuel ih =>
    intro remaining shared A n out h
    unfold search_values at h
    cases hfs : remaining.first_set_bit with
    | none =>
      rw [hfs] at h
      cases h
      exact ⟨le_refl _, fun k h1 h2 => absurd h2 (Nat.not_lt.mpr h1), fun e => by cases e⟩
    | some f_v =>
      rw [hfs] at h
      simp only [] at h
      cases hassign : assign s (D.filter fun d => d.v ≠ branch_v) branch_v f_v g_end shared with
      | none => rw [hassign] at h; cases h
      | some res =>
        obtain ⟨ok, D2, shared1⟩ := res
        rw [hassign] at h
        cases ok with
        | false =>
          simp only [] at h
          exact ih _ _ _ _ _ h
        | true =>
          simp only [] at h
          cases hc : child (Function.update A branch_v f_v) D2 n with
          | none => rw [hc] at h; cases h
          | some r =>
            rw [hc] at h
            simp only [] at h
            obtain ⟨c1, c2, c3⟩ := hchild _ _ _ _ hc
            cases hr : r.result with
            | Satisfiable =>
              rw [hr] at h
              cases h
              exact ⟨c1, c2, fun e => by cases e⟩
            | Aborted =>
              rw [hr] at h
              cases h
              exact ⟨c1, c2, fun _ => c3 hr⟩
            | Unsatisfiable =>
              rw [hr] at h
              simp only [] at h
              split at h
              · cases h
                exact ⟨c1, c2, c3⟩
              · obtain ⟨i1, i2, i3⟩ := ih _ _ _ _ _ h
                refine ⟨c1.trans i1, ?_, i3⟩
                intro k hk1 hk2
                by_cases hk : k < r.nodes
                · exact c2 k hk1 hk
                · exact i2 k (Nat.le_of_not_lt hk) hk2

theorem search_flags (s : SGI) (abort : Nat → Bool) (g_end : Nat) :
    ∀ (fuel : Nat) (A : Assignments) (D : Domains) (n : Nat) (out : SearchOut),
      search s abort g_end fuel A D n = some out → FlagsRead abort n out := by
  intro fuel
  induction fuel with
  | zero =>
    intro A D n out h
    simp only [search] at h
    cases h
  | succ fuel ih =>
    intro A D n out h
    simp only [search] at h
    split at h
    · rename_i hab
      cases h
      exact ⟨le_refl _, fun k h1 h2 => absurd h2 (Nat.not_lt.mpr h1), fun _ => hab⟩
    · rename_i hab
      have hn : abort n = false := by simpa using hab
      cases hsel : select_branch_domain s D with
      | none =>
        rw [hsel] at h
        cases h
        refine ⟨Nat.le_succ n, ?_, fun e => by cases e⟩
        intro k h1 h2
        have : k = n := by
          have : k < n + 1 := h2
          omega
        rw [this]; exact hn
      | some bd =>
        rw [hsel] at h
        simp only [] at h
        obtain ⟨i1, i2, i3⟩ := search_values_flags s abort g_end _ ih D bd.v _ _ _ _ _ _ h
        refine ⟨by omega, ?_, i3⟩
        intro k h1 h2
        by_cases hk : k = n
        · rw [hk]; exact hn
        · exact i2 k (by omega) h2

theorem search_aborted_at_start (s : SGI) (abort : Nat → Bool) (g_end fuel : Nat)
    (A : Assignments) (D : Domains) (n : Nat) (out : SearchOut) (hab : abort n = true)
    (h : search s abort g_end fuel A D n = some out) :
    out.result = Search.Aborted ∧ out.nodes = n := by
  cases fuel with
  | zero => simp only [search] at h; cases h
  | succ fuel =>
    simp only [search] at h
    rw [if_pos hab] at h
    cases h
    exact ⟨rfl, rfl⟩

/-- What `run` returns, in terms of the search it has made, if any. -/
theorem run_cases {s : SGI} {abort : Nat → Bool} {r : SubgraphIsomorphismResult}
    (h : s.run abort = some r) :
    r = ⟨[], 0⟩ ∨ ∃ fuel D out, search s abort s.g_end fuel (fun _ => 4294967295) D 0 = some out ∧
      s.finish out = some r := by
  unfold SGI.run at h
  split at h
  · cases h; exact Or.inl rfl
  · cases hi : initialise_domains s with
    | none => rw [hi] at h; cases h
    | some bi =>
      obtain ⟨b, D0⟩ := bi
      rw [hi] at h
      cases b with
      | false => cases h; exact Or.inl rfl
      | true =>
        simp only [] at h
        cases hc : cheap_all_different s D0 ∅ with
        | none => rw [hc] at h; cases h
        | some bc =>
          obtain ⟨b, D1, F1⟩ := bc
          rw [hc] at h
          cases b with
          | false => cases h; exact Or.inl rfl
          | true =>
            simp only [] at h
            cases hr : (if s.cfg.use_full_all_different then regin_all_different s D1
                else some (true, D1)) with
            | none => rw [hr] at h; cases h
            | some br =>
              obtain ⟨b, D2⟩ := br
              rw [hr] at h
              cases b with
              | false => cases h; exact Or.inl rfl
              | true =>
                simp only [] at h
                cases hs : search s abort s.g_end ((prepare_for_search D2).length + 1)
                    (fun _ => 4294967295) (prepare_for_search D2) 0 with
                | none => rw [hs] at h; cases h
                | some out =>
                  rw [hs] at h
                  exact Or.inr ⟨_, _, out, hs, h⟩

theorem finish_not_satisfiable {s : SGI} {out : SearchOut}
    (h : out.result ≠ Search.Satisfiable) : s.finish out = some ⟨[], out.nodes⟩ := by
  unfold SGI.finish
  cases hr : out.result with
  | Satisfiable => exact absurd hr h
  | Aborted => rfl
  | Unsatisfiable => rfl

theorem finish_nodes {s : SGI} {out : SearchOut} {r : SubgraphIsomorphismResult}
    (h : s.finish out = some r) : r.nodes = out.nodes := by
  unfold SGI.finish at h
  cases hr : out.result with
  | Satisfiable =>
    rw [hr] at h
    simp only [] at h
    cases hsave : save_result s out.assignments with
    | none => rw [hsave] at h; cases h
    | some m => rw [hsave] at h; cases h; rfl
  | Aborted => rw [hr] at h; cases h; rfl
  | Unsatisfiable => rw [hr] at h; cases h; rfl

set_option maxRecDepth 100000 in
/-- C16, counterexample: the triangle is not found in the cycle `C5` after six nodes; when the
abort flag is set after five nodes, that search is aborted and `run` returns the empty map
with five nodes, which is exactly what `run` returns for the cycle `C4`, where the search
proves after five nodes that there is no triangle. -/
theorem C16_aborted_result_equals_unsatisfiable_result :
    (SGI.make (plainConfig false) refExternals C5 K3).run never = some ⟨[], 6⟩ ∧
      (SGI.make (plainConfig false) refExternals C5 K3).run (abort_from 5) = some ⟨[], 5⟩ ∧
      (SGI.make (plainConfig false) refExternals C4 K3).run never = some ⟨[], 5⟩ := by
  refine ⟨by decide!, by decide!, by decide!⟩

/-- C16, amended: when `search` returns `Aborted`, `run` returns the empty isomorphism and the
nodes counted so far, and nothing else: it is the result that `run` returns for an
unsatisfiable search with the same node count. -/
theorem C16_aborted_result (s : SGI) (out : SearchOut) (h : out.result = Search.Aborted) :
    s.finish out = some ⟨[], out.nodes⟩ ∧
      ∀ out2 : SearchOut, out2.result = Search.Unsatisfiable → out2.nodes = out.nodes →
        s.finish out2 = s.finish out := by
  have h1 : s.finish out = some ⟨[], out.nodes⟩ :=
    finish_not_satisfiable (by rw [h]; exact fun e => by cases e)
  refine ⟨h1, ?_⟩
  intro out2 h2 hn
  rw [h1, ← hn]
  exact finish_not_satisfiable (by rw [h2]; exact fun e => by cases e)

/-- C16, amended, at an aborted and an unsatisfiable search with five nodes. -/
theorem C16_aborted_result_witness :
    (SGI.make (plainConfig false) refExternals C5 K3).finish
        ⟨Search.Aborted, ∅, fun _ => 0, 5⟩ = some ⟨[], 5⟩ ∧
      (SGI.make (plainConfig false) refExternals C5 K3).finish
        ⟨Search.Unsatisfiable, ∅, fun _ => 0, 5⟩ =
      (SGI.make (plainConfig false) refExternals C5 K3).finish
        ⟨Search.Aborted, ∅, fun _ => 0, 5⟩ :=
  ⟨(C16_aborted_result _ ⟨Search.Aborted, ∅, fun _ => 0, 5⟩ rfl).1,
    (C16_aborted_result _ ⟨Search.Aborted, ∅, fun _ => 0, 5⟩ rfl).2
      ⟨Search.Unsatisfiable, ∅, fun _ => 0, 5⟩ rfl rfl⟩

/-! ## Claims about the failed variables and the popcounts -/

theorem popcount_of_eq (D : Domains) (v : Nat) :
    popcount_of D v = match domain_of D v with
      | none => 1
      | some d => d.popcount := rfl

theorem domain_of_mem {D : Domains} {v : Nat} {d : Domain} (h : domain_of D v = some d) :
    d ∈ D := List.mem_of_find?_eq_some h

theorem sameCount_iff {old_domains new_domains : Domains} (hold : Accurate old_domains)
    (hnew : Accurate new_domains)
    (hsub : Shrunken old_domains new_domains) (v : Nat) :
    popcount_of old_domains v = popcount_of new_domains v ↔
      SameCount old_domains new_domains v := by
  rw [popcount_of_eq, popcount_of_eq]
  unfold SameCount
  cases ho : domain_of old_domains v with
  | none =>
    cases hn : domain_of new_domains v with
    | none => simp
    | some n =>
      simp only []
      rw [hnew n (domain_of_mem hn)]
      exact eq_comm
  | some o =>
    cases hn : domain_of new_domains v with
    | none =>
      simp only []
      rw [hold o (domain_of_mem ho)]
      rfl
    | some n =>
      simp only []
      rw [hold o (domain_of_mem ho), hnew n (domain_of_mem hn)]
      constructor
      · intro h
        have hov : o.v = v := by simpa using List.find?_some ho
        have hnv : n.v = v := by simpa using List.find?_some hn
        exact (Finset.eq_of_subset_of_card_le
          (hsub o (domain_of_mem ho) n (domain_of_mem hn) (hov.trans hnv.symm))
          (le_of_eq h)).symm
      · intro h
        rw [h]

/-- C19, counterexample: the failed variable `0` has the one-value domain `{5}` before the
branch and no domain after it. The code calls the failure independent, the test of the claim
does not hold; the popcounts are accurate and no domain has grown. -/
theorem C19_missing_domain_counts_as_one :
    FailedVariables.independent_of true {0} [⟨0, 1, {5}⟩] [] = true ∧
      ¬ (∀ v, v ∈ ({0} : Finset Nat) → SameDomain [⟨0, 1, {5}⟩] [] v) ∧
      Accurate [⟨0, 1, {5}⟩] ∧ Accurate [] ∧ Shrunken [⟨0, 1, {5}⟩] [] := by
  refine ⟨by decide, ?_, by decide, by decide, by decide⟩
  · intro h
    have h0 : SameDomain [⟨0, 1, {5}⟩] [] 0 := h 0 (Finset.mem_singleton_self 0)
    unfold SameDomain at h0
    revert h0
    decide

/-- C19, amended: on accurate popcounts, and when no domain has grown,
`RealFailedVariables::independent_of` returns true exactly when every failed variable has the
same number of values before and after the branch, a variable without a domain in a list
counting as one with a single value; for a variable with a domain in both lists this says that
the two domains are equal. -/
theorem C19_independence_test (f : FailedVariables) (old_domains new_domains : Domains)
    (hold : Accurate old_domains) (hnew : Accurate new_domains)
    (hsub : Shrunken old_domains new_domains) :
    FailedVariables.independent_of true f old_domains new_domains = true ↔
      ∀ v, v ∈ f → SameCount old_domains new_domains v := by
  unfold FailedVariables.independent_of
  simp only [if_true, decide_eq_true_eq]
  constructor
  · intro h v hv
    exact (sameCount_iff hold hnew hsub v).mp (h v hv)
  · intro h v hv
    exact (sameCount_iff hold hnew hsub v).mpr (h v hv)

/-- C19, amended, at a branch that shrinks the domain of variable `1` and removes variable
`0`, whose domain had two values. -/
theorem C19_independence_test_witness :
    FailedVariables.independent_of true {0, 1} [⟨0, 2, {3, 5}⟩, ⟨1, 2, {4, 6}⟩]
        [⟨1, 1, {4}⟩] = true ↔
      ∀ v, v ∈ ({0, 1} : Finset Nat) →
        SameCount [⟨0, 2, {3, 5}⟩, ⟨1, 2, {4, 6}⟩] [⟨1, 1, {4}⟩] v :=
  C19_independence_test {0, 1} [⟨0, 2, {3, 5}⟩, ⟨1, 2, {4, 6}⟩] [⟨1, 1, {4}⟩]
    (by decide) (by decide) (by decide)

/-! ## The isolated vertices in `save_result` -/

theorem skip_used_none (m : List (Nat × Nat)) :
    ∀ (fuel t : Nat), skip_used m fuel t = none →
      ∀ x, t ≤ x → x < t + fuel → x ∈ m.map Prod.snd := by
  intro fuel
  induction fuel with
  | zero => intro t _ x h1 h2; omega
  | succ fuel ih =>
    intro t h x h1 h2
    simp only [skip_used] at h
    split at h
    · rename_i hany
      by_cases hxt : x = t
      · rw [List.any_eq_true] at hany
        obtain ⟨e, he, hk⟩ := hany
        simp only [decide_eq_true_eq] at hk
        rw [hxt, ← hk]
        exact List.mem_map_of_mem Prod.snd he
      · exact ih (t + 1) h x (by omega) (by omega)
    · cases h

theorem skip_used_total (m : List (Nat × Nat)) (t : Nat) :
    ∃ t1, skip_used m (m.length + 1) t = some t1 := by
  cases h : skip_used m (m.length + 1) t with
  | some t1 => exact ⟨t1, rfl⟩
  | none =>
    exfalso
    have hall := skip_used_none m _ _ h
    have hsub : (Finset.range (m.length + 1)).image (fun x => t + x) ⊆
        (m.map Prod.snd).toFinset := by
      intro y hy
      obtain ⟨x, hx, rfl⟩ := Finset.mem_image.mp hy
      have hx1 := Finset.mem_range.mp hx
      exact List.mem_toFinset.mpr (hall (t + x) (by omega) (by omega))
    have h1 := Finset.card_le_card hsub
    rw [Finset.card_image_of_injective _ (fun a b hab => by simpa using hab),
      Finset.card_range] at h1
    have h2 := List.toFinset_card_le (m.map Prod.snd)
    rw [List.length_map] at h2
    omega

/-- The loop over the isolated vertices ends, and it gives every isolated vertex, in the order
of the list, the smallest id that no earlier entry uses. -/
theorem save_isolated_least :
    ∀ (iso : List Nat) (t : Nat) (m : List (Nat × Nat)),
      (∀ v, v ∈ iso → v ∉ m.map Prod.fst) → iso.Nodup →
      (∀ x, x < t → x ∈ m.map Prod.snd) →
        ∃ ts : List Nat, save_isolated iso t m = some (m ++ iso.zip ts) ∧
          ts.length = iso.length ∧
          ∀ k, k < iso.length →
            LeastUnused ((m ++ (iso.zip ts).take k).map Prod.snd) (ts.getD k 0) := by
  intro iso
  induction iso with
  | nil =>
    intro t m _ _ _
    exact ⟨[], by simp [save_isolated], rfl, fun k hk => absurd hk (Nat.not_lt_zero k)⟩
  | cons v rest ih =>
    intro t m hkeys hiso hlow
    obtain ⟨t1, hsk⟩ := skip_used_total m t
    obtain ⟨s1, s2, s3⟩ := skip_used_spec m _ _ _ hsk
    rw [List.nodup_cons] at hiso
    have hall : ∀ x, x < t1 → x ∈ m.map Prod.snd := by
      intro x hx
      by_cases hxt : x < t
      · exact hlow x hxt
      · exact s3 x (by omega) hx
    obtain ⟨ts, r1, r2, r3⟩ := ih t1 (m ++ [(v, t1)])
      (by
        intro w hw
        rw [List.map_append, List.mem_append]
        rintro (hm | hm)
        · exact hkeys w (List.mem_cons_of_mem _ hw) hm
        · simp only [List.map_cons, List.map_nil, List.mem_singleton] at hm
          exact hiso.1 (hm ▸ hw))
      hiso.2
      (by
        intro x hx
        rw [List.map_append, List.mem_append]
        exact Or.inl (hall x hx))
    refine ⟨t1 :: ts, ?_, by simp [r2], ?_⟩
    · simp only [save_isolated]
      rw [hsk]
      simp only []
      rw [emplace_fresh t1 (hkeys v (List.mem_cons_self _ _)), r1]
      simp
    · intro k hk
      cases k with
      | zero =>
        simp only [List.take_zero, List.append_nil, List.getD_cons_zero]
        exact ⟨s2, hall⟩
      | succ k =>
        have hk1 : k < rest.length := by
          simp only [List.length_cons] at hk
          omega
        have := r3 k hk1
        simpa using this

theorem save_result_least {s : SGI} (hw : WellFormed s) (A : Assignments) :
    ∃ ts : List Nat,
      save_result s A = some (assigned_entries s A ++ s.isolated_vertices.zip ts) ∧
      ts.length = s.isolated_vertices.length ∧
      ∀ k, k < s.isolated_vertices.length →
        LeastUnused ((assigned_entries s A ++ (s.isolated_vertices.zip ts).take k).map Prod.snd)
          (ts.getD k 0) := by
  have hm0 : (List.range s.pattern_size).foldl
      (fun m v => emplace m (s.pattern_order.getD v 0) (s.target_order.getD (A v) 0)) [] =
      assigned_entries s A := by
    rw [foldl_emplace (fun v => s.pattern_order.getD v 0)
      (fun v => s.target_order.getD (A v) 0)]
    · simp [assigned_entries]
    · intro v _; simp
    · rw [← hw.po_length, map_getD_range]; exact hw.po_nodup
  have hkeys0 : (assigned_entries s A).map Prod.fst = s.pattern_order := by
    unfold assigned_entries
    rw [List.map_map, ← hw.po_length]
    exact map_getD_range s.pattern_order
  unfold save_result
  rw [hm0]
  exact save_isolated_least s.isolated_vertices 0 _ (by rw [hkeys0]; exact hw.disj)
    hw.iso_nodup (fun x hx => absurd hx (Nat.not_lt_zero x))

theorem make_isolated_eq (cfg : Config) (ext : Externals) (target pattern : Graph)
    (hind : cfg.induced = false) :
    (SGI.make cfg ext target pattern).isolated_vertices =
      (List.range pattern.size).filter fun v => decide (pattern.degree v = 0) := by
  show ((List.range pattern.size).filter fun v =>
    (! cfg.induced) && decide (pattern.degree v = 0)) = _
  rw [hind]
  simp

/-- C17: isolated-vertex re-attachment. In non-induced mode the isolated vertices are the
vertices of degree 0 in increasing order. For a pattern with at most as many vertices as the
target and an injective assignment `A` of the other vertices, `save_result` returns the
entries of the assigned vertices followed by one entry for every isolated vertex, in that
order, whose value is the smallest id that no earlier entry uses; all values are below the
target size and no value occurs twice. -/
theorem C17_isolated_vertices_reattached (cfg : Config) (ext : Externals)
    (target pattern : Graph) (A : Assignments) (hind : cfg.induced = false)
    (hsort : (ext.degree_sort target).Perm (List.range target.size))
    (hsize : pattern.size ≤ target.size)
    (hrange : ∀ i, i < (SGI.make cfg ext target pattern).pattern_size → A i < target.size)
    (hinj : ∀ i, i < (SGI.make cfg ext target pattern).pattern_size →
      ∀ j, j < (SGI.make cfg ext target pattern).pattern_size → A i = A j → i = j) :
    (SGI.make cfg ext target pattern).isolated_vertices =
        ((List.range pattern.size).filter fun v => decide (pattern.degree v = 0)) ∧
      (SGI.make cfg ext target pattern).isolated_vertices.Sorted (· < ·) ∧
      ∃ ts : List Nat,
        save_result (SGI.make cfg ext target pattern) A =
          some (assigned_entries (SGI.make cfg ext target pattern) A ++
            (SGI.make cfg ext target pattern).isolated_vertices.zip ts) ∧
        ts.length = (SGI.make cfg ext target pattern).isolated_vertices.length ∧
        (∀ k, k < (SGI.make cfg ext target pattern).isolated_vertices.length →
          LeastUnused
            ((assigned_entries (SGI.make cfg ext target pattern) A ++
              ((SGI.make cfg ext target pattern).isolated_vertices.zip ts).take k).map Prod.snd)
            (ts.getD k 0)) ∧
        (∀ e, e ∈ assigned_entries (SGI.make cfg ext target pattern) A ++
            (SGI.make cfg ext target pattern).isolated_vertices.zip ts →
          e.2 < target.size) ∧
        ((assigned_entries (SGI.make cfg ext target pattern) A ++
          (SGI.make cfg ext target pattern).isolated_vertices.zip ts).map Prod.snd).Nodup := by
  have hw := make_wellFormed cfg ext target pattern hsort
  refine ⟨make_isolated_eq cfg ext target pattern hind, ?_, ?_⟩
  · rw [make_isolated_eq cfg ext target pattern hind]
    exact (List.pairwise_lt_range _).filter _
  · obtain ⟨ts, h1, h2, h3⟩ := save_result_least hw A
    have hent := save_result_entries hw hrange (fun i j hi hj => hinj i hi j hj) h1
    have hto_len : (ext.degree_sort target).length = target.size := by
      rw [hsort.length_eq, List.length_range]
    refine ⟨ts, h1, h2, h3, ?_, hent.vals_nodup⟩
    intro e he
    rcases hent.shape e he with ⟨i, hi, _, h5⟩ | ⟨_, h5⟩
    · rw [h5]
      show (ext.degree_sort target).getD (A i) 0 < target.size
      rw [List.getD_eq_getElem _ 0 (by rw [hto_len]; exact hrange i hi)]
      exact List.mem_range.mp (hsort.mem_iff.mp (List.getElem_mem _))
    · have hfull : (SGI.make cfg ext target pattern).pattern_size +
          (SGI.make cfg ext target pattern).isolated_vertices.length = pattern.size := hw.full
      omega

set_option maxRecDepth 100000 in
/-- C17 at the pattern of three isolated vertices and the target `K3`: the solver returns
`v ↦ v`. -/
theorem C17_isolated_vertices_reattached_witness :
    (SGI.make (plainConfig false) refExternals K3 E3).run never =
        some ⟨[(0, 0), (1, 1), (2, 2)], 1⟩ ∧
      (SGI.make (plainConfig false) refExternals K3 E3).isolated_vertices = [0, 1, 2] ∧
      ∃ ts : List Nat,
        save_result (SGI.make (plainConfig false) refExternals K3 E3) (fun _ => 0) =
          some (assigned_entries (SGI.make (plainConfig false) refExternals K3 E3)
            (fun _ => 0) ++
            (SGI.make (plainConfig false) refExternals K3 E3).isolated_vertices.zip ts) ∧
        ts.length = (SGI.make (plainConfig false) refExternals K3 E3).isolated_vertices.length :=
  ⟨by decide!, by decide!,
    (C17_isolated_vertices_reattached (plainConfig false) refExternals K3 E3 (fun _ => 0) rfl
      (by decide) (by decide) (by decide) (by decide)).2.2.imp fun _ h => ⟨h.1, h.2.1⟩⟩

/-! ## The domain initialisation -/

theorem initialise_domains_loop_true (s : SGI) :
    ∀ (fuel remaining : Nat) (allowed : FixedBitSet) (D : Domains),
      remaining = allowed.card →
      initialise_domains_loop s fuel remaining allowed = some (true, D) →
        ∃ allowed2 : FixedBitSet, D = domains_for s allowed2 ∧
          (domains_union D).card = allowed2.card := by
  intro fuel
  induction fuel with
  | zero =>
    intro remaining allowed D _ h
    simp only [initialise_domains_loop] at h
    cases h
  | succ fuel ih =>
    intro remaining allowed D hrem h
    simp only [initialise_domains_loop] at h
    split at h
    · simp at h
    · split at h
      · rename_i hcard
        simp only [Option.some.injEq, Prod.mk.injEq, true_and] at h
        refine ⟨allowed, h.symm, ?_⟩
        rw [← h, ← hrem]
        exact hcard
      · exact ih _ _ _ rfl h

theorem foldl_union_mem (D : Domains) :
    ∀ (u : FixedBitSet) (j : Nat),
      j ∈ D.foldl (fun u d => FixedBitSet.union_with u d.values) u ↔
        j ∈ u ∨ ∃ d, d ∈ D ∧ j ∈ d.values := by
  induction D with
  | nil => intro u j; simp
  | cons d D ih =>
    intro u j
    rw [List.foldl_cons, ih]
    simp only [FixedBitSet.union_with, Finset.mem_union, List.mem_cons]
    constructor
    · rintro ((h | h) | ⟨d2, h1, h2⟩)
      · exact Or.inl h
      · exact Or.inr ⟨d, Or.inl rfl, h⟩
      · exact Or.inr ⟨d2, Or.inr h1, h2⟩
    · rintro (h | ⟨d2, h1 | h1, h2⟩)
      · exact Or.inl (Or.inl h)
      · exact Or.inl (Or.inr (h1 ▸ h2))
      · exact Or.inr ⟨d2, h1, h2⟩

theorem mem_domains_union {D : Domains} {j : Nat} :
    j ∈ domains_union D ↔ ∃ d, d ∈ D ∧ j ∈ d.values := by
  unfold domains_union
  rw [foldl_union_mem]
  simp

theorem dominated_iff (p t : List Nat) :
    ((! decide (t.length < p.length)) = true ∧
      (List.range p.length).all (fun x => ! decide (t.getD x 0 < p.getD x 0)) = true) ↔
      Dominated p t := by
  unfold Dominated
  simp only [Bool.not_eq_true', decide_eq_false_iff_not, Nat.not_lt, List.all_eq_true,
    List.mem_range]

theorem domain_ok_iff (s : SGI) (hg : 0 < s.g_end) (allowed : FixedBitSet) (i j : Nat) :
    domain_ok s allowed i j = true ↔
      DomainFilter s allowed (if s.cfg.double_filter then s.g_end else 1) i j := by
  unfold domain_ok DomainFilter
  simp only [Bool.and_eq_true, List.all_eq_true, List.mem_range, FixedBitSet.test,
    decide_eq_true_eq, Bool.not_eq_true', Bool.and_eq_false_imp, Bool.not_eq_false',
    decide_eq_false_iff_not, Nat.not_lt]
  constructor
  · rintro ⟨⟨h1, h2⟩, h3⟩
    refine ⟨(h1 0 hg).1, fun g hgg => (h1 g hgg).2, ?_⟩
    intro g1 hg1 g2 hg2
    exact ⟨h2 g1 hg1 g2 hg2, h3 g1 hg1 g2 hg2⟩
  · rintro ⟨h1, h2, h3⟩
    exact ⟨⟨fun g hgg => ⟨h1, h2 g hgg⟩, fun g1 hg1 g2 hg2 => (h3 g1 hg1 g2 hg2).1⟩,
      fun g1 hg1 g2 hg2 => (h3 g1 hg1 g2 hg2).2⟩

set_option maxRecDepth 100000 in
/-- C20, counterexample: the path `P4` and the target `P5` in induced mode, with the
complement pair as the second pair of filter graphs and `double_filter_` off.
`initialise_domains` returns true and keeps the target vertex `1` (the middle of `P5`) in the
domain of the end `0` of `P4`, although for the pair `(1, 0)` the sequence `[2, 1]` of vertex
`0` is not dominated by the sequence `[1, 1]` of the target vertex. -/
theorem C20_filter_uses_first_graph_only :
    (SGI.make (plainConfig true) refExternals P5 P4).cfg.double_filter = false ∧
      (SGI.make (plainConfig true) refExternals P5 P4).g_end = 2 ∧
      initialise_domains (SGI.make (plainConfig true) refExternals P5 P4) =
        some (true, [⟨0, 5, {0, 1, 2, 3, 4}⟩, ⟨1, 3, {0, 1, 2}⟩, ⟨2, 3, {0, 1, 2}⟩,
          ⟨3, 5, {0, 1, 2, 3, 4}⟩]) ∧
      patterns_ndss (SGI.make (plainConfig true) refExternals P5 P4) 1 0 0 = [2, 1] ∧
      targets_ndss (SGI.make (plainConfig true) refExternals P5 P4) {0, 1, 2, 3, 4} 1 0 1 =
        [1, 1] ∧
      ¬ DomainFilter (SGI.make (plainConfig true) refExternals P5 P4) {0, 1, 2, 3, 4}
        (SGI.make (plainConfig true) refExternals P5 P4).g_end 0 1 := by
  refine ⟨rfl, by decide, by decide!, by decide!, by decide!, by decide!⟩

/-- C20, amended: when `initialise_domains` returns true, its domains are those of the last
round, built from the final allowed target set, which is the union of the domains; the
domain of pattern vertex `i` holds the target vertex `j` if and only if `j` is in the allowed
set, `j` has a loop in every filter graph in which `i` has one, and for every pair `(g1, g2)` of
filter graphs with `g1 = 0`, or with any `g1` when `double_filter_` is set, the sequence of `i`
is dominated by the sequence of `j`. -/
theorem C20_domain_initialisation_filter (s : SGI) (hg : 0 < s.g_end) (D : Domains)
    (h : initialise_domains s = some (true, D)) :
    D = domains_for s (domains_union D) ∧
      domains_union D ⊆ Finset.range s.target_size ∧
      (D.map fun d => d.v) = List.range s.pattern_size ∧ Accurate D ∧
      ∀ d, d ∈ D → ∀ j, j ∈ d.values ↔
        j < s.target_size ∧
          DomainFilter s (domains_union D) (if s.cfg.double_filter then s.g_end else 1)
            d.v j := by
  unfold initialise_domains at h
  obtain ⟨allowed, hD, hcard⟩ := initialise_domains_loop_true s _ _ _ D
    (by simp [FixedBitSet.set_up_to]) h
  have hvals : ∀ d, d ∈ D → ∀ j, j ∈ d.values ↔
      j < s.target_size ∧
        DomainFilter s allowed (if s.cfg.double_filter then s.g_end else 1) d.v j := by
    intro d hd j
    rw [hD] at hd
    obtain ⟨i, _, rfl⟩ := List.mem_map.mp hd
    simp only [Finset.mem_filter, Finset.mem_range, domain_ok_iff s hg]
  have hsub : domains_union D ⊆ allowed := by
    intro j hj
    obtain ⟨d, hd, hjd⟩ := mem_domains_union.mp hj
    exact ((hvals d hd j).mp hjd).2.1
  have heq : domains_union D = allowed :=
    Finset.eq_of_subset_of_card_le hsub (le_of_eq hcard.symm)
  rw [heq]
  refine ⟨hD, ?_, ?_, ?_, hvals⟩
  · rw [← heq]
    intro j hj
    obtain ⟨d, hd, hjd⟩ := mem_domains_union.mp hj
    exact Finset.mem_range.mpr ((hvals d hd j).mp hjd).1
  · rw [hD]
    unfold domains_for
    rw [List.map_map]
    exact List.map_id _
  · intro d hd
    rw [hD] at hd
    obtain ⟨i, _, rfl⟩ := List.mem_map.mp hd
    rfl

set_option maxRecDepth 100000 in
/-- C20, amended, at the path `P4` and the target `P5` in induced mode. -/
theorem C20_domain_initialisation_filter_witness :
    (domains_union [⟨0, 5, {0, 1, 2, 3, 4}⟩, ⟨1, 3, {0, 1, 2}⟩, ⟨2, 3, {0, 1, 2}⟩,
        ⟨3, 5, {0, 1, 2, 3, 4}⟩] ⊆
      Finset.range (SGI.make (plainConfig true) refExternals P5 P4).target_size) ∧
    ∀ d, d ∈ [(⟨0, 5, {0, 1, 2, 3, 4}⟩ : Domain), ⟨1, 3, {0, 1, 2}⟩, ⟨2, 3, {0, 1, 2}⟩,
        ⟨3, 5, {0, 1, 2, 3, 4}⟩] → ∀ j, j ∈ d.values ↔
      j < (SGI.make (plainConfig true) refExternals P5 P4).target_size ∧
        DomainFilter (SGI.make (plainConfig true) refExternals P5 P4)
          (domains_union [⟨0, 5, {0, 1, 2, 3, 4}⟩, ⟨1, 3, {0, 1, 2}⟩, ⟨2, 3, {0, 1, 2}⟩,
            ⟨3, 5, {0, 1, 2, 3, 4}⟩])
          (if (SGI.make (plainConfig true) refExternals P5 P4).cfg.double_filter then
            (SGI.make (plainConfig true) refExternals P5 P4).g_end else 1) d.v j :=
  ⟨(C20_domain_initialisation_filter (SGI.make (plainConfig true) refExternals P5 P4)
      (by decide) _ (by decide!)).2.1,
    (C20_domain_initialisation_filter (SGI.make (plainConfig true) refExternals P5 P4)
      (by decide) _ (by decide!)).2.2.2.2⟩

/-! ## The clique bound of the colour class orderings -/

/-- A clique inside the first `i + 1` positions of a colouring has at most `bounds i`
members. -/
theorem Placed.clique_bound {g : FixedBitGraph} {c : Finset Nat} {n : Nat}
    {order bounds : Nat → Nat} {colour : Nat}
    (h : Placed (NonAdj g) c n order bounds colour) {i : Nat} (hi : i < n) {K : Finset Nat}
    (hK : K ⊆ (Finset.range (i + 1)).image order) (hclique : IsClique g K) :
    K.card ≤ bounds i := by
  have hsub : K ⊆ ((Finset.range (i + 1)).filter fun k => order k ∈ K).image order := by
    intro v hv
    obtain ⟨k, hk, e⟩ := Finset.mem_image.mp (hK hv)
    exact Finset.mem_image.mpr ⟨k, Finset.mem_filter.mpr ⟨hk, by rw [e]; exact hv⟩, e⟩
  have h1 : K.card ≤ ((Finset.range (i + 1)).filter fun k => order k ∈ K).card :=
    (Finset.card_le_card hsub).trans Finset.card_image_le
  have h2 : ((Finset.range (i + 1)).filter fun k => order k ∈ K).card ≤
      (Finset.Icc 1 (bounds i)).card := by
    refine Finset.card_le_card_of_injOn bounds ?_ ?_
    · intro k hk
      have hk2 := Finset.mem_filter.mp hk
      have hki : k < i + 1 := Finset.mem_range.mp hk2.1
      exact Finset.mem_Icc.mpr ⟨h.bounds_pos k (by omega), h.bounds_mono i k (by omega) hi⟩
    · intro a ha b hb hab
      have ha2 := Finset.mem_filter.mp ha
      have hb2 := Finset.mem_filter.mp hb
      have hai : a < i + 1 := Finset.mem_range.mp ha2.1
      have hbi : b < i + 1 := Finset.mem_range.mp hb2.1
      by_contra hne
      rcases Nat.lt_or_gt_of_ne hne with hlt | hlt
      · have hn : g.adjacent (order a) (order b) = false := h.sound a b hlt (by omega) hab
        have hc := hclique _ ha2.2 _ hb2.2
          (fun e => hne (h.inj a b (by omega) (by omega) e))
        rw [hn] at hc
        cases hc
      · have hn : g.adjacent (order b) (order a) = false := h.sound b a hlt (by omega) hab.symm
        have hc := hclique _ hb2.2 _ ha2.2
          (fun e => hne (h.inj a b (by omega) (by omega) e.symm))
        rw [hn] at hc
        cases hc
  have h3 : (Finset.Icc 1 (bounds i)).card = bounds i := by simp
  omega

/-! ## The cheap all-different propagator keeps every system of distinct representatives -/

theorem getD_set_domain (D : Domains) (idx i : Nat) (d1 : Domain) (hidx : idx < D.length) :
    (D.set idx d1).getD i ⟨0, 0, ∅⟩ = if idx = i then d1 else D.getD i ⟨0, 0, ∅⟩ := by
  rw [List.getD_eq_getElem?_getD, List.getD_eq_getElem?_getD, List.getElem?_set]
  by_cases h : idx = i
  · rw [if_pos h, if_pos hidx, if_pos h]
    rfl
  · rw [if_neg h, if_neg h]

theorem cheap_loop_keeps (backjump : Bool) (a : Nat → Nat) (n : Nat)
    (hinj : ∀ i j, i < n → j < n → a i = a j → i = j) :
    ∀ (rest : List Nat) (c : Counting) (G : Finset Nat), HallInv a n c G rest →
      ∃ c2, cheap_all_different_loop backjump rest c = some (true, c2) ∧
        c2.domains.length = n ∧ ∀ i, i < n → a i ∈ (c2.domains.getD i ⟨0, 0, ∅⟩).values := by
  intro rest
  induction rest with
  | nil =>
    intro c G h
    exact ⟨c, rfl, h.len, h.mem⟩
  | cons idx rest ih =>
    intro c G h
    have hidx : idx < n := h.rest_lt idx (List.mem_cons_self _ _)
    have hidx2 : idx < c.domains.length := by rw [h.len]; exact hidx
    have hget : c.domains.get? idx = some (c.domains.getD idx ⟨0, 0, ∅⟩) := by
      rw [List.get?_eq_getElem?, List.getD_eq_getElem?_getD, List.getElem?_eq_getElem hidx2]
      rfl
    rw [cheap_all_different_loop, hget]
    simp only []
    generalize hd : c.domains.getD idx ⟨0, 0, ∅⟩ = d at *
    have ha_d : a idx ∈ d.values := by
      have := h.mem idx hidx
      rw [hd] at this
      exact this
    have ha_v : a idx ∈ d.values.intersect_with_complement c.hall :=
      Finset.mem_sdiff.mpr ⟨ha_d, h.fresh idx (List.mem_cons_self _ _)⟩
    have hnd := List.nodup_cons.mp h.rest_nodup
    have hidxG : idx ∉ G := h.group_rest idx (List.mem_cons_self _ _)
    -- the chosen values of the group lie in the new union
    have hgroup : ∀ i, i ∈ insert idx G → i < n ∧
        a i ∈ c.domains_so_far.union_with (d.values.intersect_with_complement c.hall) := by
      intro i hi
      rcases Finset.mem_insert.mp hi with e | e
      · rw [e]
        exact ⟨hidx, Finset.mem_union_right _ ha_v⟩
      · exact ⟨(h.group_mem i e).1, Finset.mem_union_left _ (h.group_mem i e).2⟩
    have himg : (insert idx G).image a ⊆
        c.domains_so_far.union_with (d.values.intersect_with_complement c.hall) := by
      intro x hx
      obtain ⟨i, hi, rfl⟩ := Finset.mem_image.mp hx
      exact (hgroup i hi).2
    have himg_card : ((insert idx G).image a).card = c.neighbours_so_far + 1 := by
      rw [Finset.card_image_of_injOn, Finset.card_insert_of_not_mem hidxG, h.group_card]
      intro i hi j hj e
      exact hinj i j (hgroup i hi).1 (hgroup j hj).1 e
    have hcard : c.neighbours_so_far + 1 ≤
        (c.domains_so_far.union_with (d.values.intersect_with_complement c.hall)).card := by
      rw [← himg_card]
      exact Finset.card_le_card himg
    have hmem2 : ∀ i, i < n → a i ∈ ((c.domains.set idx
        { v := d.v
          popcount := (d.values.intersect_with_complement c.hall).popcount
          values := d.values.intersect_with_complement c.hall }).getD i ⟨0, 0, ∅⟩).values := by
      intro i hi
      rw [getD_set_domain _ _ _ _ hidx2]
      by_cases e : idx = i
      · rw [if_pos e, ← e]
        exact ha_v
      · rw [if_neg e]
        exact h.mem i hi
    have hpc : ¬ (d.values.intersect_with_complement c.hall).popcount = 0 := by
      intro h0
      have : d.values.intersect_with_complement c.hall = ∅ := Finset.card_eq_zero.mp h0
      rw [this] at ha_v
      exact Finset.not_mem_empty _ ha_v
    rw [if_neg hpc]
    have hnlt : ¬ FixedBitSet.popcount
        (c.domains_so_far.union_with (d.values.intersect_with_complement c.hall)) <
        c.neighbours_so_far + 1 := by
      unfold FixedBitSet.popcount
      omega
    rw [if_neg hnlt]
    split
    · rename_i heq
      -- a Hall set is closed
      apply ih _ ∅
      refine ⟨by simp [h.len], hmem2, ?_, rfl, ?_, ?_, hnd.2, ?_⟩
      · intro i hi
        have hin : i < n := h.rest_lt i (List.mem_cons_of_mem _ hi)
        intro hc
        rcases Finset.mem_union.mp hc with e | e
        · exact h.fresh i (List.mem_cons_of_mem _ hi) e
        · have hfull : (insert idx G).image a =
              c.domains_so_far.union_with (d.values.intersect_with_complement c.hall) := by
            refine Finset.eq_of_subset_of_card_le himg ?_
            rw [himg_card]
            exact le_of_eq heq
          rw [← hfull] at e
          obtain ⟨k, hk, hak⟩ := Finset.mem_image.mp e
          have hki : k = i := hinj k i (hgroup k hk).1 hin hak
          rw [hki] at hk
          rcases Finset.mem_insert.mp hk with e2 | e2
          · exact hnd.1 (e2 ▸ hi)
          · exact h.group_rest i (List.mem_cons_of_mem _ hi) e2
      · intro i hi
        exact absurd hi (Finset.not_mem_empty _)
      · intro i _
        exact Finset.not_mem_empty _
      · intro i hi
        exact h.rest_lt i (List.mem_cons_of_mem _ hi)
    · apply ih _ (insert idx G)
      refine ⟨by simp [h.len], hmem2, ?_, ?_, hgroup, ?_, hnd.2, ?_⟩
      · intro i hi
        exact h.fresh i (List.mem_cons_of_mem _ hi)
      · rw [Finset.card_insert_of_not_mem hidxG, h.group_card]
      · intro i hi hc
        rcases Finset.mem_insert.mp hc with e | e
        · exact hnd.1 (e ▸ hi)
        · exact h.group_rest i (List.mem_cons_of_mem _ hi) e
      · intro i hi
        exact h.rest_lt i (List.mem_cons_of_mem _ hi)

/-- C12: cheap all-different preserves solutions. Let the external sort return a permutation
of its input. For every list of domains with accurate popcounts and every injective choice `a`
of one value `a i` from each domain `i`, `cheap_all_different` returns true, keeps the number
and the variables of the domains, and `a i` is still a value of domain `i`; so it returns false
only for domains without a system of distinct representatives. -/
theorem C12_cheap_all_different_preserves_solutions (s : SGI) (D : Domains)
    (F : FailedVariables)
    (hsort : ∀ less l, (s.ext.sort_domains less l).Perm l) (_hacc : Accurate D) :
    (∀ a : Nat → Nat,
      (∀ i, i < D.length → a i ∈ (D.getD i ⟨0, 0, ∅⟩).values) →
      (∀ i, i < D.length → ∀ j, j < D.length → a i = a j → i = j) →
        ∃ D2 F2, cheap_all_different s D F = some (true, D2, F2) ∧
          (D2.map fun d => d.v) = (D.map fun d => d.v) ∧
          ∀ i, i < D.length → a i ∈ (D2.getD i ⟨0, 0, ∅⟩).values) ∧
      ∀ D2 F2, cheap_all_different s D F = some (false, D2, F2) →
        ¬ ∃ a : Nat → Nat, (∀ i, i < D.length → a i ∈ (D.getD i ⟨0, 0, ∅⟩).values) ∧
          ∀ i, i < D.length → ∀ j, j < D.length → a i = a j → i = j := by
  have key : ∀ a : Nat → Nat,
      (∀ i, i < D.length → a i ∈ (D.getD i ⟨0, 0, ∅⟩).values) →
      (∀ i, i < D.length → ∀ j, j < D.length → a i = a j → i = j) →
        ∃ D2 F2, cheap_all_different s D F = some (true, D2, F2) ∧
          (D2.map fun d => d.v) = (D.map fun d => d.v) ∧
          ∀ i, i < D.length → a i ∈ (D2.getD i ⟨0, 0, ∅⟩).values := by
    intro a hmem hinj
    have hperm := hsort
      (fun a b =>
        decide ((D.getD a ⟨0, 0, ∅⟩).popcount < (D.getD b ⟨0, 0, ∅⟩).popcount) ||
          (decide ((D.getD a ⟨0, 0, ∅⟩).popcount = (D.getD b ⟨0, 0, ∅⟩).popcount) &&
            decide (s.pattern_degree_tiebreak (D.getD a ⟨0, 0, ∅⟩).v >
              s.pattern_degree_tiebreak (D.getD b ⟨0, 0, ∅⟩).v)))
      (List.range D.length)
    obtain ⟨c2, h1, _, h3⟩ := cheap_loop_keeps s.cfg.backjump a D.length
      (fun i j hi hj => hinj i hi j hj) _
      { domains := D, failed := F, domains_so_far := ∅, hall := ∅, neighbours_so_far := 0 } ∅
      { len := rfl
        mem := hmem
        fresh := fun i _ => Finset.not_mem_empty _
        group_card := rfl
        group_mem := fun i hi => absurd hi (Finset.not_mem_empty _)
        group_rest := fun i _ => Finset.not_mem_empty _
        rest_nodup := hperm.nodup_iff.mpr (List.nodup_range _)
        rest_lt := fun i hi => List.mem_range.mp (hperm.mem_iff.mp hi) }
    have hres : cheap_all_different s D F = some (true, c2.domains, c2.failed) := by
      unfold cheap_all_different
      simp only []
      rw [h1]
      rfl
    exact ⟨c2.domains, c2.failed, hres, (cheap_all_different_shrinks hres).map_v, h3⟩
  refine ⟨key, ?_⟩
  rintro D2 F2 hfalse ⟨a, hmem, hinj⟩
  obtain ⟨D3, F3, h, _⟩ := key a hmem hinj
  rw [h] at hfalse
  cases hfalse

theorem sort_domains_ref_perm (less : Nat → Nat → Bool) (l : List Nat) :
    (sort_domains_ref less l).Perm l :=
  List.perm_insertionSort _ l

set_option maxRecDepth 100000 in
/-- C12 at three domains `{1, 2}`, `{1}`, `{1, 2, 3}` and the choice `2, 1, 3`: the call closes
the Hall sets `{1}` and `{2}` and leaves the domains `{2}`, `{1}`, `{3}`. -/
theorem C12_cheap_all_different_preserves_solutions_witness :
    cheap_all_different (SGI.make (plainConfig false) refExternals K3 P3)
        [⟨0, 2, {1, 2}⟩, ⟨1, 1, {1}⟩, ⟨2, 3, {1, 2, 3}⟩] ∅ =
      some (true, [⟨0, 1, {2}⟩, ⟨1, 1, {1}⟩, ⟨2, 1, {3}⟩], ∅) ∧
    ∃ D2 F2, cheap_all_different (SGI.make (plainConfig false) refExternals K3 P3)
        [⟨0, 2, {1, 2}⟩, ⟨1, 1, {1}⟩, ⟨2, 3, {1, 2, 3}⟩] ∅ = some (true, D2, F2) ∧
      (D2.map fun d => d.v) =
        (([⟨0, 2, {1, 2}⟩, ⟨1, 1, {1}⟩, ⟨2, 3, {1, 2, 3}⟩] : Domains).map fun d => d.v) ∧
      ∀ i, i < ([⟨0, 2, {1, 2}⟩, ⟨1, 1, {1}⟩, ⟨2, 3, {1, 2, 3}⟩] : Domains).length →
        [2, 1, 3].getD i 0 ∈ (D2.getD i ⟨0, 0, ∅⟩).values :=
  ⟨by decide!,
    (C12_cheap_all_different_preserves_solutions
      (SGI.make (plainConfig false) refExternals K3 P3)
      [⟨0, 2, {1, 2}⟩, ⟨1, 1, {1}⟩, ⟨2, 3, {1, 2, 3}⟩] ∅
      sort_domains_ref_perm (by decide)).1 (fun i => [2, 1, 3].getD i 0) (by decide)
      (by decide)⟩

/-! ## The full all-different propagator: the reachability loop -/

theorem erase_fold_not_mem (n v : Nat) :
    ∀ (ws : List Nat) (u : Finset (Nat × Nat)) (p : Nat × Nat),
      (p ∉ u ∨ ∃ w, w ∈ ws ∧ p = erased_pair n v w) →
        p ∉ ws.foldl (fun u w => if w ≥ n then u.erase (v, w - n) else u.erase (w, v - n)) u := by
  intro ws
  induction ws with
  | nil =>
    intro u p h
    rcases h with h | ⟨w, hw, _⟩
    · exact h
    · cases hw
  | cons w ws ih =>
    intro u p h
    rw [List.foldl_cons]
    apply ih
    rcases h with h | ⟨w2, hw2, hp⟩
    · left
      split
      · exact fun hc => h (Finset.mem_of_mem_erase hc)
      · exact fun hc => h (Finset.mem_of_mem_erase hc)
    · rcases List.mem_cons.mp hw2 with e | e
      · left
        rw [hp, e]
        unfold erased_pair
        split
        · exact Finset.not_mem_erase _ _
        · exact Finset.not_mem_erase _ _
      · exact Or.inr ⟨w2, e, hp⟩

theorem regin_reach_spec (n V : Nat) (edges : List (Nat × Nat)) (free : Finset Nat)
    (hedges : ∀ e, e ∈ edges → e.1 < V ∧ e.2 < V) :
    ∀ (fuel : Nat) (r : Reach), ReachInv n V edges free r →
      r.pending.card + (V - r.seen.card) * V < fuel →
        ∃ r2, regin_reach n edges fuel r = some r2 ∧ ReachInv n V edges free r2 ∧
          r2.pending = ∅ := by
  intro fuel
  induction fuel with
  | zero => intro r _ h; omega
  | succ fuel ih =>
    intro r hinv hfuel
    rw [regin_reach]
    cases hfs : FixedBitSet.first_set_bit r.pending with
    | none =>
      exact ⟨r, rfl, hinv, first_set_bit_eq_none.mp hfs⟩
    | some v =>
      simp only []
      have hv : v ∈ r.pending := (first_set_bit_eq_some hfs).1
      have hcard : (r.pending.erase v).card + 1 = r.pending.card := Finset.card_erase_add_one hv
      by_cases hseen : v ∈ r.seen
      · rw [if_pos hseen]
        apply ih
        · refine ⟨fun x hx => hinv.pend_lt x (Finset.mem_of_mem_erase hx), hinv.seen_lt, ?_, ?_⟩
          · intro f hf
            rcases hinv.free_sub f hf with h | h
            · exact Or.inl h
            · by_cases e : f = v
              · exact Or.inl (e ▸ hseen)
              · exact Or.inr (Finset.mem_erase.mpr ⟨e, h⟩)
          · intro x hx w hw
            obtain ⟨h1, h2⟩ := hinv.closed x hx w hw
            refine ⟨?_, h2⟩
            rcases h1 with h | h
            · exact Or.inl h
            · by_cases e : w = v
              · exact Or.inl (e ▸ hseen)
              · exact Or.inr (Finset.mem_erase.mpr ⟨e, h⟩)
        · show (r.pending.erase v).card + (V - r.seen.card) * V < fuel
          omega
      · rw [if_neg hseen]
        have hvV : v < V := hinv.pend_lt v hv
        have hws_lt : ∀ w, w ∈ (edges.filter fun e => e.1 = v).map (fun e => e.2) → w < V := by
          intro w hw
          obtain ⟨e, he, rfl⟩ := List.mem_map.mp hw
          exact (hedges e (List.mem_filter.mp he).1).2
        have hws_mem : ∀ w, (v, w) ∈ edges →
            w ∈ (edges.filter fun e => e.1 = v).map (fun e => e.2) := by
          intro w hw
          exact List.mem_map.mpr ⟨(v, w), List.mem_filter.mpr ⟨hw, by simp⟩, rfl⟩
        have hseen_card : (insert v r.seen).card = r.seen.card + 1 :=
          Finset.card_insert_of_not_mem hseen
        have hseen_sub : insert v r.seen ⊆ Finset.range V := by
          intro x hx
          rcases Finset.mem_insert.mp hx with e | e
          · exact Finset.mem_range.mpr (e ▸ hvV)
          · exact Finset.mem_range.mpr (hinv.seen_lt x e)
        have hseen_le : r.seen.card + 1 ≤ V := by
          have := Finset.card_le_card hseen_sub
          rw [hseen_card, Finset.card_range] at this
          exact this
        have hws_card : ((edges.filter fun e => e.1 = v).map (fun e => e.2)).toFinset.card ≤
            V := by
          have hsub : ((edges.filter fun e => e.1 = v).map (fun e => e.2)).toFinset ⊆
              Finset.range V := by
            intro x hx
            exact Finset.mem_range.mpr (hws_lt x (List.mem_toFinset.mp hx))
          have := Finset.card_le_card hsub
          rw [Finset.card_range] at this
          exact this
        apply ih
        · refine ⟨?_, fun x hx => Finset.mem_range.mp (hseen_sub hx), ?_, ?_⟩
          · intro x hx
            rcases Finset.mem_union.mp hx with h | h
            · exact hinv.pend_lt x (Finset.mem_of_mem_erase h)
            · exact hws_lt x (List.mem_toFinset.mp h)
          · intro f hf
            rcases hinv.free_sub f hf with h | h
            · exact Or.inl (Finset.mem_insert_of_mem h)
            · by_cases e : f = v
              · exact Or.inl (e ▸ Finset.mem_insert_self _ _)
              · exact Or.inr (Finset.mem_union_left _ (Finset.mem_erase.mpr ⟨e, h⟩))
          · intro x hx w hw
            rcases Finset.mem_insert.mp hx with e | e
            · subst e
              refine ⟨Or.inr (Finset.mem_union_right _
                (List.mem_toFinset.mpr (hws_mem w hw))), ?_⟩
              exact erase_fold_not_mem n x _ _ _ (Or.inr ⟨w, hws_mem w hw, rfl⟩)
            · obtain ⟨h1, h2⟩ := hinv.closed x e w hw
              refine ⟨?_, erase_fold_not_mem n v _ _ _ (Or.inl h2)⟩
              rcases h1 with h | h
              · exact Or.inl (Finset.mem_insert_of_mem h)
              · by_cases e2 : w = v
                · exact Or.inl (e2 ▸ Finset.mem_insert_self _ _)
                · exact Or.inr (Finset.mem_union_left _ (Finset.mem_erase.mpr ⟨e2, h⟩))
        · show (r.pending.erase v ∪
              ((edges.filter fun e => e.1 = v).map (fun e => e.2)).toFinset).card +
            (V - (insert v r.seen).card) * V < fuel
          have h1 := Finset.card_union_le (r.pending.erase v)
            ((edges.filter fun e => e.1 = v).map (fun e => e.2)).toFinset
          rw [hseen_card]
          have h2 : (V - (r.seen.card + 1)) * V + V = (V - r.seen.card) * V := by
            have : V - r.seen.card = (V - (r.seen.card + 1)) + 1 := by omega
            rw [this, Nat.add_mul, Nat.one_mul]
          omega

/-- Everything that the edges lead to from a free vertex is seen when the loop ends. -/
theorem reachInv_closed {n V : Nat} {edges : List (Nat × Nat)} {free : Finset Nat} {r : Reach}
    (h : ReachInv n V edges free r) (hp : r.pending = ∅) {f v : Nat} (hf : f ∈ free)
    (hreach : Relation.ReflTransGen (fun x y => (x, y) ∈ edges) f v) : v ∈ r.seen := by
  induction hreach with
  | refl =>
    rcases h.free_sub f hf with e | e
    · exact e
    · rw [hp] at e
      exact absurd e (Finset.not_mem_empty _)
  | tail _ hstep ih =>
    rcases (h.closed _ ih _ hstep).1 with e | e
    · exact e
    · rw [hp] at e
      exact absurd e (Finset.not_mem_empty _)

/-! ## The full all-different propagator: alternating paths -/

theorem stuck_step {n : Nat} {M A : Nat → Nat} {R : Nat → Nat → Prop}
    (hA : ∀ i, i < n → ∀ j, j < n → A i = A j → i = j)
    (e1 : ∀ x, x < n → R x (n + M x))
    (e2 : ∀ x, x < n → A x ≠ M x → R (n + A x) x)
    {x : Nat} (hx : Stuck n M A R x) :
    ∃ k, Stuck n M A R k ∧ M k = A x := by
  obtain ⟨hxn, hmoved, hngood⟩ := hx
  have hcov : ∃ k, k < n ∧ M k = A x := by
    by_contra hc
    apply hngood
    refine ⟨x, hxn, ?_, Relation.ReflTransGen.refl⟩
    intro k hk e
    exact hc ⟨k, hk, e⟩
  obtain ⟨k, hk, hMk⟩ := hcov
  have hkmoved : A k ≠ M k := by
    intro e
    have : k = x := hA k hk x hxn (e.trans hMk)
    rw [this] at hMk
    exact hmoved hMk.symm
  refine ⟨k, ⟨hk, hkmoved, ?_⟩, hMk⟩
  rintro ⟨y, hy, hfree, hpath⟩
  apply hngood
  refine ⟨y, hy, hfree, ?_⟩
  have h1 : R (n + A k) k := e2 k hk hkmoved
  have h2 : R k (n + A x) := by
    have := e1 k hk
    rw [hMk] at this
    exact this
  exact (hpath.tail h1).tail h2

/-- A vertex whose chosen value is neither matched to it nor reached from a free value lies on
a directed cycle through its chosen value. -/
theorem stuck_cycle {n : Nat} {M A : Nat → Nat} {R : Nat → Nat → Prop}
    (hA : ∀ i, i < n → ∀ j, j < n → A i = A j → i = j)
    (e1 : ∀ x, x < n → R x (n + M x))
    (e2 : ∀ x, x < n → A x ≠ M x → R (n + A x) x)
    {x : Nat} (hx : Stuck n M A R x) :
    Relation.TransGen R x (n + A x) := by
  classical
  -- the predecessor map on the stuck vertices
  have hex : ∀ y, Stuck n M A R y → ∃ k, Stuck n M A R k ∧ M k = A y :=
    fun y hy => stuck_step hA e1 e2 hy
  let g : Nat → Nat := fun y =>
    if h : Stuck n M A R y then Classical.choose (hex y h) else y
  have hg : ∀ y, Stuck n M A R y → Stuck n M A R (g y) ∧ M (g y) = A y := by
    intro y hy
    have := Classical.choose_spec (hex y hy)
    simp only [g, dif_pos hy]
    exact this
  have hiter : ∀ q, Stuck n M A R (g^[q] x) := by
    intro q
    induction q with
    | zero => exact hx
    | succ q ih =>
      rw [Function.iterate_succ_apply']
      exact (hg _ ih).1
  have hginj : ∀ y z, Stuck n M A R y → Stuck n M A R z → g y = g z → y = z := by
    intro y z hy hz e
    have h1 := (hg y hy).2
    have h2 := (hg z hz).2
    rw [e] at h1
    exact hA y hy.1 z hz.1 (h1.symm.trans h2)
  have hback : ∀ p d, g^[p] x = g^[p + d] x → x = g^[d] x := by
    intro p
    induction p with
    | zero => intro d h; simpa using h
    | succ p ih =>
      intro d h
      have e : p + 1 + d = (p + d) + 1 := by omega
      rw [e, Function.iterate_succ_apply', Function.iterate_succ_apply'] at h
      exact ih d (hginj _ _ (hiter p) (hiter (p + d)) h)
  -- two of the first n + 1 iterates agree
  obtain ⟨p, hp, q, hq, hpq, heq⟩ :=
    Finset.exists_ne_map_eq_of_card_lt_of_maps_to
      (by simp : (Finset.range n).card < (Finset.range (n + 1)).card)
      (fun q _ => Finset.mem_range.mpr (hiter q).1)
  have hper : ∃ d, 0 < d ∧ x = g^[d] x := by
    rcases Nat.lt_or_gt_of_ne hpq with h | h
    · refine ⟨q - p, by omega, hback p (q - p) ?_⟩
      rw [heq]
      congr 2
      omega
    · refine ⟨p - q, by omega, hback q (p - q) ?_⟩
      rw [← heq]
      congr 2
      omega
  obtain ⟨d, hd, hxd⟩ := hper
  have hpath : ∀ q, Relation.TransGen R (g^[q + 1] x) (n + A x) := by
    intro q
    induction q with
    | zero =>
      have h1 := e1 _ (hg x hx).1.1
      rw [(hg x hx).2] at h1
      exact Relation.TransGen.single h1
    | succ q ih =>
      have hy := hiter (q + 1)
      have h1 := e1 _ (hg _ hy).1.1
      rw [(hg _ hy).2] at h1
      have h2 := e2 _ hy.1 hy.2.1
      rw [Function.iterate_succ_apply' (n := q + 1)]
      exact Relation.TransGen.head h1 (Relation.TransGen.head h2 ih)
  have := hpath (d - 1)
  rw [show d - 1 + 1 = d by omega, ← hxd] at this
  exact this

/-! ## The full all-different propagator keeps every system of distinct representatives -/

theorem mem_regin_pairs (D : Domains) (ts i j : Nat) :
    (i, j) ∈ regin_pairs D ts ↔
      i < D.length ∧ j < ts ∧ j ∈ (D.getD i ⟨0, 0, ∅⟩).values := by
  unfold regin_pairs
  simp only [List.mem_flatMap, List.mem_range, List.mem_map, List.mem_filter,
    FixedBitSet.test, decide_eq_true_eq, Prod.mk.injEq]
  constructor
  · rintro ⟨i2, hi2, j2, ⟨hj2, hmem⟩, rfl, rfl⟩
    exact ⟨hi2, hj2, hmem⟩
  · rintro ⟨hi, hj, hmem⟩
    exact ⟨i, hi, j, ⟨hj, hmem⟩, rfl, rfl⟩

/-- Domains with at least as many values each as there are domains have a system of distinct
representatives. -/
theorem sdr_of_large (D : Domains) :
    ∀ k, k ≤ D.length → (∀ i, i < D.length → D.length ≤ (D.getD i ⟨0, 0, ∅⟩).values.card) →
      ∃ a : Nat → Nat, (∀ i, i < k → a i ∈ (D.getD i ⟨0, 0, ∅⟩).values) ∧
        ∀ i, i < k → ∀ j, j < k → a i = a j → i = j := by
  intro k
  induction k with
  | zero =>
    intro _ _
    exact ⟨fun _ => 0, fun i hi => absurd hi (Nat.not_lt_zero i),
      fun i hi => absurd hi (Nat.not_lt_zero i)⟩
  | succ k ih =>
    intro hk hlarge
    obtain ⟨a, ha1, ha2⟩ := ih (by omega) hlarge
    have hlt : ((Finset.range k).image a).card < (D.getD k ⟨0, 0, ∅⟩).values.card := by
      have h1 : ((Finset.range k).image a).card ≤ k :=
        Finset.card_image_le.trans (by simp)
      have h2 := hlarge k (by omega)
      omega
    obtain ⟨x, hx, hxn⟩ : ∃ x, x ∈ (D.getD k ⟨0, 0, ∅⟩).values ∧
        x ∉ (Finset.range k).image a := by
      by_contra hc
      have hsub : (D.getD k ⟨0, 0, ∅⟩).values ⊆ (Finset.range k).image a := by
        intro x hx
        by_contra hx2
        exact hc ⟨x, hx, hx2⟩
      have := Finset.card_le_card hsub
      omega
    refine ⟨Function.update a k x, ?_, ?_⟩
    · intro i hi
      by_cases e : i = k
      · rw [e, Function.update_same]
        exact hx
      · rw [Function.update_noteq e]
        exact ha1 i (by omega)
    · intro i hi j hj hij
      by_cases ei : i = k
      · by_cases ej : j = k
        · rw [ei, ej]
        · exfalso
          rw [ei, Function.update_same, Function.update_noteq ej] at hij
          exact hxn (Finset.mem_image.mpr ⟨j, Finset.mem_range.mpr (by omega), hij.symm⟩)
      · by_cases ej : j = k
        · exfalso
          rw [ej, Function.update_same, Function.update_noteq ei] at hij
          exact hxn (Finset.mem_image.mpr ⟨i, Finset.mem_range.mpr (by omega), hij⟩)
        · rw [Function.update_noteq ei, Function.update_noteq ej] at hij
          exact ha2 i (by omega) j (by omega) hij

theorem getD_enum_map (D : Domains) (f : Nat × Domain → Domain) (i : Nat)
    (hi : i < D.length) :
    (D.enum.map f).getD i ⟨0, 0, ∅⟩ = f (i, D.getD i ⟨0, 0, ∅⟩) := by
  rw [List.getD_eq_getElem?_getD, List.getD_eq_getElem?_getD, List.getElem?_map,
    List.enum, List.getElem?_enumFrom, List.getElem?_eq_getElem hi]
  simp

theorem regin_all_different_eq (s : SGI) (D : Domains) :
    regin_all_different s D =
      if (D.filter fun d => decide (d.values.popcount < D.length)).length = 0 then
        some (true, D)
      else if ((List.range D.length).filter fun i => (regin_mate s D i).isSome).length ≠
          D.length then some (false, D)
      else
        match regin_reach D.length (regin_match_o s D)
            ((D.length + s.target_size) * (D.length + s.target_size) +
              (D.length + s.target_size) + 1)
            { pending := regin_free s D, seen := ∅,
              unused := (regin_pairs D s.target_size).toFinset } with
        | none => none
        | some r =>
          some (true, D.enum.map fun id =>
            { id.2 with values := id.2.values.filter fun j =>
                ¬ ((id.1, j) ∈ r.unused.filter
                    (fun e => regin_component s D e.1 ≠ regin_component s D (e.2 + D.length)) ∧
                  regin_mate s D id.1 ≠ some (j + D.length)) }) := rfl

/-- The matched value of a domain index that has a mate. -/
theorem regin_mate_value {s : SGI} {D : Domains} (hm : MatchingOk s D) {i : Nat}
    (hi : i < D.length) (hsome : (regin_mate s D i).isSome = true) :
    ∃ j, j < s.target_size ∧ regin_mate s D i = some (D.length + j) ∧
      j ∈ (D.getD i ⟨0, 0, ∅⟩).values := by
  rcases hm.edge i hi with h | h
  · rw [h] at hsome
    cases hsome
  · exact h

theorem regin_match_o_lt {s : SGI} {D : Domains} :
    ∀ e, e ∈ regin_match_o s D →
      e.1 < D.length + s.target_size ∧ e.2 < D.length + s.target_size := by
  intro e he
  unfold regin_match_o at he
  obtain ⟨p, hp, rfl⟩ := List.mem_map.mp he
  have hp2 := (mem_regin_pairs D s.target_size p.1 p.2).mp hp
  split
  · exact ⟨by simp only []; omega, by simp only []; omega⟩
  · exact ⟨by simp only []; omega, by simp only []; omega⟩

theorem regin_match_o_matched {s : SGI} {D : Domains} {i j : Nat}
    (hp : (i, j) ∈ regin_pairs D s.target_size)
    (hmate : regin_mate s D i = some (D.length + j)) :
    (i, D.length + j) ∈ regin_match_o s D := by
  unfold regin_match_o
  refine List.mem_map.mpr ⟨(i, j), hp, ?_⟩
  simp only []
  rw [if_pos (by rw [hmate, Nat.add_comm])]

theorem regin_match_o_unmatched {s : SGI} {D : Domains} {i j : Nat}
    (hp : (i, j) ∈ regin_pairs D s.target_size)
    (hmate : regin_mate s D i ≠ some (j + D.length)) :
    (D.length + j, i) ∈ regin_match_o s D := by
  unfold regin_match_o
  refine List.mem_map.mpr ⟨(i, j), hp, ?_⟩
  simp only []
  rw [if_neg hmate]

theorem regin_free_lt {s : SGI} {D : Domains} :
    ∀ f, f ∈ regin_free s D → f < D.length + s.target_size := by
  intro f hf
  unfold regin_free at hf
  have := (Finset.mem_sdiff.mp hf).1
  obtain ⟨j, hj, rfl⟩ := List.mem_map.mp (List.mem_toFinset.mp this)
  have := List.mem_range.mp hj
  omega

theorem regin_free_card {s : SGI} {D : Domains} :
    (regin_free s D).card ≤ D.length + s.target_size := by
  have hsub : regin_free s D ⊆ Finset.range (D.length + s.target_size) :=
    fun f hf => Finset.mem_range.mpr (regin_free_lt f hf)
  have := Finset.card_le_card hsub
  rw [Finset.card_range] at this
  exact this

theorem mem_regin_free {s : SGI} {D : Domains} {j : Nat} (hj : j < s.target_size)
    (hfree : ∀ k, k < D.length → regin_mate s D k ≠ some (D.length + j)) :
    D.length + j ∈ regin_free s D := by
  unfold regin_free
  refine Finset.mem_sdiff.mpr ⟨?_, ?_⟩
  · exact List.mem_toFinset.mpr (List.mem_map.mpr ⟨j, List.mem_range.mpr hj, rfl⟩)
  · intro hc
    obtain ⟨k, hk, hkm⟩ := List.mem_filterMap.mp (List.mem_toFinset.mp hc)
    exact hfree k (List.mem_range.mp (List.mem_filter.mp hk).1) hkm

theorem filter_length_eq_iff (p : Nat → Bool) (l : List Nat) :
    (l.filter p).length = l.length ↔ ∀ x, x ∈ l → p x = true := by
  induction l with
  | nil => simp
  | cons a l ih =>
    cases hp : p a
    · simp only [List.filter_cons, hp, Bool.false_eq_true, if_false, List.length_cons,
        List.mem_cons, forall_eq_or_imp, false_and, iff_false]
      have := List.length_filter_le p l
      omega
    · simp only [List.filter_cons, hp, if_true, List.length_cons, List.mem_cons,
        forall_eq_or_imp, true_and, Nat.add_right_cancel_iff]
      exact ih

/-- The values that the final loop of `regin_all_different` keeps contain every system of
distinct representatives. -/
theorem regin_keeps {s : SGI} {D : Domains}
    (hdom : ∀ i, i < D.length → ∀ j, j ∈ (D.getD i ⟨0, 0, ∅⟩).values → j < s.target_size)
    (hm : MatchingOk s D) (hc : ComponentsOk s D)
    (hall : ∀ i, i < D.length → (regin_mate s D i).isSome = true)
    {r : Reach}
    (hinv : ReachInv D.length (D.length + s.target_size) (regin_match_o s D)
      (regin_free s D) r)
    (hpend : r.pending = ∅) {a : Nat → Nat} (ha : IsSDR D a) {i : Nat} (hi : i < D.length) :
    ¬ ((i, a i) ∈ r.unused.filter
        (fun e => regin_component s D e.1 ≠ regin_component s D (e.2 + D.length)) ∧
      regin_mate s D i ≠ some (a i + D.length)) := by
  rintro ⟨hun, hmate⟩
  obtain ⟨hun1, hun2⟩ := Finset.mem_filter.mp hun
  simp only [] at hun2
  classical
  -- the matched values
  have hex : ∀ x, x < D.length → ∃ j, j < s.target_size ∧
      regin_mate s D x = some (D.length + j) ∧ j ∈ (D.getD x ⟨0, 0, ∅⟩).values :=
    fun x hx => regin_mate_value hm hx (hall x hx)
  let M : Nat → Nat := fun x =>
    if h : x < D.length then Classical.choose (hex x h) else 0
  have hM : ∀ x, x < D.length → M x < s.target_size ∧
      regin_mate s D x = some (D.length + M x) ∧ M x ∈ (D.getD x ⟨0, 0, ∅⟩).values := by
    intro x hx
    have := Classical.choose_spec (hex x hx)
    simp only [M, dif_pos hx]
    exact this
  have hpair : ∀ x, x < D.length → (x, a x) ∈ regin_pairs D s.target_size :=
    fun x hx => (mem_regin_pairs D s.target_size x (a x)).mpr
      ⟨hx, hdom x hx _ (ha.1 x hx), ha.1 x hx⟩
  have e1 : ∀ x, x < D.length →
      (fun u v => (u, v) ∈ regin_match_o s D) x (D.length + M x) := by
    intro x hx
    exact regin_match_o_matched
      ((mem_regin_pairs D s.target_size x (M x)).mpr ⟨hx, (hM x hx).1, (hM x hx).2.2⟩)
      (hM x hx).2.1
  have e2 : ∀ x, x < D.length → a x ≠ M x →
      (fun u v => (u, v) ∈ regin_match_o s D) (D.length + a x) x := by
    intro x hx hne
    refine regin_match_o_unmatched (hpair x hx) ?_
    rw [(hM x hx).2.1]
    intro e
    have := Option.some.inj e
    exact hne (by omega)
  have hmoved : a i ≠ M i := by
    intro e
    apply hmate
    rw [(hM i hi).2.1, e, Nat.add_comm]
  by_cases hfrom : FromFree D.length M a (fun u v => (u, v) ∈ regin_match_o s D) i
  · -- the value is reached from a free vertex, so its edge has been erased
    obtain ⟨y, hy, hfree, hpath⟩ := hfrom
    have hyfree : D.length + a y ∈ regin_free s D := by
      refine mem_regin_free (hdom y hy _ (ha.1 y hy)) ?_
      intro k hk e
      rw [(hM k hk).2.1] at e
      exact hfree k hk (Nat.add_left_cancel (Option.some.inj e))
    have hseen := reachInv_closed hinv hpend hyfree hpath
    have hedge := e2 i hi hmoved
    have herased := (hinv.closed _ hseen _ hedge).2
    unfold erased_pair at herased
    rw [if_neg (by omega)] at herased
    simp only [Nat.add_sub_cancel_left] at herased
    exact herased hun1
  · -- otherwise the value lies on a cycle
    have hstuck : Stuck D.length M a (fun u v => (u, v) ∈ regin_match_o s D) i :=
      ⟨hi, hmoved, hfrom⟩
    have h1 := stuck_cycle ha.2 e1 e2 hstuck
    have h2 : Relation.TransGen (fun u v => (u, v) ∈ regin_match_o s D) (D.length + a i) i :=
      Relation.TransGen.single (e2 i hi hmoved)
    have := hc _ _ h1 h2
    rw [Nat.add_comm] at this
    exact hun2 this

/-- A matching that saturates the domains is a system of distinct representatives. -/
theorem sdr_of_matching {s : SGI} {D : Domains} (hm : MatchingOk s D)
    (hall : ∀ i, i < D.length → (regin_mate s D i).isSome = true) : ∃ a, IsSDR D a := by
  classical
  have hex : ∀ x, x < D.length → ∃ j, j < s.target_size ∧
      regin_mate s D x = some (D.length + j) ∧ j ∈ (D.getD x ⟨0, 0, ∅⟩).values :=
    fun x hx => regin_mate_value hm hx (hall x hx)
  let M : Nat → Nat := fun x =>
    if h : x < D.length then Classical.choose (hex x h) else 0
  have hM : ∀ x, x < D.length → M x < s.target_size ∧
      regin_mate s D x = some (D.length + M x) ∧ M x ∈ (D.getD x ⟨0, 0, ∅⟩).values := by
    intro x hx
    have := Classical.choose_spec (hex x hx)
    simp only [M, dif_pos hx]
    exact this
  refine ⟨M, fun i hi => (hM i hi).2.2, ?_⟩
  intro i hi j hj e
  refine hm.inj i hi j hj ?_ (hall i hi)
  rw [(hM i hi).2.1, (hM j hj).2.1, e]

/-- The contract of `regin_all_different` for a maximum matching and correct strongly connected
components: it returns, false exactly when the domains have no system of distinct
representatives, and otherwise with every value of every such system still present. -/
theorem regin_all_different_spec (s : SGI) (D : Domains)
    (hdom : ∀ i, i < D.length → ∀ j, j ∈ (D.getD i ⟨0, 0, ∅⟩).values → j < s.target_size)
    (hm : MatchingOk s D) (hc : ComponentsOk s D) :
    ∃ b D2, regin_all_different s D = some (b, D2) ∧
      (b = false ↔ ¬ ∃ a, IsSDR D a) ∧
      (b = true → D2.length = D.length ∧
        (∀ i, i < D.length → (D2.getD i ⟨0, 0, ∅⟩).v = (D.getD i ⟨0, 0, ∅⟩).v ∧
          (D2.getD i ⟨0, 0, ∅⟩).values ⊆ (D.getD i ⟨0, 0, ∅⟩).values) ∧
        ∀ a, IsSDR D a → ∀ i, i < D.length → a i ∈ (D2.getD i ⟨0, 0, ∅⟩).values) := by
  rw [regin_all_different_eq]
  by_cases h0 : (D.filter fun d => decide (d.values.popcount < D.length)).length = 0
  · rw [if_pos h0]
    have hlarge : ∀ i, i < D.length → D.length ≤ (D.getD i ⟨0, 0, ∅⟩).values.card := by
      intro i hi
      have hnil := List.length_eq_zero.mp h0
      have hmem : D.getD i ⟨0, 0, ∅⟩ ∈ D := by
        rw [List.getD_eq_getElem _ _ hi]
        exact List.getElem_mem hi
      have := (List.filter_eq_nil_iff.mp hnil) _ hmem
      simp only [decide_eq_true_eq, not_lt] at this
      exact this
    refine ⟨true, D, rfl, ?_, fun _ => ⟨rfl, fun i _ => ⟨rfl, Finset.Subset.refl _⟩,
      fun a ha i hi => ha.1 i hi⟩⟩
    constructor
    · intro h
      cases h
    · intro h
      exact absurd (sdr_of_large D D.length (Nat.le_refl _) hlarge) h
  · rw [if_neg h0]
    by_cases h1 : ((List.range D.length).filter fun i => (regin_mate s D i).isSome).length ≠
        D.length
    · rw [if_pos h1]
      refine ⟨false, D, rfl, ?_, fun h => by cases h⟩
      constructor
      · intro _ hsdr
        apply h1
        have := (filter_length_eq_iff (fun i => (regin_mate s D i).isSome)
          (List.range D.length)).mpr
          (fun x hx => hm.maximum hsdr x (List.mem_range.mp hx))
        rw [this, List.length_range]
      · intro _
        rfl
    · rw [if_neg h1]
      have h1 := not_not.mp h1
      have hall : ∀ i, i < D.length → (regin_mate s D i).isSome = true := by
        intro i hi
        have h2 : ((List.range D.length).filter fun i => (regin_mate s D i).isSome).length =
            (List.range D.length).length := by
          rw [h1, List.length_range]
        exact (filter_length_eq_iff _ _).mp h2 i (List.mem_range.mpr hi)
      have hinit : ReachInv D.length (D.length + s.target_size) (regin_match_o s D)
          (regin_free s D)
          { pending := regin_free s D, seen := ∅,
            unused := (regin_pairs D s.target_size).toFinset } :=
        { pend_lt := fun v hv => regin_free_lt v hv
          seen_lt := fun v hv => absurd hv (Finset.not_mem_empty v)
          free_sub := fun f hf => Or.inr hf
          closed := fun v hv => absurd hv (Finset.not_mem_empty v) }
      have hfuel : (regin_free s D).card +
          (D.length + s.target_size - (∅ : Finset Nat).card) * (D.length + s.target_size) <
          (D.length + s.target_size) * (D.length + s.target_size) +
            (D.length + s.target_size) + 1 := by
        have := @regin_free_card s D
        rw [Finset.card_empty, Nat.sub_zero]
        omega
      obtain ⟨r, hr, hinv, hpend⟩ := regin_reach_spec D.length (D.length + s.target_size)
        (regin_match_o s D) (regin_free s D) regin_match_o_lt _ _ hinit hfuel
      rw [hr]
      refine ⟨true, _, rfl, ?_, fun _ => ⟨?_, ?_, ?_⟩⟩
      · constructor
        · intro h
          cases h
        · intro h
          exact absurd (sdr_of_matching hm hall) h
      · rw [List.length_map, List.enum_length]
      · intro i hi
        rw [getD_enum_map D _ i hi]
        exact ⟨rfl, Finset.filter_subset _ _⟩
      · intro a ha i hi
        rw [getD_enum_map D _ i hi]
        exact Finset.mem_filter.mpr ⟨ha.1 i hi, regin_keeps hdom hm hc hall hinv hpend ha hi⟩

/-- A certificate for `ComponentsOk`: a rank that no edge increases and that separates the
components. -/
theorem componentsOk_of_rank (s : SGI) (D : Domains) (rank : Nat → Nat)
    (hmono : ∀ e, e ∈ regin_match_o s D → rank e.2 ≤ rank e.1)
    (heq : ∀ u, u < D.length + s.target_size → ∀ v, v < D.length + s.target_size →
      rank u = rank v → regin_component s D u = regin_component s D v) :
    ComponentsOk s D := by
  have key : ∀ u v, Relation.TransGen (fun x y => (x, y) ∈ regin_match_o s D) u v →
      rank v ≤ rank u ∧ u < D.length + s.target_size ∧ v < D.length + s.target_size := by
    intro u v h
    induction h with
    | single h =>
      exact ⟨hmono _ h, (regin_match_o_lt _ h).1, (regin_match_o_lt _ h).2⟩
    | tail _ h ih =>
      exact ⟨Nat.le_trans (hmono _ h) ih.1, ih.2.1, (regin_match_o_lt _ h).2⟩
  intro u v huv hvu
  have h1 := key u v huv
  have h2 := key v u hvu
  exact heq u h1.2.1 v h1.2.2 (Nat.le_antisymm h2.1 h1.1)

/-- C13 (full all-different preserves solutions): for domains whose values are target
vertices, with a maximum matching and the strongly connected components supplied by the
library calls, `regin_all_different` returns; it returns false exactly when no injective choice
of one value per domain exists, and when it returns true the domains keep their variables and
only lose values, none of which belongs to an injective choice. The early exit for domains that
all have at least as many values as there are domains is the first branch of the function. -/
theorem C13_full_all_different_preserves_solutions (s : SGI) (D : Domains)
    (hdom : ∀ i, i < D.length → ∀ j, j ∈ (D.getD i ⟨0, 0, ∅⟩).values → j < s.target_size)
    (hm : MatchingOk s D) (hc : ComponentsOk s D) :
    ∃ b D2, regin_all_different s D = some (b, D2) ∧
      (b = false ↔ ¬ ∃ a, IsSDR D a) ∧
      (b = true → D2.length = D.length ∧
        (∀ i, i < D.length → (D2.getD i ⟨0, 0, ∅⟩).v = (D.getD i ⟨0, 0, ∅⟩).v ∧
          (D2.getD i ⟨0, 0, ∅⟩).values ⊆ (D.getD i ⟨0, 0, ∅⟩).values) ∧
        ∀ a, IsSDR D a → ∀ i, i < D.length → a i ∈ (D2.getD i ⟨0, 0, ∅⟩).values) :=
  regin_all_different_spec s D hdom hm hc

set_option maxRecDepth 100000 in
/-- C13 at the domains `{0, 1}`, `{0, 1}`, `{0, 1, 2}` over three target vertices with the
reference matching and components: the call removes `0` and `1` from the third domain, and the
hypotheses of the theorem hold there. -/
theorem C13_full_all_different_preserves_solutions_witness :
    regin_all_different (SGI.make (plainConfig false) refExternals K3 P3)
        [⟨0, 2, {0, 1}⟩, ⟨1, 2, {0, 1}⟩, ⟨2, 3, {0, 1, 2}⟩] =
      some (true, [⟨0, 2, {0, 1}⟩, ⟨1, 2, {0, 1}⟩, ⟨2, 3, {2}⟩]) ∧
    ∃ b D2, regin_all_different (SGI.make (plainConfig false) refExternals K3 P3)
        [⟨0, 2, {0, 1}⟩, ⟨1, 2, {0, 1}⟩, ⟨2, 3, {0, 1, 2}⟩] = some (b, D2) ∧
      (b = false ↔
        ¬ ∃ a, IsSDR [⟨0, 2, {0, 1}⟩, ⟨1, 2, {0, 1}⟩, ⟨2, 3, {0, 1, 2}⟩] a) ∧
      (b = true →
        D2.length = ([⟨0, 2, {0, 1}⟩, ⟨1, 2, {0, 1}⟩, ⟨2, 3, {0, 1, 2}⟩] : Domains).length ∧
        (∀ i, i < ([⟨0, 2, {0, 1}⟩, ⟨1, 2, {0, 1}⟩, ⟨2, 3, {0, 1, 2}⟩] : Domains).length →
          (D2.getD i ⟨0, 0, ∅⟩).v =
            (([⟨0, 2, {0, 1}⟩, ⟨1, 2, {0, 1}⟩, ⟨2, 3, {0, 1, 2}⟩] : Domains).getD i
              ⟨0, 0, ∅⟩).v ∧
          (D2.getD i ⟨0, 0, ∅⟩).values ⊆
            (([⟨0, 2, {0, 1}⟩, ⟨1, 2, {0, 1}⟩, ⟨2, 3, {0, 1, 2}⟩] : Domains).getD i
              ⟨0, 0, ∅⟩).values) ∧
        ∀ a, IsSDR [⟨0, 2, {0, 1}⟩, ⟨1, 2, {0, 1}⟩, ⟨2, 3, {0, 1, 2}⟩] a →
          ∀ i, i < ([⟨0, 2, {0, 1}⟩, ⟨1, 2, {0, 1}⟩, ⟨2, 3, {0, 1, 2}⟩] : Domains).length →
            a i ∈ (D2.getD i ⟨0, 0, ∅⟩).values) :=
  ⟨by decide!,
    C13_full_all_different_preserves_solutions
      (SGI.make (plainConfig false) refExternals K3 P3)
      [⟨0, 2, {0, 1}⟩, ⟨1, 2, {0, 1}⟩, ⟨2, 3, {0, 1, 2}⟩]
      (by decide!)
      ⟨by decide!, by decide!, fun _ => by decide!⟩
      (componentsOk_of_rank _ _ (fun v => [2, 2, 1, 2, 2, 0].getD v 0) (by decide!)
        (by decide!))⟩

/-! ## Claims C21 to C30 -/

theorem compat_adjacent (g : FixedBitGraph) : ∀ v w, Compat g true v w → g.adjacent v w = true := by
  intro v w h
  unfold Compat at h
  simpa using h

/-- C29 (inverse mode): with `inverse_ = true`, for every graph and candidate set `P`, the
calls for `None` and for `Defer1` return, the first `|P|` entries of `p_order` list every vertex
of `P` exactly once, and any two positions with the same `p_bounds` value hold adjacent
vertices: the colour classes partition `P` into cliques. -/
theorem C29_inverse_classes_are_cliques (g : FixedBitGraph) (p : FixedBitSet)
    (p_order p_bounds defer : Nat → Nat) :
    (∃ r, colour_class_order_none g true p p_order p_bounds = some r ∧
      ((List.range p.card).map r.p_order).Nodup ∧
      ((List.range p.card).map r.p_order).toFinset = p ∧
      ∀ a b, a < b → b < p.card → r.p_bounds a = r.p_bounds b →
        g.adjacent (r.p_order a) (r.p_order b) = true ∧
        g.adjacent (r.p_order b) (r.p_order a) = true) ∧
    (∃ r, colour_class_order_defer1 g true p p_order p_bounds defer = some r ∧
      ((List.range p.card).map r.p_order).Nodup ∧
      ((List.range p.card).map r.p_order).toFinset = p ∧
      ∀ a b, a < b → b < p.card → r.p_bounds a = r.p_bounds b →
        g.adjacent (r.p_order a) (r.p_order b) = true ∧
        g.adjacent (r.p_order b) (r.p_order a) = true) := by
  constructor
  · obtain ⟨r, h1, h2⟩ := colour_class_order_none_spec g true p p_order p_bounds
    obtain ⟨colour, hp⟩ := h2.placed
    refine ⟨r, h1, hp.perm.1, hp.perm.2, fun a b hab hb e => ?_⟩
    have := compat_adjacent g _ _ (hp.sound a b hab hb e)
    exact ⟨this, by rw [adjacent_comm]; exact this⟩
  · obtain ⟨r, h1, h2⟩ := colour_class_order_defer1_spec g true p p_order p_bounds defer
    obtain ⟨colour, hp⟩ := h2.placed
    refine ⟨r, h1, hp.perm.1, hp.perm.2, fun a b hab hb e => ?_⟩
    have := compat_adjacent g _ _ (hp.sound a b hab hb e)
    exact ⟨this, by rw [adjacent_comm]; exact this⟩

/-! ### Termination of the domain initialisation -/

theorem initialise_domains_loop_succ (s : SGI) (fuel remaining : Nat) (allowed : FixedBitSet) :
    initialise_domains_loop s (fuel + 1) remaining allowed =
      if (domains_union (domains_for s allowed)).popcount < s.pattern_size then
        some (false, domains_for s allowed)
      else if (domains_union (domains_for s allowed)).popcount = remaining then
        some (true, domains_for s allowed)
      else
        initialise_domains_loop s fuel
          (allowed.intersect_with (domains_union (domains_for s allowed))).popcount
          (allowed.intersect_with (domains_union (domains_for s allowed))) := rfl

theorem domains_for_sub (s : SGI) (hg : 0 < s.g_end) (allowed : FixedBitSet) :
    ∀ d, d ∈ domains_for s allowed → d.values ⊆ allowed := by
  intro d hd j hj
  unfold domains_for at hd
  obtain ⟨i, _, rfl⟩ := List.mem_map.mp hd
  simp only [Finset.mem_filter, Finset.mem_range, domain_ok_iff s hg] at hj
  exact hj.2.1

theorem domains_union_for_sub (s : SGI) (hg : 0 < s.g_end) (allowed : FixedBitSet) :
    domains_union (domains_for s allowed) ⊆ allowed := by
  intro j hj
  obtain ⟨d, hd, hjd⟩ := mem_domains_union.mp hj
  exact domains_for_sub s hg allowed d hd hjd

theorem initialise_domains_shrinks (s : SGI) (hg : 0 < s.g_end) (allowed : FixedBitSet)
    (hne : (domains_union (domains_for s allowed)).popcount ≠ allowed.popcount) :
    (allowed.intersect_with (domains_union (domains_for s allowed))).popcount <
      allowed.popcount := by
  have hsub := domains_union_for_sub s hg allowed
  unfold FixedBitSet.intersect_with FixedBitSet.popcount at *
  rw [Finset.inter_eq_right.mpr hsub]
  have := Finset.card_le_card hsub
  omega

theorem initialise_domains_loop_total (s : SGI) (hg : 0 < s.g_end) :
    ∀ (fuel : Nat) (allowed : FixedBitSet), allowed.card < fuel →
      ∃ b D, initialise_domains_loop s fuel allowed.popcount allowed = some (b, D) := by
  intro fuel
  induction fuel with
  | zero => intro allowed h; omega
  | succ fuel ih =>
    intro allowed h
    rw [initialise_domains_loop_succ]
    split
    · exact ⟨_, _, rfl⟩
    · split
      · exact ⟨_, _, rfl⟩
      · rename_i _ hne
        have := initialise_domains_shrinks s hg allowed hne
        apply ih
        unfold FixedBitSet.popcount at this
        omega

theorem initialise_domains_loop_fuel (s : SGI) (hg : 0 < s.g_end) :
    ∀ (fuel1 fuel2 : Nat) (allowed : FixedBitSet), allowed.card < fuel1 → allowed.card < fuel2 →
      initialise_domains_loop s fuel1 allowed.popcount allowed =
        initialise_domains_loop s fuel2 allowed.popcount allowed := by
  intro fuel1
  induction fuel1 with
  | zero => intro fuel2 allowed h; omega
  | succ fuel1 ih =>
    intro fuel2 allowed h1 h2
    obtain ⟨fuel2, rfl⟩ : ∃ f, fuel2 = f + 1 := ⟨fuel2 - 1, by omega⟩
    rw [initialise_domains_loop_succ, initialise_domains_loop_succ]
    split
    · rfl
    · split
      · rfl
      · rename_i _ hne
        have := initialise_domains_shrinks s hg allowed hne
        unfold FixedBitSet.popcount at this
        apply ih <;> omega

/-- C21 (termination of `initialise_domains`): with at least one filter graph, the call
returns on every input. Every domain computed in an iteration from the allowed target set is a
subset of that set; an iteration either returns (false, or true at the `break`) or continues
with a strictly smaller allowed set; and the `target_size + 1` iterations that the embedding
grants are enough, a larger budget giving the same result. -/
theorem C21_initialise_domains_terminates (s : SGI) (hg : 0 < s.g_end) :
    (∃ b D, initialise_domains s = some (b, D)) ∧
    (∀ fuel, s.target_size + 1 ≤ fuel →
      initialise_domains_loop s fuel s.target_size (FixedBitSet.set_up_to s.target_size) =
        initialise_domains s) ∧
    ∀ (fuel : Nat) (allowed : FixedBitSet),
      (∀ d, d ∈ domains_for s allowed → d.values ⊆ allowed) ∧
      (initialise_domains_loop s (fuel + 1) allowed.popcount allowed =
          some (false, domains_for s allowed) ∨
        initialise_domains_loop s (fuel + 1) allowed.popcount allowed =
          some (true, domains_for s allowed) ∨
        ∃ allowed2 : FixedBitSet, allowed2.popcount < allowed.popcount ∧
          initialise_domains_loop s (fuel + 1) allowed.popcount allowed =
            initialise_domains_loop s fuel allowed2.popcount allowed2) := by
  have hcard : (FixedBitSet.set_up_to s.target_size).popcount = s.target_size := by
    simp [FixedBitSet.set_up_to, FixedBitSet.popcount]
  refine ⟨?_, ?_, ?_⟩
  · unfold initialise_domains
    have := initialise_domains_loop_total s hg (s.target_size + 1)
      (FixedBitSet.set_up_to s.target_size)
      (by unfold FixedBitSet.popcount at hcard; omega)
    rw [hcard] at this
    exact this
  · intro fuel hfuel
    unfold initialise_domains
    have := initialise_domains_loop_fuel s hg fuel (s.target_size + 1)
      (FixedBitSet.set_up_to s.target_size)
      (by unfold FixedBitSet.popcount at hcard; omega)
      (by unfold FixedBitSet.popcount at hcard; omega)
    rw [hcard] at this
    exact this
  · intro fuel allowed
    refine ⟨domains_for_sub s hg allowed, ?_⟩
    rw [initialise_domains_loop_succ]
    split
    · exact Or.inl rfl
    · split
      · exact Or.inr (Or.inl rfl)
      · rename_i _ hne
        exact Or.inr (Or.inr ⟨_, initialise_domains_shrinks s hg allowed hne, rfl⟩)

set_option maxRecDepth 100000 in
/-- C21 at the triangle as pattern and the path `0 - 1 - 2` as target, without supplemental
graphs: the first iteration finds that fewer target vertices than pattern vertices remain. -/
theorem C21_initialise_domains_terminates_witness :
    0 < (SGI.make (plainConfig false) refExternals P3 K3).g_end ∧
    ((∃ b D, initialise_domains (SGI.make (plainConfig false) refExternals P3 K3) =
        some (b, D)) ∧
    (∀ fuel, (SGI.make (plainConfig false) refExternals P3 K3).target_size + 1 ≤ fuel →
      initialise_domains_loop (SGI.make (plainConfig false) refExternals P3 K3) fuel
          (SGI.make (plainConfig false) refExternals P3 K3).target_size
          (FixedBitSet.set_up_to (SGI.make (plainConfig false) refExternals P3 K3).target_size) =
        initialise_domains (SGI.make (plainConfig false) refExternals P3 K3)) ∧
    ∀ (fuel : Nat) (allowed : FixedBitSet),
      (∀ d, d ∈ domains_for (SGI.make (plainConfig false) refExternals P3 K3) allowed →
        d.values ⊆ allowed) ∧
      (initialise_domains_loop (SGI.make (plainConfig false) refExternals P3 K3) (fuel + 1)
            allowed.popcount allowed =
          some (false, domains_for (SGI.make (plainConfig false) refExternals P3 K3) allowed) ∨
        initialise_domains_loop (SGI.make (plainConfig false) refExternals P3 K3) (fuel + 1)
            allowed.popcount allowed =
          some (true, domains_for (SGI.make (plainConfig false) refExternals P3 K3) allowed) ∨
        ∃ allowed2 : FixedBitSet, allowed2.popcount < allowed.popcount ∧
          initialise_domains_loop (SGI.make (plainConfig false) refExternals P3 K3) (fuel + 1)
              allowed.popcount allowed =
            initialise_domains_loop (SGI.make (plainConfig false) refExternals P3 K3) fuel
              allowed2.popcount allowed2)) :=
  ⟨by decide, C21_initialise_domains_terminates
    (SGI.make (plainConfig false) refExternals P3 K3) (by decide)⟩

/-! ### Maximum common subgraph by clique -/

theorem foldl_insert_image {α β : Type} [DecidableEq β] (f : α → β) :
    ∀ (l : List α) (m : Finset β),
      l.foldl (fun m v => insert (f v) m) m = m ∪ (l.map f).toFinset := by
  intro l
  induction l with
  | nil => intro m; simp
  | cons a l ih =>
    intro m
    rw [List.foldl_cons, ih]
    ext x
    simp only [Finset.mem_union, Finset.mem_insert, List.map_cons, List.toFinset_cons]
    tauto

/-- C30 (composition for the maximum common subgraph): for every pair of graphs and all
parameters, `clique_max_common_subgraph` returns the `size`, `nodes` and `times` of the result
that the clique algorithm of the parameters gives on the modular product (on the subgraph
modular product when `subgraph_isomorphism` is set, then with the initial bound
`|G1| - 1`), called with `stop_after_finding` capped by both graph sizes; its `isomorphism` is
exactly the set of `unproduct(G1, G2, v)` for the members `v` of that clique. -/
theorem C30_mcs_composition {Time Order Abort Times : Type} (ext : ProductExternals)
    (graphs : Graph × Graph) (params : MaxCommonSubgraphParams Time Order Abort Times) :
    (clique_max_common_subgraph ext graphs params).size =
      (params.max_clique_algorithm
        (if params.subgraph_isomorphism then ext.subgraph_modular_product graphs.1 graphs.2
          else ext.modular_product graphs.1 graphs.2)
        { initial_bound :=
            if params.subgraph_isomorphism then
              (((graphs.1.size : Int) - 1) % 4294967296).toNat
            else params.initial_bound
          stop_after_finding :=
            min (min params.stop_after_finding graphs.1.size) graphs.2.size
          n_threads := params.n_threads
          print_incumbents := params.print_incumbents
          start_time := params.start_time
          order_function := params.order_function
          abort := params.abort }).size ∧
    (clique_max_common_subgraph ext graphs params).nodes =
      (params.max_clique_algorithm
        (if params.subgraph_isomorphism then ext.subgraph_modular_product graphs.1 graphs.2
          else ext.modular_product graphs.1 graphs.2)
        { initial_bound :=
            if params.subgraph_isomorphism then
              (((graphs.1.size : Int) - 1) % 4294967296).toNat
            else params.initial_bound
          stop_after_finding :=
            min (min params.stop_after_finding graphs.1.size) graphs.2.size
          n_threads := params.n_threads
          print_incumbents := params.print_incumbents
          start_time := params.start_time
          order_function := params.order_function
          abort := params.abort }).nodes ∧
    (clique_max_common_subgraph ext graphs params).times =
      (params.max_clique_algorithm
        (if params.subgraph_isomorphism then ext.subgraph_modular_product graphs.1 graphs.2
          else ext.modular_product graphs.1 graphs.2)
        { initial_bound :=
            if params.subgraph_isomorphism then
              (((graphs.1.size : Int) - 1) % 4294967296).toNat
            else params.initial_bound
          stop_after_finding :=
            min (min params.stop_after_finding graphs.1.size) graphs.2.size
          n_threads := params.n_threads
          print_incumbents := params.print_incumbents
          start_time := params.start_time
          order_function := params.order_function
          abort := params.abort }).times ∧
    ∀ e : Nat × Nat, e ∈ (clique_max_common_subgraph ext graphs params).isomorphism ↔
      ∃ v, v ∈ (params.max_clique_algorithm
        (if params.subgraph_isomorphism then ext.subgraph_modular_product graphs.1 graphs.2
          else ext.modular_product graphs.1 graphs.2)
        { initial_bound :=
            if params.subgraph_isomorphism then
              (((graphs.1.size : Int) - 1) % 4294967296).toNat
            else params.initial_bound
          stop_after_finding :=
            min (min params.stop_after_finding graphs.1.size) graphs.2.size
          n_threads := params.n_threads
          print_incumbents := params.print_incumbents
          start_time := params.start_time
          order_function := params.order_function
          abort := params.abort }).members ∧
        e = ext.unproduct graphs.1 graphs.2 v := by
  unfold clique_max_common_subgraph
  cases hs : params.subgraph_isomorphism
  · simp only [Bool.false_eq_true, if_false, foldl_insert_image, Finset.empty_union,
      List.mem_toFinset, List.mem_map, true_and]
    intro e
    constructor
    · rintro ⟨v, hv, rfl⟩; exact ⟨v, hv, rfl⟩
    · rintro ⟨v, hv, rfl⟩; exact ⟨v, hv, rfl⟩
  · simp only [if_true, foldl_insert_image, Finset.empty_union,
      List.mem_toFinset, List.mem_map, true_and]
    intro e
    constructor
    · rintro ⟨v, hv, rfl⟩; exact ⟨v, hv, rfl⟩
    · rintro ⟨v, hv, rfl⟩; exact ⟨v, hv, rfl⟩

/-! ### The greedy loops as lists of colour classes -/

theorem write_list_nil (a : Nat → Nat) (i : Nat) : write_list a i [] = a := by
  funext k
  simp [write_list]

theorem write_list_cons (a : Nat → Nat) (i v : Nat) (l : List Nat) :
    write_list (Function.update a i v) (i + 1) l = write_list a i (v :: l) := by
  funext k
  unfold write_list
  by_cases h1 : i + 1 ≤ k ∧ k < i + 1 + l.length
  · rw [if_pos h1, if_pos (by simp only [List.length_cons]; omega)]
    obtain ⟨d, rfl⟩ : ∃ d, k = i + 1 + d := ⟨k - (i + 1), by omega⟩
    have e1 : i + 1 + d - (i + 1) = d := by omega
    have e2 : i + 1 + d - i = d + 1 := by omega
    rw [e1, e2, List.getD_cons_succ]
  · rw [if_neg h1]
    by_cases h2 : k = i
    · subst h2
      rw [if_pos (by simp only [List.length_cons]; omega)]
      simp
    · rw [if_neg (by simp only [List.length_cons]; omega), Function.update_noteq h2]

theorem write_list_lt (a : Nat → Nat) (i : Nat) (l : List Nat) {k : Nat} (hk : k < i) :
    write_list a i l k = a k := by
  unfold write_list
  rw [if_neg (by omega)]

theorem write_list_ge (a : Nat → Nat) (i : Nat) (l : List Nat) {k : Nat}
    (hk : i + l.length ≤ k) : write_list a i l k = a k := by
  unfold write_list
  rw [if_neg (by omega)]

theorem write_list_at (a : Nat → Nat) (i : Nat) (l : List Nat) {j : Nat} (hj : j < l.length) :
    write_list a i l (i + j) = l.getD j 0 := by
  unfold write_list
  rw [if_pos (by omega), Nat.add_sub_cancel_left]

theorem entries_succ (po pb : Nat → Nat) (n : Nat) :
    entries po pb (n + 1) = entries po pb n ++ [(po n, pb n)] := by
  unfold entries
  rw [List.range_succ, List.map_append]
  rfl

theorem entries_congr {po pb po2 pb2 : Nat → Nat} {n : Nat}
    (h : ∀ k, k < n → po2 k = po k ∧ pb2 k = pb k) : entries po2 pb2 n = entries po pb n := by
  unfold entries
  apply List.map_congr_left
  intro k hk
  obtain ⟨h1, h2⟩ := h k (List.mem_range.mp hk)
  rw [h1, h2]

theorem entries_length (po pb : Nat → Nat) (n : Nat) : (entries po pb n).length = n := by
  simp [entries]

theorem entries_add (po pb : Nat → Nat) (n : Nat) :
    ∀ (l : List (Nat × Nat)),
      (∀ j, j < l.length → (po (n + j), pb (n + j)) = l.getD j (0, 0)) →
        entries po pb (n + l.length) = entries po pb n ++ l := by
  intro l
  induction l using List.reverseRecOn with
  | nil => intro _; simp
  | append_singleton l x ih =>
    intro h
    have hl : (l ++ [x]).length = l.length + 1 := by simp
    rw [hl, ← Nat.add_assoc, entries_succ, ih, List.append_assoc]
    · congr 2
      have := h l.length (by omega)
      rw [this, List.getD_eq_getElem?_getD, List.getElem?_append_right (le_refl _)]
      simp
    · intro j hj
      rw [h j (by omega), List.getD_eq_getElem?_getD, List.getD_eq_getElem?_getD,
        List.getElem?_append_left hj]

theorem entries_write_list (po pb : Nat → Nat) (i colour : Nat) (l : List Nat) :
    entries (write_list po i l) (write_list pb i (List.replicate l.length colour))
        (i + l.length) =
      entries po pb i ++ l.map fun v => (v, colour) := by
  have h := entries_add (write_list po i l) (write_list pb i (List.replicate l.length colour)) i
    (l.map fun v => (v, colour)) (by
      intro j hj
      rw [List.length_map] at hj
      rw [write_list_at _ _ _ hj, write_list_at _ _ _ (by simpa using hj)]
      rw [List.getD_eq_getElem?_getD, List.getD_eq_getElem?_getD, List.getD_eq_getElem?_getD,
        List.getElem?_map, List.getElem?_eq_getElem hj,
        List.getElem?_eq_getElem (by simpa using hj)]
      simp)
  rw [List.length_map] at h
  rw [h]
  congr 1
  exact entries_congr fun k hk => ⟨write_list_lt _ _ _ hk, write_list_lt _ _ _ hk⟩

theorem class_members_sub (g : FixedBitGraph) (inverse : Bool) :
    ∀ (fuel : Nat) (q : FixedBitSet) (v : Nat), v ∈ class_members g inverse fuel q → v ∈ q := by
  intro fuel
  induction fuel with
  | zero => intro q v h; simp [class_members] at h
  | succ fuel ih =>
    intro q v h
    rw [class_members] at h
    cases hfs : q.first_set_bit with
    | none => rw [hfs] at h; simp at h
    | some u =>
      rw [hfs] at h
      simp only [List.mem_cons] at h
      rcases h with rfl | h
      · exact (first_set_bit_eq_some hfs).1
      · have := (mem_class_filter.mp (ih _ _ h)).1
        exact Finset.mem_of_mem_erase this

theorem class_filter_card_le (g : FixedBitGraph) (inverse : Bool) (q : FixedBitSet) {v : Nat}
    (hv : v ∈ q) :
    (if inverse then g.intersect_with_row v (q.unset v)
      else g.intersect_with_row_complement v (q.unset v)).card + 1 ≤ q.card := by
  have hsub : (if inverse then g.intersect_with_row v (q.unset v)
      else g.intersect_with_row_complement v (q.unset v)) ⊆ q.erase v :=
    fun w hw => (mem_class_filter.mp hw).1
  have := Finset.card_le_card hsub
  rw [Finset.card_erase_of_mem hv] at this
  have := Finset.card_pos.mpr ⟨v, hv⟩
  omega

theorem colour_one_class_eq (g : FixedBitGraph) (inverse : Bool) (colour : Nat) :
    ∀ (fuel : Nat) (q : FixedBitSet) (s : Fill), q.card ≤ fuel →
      colour_one_class g inverse colour fuel q s =
        some
          { p_left := s.p_left \ (class_members g inverse fuel q).toFinset
            i := s.i + (class_members g inverse fuel q).length
            p_order := write_list s.p_order s.i (class_members g inverse fuel q)
            p_bounds := write_list s.p_bounds s.i
              (List.replicate (class_members g inverse fuel q).length colour)
            number_with_this_colour :=
              s.number_with_this_colour + (class_members g inverse fuel q).length } := by
  intro fuel
  induction fuel with
  | zero =>
    intro q s hq
    have he : q = ∅ := Finset.card_eq_zero.mp (Nat.le_zero.mp hq)
    subst he
    simp [colour_one_class, class_members, FixedBitSet.empty, write_list_nil]
  | succ fuel ih =>
    intro q s hq
    rw [colour_one_class, class_members]
    cases hfs : q.first_set_bit with
    | none => simp [write_list_nil]
    | some v =>
      simp only []
      have hv := (first_set_bit_eq_some hfs).1
      have hc := class_filter_card_le g inverse q hv
      rw [ih _ _ (by omega)]
      simp only [Option.some.injEq, List.length_cons, List.toFinset_cons,
        List.replicate_succ, Fill.mk.injEq]
      refine ⟨?_, by omega, write_list_cons _ _ _ _, write_list_cons _ _ _ _, by omega⟩
      ext w
      simp only [FixedBitSet.unset, Finset.mem_sdiff, Finset.mem_erase, Finset.mem_insert,
        List.mem_toFinset]
      tauto

theorem class_members_card (g : FixedBitGraph) (inverse : Bool) :
    ∀ (fuel : Nat) (q : FixedBitSet), (class_members g inverse fuel q).length ≤ q.card := by
  intro fuel
  induction fuel with
  | zero => intro q; simp [class_members]
  | succ fuel ih =>
    intro q
    rw [class_members]
    cases hfs : q.first_set_bit with
    | none => simp
    | some v =>
      simp only [List.length_cons]
      have hv := (first_set_bit_eq_some hfs).1
      have hc := class_filter_card_le g inverse q hv
      have := ih (if inverse then g.intersect_with_row v (q.unset v)
        else g.intersect_with_row_complement v (q.unset v))
      omega

theorem class_members_head (g : FixedBitGraph) (inverse : Bool) (fuel : Nat)
    (q : FixedBitSet) {v : Nat} (hfs : q.first_set_bit = some v) :
    ∃ rest, class_members g inverse (fuel + 1) q = v :: rest := by
  rw [class_members, hfs]
  exact ⟨_, rfl⟩

/-- The members of a class are coloured in increasing order, and each is compatible with all
the members before it. -/
theorem class_members_pairwise (g : FixedBitGraph) (inverse : Bool) :
    ∀ (fuel : Nat) (q : FixedBitSet),
      (class_members g inverse fuel q).Pairwise fun u w => u < w ∧ Compat g inverse u w := by
  intro fuel
  induction fuel with
  | zero => intro q; simp [class_members]
  | succ fuel ih =>
    intro q
    rw [class_members]
    cases hfs : q.first_set_bit with
    | none => simp
    | some v =>
      simp only []
      refine List.pairwise_cons.mpr ⟨?_, ih _⟩
      intro w hw
      have hw2 := mem_class_filter.mp (class_members_sub g inverse _ _ _ hw)
      have hwq := Finset.mem_erase.mp hw2.1
      have := (first_set_bit_eq_some hfs).2 w hwq.2
      exact ⟨by omega, hw2.2⟩

/-- A candidate that is not coloured is excluded by a lower member of the class. -/
theorem class_members_maximal (g : FixedBitGraph) (inverse : Bool) :
    ∀ (fuel : Nat) (q : FixedBitSet), q.card ≤ fuel → ∀ w, w ∈ q →
      w ∈ class_members g inverse fuel q ∨
        ∃ u, u ∈ class_members g inverse fuel q ∧ u < w ∧ ¬ Compat g inverse u w := by
  intro fuel
  induction fuel with
  | zero =>
    intro q hq w hw
    have he : q = ∅ := Finset.card_eq_zero.mp (Nat.le_zero.mp hq)
    rw [he] at hw
    exact absurd hw (Finset.not_mem_empty w)
  | succ fuel ih =>
    intro q hq w hw
    rw [class_members]
    cases hfs : q.first_set_bit with
    | none =>
      rw [first_set_bit_eq_none.mp hfs] at hw
      exact absurd hw (Finset.not_mem_empty w)
    | some v =>
      simp only [List.mem_cons]
      have hv := first_set_bit_eq_some hfs
      have hc := class_filter_card_le g inverse q hv.1
      by_cases hwv : w = v
      · exact Or.inl (Or.inl hwv)
      · by_cases hcompat : Compat g inverse v w
        · have hw2 : w ∈ (if inverse then g.intersect_with_row v (q.unset v)
              else g.intersect_with_row_complement v (q.unset v)) :=
            mem_class_filter.mpr ⟨Finset.mem_erase.mpr ⟨hwv, hw⟩, hcompat⟩
          rcases ih _ (by omega) w hw2 with h | ⟨u, hu, h1, h2⟩
          · exact Or.inl (Or.inr h)
          · exact Or.inr ⟨u, Or.inr hu, h1, h2⟩
        · have := hv.2 w hw
          exact Or.inr ⟨v, Or.inl rfl, by omega, hcompat⟩

theorem class_members_nodup (g : FixedBitGraph) (inverse : Bool) (fuel : Nat)
    (q : FixedBitSet) : (class_members g inverse fuel q).Nodup :=
  (class_members_pairwise g inverse fuel q).imp fun h => Nat.ne_of_lt h.1

theorem class_members_ne_nil (g : FixedBitGraph) (inverse : Bool) (q : FixedBitSet)
    (hne : q.empty = false) : class_members g inverse q.popcount q ≠ [] := by
  have hq : q ≠ ∅ := fun h => by rw [empty_eq_true.mpr h] at hne; cases hne
  obtain ⟨v, hv⟩ : ∃ v, q.first_set_bit = some v := by
    cases h : q.first_set_bit with
    | none => exact absurd (first_set_bit_eq_none.mp h) hq
    | some v => exact ⟨v, rfl⟩
  have hpos : 0 < q.popcount := Finset.card_pos.mpr ⟨v, (first_set_bit_eq_some hv).1⟩
  obtain ⟨n, hn⟩ : ∃ n, q.popcount = n + 1 := ⟨q.popcount - 1, by omega⟩
  rw [hn]
  obtain ⟨rest, h⟩ := class_members_head g inverse n q hv
  rw [h]
  exact List.cons_ne_nil _ _

theorem sdiff_class_card (g : FixedBitGraph) (inverse : Bool) (q : FixedBitSet)
    (hne : q.empty = false) :
    (q \ (class_members g inverse q.popcount q).toFinset).card + 1 ≤ q.card := by
  have hnil := class_members_ne_nil g inverse q hne
  obtain ⟨v, hv⟩ := List.exists_mem_of_ne_nil _ hnil
  have hvq := class_members_sub g inverse _ _ _ hv
  have hsub : q \ (class_members g inverse q.popcount q).toFinset ⊆ q.erase v := by
    intro w hw
    obtain ⟨h1, h2⟩ := Finset.mem_sdiff.mp hw
    refine Finset.mem_erase.mpr ⟨?_, h1⟩
    rintro rfl
    exact h2 (List.mem_toFinset.mpr hv)
  have := Finset.card_le_card hsub
  rw [Finset.card_erase_of_mem hvq] at this
  have := Finset.card_pos.mpr ⟨v, hvq⟩
  omega

theorem emit_from_append (c : Nat) (A B : List (List Nat)) :
    emit_from c (A ++ B) = emit_from c A ++ emit_from (c + A.length) B := by
  induction A generalizing c with
  | nil => simp [emit_from]
  | cons a A ih =>
    have : c + 1 + A.length = c + (A.length + 1) := by omega
    rw [List.cons_append, emit_from, emit_from, ih, List.length_cons, List.append_assoc, this]

/-- The entries that `none_loop` adds to the output are the greedy classes of the uncoloured
vertices, with the colours from `colour + 1` on. -/
theorem none_loop_entries (g : FixedBitGraph) (inverse : Bool) :
    ∀ (fuel colour : Nat) (s : Fill), s.p_left.card ≤ fuel →
      ∃ t, none_loop g inverse fuel colour s = some t ∧
        entries t.p_order t.p_bounds t.i =
          entries s.p_order s.p_bounds s.i ++
            emit_from colour (greedy_classes g inverse fuel s.p_left) := by
  intro fuel
  induction fuel with
  | zero =>
    intro colour s hs
    have he : s.p_left = ∅ := Finset.card_eq_zero.mp (Nat.le_zero.mp hs)
    refine ⟨s, by simp [none_loop, FixedBitSet.empty, he], ?_⟩
    simp [greedy_classes, emit_from]
  | succ fuel ih =>
    intro colour s hs
    rw [none_loop, greedy_classes]
    cases he : s.p_left.empty with
    | true => exact ⟨s, by simp, by simp [emit_from]⟩
    | false =>
      simp only [Bool.false_eq_true, if_false]
      rw [colour_one_class_eq g inverse (colour + 1) s.p_left.popcount s.p_left s (le_refl _)]
      simp only []
      have hc := sdiff_class_card g inverse s.p_left he
      obtain ⟨t, ht, hent⟩ := ih (colour + 1)
        { p_left := s.p_left \ (class_members g inverse s.p_left.popcount s.p_left).toFinset
          i := s.i + (class_members g inverse s.p_left.popcount s.p_left).length
          p_order := write_list s.p_order s.i
            (class_members g inverse s.p_left.popcount s.p_left)
          p_bounds := write_list s.p_bounds s.i
            (List.replicate (class_members g inverse s.p_left.popcount s.p_left).length
              (colour + 1))
          number_with_this_colour := s.number_with_this_colour +
            (class_members g inverse s.p_left.popcount s.p_left).length }
        (by simp only []; omega)
      refine ⟨t, ht, ?_⟩
      rw [hent]
      simp only [emit_from]
      rw [entries_write_list, List.append_assoc]

theorem mem_emit_from (x : Nat × Nat) :
    ∀ (cls : List (List Nat)) (c : Nat),
      x ∈ emit_from c cls ↔ ∃ k, k < cls.length ∧ x.2 = c + k + 1 ∧ x.1 ∈ cls.getD k [] := by
  intro cls
  induction cls with
  | nil => intro c; simp [emit_from]
  | cons cl cls ih =>
    intro c
    rw [emit_from, List.mem_append, ih]
    constructor
    · rintro (h | ⟨k, hk, h1, h2⟩)
      · obtain ⟨v, hv, rfl⟩ := List.mem_map.mp h
        exact ⟨0, by simp, rfl, by simpa using hv⟩
      · refine ⟨k + 1, by simpa using hk, by omega, ?_⟩
        rw [List.getD_cons_succ]
        exact h2
    · rintro ⟨k, hk, h1, h2⟩
      cases k with
      | zero =>
        left
        refine List.mem_map.mpr ⟨x.1, by simpa using h2, ?_⟩
        ext
        · rfl
        · simp only []; omega
      | succ k =>
        right
        rw [List.getD_cons_succ] at h2
        exact ⟨k, by simpa using hk, by omega, h2⟩

/-- In the output for a list of colour classes the colours do not decrease, and two entries of
one colour stand in the relation that holds inside the classes. -/
theorem emit_from_pairwise {R : Nat → Nat → Prop} :
    ∀ (cls : List (List Nat)) (c : Nat), (∀ cl, cl ∈ cls → cl.Pairwise R) →
      (emit_from c cls).Pairwise fun x y => x.2 ≤ y.2 ∧ (x.2 = y.2 → R x.1 y.1) := by
  intro cls
  induction cls with
  | nil => intro c _; simp [emit_from]
  | cons cl cls ih =>
    intro c h
    rw [emit_from, List.pairwise_append]
    refine ⟨?_, ih (c + 1) fun cl2 h2 => h cl2 (List.mem_cons_of_mem _ h2), ?_⟩
    · rw [List.pairwise_map]
      exact (h cl (List.mem_cons_self _ _)).imp fun hr => ⟨le_refl _, fun _ => hr⟩
    · intro x hx y hy
      obtain ⟨v, _, rfl⟩ := List.mem_map.mp hx
      obtain ⟨k, _, h1, _⟩ := (mem_emit_from y cls (c + 1)).mp hy
      simp only []
      exact ⟨by omega, fun e => by omega⟩

theorem greedy_classes_sub (g : FixedBitGraph) (inverse : Bool) :
    ∀ (fuel : Nat) (U : FixedBitSet) (cl : List Nat), cl ∈ greedy_classes g inverse fuel U →
      ∀ v, v ∈ cl → v ∈ U := by
  intro fuel
  induction fuel with
  | zero => intro U cl h; simp [greedy_classes] at h
  | succ fuel ih =>
    intro U cl h v hv
    rw [greedy_classes] at h
    split at h
    · simp at h
    · rcases List.mem_cons.mp h with rfl | h
      · exact class_members_sub g inverse _ _ _ hv
      · exact (Finset.mem_sdiff.mp (ih _ _ h v hv)).1

theorem greedy_classes_cover (g : FixedBitGraph) (inverse : Bool) :
    ∀ (fuel : Nat) (U : FixedBitSet), U.card ≤ fuel → ∀ v, v ∈ U →
      ∃ cl, cl ∈ greedy_classes g inverse fuel U ∧ v ∈ cl := by
  intro fuel
  induction fuel with
  | zero =>
    intro U hU v hv
    rw [Finset.card_eq_zero.mp (Nat.le_zero.mp hU)] at hv
    exact absurd hv (Finset.not_mem_empty v)
  | succ fuel ih =>
    intro U hU v hv
    rw [greedy_classes]
    cases he : U.empty with
    | true =>
      rw [empty_eq_true.mp he] at hv
      exact absurd hv (Finset.not_mem_empty v)
    | false =>
      simp only [Bool.false_eq_true, if_false]
      by_cases hin : v ∈ class_members g inverse U.popcount U
      · exact ⟨_, List.mem_cons_self _ _, hin⟩
      · have hc := sdiff_class_card g inverse U he
        obtain ⟨cl, h1, h2⟩ := ih (U \ (class_members g inverse U.popcount U).toFinset)
          (by omega) v (Finset.mem_sdiff.mpr ⟨hv, fun h => hin (List.mem_toFinset.mp h)⟩)
        exact ⟨cl, List.mem_cons_of_mem _ h1, h2⟩

/-- A member of a later greedy class is excluded from each earlier class by a lower member of
that class; the classes are disjoint. -/
theorem greedy_classes_pairwise (g : FixedBitGraph) (inverse : Bool) :
    ∀ (fuel : Nat) (U : FixedBitSet),
      (greedy_classes g inverse fuel U).Pairwise fun A B =>
        ∀ w, w ∈ B → w ∉ A ∧ ∃ u, u ∈ A ∧ u < w ∧ ¬ Compat g inverse u w := by
  intro fuel
  induction fuel with
  | zero => intro U; simp [greedy_classes]
  | succ fuel ih =>
    intro U
    rw [greedy_classes]
    split
    · exact List.Pairwise.nil
    · refine List.pairwise_cons.mpr ⟨?_, ih _⟩
      intro B hB w hw
      have hwU := Finset.mem_sdiff.mp (greedy_classes_sub g inverse _ _ B hB w hw)
      have hnot : w ∉ class_members g inverse U.popcount U :=
        fun h => hwU.2 (List.mem_toFinset.mpr h)
      rcases class_members_maximal g inverse U.popcount U (le_refl _) w hwU.1 with h | h
      · exact absurd h hnot
      · exact ⟨hnot, h⟩

theorem greedy_classes_each (g : FixedBitGraph) (inverse : Bool) :
    ∀ (fuel : Nat) (U : FixedBitSet) (cl : List Nat), cl ∈ greedy_classes g inverse fuel U →
      cl ≠ [] ∧ cl.Pairwise fun u w => u < w ∧ Compat g inverse u w := by
  intro fuel
  induction fuel with
  | zero => intro U cl h; simp [greedy_classes] at h
  | succ fuel ih =>
    intro U cl h
    rw [greedy_classes] at h
    cases he : U.empty with
    | true => rw [he] at h; simp at h
    | false =>
      rw [he] at h
      simp only [Bool.false_eq_true, if_false] at h
      rcases List.mem_cons.mp h with rfl | h
      · exact ⟨class_members_ne_nil g inverse U he, class_members_pairwise g inverse _ _⟩
      · exact ih _ _ h

/-- `colour_class_order` for `None` writes the greedy classes of `p`. -/
theorem colour_class_order_none_entries (g : FixedBitGraph) (inverse : Bool) (p : FixedBitSet)
    (po pb : Nat → Nat) :
    ∃ r, colour_class_order_none g inverse p po pb = some r ∧
      OutSpec (Compat g inverse) p po pb r ∧
      entries r.p_order r.p_bounds p.card = emit_from 0 (greedy_classes g inverse p.card p) := by
  obtain ⟨r, h1, h2⟩ := colour_class_order_none_spec g inverse p po pb
  refine ⟨r, h1, h2, ?_⟩
  obtain ⟨t, ht, hent⟩ := none_loop_entries g inverse p.popcount 0
    { p_left := p, i := 0, p_order := po, p_bounds := pb, number_with_this_colour := 0 }
    (le_refl _)
  rw [colour_class_order_none, ht] at h1
  simp only [Option.map_some', Option.some.injEq] at h1
  subst h1
  have hi := h2.i_eq
  simp only [] at hi hent ⊢
  rw [← hi, hent, hi]
  simp [entries, FixedBitSet.popcount]

theorem mem_entries {po pb : Nat → Nat} {n : Nat} {x : Nat × Nat} :
    x ∈ entries po pb n ↔ ∃ a, a < n ∧ (po a, pb a) = x := by
  simp [entries]

theorem entries_pairwise {R : Nat × Nat → Nat × Nat → Prop} {po pb : Nat → Nat} :
    ∀ {n : Nat}, (entries po pb n).Pairwise R →
      ∀ a b, a < b → b < n → R (po a, pb a) (po b, pb b) := by
  intro n
  induction n with
  | zero => intro _ a b _ hb; omega
  | succ n ih =>
    intro h a b hab hb
    rw [entries_succ, List.pairwise_append] at h
    by_cases hbn : b = n
    · subst hbn
      exact h.2.2 _ (mem_entries.mpr ⟨a, hab, rfl⟩) _ (List.mem_singleton.mpr rfl)
    · exact ih h.1 a b hab (by omega)

theorem entries_head {po pb : Nat → Nat} {n : Nat} {x : Nat × Nat} {l : List (Nat × Nat)}
    (h : entries po pb n = x :: l) : (po 0, pb 0) = x := by
  cases n with
  | zero => simp [entries] at h
  | succ n =>
    unfold entries at h
    rw [List.range_succ_eq_map, List.map_cons] at h
    exact (List.cons.inj h).1

/-- On vertices of the graph, the class that the specification describes is the class that
the inner loop colours. -/
theorem first_fit_class_eq (g : FixedBitGraph) (U : Finset Nat) (hU : ∀ v, v ∈ U → v < g.size) :
    ∀ (fuel : Nat) (cl : List Nat) (q : FixedBitSet),
      q = U.filter (fun w => w ∉ cl ∧ ∀ u ∈ cl, g.adjacent u w = false) →
        first_fit_class g U fuel cl = cl ++ class_members g false fuel q := by
  intro fuel
  induction fuel with
  | zero => intro cl q _; simp [first_fit_class, class_members]
  | succ fuel ih =>
    intro cl q hq
    rw [first_fit_class, class_members, ← hq]
    cases hfs : q.first_set_bit with
    | none => simp
    | some v =>
      simp only [Bool.false_eq_true, if_false]
      rw [ih (cl ++ [v]) (g.intersect_with_row_complement v (q.unset v)), List.append_assoc]
      · rfl
      · ext w
        rw [mem_row_complement, hq]
        simp only [FixedBitSet.unset, Finset.mem_erase, Finset.mem_filter, List.mem_append,
          List.mem_singleton]
        constructor
        · rintro ⟨⟨h1, h2, h3, h4⟩, _, h6⟩
          refine ⟨h2, ?_, ?_⟩
          · rintro (h | h)
            · exact h3 h
            · exact h1 h
          · rintro u (h | rfl)
            · exact h4 u h
            · exact h6
        · rintro ⟨h1, h2, h3⟩
          exact ⟨⟨fun h => h2 (Or.inr h), h1, fun h => h2 (Or.inl h),
            fun u hu => h3 u (Or.inl hu)⟩, hU w h1, h3 v (Or.inr rfl)⟩

theorem first_fit_classes_eq (g : FixedBitGraph) :
    ∀ (fuel : Nat) (U : FixedBitSet), (∀ v, v ∈ U → v < g.size) →
      first_fit_classes g fuel U = greedy_classes g false fuel U := by
  intro fuel
  induction fuel with
  | zero => intro U _; rfl
  | succ fuel ih =>
    intro U hU
    rw [first_fit_classes, greedy_classes]
    have hcl : first_fit_class g U U.card [] = class_members g false U.popcount U := by
      rw [first_fit_class_eq g U hU U.card [] U (by ext w; simp)]
      rfl
    by_cases he : U = ∅
    · rw [if_pos he, if_pos (empty_eq_true.mpr he)]
    · have he2 : ¬ (U.empty = true) := fun h => he (empty_eq_true.mp h)
      rw [if_neg he, if_neg he2, hcl, ih]
      intro v hv
      exact hU v (Finset.mem_sdiff.mp hv).1

/-- C24 (`None` is greedy first-fit): in non-inverse mode, for every graph and every set `P`
of its vertices, the call for `None` returns and the first `|P|` entries of its output are the
colour classes that the specification describes, written one after the other with the colours
1, 2, ...: each class is obtained from the vertices still uncoloured by repeatedly taking the
lowest one that is not adjacent to any vertex already in the class, until none is left. Hence
vertices within a class appear in increasing order, `p_order[0]` is the lowest set bit of `P`,
and every vertex with a later colour is adjacent to a vertex of each earlier class. -/
theorem C24_none_is_greedy_first_fit (g : FixedBitGraph) (p : FixedBitSet)
    (p_order p_bounds : Nat → Nat) (hp : ∀ v, v ∈ p → v < g.size) :
    ∃ r, colour_class_order_none g false p p_order p_bounds = some r ∧
      entries r.p_order r.p_bounds p.card = emit_from 0 (first_fit_classes g p.card p) ∧
      (∀ a b, a < b → b < p.card → r.p_bounds a = r.p_bounds b → r.p_order a < r.p_order b) ∧
      (∀ v, p.first_set_bit = some v → r.p_order 0 = v) ∧
      ∀ b, b < p.card → ∀ c, 1 ≤ c → c < r.p_bounds b →
        ∃ a, a < p.card ∧ r.p_bounds a = c ∧ g.adjacent (r.p_order a) (r.p_order b) = true := by
  obtain ⟨r, h1, _, hent⟩ := colour_class_order_none_entries g false p p_order p_bounds
  refine ⟨r, h1, ?_, ?_, ?_, ?_⟩
  · rw [hent, first_fit_classes_eq g p.card p hp]
  · intro a b hab hb e
    have hpw := emit_from_pairwise (R := fun u w => u < w ∧ Compat g false u w)
      (greedy_classes g false p.card p) 0
      (fun cl hcl => (greedy_classes_each g false _ _ cl hcl).2)
    rw [← hent] at hpw
    exact ((entries_pairwise hpw a b hab hb).2 e).1
  · intro v hv
    have hvp := (first_set_bit_eq_some hv).1
    have hpos : 0 < p.card := Finset.card_pos.mpr ⟨v, hvp⟩
    obtain ⟨n, hn⟩ : ∃ n, p.card = n + 1 := ⟨p.card - 1, by omega⟩
    have hne : ¬ (p.empty = true) := fun h => by
      rw [empty_eq_true.mp h] at hvp
      exact absurd hvp (Finset.not_mem_empty v)
    rw [hn, greedy_classes, if_neg hne] at hent
    have hpc : p.popcount = n + 1 := hn
    rw [hpc] at hent
    obtain ⟨rest, hrest⟩ := class_members_head g false n p hv
    rw [hrest, emit_from, List.map_cons, List.cons_append, ← hn] at hent
    have := entries_head hent
    exact (Prod.mk.inj this).1
  · intro b hb c hc1 hcb
    have hmem : (r.p_order b, r.p_bounds b) ∈ emit_from 0 (greedy_classes g false p.card p) := by
      rw [← hent]
      exact mem_entries.mpr ⟨b, hb, rfl⟩
    obtain ⟨k, hk, hk1, hk2⟩ := (mem_emit_from _ _ 0).mp hmem
    simp only [] at hk1 hk2
    obtain ⟨j, rfl⟩ : ∃ j, c = j + 1 := ⟨c - 1, by omega⟩
    have hjk : j < k := by omega
    have hpw := greedy_classes_pairwise g false p.card p
    have hrel := List.pairwise_iff_getElem.mp hpw j k (by omega) hk hjk
    rw [List.getD_eq_getElem _ _ hk] at hk2
    obtain ⟨_, u, hu, _, hnc⟩ := hrel _ hk2
    have hwp : r.p_order b ∈ p :=
      greedy_classes_sub g false _ _ _ (List.getElem_mem hk) _ hk2
    have hadj : g.adjacent u (r.p_order b) = true := by
      unfold Compat at hnc
      simp only [Bool.false_eq_true, if_false, not_and, Bool.not_eq_false] at hnc
      exact hnc (hp _ hwp)
    have humem : (u, j + 1) ∈ entries r.p_order r.p_bounds p.card := by
      rw [hent]
      refine (mem_emit_from _ _ 0).mpr ⟨j, by omega, by simp, ?_⟩
      rw [List.getD_eq_getElem _ _ (by omega)]
      exact hu
    obtain ⟨a, ha, e⟩ := mem_entries.mp humem
    obtain ⟨e1, e2⟩ := Prod.mk.inj e
    exact ⟨a, ha, e2, by rw [e1]; exact hadj⟩

set_option maxRecDepth 100000 in
/-- C24 on the path `0 - 2 - 3 - 1` with all four vertices as candidates: the classes are
`{0, 1}`, `{2}` and `{3}`. -/
theorem C24_none_is_greedy_first_fit_witness :
    first_fit_classes ⟨4, [(0, 2), (2, 3), (1, 3)]⟩ 4 {0, 1, 2, 3} = [[0, 1], [2], [3]] ∧
    ∃ r, colour_class_order_none ⟨4, [(0, 2), (2, 3), (1, 3)]⟩ false {0, 1, 2, 3}
        (fun _ => 0) (fun _ => 0) = some r ∧
      entries r.p_order r.p_bounds ({0, 1, 2, 3} : Finset Nat).card =
        emit_from 0 (first_fit_classes ⟨4, [(0, 2), (2, 3), (1, 3)]⟩
          ({0, 1, 2, 3} : Finset Nat).card {0, 1, 2, 3}) ∧
      (∀ a b, a < b → b < ({0, 1, 2, 3} : Finset Nat).card → r.p_bounds a = r.p_bounds b →
        r.p_order a < r.p_order b) ∧
      (∀ v, FixedBitSet.first_set_bit {0, 1, 2, 3} = some v → r.p_order 0 = v) ∧
      ∀ b, b < ({0, 1, 2, 3} : Finset Nat).card → ∀ c, 1 ≤ c → c < r.p_bounds b →
        ∃ a, a < ({0, 1, 2, 3} : Finset Nat).card ∧ r.p_bounds a = c ∧
          FixedBitGraph.adjacent ⟨4, [(0, 2), (2, 3), (1, 3)]⟩ (r.p_order a) (r.p_order b) =
            true :=
  ⟨by decide!,
    C24_none_is_greedy_first_fit ⟨4, [(0, 2), (2, 3), (1, 3)]⟩ {0, 1, 2, 3}
      (fun _ => 0) (fun _ => 0) (by decide)⟩

/-! ### Deferring the classes of one member -/

theorem append_deferred_entries (defer : Nat → Nat) :
    ∀ (todo n colour : Nat) (o : CCOResult),
      (append_deferred defer todo n colour o).2.i = o.i + todo ∧
      entries (append_deferred defer todo n colour o).2.p_order
          (append_deferred defer todo n colour o).2.p_bounds (o.i + todo) =
        entries o.p_order o.p_bounds o.i ++
          emit_from colour ((List.range todo).map fun m => [defer (n + m)]) := by
  intro todo
  induction todo with
  | zero => intro n colour o; simp [append_deferred, emit_from]
  | succ todo ih =>
    intro n colour o
    rw [append_deferred]
    obtain ⟨h1, h2⟩ := ih (n + 1) (colour + 1)
      { p_order := Function.update o.p_order o.i (defer n)
        p_bounds := Function.update o.p_bounds o.i (colour + 1)
        i := o.i + 1 }
    simp only [] at h1 h2
    refine ⟨by rw [h1]; omega, ?_⟩
    have e1 : o.i + (todo + 1) = o.i + 1 + todo := by omega
    rw [e1, h2, entries_succ, List.range_succ_eq_map, List.map_cons, emit_from, List.map_map,
      List.append_assoc]
    simp only [Function.update_same, List.map_cons, List.map_nil, List.singleton_append,
      Nat.add_zero]
    congr 1
    · exact entries_congr fun k hk =>
        ⟨Function.update_noteq (by omega) _ _, Function.update_noteq (by omega) _ _⟩
    · congr 2
      apply List.map_congr_left
      intro m _
      simp only [Function.comp]
      congr 2
      omega

/-- What `defer1_loop` adds to the output and to the array `defer`: the greedy classes of more
than one member go to the output, the members of the other classes to `defer`. -/
theorem defer1_loop_entries (g : FixedBitGraph) (inverse : Bool) :
    ∀ (fuel : Nat) (s : DeferState), s.fill.p_left.card ≤ fuel →
      ∃ t, defer1_loop g inverse fuel s = some t ∧
        entries t.fill.p_order t.fill.p_bounds t.fill.i =
          entries s.fill.p_order s.fill.p_bounds s.fill.i ++
            emit_from s.colour ((greedy_classes g inverse fuel s.fill.p_left).filter
              fun cl => decide (cl.length ≠ 1)) ∧
        t.colour = s.colour + ((greedy_classes g inverse fuel s.fill.p_left).filter
          fun cl => decide (cl.length ≠ 1)).length ∧
        ((List.range t.d).map fun n => [t.defer n]) =
          ((List.range s.d).map fun n => [s.defer n]) ++
            (greedy_classes g inverse fuel s.fill.p_left).filter
              fun cl => decide (cl.length = 1) := by
  intro fuel
  induction fuel with
  | zero =>
    intro s hs
    have he : s.fill.p_left = ∅ := Finset.card_eq_zero.mp (Nat.le_zero.mp hs)
    refine ⟨s, by simp [defer1_loop, FixedBitSet.empty, he], ?_⟩
    simp [greedy_classes, emit_from]
  | succ fuel ih =>
    intro s hs
    rw [defer1_loop, greedy_classes]
    cases he : s.fill.p_left.empty with
    | true => exact ⟨s, by simp, by simp [emit_from]⟩
    | false =>
      simp only [Bool.false_eq_true, if_false]
      rw [colour_one_class_eq g inverse (s.colour + 1) s.fill.p_left.popcount s.fill.p_left
        { s.fill with number_with_this_colour := 0 } (le_refl _)]
      simp only [Nat.zero_add]
      have hc := sdiff_class_card g inverse s.fill.p_left he
      by_cases h1 : (class_members g inverse s.fill.p_left.popcount s.fill.p_left).length = 1
      · rw [if_pos h1]
        obtain ⟨x, hx⟩ := List.length_eq_one.mp h1
        obtain ⟨t, ht, hent, hcol, hdef⟩ := ih
          { fill :=
              { p_left := s.fill.p_left \
                  (class_members g inverse s.fill.p_left.popcount s.fill.p_left).toFinset
                i := s.fill.i +
                  (class_members g inverse s.fill.p_left.popcount s.fill.p_left).length - 1
                p_order := write_list s.fill.p_order s.fill.i
                  (class_members g inverse s.fill.p_left.popcount s.fill.p_left)
                p_bounds := write_list s.fill.p_bounds s.fill.i
                  (List.replicate
                    (class_members g inverse s.fill.p_left.popcount s.fill.p_left).length
                    (s.colour + 1))
                number_with_this_colour :=
                  (class_members g inverse s.fill.p_left.popcount s.fill.p_left).length }
            colour := s.colour
            d := s.d + 1
            defer := Function.update s.defer s.d
              (write_list s.fill.p_order s.fill.i
                (class_members g inverse s.fill.p_left.popcount s.fill.p_left)
                (s.fill.i +
                  (class_members g inverse s.fill.p_left.popcount s.fill.p_left).length - 1)) }
          (by simp only []; omega)
        refine ⟨t, ht, ?_, ?_, ?_⟩
        · rw [hent]
          simp only [h1, Nat.add_sub_cancel]
          rw [List.filter_cons_of_neg (by simp [h1])]
          congr 1
          exact entries_congr fun k hk => ⟨write_list_lt _ _ _ hk, write_list_lt _ _ _ hk⟩
        · rw [hcol, List.filter_cons_of_neg (by simp [h1])]
        · rw [hdef, List.filter_cons_of_pos (by simp [h1])]
          simp only [h1, Nat.add_sub_cancel]
          rw [List.range_succ, List.map_append, List.append_assoc]
          congr 1
          · apply List.map_congr_left
            intro n hn
            rw [Function.update_noteq (Nat.ne_of_lt (List.mem_range.mp hn))]
          · have hw := write_list_at s.fill.p_order s.fill.i
              (class_members g inverse s.fill.p_left.popcount s.fill.p_left) (j := 0)
              (by omega)
            rw [Nat.add_zero] at hw
            simp only [List.map_cons, List.map_nil, Function.update_same, List.singleton_append,
              hw, hx]
            have hwx : write_list s.fill.p_order s.fill.i [x] s.fill.i = x := by
              simp [write_list]
            rw [hwx]
      · rw [if_neg h1]
        obtain ⟨t, ht, hent, hcol, hdef⟩ := ih
          { s with
            fill :=
              { p_left := s.fill.p_left \
                  (class_members g inverse s.fill.p_left.popcount s.fill.p_left).toFinset
                i := s.fill.i +
                  (class_members g inverse s.fill.p_left.popcount s.fill.p_left).length
                p_order := write_list s.fill.p_order s.fill.i
                  (class_members g inverse s.fill.p_left.popcount s.fill.p_left)
                p_bounds := write_list s.fill.p_bounds s.fill.i
                  (List.replicate
                    (class_members g inverse s.fill.p_left.popcount s.fill.p_left).length
                    (s.colour + 1))
                number_with_this_colour :=
                  (class_members g inverse s.fill.p_left.popcount s.fill.p_left).length }
            colour := s.colour + 1 }
          (by simp only []; omega)
        refine ⟨t, ht, ?_, ?_, ?_⟩
        · rw [hent]
          simp only []
          rw [List.filter_cons_of_pos (by simp [h1]), emit_from, entries_write_list,
            List.append_assoc]
        · rw [hcol, List.filter_cons_of_pos (by simp [h1])]
          simp only [List.length_cons]
          omega
        · rw [hdef, List.filter_cons_of_neg (by simp [h1])]

/-- `colour_class_order` for `Defer1` writes the greedy classes of `p` with the classes of one
member moved to the end. -/
theorem colour_class_order_defer1_entries (g : FixedBitGraph) (inverse : Bool)
    (p : FixedBitSet) (po pb defer : Nat → Nat) :
    ∃ r, colour_class_order_defer1 g inverse p po pb defer = some r ∧
      OutSpec (Compat g inverse) p po pb r ∧
      entries r.p_order r.p_bounds p.card =
        emit_from 0 (defer_singletons (greedy_classes g inverse p.card p)) := by
  obtain ⟨r, h1, h2⟩ := colour_class_order_defer1_spec g inverse p po pb defer
  refine ⟨r, h1, h2, ?_⟩
  obtain ⟨t, ht, hent, hcol, hdef⟩ := defer1_loop_entries g inverse p.popcount
    { fill := { p_left := p, i := 0, p_order := po, p_bounds := pb,
                number_with_this_colour := 0 }
      colour := 0, d := 0, defer := defer }
    (le_refl _)
  rw [colour_class_order_defer1, ht] at h1
  simp only [Option.map_some', Option.some.injEq] at h1
  obtain ⟨a1, a2⟩ := append_deferred_entries t.defer t.d 0 t.colour
    { p_order := t.fill.p_order, p_bounds := t.fill.p_bounds, i := t.fill.i }
  rw [h1] at a1 a2
  have hi := h2.i_eq
  simp only [] at hent hcol hdef a1 a2
  rw [hi] at a1
  rw [a1, a2, hent]
  simp only [Nat.zero_add, List.range_zero, List.map_nil, List.nil_append] at hdef hcol ⊢
  rw [hdef, hcol, defer_singletons, emit_from_append, Nat.zero_add]
  simp only [entries, FixedBitSet.popcount, List.range_zero, List.map_nil, List.nil_append,
    ← a1, ne_eq, decide_not]

theorem write_class_entries (colour : Nat) (cl : ColourClass) :
    ∀ (todo pos : Nat) (o : CCOResult),
      (write_class colour cl todo pos o).i = o.i + todo ∧
      entries (write_class colour cl todo pos o).p_order
          (write_class colour cl todo pos o).p_bounds (o.i + todo) =
        entries o.p_order o.p_bounds o.i ++
          (List.range todo).map fun j => (cl.second (pos + j), colour) := by
  intro todo
  induction todo with
  | zero => intro pos o; simp [write_class]
  | succ todo ih =>
    intro pos o
    rw [write_class]
    obtain ⟨h1, h2⟩ := ih (pos + 1)
      { p_order := Function.update o.p_order o.i (cl.second pos)
        p_bounds := Function.update o.p_bounds o.i colour
        i := o.i + 1 }
    simp only [] at h1 h2
    refine ⟨by rw [h1]; omega, ?_⟩
    have e1 : o.i + (todo + 1) = o.i + 1 + todo := by omega
    rw [e1, h2, entries_succ, List.range_succ_eq_map, List.map_cons, List.map_map,
      List.append_assoc]
    simp only [Function.update_same, List.singleton_append, Nat.add_zero]
    congr 1
    · exact entries_congr fun k hk =>
        ⟨Function.update_noteq (by omega) _ _, Function.update_noteq (by omega) _ _⟩
    · congr 1
      apply List.map_congr_left
      intro m _
      simp only [Function.comp]
      congr 2
      omega

/-- What the output loop of `colour_class_order_with_repair` writes for the colour classes
`k, ..., k + todo - 1`: the classes that are not deferred go to the output, the members of the
deferred ones to `defer`. -/
theorem write_classes_entries (do_defer : Bool) (cc : ColourClasses) :
    ∀ (todo k : Nat) (e : Emit),
      entries (write_classes do_defer cc todo k e).out.p_order
          (write_classes do_defer cc todo k e).out.p_bounds
          (write_classes do_defer cc todo k e).out.i =
        entries e.out.p_order e.out.p_bounds e.out.i ++
          emit_from e.colour
            (((List.range todo).map fun j =>
              (List.range (cc (k + j)).first).map (cc (k + j)).second).filter
              fun cl => ! (do_defer && decide (cl.length = 1))) ∧
      (write_classes do_defer cc todo k e).colour =
        e.colour + (((List.range todo).map fun j =>
          (List.range (cc (k + j)).first).map (cc (k + j)).second).filter
          fun cl => ! (do_defer && decide (cl.length = 1))).length ∧
      ((List.range (write_classes do_defer cc todo k e).d).map fun n =>
          [(write_classes do_defer cc todo k e).defer n]) =
        ((List.range e.d).map fun n => [e.defer n]) ++
          ((List.range todo).map fun j =>
            (List.range (cc (k + j)).first).map (cc (k + j)).second).filter
            fun cl => do_defer && decide (cl.length = 1) := by
  intro todo
  induction todo with
  | zero => intro k e; simp [write_classes, emit_from]
  | succ todo ih =>
    intro k e
    have hshift : ((List.range (todo + 1)).map fun j =>
          (List.range (cc (k + j)).first).map (cc (k + j)).second) =
        ((List.range (cc k).first).map (cc k).second) ::
          (List.range todo).map fun j =>
            (List.range (cc (k + 1 + j)).first).map (cc (k + 1 + j)).second := by
      rw [List.range_succ_eq_map, List.map_cons, List.map_map]
      congr 1
      apply List.map_congr_left
      intro j _
      simp only [Function.comp]
      have : k + (j + 1) = k + 1 + j := by omega
      rw [this]
    rw [write_classes, hshift]
    by_cases hd : (do_defer && decide ((cc k).first = 1)) = true
    · rw [if_pos hd]
      have hd2 : (do_defer && decide (((List.range (cc k).first).map (cc k).second).length = 1))
          = true := by simpa using hd
      obtain ⟨a1, a2, a3⟩ := ih (k + 1)
        { e with d := e.d + 1, defer := Function.update e.defer e.d ((cc k).second 0) }
      rw [a1, a2, a3]
      simp only [List.filter_cons, hd2, Bool.not_true, Bool.false_eq_true, if_false, if_true,
        true_and]
      rw [List.range_succ, List.map_append, List.append_assoc]
      congr 1
      · apply List.map_congr_left
        intro n hn
        rw [Function.update_noteq (Nat.ne_of_lt (List.mem_range.mp hn))]
      · have hf : (cc k).first = 1 := by
          simp only [Bool.and_eq_true, decide_eq_true_eq] at hd
          exact hd.2
        simp [hf, List.range_succ]
    · rw [if_neg hd]
      have hd2 : (do_defer &&
          decide (((List.range (cc k).first).map (cc k).second).length = 1)) = false := by
        simpa using hd
      obtain ⟨a1, a2, a3⟩ := ih (k + 1)
        { e with colour := e.colour + 1
                 out := write_class (e.colour + 1) (cc k) (cc k).first 0 e.out }
      obtain ⟨w1, w2⟩ := write_class_entries (e.colour + 1) (cc k) (cc k).first 0 e.out
      rw [a1, a2, a3]
      simp only [List.filter_cons, hd2, Bool.not_false, Bool.false_eq_true, if_false, if_true,
        and_true]
      refine ⟨?_, ?_⟩
      · rw [w1, w2, emit_from, List.append_assoc, List.map_map]
        simp only [Nat.zero_add]
        rfl
      · simp only [List.length_cons]
        omega

/-- `colour_class_order_with_repair` writes the colour classes that its main loop leaves in
the scratch vector, with the classes of one member moved to the end when `do_defer` is set. -/
theorem colour_class_order_with_repair_entries (g : FixedBitGraph) (p : FixedBitSet)
    (po pb : Nat → Nat) (delta : Int) (selective do_defer : Bool)
    (colour_classes : ColourClasses) (defer : Nat → Nat) :
    ∃ t r, repair_loop g delta selective p.popcount
        { p_left := p, colour_classes := colour_classes, colour_classes_end := 0 } = some t ∧
      colour_class_order_with_repair g p po pb delta selective do_defer colour_classes defer =
        some r ∧
      ClassesInv g p t.colour_classes t.colour_classes_end ∧
      (∀ k, k < t.colour_classes_end → 0 < (t.colour_classes k).first) ∧
      OutSpec (NonAdj g) p po pb r ∧
      entries r.p_order r.p_bounds p.card =
        emit_from 0
          (if do_defer then defer_singletons (classes_of t.colour_classes t.colour_classes_end)
            else classes_of t.colour_classes t.colour_classes_end) := by
  obtain ⟨t, ht, hinv, hpos⟩ := repair_loop_spec g delta selective p p.popcount
    { p_left := p, colour_classes := colour_classes, colour_classes_end := 0 }
    (Finset.Subset.refl _) (by simpa using ClassesInv.start g colour_classes)
    (fun k hk => absurd hk (Nat.not_lt_zero k)) (le_refl _)
  obtain ⟨r, h1, h2⟩ := colour_class_order_with_repair_spec g p po pb delta selective do_defer
    colour_classes defer
  refine ⟨t, r, ht, h1, hinv, hpos, h2, ?_⟩
  rw [colour_class_order_with_repair, ht] at h1
  simp only [Option.map_some', Option.some.injEq] at h1
  obtain ⟨w1, w2, w3⟩ := write_classes_entries do_defer t.colour_classes t.colour_classes_end 0
    { out := { p_order := po, p_bounds := pb, i := 0 }, colour := 0, d := 0, defer := defer }
  simp only [Nat.zero_add, List.range_zero, List.map_nil, List.nil_append, entries] at w1 w2 w3
  have hi := h2.i_eq
  cases do_defer with
  | false =>
    simp only [Bool.false_eq_true, if_false] at h1 ⊢
    simp only [Bool.false_and, Bool.not_false, List.filter_true] at w1
    rw [← h1] at hi ⊢
    rw [← hi]
    exact w1
  | true =>
    simp only [if_true] at h1 ⊢
    simp only [Bool.true_and] at w1 w2 w3
    obtain ⟨a1, a2⟩ := append_deferred_entries
      (write_classes true t.colour_classes t.colour_classes_end 0
        { out := { p_order := po, p_bounds := pb, i := 0 }, colour := 0, d := 0,
          defer := defer }).defer
      (write_classes true t.colour_classes t.colour_classes_end 0
        { out := { p_order := po, p_bounds := pb, i := 0 }, colour := 0, d := 0,
          defer := defer }).d 0
      (write_classes true t.colour_classes t.colour_classes_end 0
        { out := { p_order := po, p_bounds := pb, i := 0 }, colour := 0, d := 0,
          defer := defer }).colour
      (write_classes true t.colour_classes t.colour_classes_end 0
        { out := { p_order := po, p_bounds := pb, i := 0 }, colour := 0, d := 0,
          defer := defer }).out
    rw [h1] at a1 a2
    rw [hi] at a1
    simp only [Nat.zero_add] at a2
    rw [a1, a2, w3, w2]
    simp only [entries]
    rw [w1, defer_singletons, emit_from_append, Nat.zero_add]
    simp only [classes_of, ne_eq, decide_not]

/-! ### The main loop of the buffered repair reads only the classes it has built -/

theorem classes_of_agree {e : Nat} {cc cc2 : ColourClasses} (h : ClassesAgree e cc cc2) :
    classes_of cc e = classes_of cc2 e := by
  unfold classes_of
  apply List.map_congr_left
  intro k hk
  obtain ⟨h1, h2⟩ := h k (List.mem_range.mp hk)
  rw [← h1]
  apply List.map_congr_left
  intro x hx
  exact h2 x (List.mem_range.mp hx)

theorem has_conflict_agree (g : FixedBitGraph) (v : Nat) {cl cl2 : ColourClass}
    (h1 : cl.first = cl2.first) (h2 : ∀ x, x < cl.first → cl.second x = cl2.second x) :
    has_conflict g v cl = has_conflict g v cl2 := by
  cases h : has_conflict g v cl2 with
  | false =>
    rw [has_conflict_eq_false] at h ⊢
    intro x hx
    rw [h2 x hx]
    exact h x (by omega)
  | true =>
    rw [has_conflict_eq_true] at h ⊢
    obtain ⟨x, hx, ha⟩ := h
    exact ⟨x, by omega, by rw [h2 x (by omega)]; exact ha⟩

theorem ClassesAgree.update {e : Nat} {cc cc2 : ColourClasses} (h : ClassesAgree e cc cc2)
    (k : Nat) {cl cl2 : ColourClass}
    (hk : k < e → cl.first = cl2.first ∧ ∀ x, x < cl.first → cl.second x = cl2.second x) :
    ClassesAgree e (Function.update cc k cl) (Function.update cc2 k cl2) := by
  intro k2 hk2
  by_cases e1 : k2 = k
  · subst e1
    rw [Function.update_same, Function.update_same]
    exact hk hk2
  · rw [Function.update_noteq e1, Function.update_noteq e1]
    exact h k2 hk2

theorem ClassesAgree.push_class {e : Nat} {cc cc2 : ColourClasses} (h : ClassesAgree e cc cc2)
    (k v : Nat) :
    ClassesAgree e (Function.update cc k ((cc k).push v))
      (Function.update cc2 k ((cc2 k).push v)) := by
  apply h.update
  intro hk
  obtain ⟨h1, h2⟩ := h k hk
  unfold ColourClass.push
  simp only []
  refine ⟨by omega, fun x hx => ?_⟩
  by_cases e1 : x = (cc k).first
  · rw [e1, Function.update_same, h1, Function.update_same]
  · rw [Function.update_noteq e1, Function.update_noteq (by omega)]
    exact h2 x (by omega)

theorem first_fit_agree (g : FixedBitGraph) (v : Nat) {e : Nat} :
    ∀ (todo k : Nat) (cc cc2 : ColourClasses), ClassesAgree e cc cc2 → k + todo ≤ e →
      (first_fit g v todo k cc).1 = (first_fit g v todo k cc2).1 ∧
        ClassesAgree e (first_fit g v todo k cc).2 (first_fit g v todo k cc2).2 := by
  intro todo
  induction todo with
  | zero => intro k cc cc2 h _; exact ⟨rfl, h⟩
  | succ todo ih =>
    intro k cc cc2 h hk
    rw [first_fit, first_fit]
    obtain ⟨h1, h2⟩ := h k (by omega)
    rw [has_conflict_agree g v h1 h2]
    cases has_conflict g v (cc2 k) with
    | true =>
      simp only [if_true]
      exact ih (k + 1) cc cc2 h (by omega)
    | false =>
      simp only [Bool.false_eq_true, if_false]
      exact ⟨trivial, h.push_class k v⟩

theorem count_conflicts_agree (g : FixedBitGraph) (v : Nat) {cl cl2 : ColourClass} :
    ∀ (todo pos : Nat) (r : Conflicts),
      (∀ x, pos ≤ x → x < pos + todo → cl.second x = cl2.second x) →
        count_conflicts g v cl todo pos r = count_conflicts g v cl2 todo pos r := by
  intro todo
  induction todo with
  | zero => intro pos r _; rfl
  | succ todo ih =>
    intro pos r h
    rw [count_conflicts, count_conflicts, h pos (le_refl _) (by omega)]
    split
    · split
      · rfl
      · exact ih _ _ fun x hx1 hx2 => h x (by omega) (by omega)
    · exact ih _ _ fun x hx1 hx2 => h x (by omega) (by omega)

theorem move_vertex_agree {e : Nat} {cc cc2 : ColourClasses} (h : ClassesAgree e cc cc2)
    (v k u pos nc : Nat) :
    ClassesAgree e (move_vertex v k u pos nc cc) (move_vertex v k u pos nc cc2) := by
  unfold move_vertex
  simp only []
  have h1 := h.push_class nc u
  apply h1.update
  intro hk
  obtain ⟨a1, a2⟩ := h1 k hk
  simp only []
  refine ⟨a1, fun x hx => ?_⟩
  rw [← a1]
  by_cases e1 : x = (Function.update cc nc ((cc nc).push u) k).first - 1
  · rw [e1, Function.update_same, Function.update_same]
  · rw [Function.update_noteq e1, Function.update_noteq e1, shift_down_apply, shift_down_apply]
    split
    · exact a2 _ (by omega)
    · exact a2 _ hx

theorem try_move_agree (g : FixedBitGraph) (v k u pos : Nat) {e : Nat} :
    ∀ (todo nc : Nat) (cc cc2 : ColourClasses), ClassesAgree e cc cc2 → nc + todo ≤ e →
      (try_move g v k u pos todo nc cc).1 = (try_move g v k u pos todo nc cc2).1 ∧
        ClassesAgree e (try_move g v k u pos todo nc cc).2
          (try_move g v k u pos todo nc cc2).2 := by
  intro todo
  induction todo with
  | zero => intro nc cc cc2 h _; exact ⟨rfl, h⟩
  | succ todo ih =>
    intro nc cc cc2 h hnc
    rw [try_move, try_move]
    obtain ⟨h1, h2⟩ := h nc (by omega)
    rw [has_conflict_agree g u h1 h2]
    cases has_conflict g u (cc2 nc) with
    | true =>
      simp only [if_true]
      exact ih (nc + 1) cc cc2 h (by omega)
    | false =>
      simp only [Bool.false_eq_true, if_false]
      exact ⟨trivial, move_vertex_agree h v k u pos nc⟩

theorem repair_agree (g : FixedBitGraph) (v e : Nat) :
    ∀ (todo k : Nat) (cc cc2 : ColourClasses), ClassesAgree e cc cc2 → k + todo + 1 ≤ e →
      (repair g v e todo k cc).1 = (repair g v e todo k cc2).1 ∧
        ClassesAgree e (repair g v e todo k cc).2 (repair g v e todo k cc2).2 := by
  intro todo
  induction todo with
  | zero => intro k cc cc2 h _; exact ⟨rfl, h⟩
  | succ todo ih =>
    intro k cc cc2 h hk
    rw [repair, repair]
    obtain ⟨h1, h2⟩ := h k (by omega)
    rw [← h1, @count_conflicts_agree g v (cc k) (cc2 k) (cc k).first 0
      { n_conflicts := 0, vertex_to_move := -1, vertex_to_move_pos := -1 }
      (fun x _ hx => h2 x (by omega))]
    split
    · obtain ⟨t1, t2⟩ := try_move_agree g v k
        (count_conflicts g v (cc2 k) (cc k).first 0
          { n_conflicts := 0, vertex_to_move := -1, vertex_to_move_pos := -1 }).vertex_to_move.toNat
        (count_conflicts g v (cc2 k) (cc k).first 0
          { n_conflicts := 0, vertex_to_move := -1,
            vertex_to_move_pos := -1 }).vertex_to_move_pos.toNat
        (e - (k + 1)) (k + 1) cc cc2 h (by omega)
      rw [← t1]
      split
      · exact ⟨t1, t2⟩
      · exact ih (k + 1) _ _ t2 (by omega)
    · simp only [Bool.false_eq_true, if_false]
      exact ih (k + 1) cc cc2 h (by omega)

theorem repair_step_agree (g : FixedBitGraph) (delta : Int) (selective : Bool) (v : Nat)
    {e : Nat} {cc cc2 : ColourClasses} (h : ClassesAgree e cc cc2) :
    (repair_step g delta selective v cc e).2 = (repair_step g delta selective v cc2 e).2 ∧
      ClassesAgree (repair_step g delta selective v cc e).2
        (repair_step g delta selective v cc e).1 (repair_step g delta selective v cc2 e).1 := by
  unfold repair_step
  simp only []
  obtain ⟨f1, f2⟩ := first_fit_agree g v e 0 cc cc2 h (by omega)
  rw [← f1]
  by_cases hfit : (first_fit g v e 0 cc).1 = true
  · simp only [hfit, ↓reduceIte]
    exact ⟨trivial, f2⟩
  · simp only [hfit, ↓reduceIte]
    have hopen : ∀ {c c2 : ColourClasses}, ClassesAgree e c c2 →
        ClassesAgree (e + 1)
          (Function.update c e { first := 1, second := Function.update (c e).second 0 v })
          (Function.update c2 e { first := 1, second := Function.update (c2 e).second 0 v }) := by
      intro c c2 hc k hk
      by_cases e1 : k = e
      · subst e1
        rw [Function.update_same, Function.update_same]
        refine ⟨rfl, fun x hx => ?_⟩
        have : x = 0 := by simp only [] at hx; omega
        subst this
        simp
      · rw [Function.update_noteq e1, Function.update_noteq e1]
        exact hc k (by omega)
    by_cases hsel : ((! selective) || decide ((e : Int) ≥ delta)) = true
    · simp only [hsel, ↓reduceIte]
      have hrep : (repair g v e (e - 1) 0 (first_fit g v e 0 cc).2).1 =
            (repair g v e (e - 1) 0 (first_fit g v e 0 cc2).2).1 ∧
          ClassesAgree e (repair g v e (e - 1) 0 (first_fit g v e 0 cc).2).2
            (repair g v e (e - 1) 0 (first_fit g v e 0 cc2).2).2 := by
        by_cases he : e = 0
        · subst he
          exact ⟨rfl, by simpa [repair] using f2⟩
        · exact repair_agree g v e (e - 1) 0 _ _ f2 (by omega)
      obtain ⟨r1, r2⟩ := hrep
      rw [← r1]
      by_cases hr : (repair g v e (e - 1) 0 (first_fit g v e 0 cc).2).1 = true
      · simp only [hr, ↓reduceIte]
        exact ⟨rfl, r2⟩
      · simp only [hr, ↓reduceIte]
        exact ⟨rfl, hopen r2⟩
    · simp only [hsel, ↓reduceIte, Bool.false_eq_true]
      exact ⟨trivial, hopen f2⟩

theorem repair_loop_agree (g : FixedBitGraph) (delta : Int) (selective : Bool) :
    ∀ (fuel : Nat) (s s2 : RepairState), s.p_left = s2.p_left →
      s.colour_classes_end = s2.colour_classes_end →
      ClassesAgree s.colour_classes_end s.colour_classes s2.colour_classes →
      ∀ t, repair_loop g delta selective fuel s = some t →
        ∃ t2, repair_loop g delta selective fuel s2 = some t2 ∧
          t.colour_classes_end = t2.colour_classes_end ∧
          ClassesAgree t.colour_classes_end t.colour_classes t2.colour_classes := by
  intro fuel
  induction fuel with
  | zero =>
    intro s s2 h1 h2 h3 t ht
    rw [repair_loop] at ht ⊢
    rw [← h1]
    split at ht
    · rename_i he
      rw [if_pos he]
      simp only [Option.some.injEq] at ht
      subst ht
      exact ⟨s2, rfl, h2, h3⟩
    · cases ht
  | succ fuel ih =>
    intro s s2 h1 h2 h3 t ht
    rw [repair_loop] at ht ⊢
    rw [← h1]
    cases hfs : s.p_left.first_set_bit with
    | none =>
      rw [hfs] at ht
      simp only [Option.some.injEq] at ht
      subst ht
      exact ⟨s2, rfl, h2, h3⟩
    | some v =>
      rw [hfs] at ht
      simp only [] at ht ⊢
      obtain ⟨a1, a2⟩ := repair_step_agree g delta selective v h3
      rw [← h2]
      exact ih
        { p_left := s.p_left.unset v
          colour_classes := (repair_step g delta selective v s.colour_classes
            s.colour_classes_end).1
          colour_classes_end := (repair_step g delta selective v s.colour_classes
            s.colour_classes_end).2 }
        { p_left := s.p_left.unset v
          colour_classes := (repair_step g delta selective v s2.colour_classes
            s.colour_classes_end).1
          colour_classes_end := (repair_step g delta selective v s2.colour_classes
            s.colour_classes_end).2 }
        rfl a1 a2 t ht

/-- The first `|P|` entries of the output of `colour_class_order_with_repair` do not depend on
the arrays, the scratch vector or the array `defer` as the call finds them. -/
theorem colour_class_order_with_repair_deterministic (g : FixedBitGraph) (p : FixedBitSet)
    (delta : Int) (selective do_defer : Bool) (po pb : Nat → Nat) (cc : ColourClasses)
    (defer : Nat → Nat) (po2 pb2 : Nat → Nat) (cc2 : ColourClasses) (defer2 : Nat → Nat) :
    ∃ t r r2,
      repair_loop g delta selective p.popcount
        { p_left := p, colour_classes := cc, colour_classes_end := 0 } = some t ∧
      (∀ k, k < t.colour_classes_end → 0 < (t.colour_classes k).first) ∧
      colour_class_order_with_repair g p po pb delta selective do_defer cc defer = some r ∧
      colour_class_order_with_repair g p po2 pb2 delta selective do_defer cc2 defer2 =
        some r2 ∧
      entries r.p_order r.p_bounds p.card =
        emit_from 0
          (if do_defer then defer_singletons (classes_of t.colour_classes t.colour_classes_end)
            else classes_of t.colour_classes t.colour_classes_end) ∧
      entries r2.p_order r2.p_bounds p.card = entries r.p_order r.p_bounds p.card := by
  obtain ⟨t, r, ht, hr, _, hpos, _, hent⟩ := colour_class_order_with_repair_entries g p po pb
    delta selective do_defer cc defer
  obtain ⟨t2, r2, ht2, hr2, _, _, _, hent2⟩ := colour_class_order_with_repair_entries g p
    po2 pb2 delta selective do_defer cc2 defer2
  obtain ⟨t3, ht3, he, hag⟩ := repair_loop_agree g delta selective p.popcount
    { p_left := p, colour_classes := cc, colour_classes_end := 0 }
    { p_left := p, colour_classes := cc2, colour_classes_end := 0 } rfl rfl
    (fun k hk => absurd hk (Nat.not_lt_zero k)) t ht
  rw [ht2] at ht3
  simp only [Option.some.injEq] at ht3
  subst ht3
  refine ⟨t, r, r2, ht, hpos, hr, hr2, hent, ?_⟩
  rw [hent, hent2, ← he, classes_of_agree hag]

theorem classes_of_ne_nil {cc : ColourClasses} {e : Nat}
    (hpos : ∀ k, k < e → 0 < (cc k).first) : ∀ cl, cl ∈ classes_of cc e → cl ≠ [] := by
  intro cl hcl
  unfold classes_of at hcl
  obtain ⟨k, hk, rfl⟩ := List.mem_map.mp hcl
  have := hpos k (List.mem_range.mp hk)
  intro h
  have hl := congrArg List.length h
  simp at hl
  omega

/-- C23 (deferral of singletons). For `Defer1` against `None` (both modes of `inverse_`), and
for `colour_class_order_with_repair` with `do_defer` set against the same call without it
(`RepairAllDefer1` against `RepairAll` for `selective = false`, `RepairSelectedDefer1` against
`RepairSelected` for `selective = true`), whatever the arrays and the scratch memory hold on
entry: there is a list `cls` of non-empty colour classes, in the order in which they are built,
such that the variant without deferral writes these classes one after the other with the
colours 1, 2, ..., and the deferring variant writes first the classes of two or more members,
in the same order and with the colours renumbered from 1, and then the classes of one member,
in the same order, each with the next colour. -/
theorem C23_deferral_of_singletons (g : FixedBitGraph) (p : FixedBitSet) (inverse : Bool)
    (delta : Int) (selective : Bool) (po pb defer po2 pb2 defer2 : Nat → Nat)
    (cc cc2 : ColourClasses) :
    (∃ cls r0 r1, (∀ cl, cl ∈ cls → cl ≠ []) ∧
      colour_class_order_none g inverse p po pb = some r0 ∧
      colour_class_order_defer1 g inverse p po2 pb2 defer2 = some r1 ∧
      entries r0.p_order r0.p_bounds p.card = emit_from 0 cls ∧
      entries r1.p_order r1.p_bounds p.card =
        emit_from 0 (cls.filter (fun cl => decide (cl.length ≠ 1)) ++
          cls.filter (fun cl => decide (cl.length = 1)))) ∧
    (∃ cls r0 r1, (∀ cl, cl ∈ cls → cl ≠ []) ∧
      colour_class_order_with_repair g p po pb delta selective false cc defer = some r0 ∧
      colour_class_order_with_repair g p po2 pb2 delta selective true cc2 defer2 = some r1 ∧
      entries r0.p_order r0.p_bounds p.card = emit_from 0 cls ∧
      entries r1.p_order r1.p_bounds p.card =
        emit_from 0 (cls.filter (fun cl => decide (cl.length ≠ 1)) ++
          cls.filter (fun cl => decide (cl.length = 1)))) := by
  constructor
  · obtain ⟨r0, h0, _, e0⟩ := colour_class_order_none_entries g inverse p po pb
    obtain ⟨r1, h1, _, e1⟩ := colour_class_order_defer1_entries g inverse p po2 pb2 defer2
    exact ⟨_, r0, r1, fun cl hcl => (greedy_classes_each g inverse _ _ cl hcl).1, h0, h1, e0,
      e1⟩
  · obtain ⟨t, r0, ht, h0, _, hpos, _, e0⟩ := colour_class_order_with_repair_entries g p po pb
      delta selective false cc defer
    obtain ⟨t2, r1, ht2, h1, _, _, _, e1⟩ := colour_class_order_with_repair_entries g p
      po2 pb2 delta selective true cc2 defer2
    obtain ⟨t3, ht3, he, hag⟩ := repair_loop_agree g delta selective p.popcount
      { p_left := p, colour_classes := cc, colour_classes_end := 0 }
      { p_left := p, colour_classes := cc2, colour_classes_end := 0 } rfl rfl
      (fun k hk => absurd hk (Nat.not_lt_zero k)) t ht
    rw [ht2] at ht3
    simp only [Option.some.injEq] at ht3
    subst ht3
    refine ⟨classes_of t.colour_classes t.colour_classes_end, r0, r1,
      classes_of_ne_nil hpos, h0, h1, ?_, ?_⟩
    · simpa using e0
    · rw [e1, ← he, ← classes_of_agree hag]
      simp [defer_singletons]

/-! ### Without repairs the buffered variant builds the greedy classes -/

theorem mem_getD_lt {G : List (List Nat)} {k v : Nat} (h : v ∈ G.getD k []) : k < G.length := by
  by_contra hk
  rw [List.getD_eq_default _ _ (by omega)] at h
  cases h

theorem greedy_cover_idx (g : FixedBitGraph) (inverse : Bool) (p : FixedBitSet) {v : Nat}
    (hv : v ∈ p) :
    ∃ c, c < (greedy_classes g inverse p.card p).length ∧
      v ∈ (greedy_classes g inverse p.card p).getD c [] := by
  obtain ⟨cl, hcl, hvcl⟩ := greedy_classes_cover g inverse p.card p (le_refl _) v hv
  obtain ⟨c, hc, rfl⟩ := List.mem_iff_getElem.mp hcl
  exact ⟨c, hc, by rw [List.getD_eq_getElem _ _ hc]; exact hvcl⟩

theorem greedy_before (g : FixedBitGraph) (inverse : Bool) (fuel : Nat) (p : FixedBitSet)
    {j k w : Nat} (hjk : j < k) (hw : w ∈ (greedy_classes g inverse fuel p).getD k []) :
    w ∉ (greedy_classes g inverse fuel p).getD j [] ∧
      ∃ u, u ∈ (greedy_classes g inverse fuel p).getD j [] ∧ u < w ∧
        ¬ Compat g inverse u w := by
  have hk := mem_getD_lt hw
  have hrel := List.pairwise_iff_getElem.mp (greedy_classes_pairwise g inverse fuel p) j k
    (by omega) hk hjk
  rw [List.getD_eq_getElem _ _ hk] at hw
  rw [List.getD_eq_getElem _ _ (by omega : j < _)]
  exact hrel w hw

theorem greedy_unique (g : FixedBitGraph) (inverse : Bool) (fuel : Nat) (p : FixedBitSet)
    {j k v : Nat} (hj : v ∈ (greedy_classes g inverse fuel p).getD j [])
    (hk : v ∈ (greedy_classes g inverse fuel p).getD k []) : j = k := by
  rcases Nat.lt_trichotomy j k with h | h | h
  · exact absurd hj (greedy_before g inverse fuel p h hk).1
  · exact h
  · exact absurd hk (greedy_before g inverse fuel p h hj).1

theorem pairwise_of_mem_lt {Q : Nat → Nat → Prop} :
    ∀ {L : List Nat}, L.Pairwise (fun a b => a < b ∧ Q a b) →
      ∀ a b, a ∈ L → b ∈ L → a < b → Q a b := by
  intro L
  induction L with
  | nil => intro _ a b ha; cases ha
  | cons x L ih =>
    intro h a b ha hb hab
    obtain ⟨h1, h2⟩ := List.pairwise_cons.mp h
    rcases List.mem_cons.mp ha with e1 | ha2
    · rcases List.mem_cons.mp hb with e2 | hb2
      · omega
      · rw [e1]
        exact (h1 b hb2).2
    · rcases List.mem_cons.mp hb with e2 | hb2
      · have := (h1 a ha2).1
        omega
      · exact ih h2 a b ha2 hb2 hab

theorem greedy_compat (g : FixedBitGraph) (inverse : Bool) (fuel : Nat) (p : FixedBitSet)
    {k u w : Nat} (hu : u ∈ (greedy_classes g inverse fuel p).getD k [])
    (hw : w ∈ (greedy_classes g inverse fuel p).getD k []) (huw : u < w) :
    Compat g inverse u w := by
  have hk := mem_getD_lt hw
  rw [List.getD_eq_getElem _ _ hk] at hu hw
  exact pairwise_of_mem_lt
    (greedy_classes_each g inverse fuel p _ (List.getElem_mem hk)).2 u w hu hw huw

theorem greedy_sub_idx (g : FixedBitGraph) (inverse : Bool) (fuel : Nat) (p : FixedBitSet)
    {k v : Nat} (hv : v ∈ (greedy_classes g inverse fuel p).getD k []) : v ∈ p := by
  have hk := mem_getD_lt hv
  rw [List.getD_eq_getElem _ _ hk] at hv
  exact greedy_classes_sub g inverse fuel p _ (List.getElem_mem hk) v hv

theorem first_fit_least (g : FixedBitGraph) (v : Nat) :
    ∀ (todo k : Nat) (cc : ColourClasses) (c : Nat), k ≤ c → c < k + todo →
      (∀ j, k ≤ j → j < c → has_conflict g v (cc j) = true) →
      has_conflict g v (cc c) = false →
        first_fit g v todo k cc = (true, Function.update cc c ((cc c).push v)) := by
  intro todo
  induction todo with
  | zero => intro k cc c h1 h2; omega
  | succ todo ih =>
    intro k cc c h1 h2 hbefore hc
    rw [first_fit]
    by_cases e : k = c
    · subst e
      rw [hc]
      rfl
    · rw [hbefore k (le_refl _) (by omega)]
      simp only [if_true]
      exact ih (k + 1) cc c (by omega) (by omega) (fun j hj1 hj2 => hbefore j (by omega) hj2) hc

theorem first_fit_none (g : FixedBitGraph) (v : Nat) :
    ∀ (todo k : Nat) (cc : ColourClasses),
      (∀ j, k ≤ j → j < k + todo → has_conflict g v (cc j) = true) →
        first_fit g v todo k cc = (false, cc) := by
  intro todo
  induction todo with
  | zero => intro k cc _; rfl
  | succ todo ih =>
    intro k cc h
    rw [first_fit, h k (le_refl _) (by omega)]
    simp only [if_true]
    exact ih (k + 1) cc fun j hj1 hj2 => h j (by omega) (by omega)

theorem repair_step_fit (g : FixedBitGraph) (delta : Int) (selective : Bool) (v e : Nat)
    {cc cc2 : ColourClasses} (h : first_fit g v e 0 cc = (true, cc2)) :
    repair_step g delta selective v cc e = (cc2, e) := by
  unfold repair_step
  simp only [h, if_true]

theorem repair_step_open (g : FixedBitGraph) (delta : Int) (selective : Bool) (v e : Nat)
    {cc : ColourClasses} (h : first_fit g v e 0 cc = (false, cc))
    (hsel : ((! selective) || decide ((e : Int) ≥ delta)) = false) :
    repair_step g delta selective v cc e =
      (Function.update cc e { first := 1, second := Function.update (cc e).second 0 v },
        e + 1) := by
  unfold repair_step
  simp only [h, hsel, Bool.false_eq_true, if_false]

/-- One iteration of the main loop below the threshold: the vertex joins the class that the
greedy colouring gives it, and no repair is attempted. -/
theorem firstFitInv_step (g : FixedBitGraph) (p : FixedBitSet) (delta : Int)
    (hp : ∀ v, v ∈ p → v < g.size)
    (H : ∀ k, k < (greedy_classes g false p.card p).length → (k : Int) < delta)
    {s : RepairState} (hinv : FirstFitInv g p (greedy_classes g false p.card p) s) {v : Nat}
    (hfs : s.p_left.first_set_bit = some v) :
    ((first_fit g v s.colour_classes_end 0 s.colour_classes).1 = false →
        (s.colour_classes_end : Int) < delta) ∧
      FirstFitInv g p (greedy_classes g false p.card p)
        { p_left := s.p_left.unset v
          colour_classes := (repair_step g delta true v s.colour_classes s.colour_classes_end).1
          colour_classes_end :=
            (repair_step g delta true v s.colour_classes s.colour_classes_end).2 } := by
  obtain ⟨hvl, hmin⟩ := first_set_bit_eq_some hfs
  have hvp : v ∈ p := hinv.left_sub hvl
  obtain ⟨c, hc, hvc⟩ := greedy_cover_idx g false p hvp
  -- the vertices below `v` are stored, and stored vertices are below `v`
  have hstored : ∀ u, u ∈ p → u < v → ∃ k, k < s.colour_classes_end ∧
      ∃ x, x < (s.colour_classes k).first ∧ (s.colour_classes k).second x = u := by
    intro u hu huv
    apply (hinv.classes.mem_iff u).mp
    refine Finset.mem_sdiff.mpr ⟨hu, fun h => ?_⟩
    have := hmin u h
    omega
  have hbelow : ∀ k, k < s.colour_classes_end → ∀ x, x < (s.colour_classes k).first →
      (s.colour_classes k).second x < v := by
    intro k hk x hx
    have hm := (hinv.classes.mem_iff ((s.colour_classes k).second x)).mpr ⟨k, hk, x, hx, rfl⟩
    obtain ⟨h1, h2⟩ := Finset.mem_sdiff.mp hm
    exact hinv.done_lt _ h1 h2 v hvl
  have hleft : FixedBitSet.unset s.p_left v ⊆ p :=
    (Finset.erase_subset _ _).trans hinv.left_sub
  have hdone : ∀ u, u ∈ p → u ∉ FixedBitSet.unset s.p_left v →
      ∀ w, w ∈ FixedBitSet.unset s.p_left v → u < w := by
    intro u hu hnot w hw
    obtain ⟨hwv, hwl⟩ := Finset.mem_erase.mp hw
    by_cases huv : u = v
    · have := hmin w hwl
      omega
    · exact hinv.done_lt u hu (fun h => hnot (Finset.mem_erase.mpr ⟨huv, h⟩)) w hwl
  have hvC : v ∉ p \ s.p_left := fun h => (Finset.mem_sdiff.mp h).2 hvl
  have hconf_lt : ∀ k, k < s.colour_classes_end → k < c →
      has_conflict g v (s.colour_classes k) = true := by
    intro k hk hkc
    obtain ⟨_, u, hu, huv, hnc⟩ := greedy_before g false p.card p hkc hvc
    have hadj : g.adjacent u v = true := by
      unfold Compat at hnc
      simp only [Bool.false_eq_true, if_false, not_and, Bool.not_eq_false] at hnc
      exact hnc (hp v hvp)
    obtain ⟨k2, hk2, x, hx, e⟩ := hstored u (greedy_sub_idx g false _ p hu) huv
    have hm := hinv.member k2 hk2 x hx
    rw [e] at hm
    have := greedy_unique g false _ p hm hu
    subst this
    rw [has_conflict_eq_true]
    exact ⟨x, hx, by rw [e, adjacent_comm]; exact hadj⟩
  by_cases hce : c < s.colour_classes_end
  · have hnoconf : has_conflict g v (s.colour_classes c) = false := by
      rw [has_conflict_eq_false]
      intro x hx
      have h1 := greedy_compat g false _ p (hinv.member c hce x hx) hvc (hbelow c hce x hx)
      unfold Compat at h1
      simp only [Bool.false_eq_true, if_false] at h1
      rw [adjacent_comm]
      exact h1.2
    have hfit := first_fit_least g v s.colour_classes_end 0 s.colour_classes c (Nat.zero_le _)
      (by omega) (fun j _ hj => hconf_lt j (by omega) hj) hnoconf
    rw [repair_step_fit g delta true v _ hfit, hfit]
    refine ⟨fun h => Bool.noConfusion h, ?_⟩
    refine
      { left_sub := hleft
        done_lt := hdone
        classes := ?_
        member := ?_
        pos := ?_
        sorted := ?_ }
    · have := hinv.classes.add_member hce hvC (has_conflict_eq_false.mp hnoconf)
      rw [insert_sdiff_unset hinv.left_sub hvl] at this
      exact this
    · intro k hk x hx
      simp only [] at hk hx ⊢
      by_cases e1 : k = c
      · subst e1
        rw [Function.update_same] at hx ⊢
        unfold ColourClass.push at hx ⊢
        simp only [] at hx ⊢
        by_cases e2 : x = (s.colour_classes k).first
        · rw [e2, Function.update_same]
          exact hvc
        · rw [Function.update_noteq e2]
          exact hinv.member k hk x (by omega)
      · rw [Function.update_noteq e1] at hx ⊢
        exact hinv.member k hk x hx
    · intro k hk
      simp only [] at hk ⊢
      by_cases e1 : k = c
      · subst e1
        rw [Function.update_same]
        unfold ColourClass.push
        simp only []
        omega
      · rw [Function.update_noteq e1]
        exact hinv.pos k hk
    · intro k hk x y hxy hy
      simp only [] at hk hy ⊢
      by_cases e1 : k = c
      · subst e1
        rw [Function.update_same] at hy ⊢
        unfold ColourClass.push at hy ⊢
        simp only [] at hy ⊢
        rw [Function.update_noteq (by omega : x ≠ (s.colour_classes k).first)]
        by_cases e2 : y = (s.colour_classes k).first
        · rw [e2, Function.update_same]
          exact hbelow k hk x (by omega)
        · rw [Function.update_noteq e2]
          exact hinv.sorted k hk x y hxy (by omega)
      · rw [Function.update_noteq e1] at hy ⊢
        exact hinv.sorted k hk x y hxy hy
  · have hcne : c = s.colour_classes_end := by
      by_contra hne
      have hlt : s.colour_classes_end < c := by omega
      obtain ⟨_, u, hu, huv, _⟩ := greedy_before g false p.card p hlt hvc
      obtain ⟨k2, hk2, x, hx, e⟩ := hstored u (greedy_sub_idx g false _ p hu) huv
      have hm := hinv.member k2 hk2 x hx
      rw [e] at hm
      have := greedy_unique g false _ p hm hu
      omega
    subst hcne
    have hlt := H s.colour_classes_end hc
    have hfit := first_fit_none g v s.colour_classes_end 0 s.colour_classes
      (fun j _ hj => hconf_lt j (by omega) (by omega))
    have hsel : ((! true) || decide ((s.colour_classes_end : Int) ≥ delta)) = false := by
      simp only [Bool.not_true, Bool.false_or, decide_eq_false_iff_not, ge_iff_le, not_le]
      exact hlt
    rw [repair_step_open g delta true v _ hfit hsel]
    refine ⟨fun _ => hlt, ?_⟩
    refine
      { left_sub := hleft
        done_lt := hdone
        classes := ?_
        member := ?_
        pos := ?_
        sorted := ?_ }
    · have := hinv.classes.open_class hvC (s.colour_classes s.colour_classes_end).second
      rw [insert_sdiff_unset hinv.left_sub hvl] at this
      exact this
    · intro k hk x hx
      simp only [] at hk hx ⊢
      by_cases e1 : k = s.colour_classes_end
      · subst e1
        rw [Function.update_same] at hx ⊢
        simp only [] at hx ⊢
        have : x = 0 := by omega
        subst this
        rw [Function.update_same]
        exact hvc
      · rw [Function.update_noteq e1] at hx ⊢
        exact hinv.member k (by omega) x hx
    · intro k hk
      simp only [] at hk ⊢
      by_cases e1 : k = s.colour_classes_end
      · subst e1
        rw [Function.update_same]
        exact Nat.one_pos
      · rw [Function.update_noteq e1]
        exact hinv.pos k (by omega)
    · intro k hk x y hxy hy
      simp only [] at hk hy ⊢
      by_cases e1 : k = s.colour_classes_end
      · subst e1
        rw [Function.update_same] at hy
        simp only [] at hy
        omega
      · rw [Function.update_noteq e1] at hy ⊢
        exact hinv.sorted k (by omega) x y hxy hy

theorem repair_loop_first_fit (g : FixedBitGraph) (p : FixedBitSet) (delta : Int)
    (hp : ∀ v, v ∈ p → v < g.size)
    (H : ∀ k, k < (greedy_classes g false p.card p).length → (k : Int) < delta) :
    ∀ (fuel : Nat) (s : RepairState),
      FirstFitInv g p (greedy_classes g false p.card p) s → s.p_left.card ≤ fuel →
      ∃ t, repair_loop g delta true fuel s = some t ∧
        FirstFitInv g p (greedy_classes g false p.card p) t ∧ t.p_left = ∅ ∧
        repair_loop_always g delta true
          (fun s v => (first_fit g v s.colour_classes_end 0 s.colour_classes).1 = false →
            (s.colour_classes_end : Int) < delta) fuel s := by
  intro fuel
  induction fuel with
  | zero =>
    intro s hinv hs
    have he : s.p_left = ∅ := Finset.card_eq_zero.mp (Nat.le_zero.mp hs)
    exact ⟨s, by simp [repair_loop, FixedBitSet.empty, he], hinv, he, trivial⟩
  | succ fuel ih =>
    intro s hinv hs
    rw [repair_loop, repair_loop_always]
    cases hfs : s.p_left.first_set_bit with
    | none => exact ⟨s, rfl, hinv, first_set_bit_eq_none.mp hfs, trivial⟩
    | some v =>
      simp only []
      obtain ⟨h1, h2⟩ := firstFitInv_step g p delta hp H hinv hfs
      have hvl := (first_set_bit_eq_some hfs).1
      have hcu := Finset.card_erase_of_mem hvl
      have hpos : 0 < s.p_left.card := Finset.card_pos.mpr ⟨v, hvl⟩
      obtain ⟨t, ht, hti, hte, hta⟩ := ih _ h2
        (by simp only [FixedBitSet.unset]; omega)
      exact ⟨t, ht, hti, hte, h1, hta⟩

theorem pairwise_map_range {R : Nat → Nat → Prop} (f : Nat → Nat) (n : Nat)
    (h : ∀ x y, x < y → y < n → R (f x) (f y)) : ((List.range n).map f).Pairwise R := by
  rw [List.pairwise_map]
  exact (List.pairwise_lt_range n).imp_of_mem fun {x y} _ hy hxy =>
    h x y hxy (List.mem_range.mp hy)

theorem firstFitInv_final {g : FixedBitGraph} {p : FixedBitSet} {t : RepairState}
    (hinv : FirstFitInv g p (greedy_classes g false p.card p) t) (he : t.p_left = ∅) :
    classes_of t.colour_classes t.colour_classes_end = greedy_classes g false p.card p := by
  have hstored : ∀ u, u ∈ p → ∃ k, k < t.colour_classes_end ∧
      ∃ x, x < (t.colour_classes k).first ∧ (t.colour_classes k).second x = u := by
    intro u hu
    apply (hinv.classes.mem_iff u).mp
    rw [he, Finset.sdiff_empty]
    exact hu
  have hle : t.colour_classes_end ≤ (greedy_classes g false p.card p).length := by
    by_contra hlt
    have hk : (greedy_classes g false p.card p).length < t.colour_classes_end := by omega
    have := mem_getD_lt (hinv.member _ hk 0 (hinv.pos _ hk))
    omega
  have hge : (greedy_classes g false p.card p).length ≤ t.colour_classes_end := by
    by_contra hlt
    have hk : t.colour_classes_end < (greedy_classes g false p.card p).length := by omega
    have hne := (greedy_classes_each g false _ p _ (List.getElem_mem hk)).1
    obtain ⟨u, hu⟩ := List.exists_mem_of_ne_nil _ hne
    have hu2 : u ∈ (greedy_classes g false p.card p).getD t.colour_classes_end [] := by
      rw [List.getD_eq_getElem _ _ hk]
      exact hu
    obtain ⟨k2, hk2, x, hx, e⟩ := hstored u (greedy_sub_idx g false _ p hu2)
    have hm := hinv.member k2 hk2 x hx
    rw [e] at hm
    have := greedy_unique g false _ p hm hu2
    omega
  have hlen : t.colour_classes_end = (greedy_classes g false p.card p).length := by omega
  apply List.ext_getElem
  · simp [classes_of, hlen]
  · intro k h1 h2
    have hk : k < t.colour_classes_end := by simpa [classes_of] using h1
    simp only [classes_of, List.getElem_map, List.getElem_range]
    have hs1 : ((List.range (t.colour_classes k).first).map (t.colour_classes k).second).Sorted
        (· < ·) := pairwise_map_range _ _ (hinv.sorted k hk)
    have hs2 : ((greedy_classes g false p.card p)[k]).Sorted (· < ·) :=
      ((greedy_classes_each g false _ p _ (List.getElem_mem h2)).2).imp fun h => h.1
    refine List.eq_of_perm_of_sorted ?_ hs1 hs2
    refine (List.perm_ext_iff_of_nodup hs1.nodup hs2.nodup).mpr fun u => ?_
    rw [← List.getD_eq_getElem _ [] h2]
    constructor
    · intro hu
      obtain ⟨x, hx, rfl⟩ := List.mem_map.mp hu
      exact hinv.member k hk x (List.mem_range.mp hx)
    · intro hu
      obtain ⟨k2, hk2, x, hx, e⟩ := hstored u (greedy_sub_idx g false _ p hu)
      have hm := hinv.member k2 hk2 x hx
      rw [e] at hm
      have := greedy_unique g false _ p hm hu
      subst this
      exact List.mem_map.mpr ⟨x, List.mem_range.mpr hx, e⟩

theorem entries_inj {po pb po2 pb2 : Nat → Nat} {n : Nat}
    (h : entries po pb n = entries po2 pb2 n) :
    ∀ k, k < n → po k = po2 k ∧ pb k = pb2 k := by
  intro k hk
  unfold entries at h
  have := (List.map_inj_left.mp h) k (List.mem_range.mpr hk)
  exact Prod.mk.inj this

theorem firstFitInv_start (g : FixedBitGraph) (p : FixedBitSet) (G : List (List Nat))
    (cc : ColourClasses) :
    FirstFitInv g p G { p_left := p, colour_classes := cc, colour_classes_end := 0 } where
  left_sub := Finset.Subset.refl _
  done_lt := fun u hu hnot => absurd hu hnot
  classes := by simpa using ClassesInv.start g cc
  member := fun k hk => absurd hk (Nat.not_lt_zero k)
  pos := fun k hk => absurd hk (Nat.not_lt_zero k)
  sorted := fun k hk => absurd hk (Nat.not_lt_zero k)

/-- When the greedy colouring stays within the threshold, the selective buffered variant makes
no repair attempt and returns the result of `None`. -/
theorem repair_selected_eq_none (g : FixedBitGraph) (p : FixedBitSet) (po pb : Nat → Nat)
    (delta : Int) (cc : ColourClasses) (defer : Nat → Nat) (hp : ∀ v, v ∈ p → v < g.size)
    {r0 : CCOResult} (h0 : colour_class_order_none g false p po pb = some r0)
    (hb : ∀ k, k < p.card → (r0.p_bounds k : Int) ≤ delta) :
    colour_class_order_with_repair g p po pb delta true false cc defer = some r0 ∧
      repair_loop_always g delta true
        (fun s v => (first_fit g v s.colour_classes_end 0 s.colour_classes).1 = false →
          (s.colour_classes_end : Int) < delta) p.popcount
        { p_left := p, colour_classes := cc, colour_classes_end := 0 } := by
  obtain ⟨r, h1, hspec, hent⟩ := colour_class_order_none_entries g false p po pb
  rw [h0] at h1
  simp only [Option.some.injEq] at h1
  subst h1
  have H : ∀ k, k < (greedy_classes g false p.card p).length → (k : Int) < delta := by
    intro k hk
    have hne := (greedy_classes_each g false _ p _ (List.getElem_mem hk)).1
    obtain ⟨u, hu⟩ := List.exists_mem_of_ne_nil _ hne
    have hmem : (u, k + 1) ∈ entries r0.p_order r0.p_bounds p.card := by
      rw [hent]
      refine (mem_emit_from _ _ 0).mpr ⟨k, hk, by simp, ?_⟩
      rw [List.getD_eq_getElem _ _ hk]
      exact hu
    obtain ⟨a, ha, e⟩ := mem_entries.mp hmem
    have := hb a ha
    rw [(Prod.mk.inj e).2] at this
    push_cast at this
    omega
  obtain ⟨t, ht, hinv, hte, halways⟩ := repair_loop_first_fit g p delta hp H p.popcount
    { p_left := p, colour_classes := cc, colour_classes_end := 0 }
    (firstFitInv_start g p _ cc) (le_refl _)
  refine ⟨?_, halways⟩
  obtain ⟨t2, r, ht2, hr, _, _, hspec2, hent2⟩ := colour_class_order_with_repair_entries g p po pb
    delta true false cc defer
  rw [ht] at ht2
  simp only [Option.some.injEq] at ht2
  subst ht2
  rw [hr]
  simp only [Bool.false_eq_true, if_false] at hent2
  rw [firstFitInv_final hinv hte, ← hent] at hent2
  have hk := entries_inj hent2
  have hi : r.i = r0.i := by rw [hspec.i_eq, hspec2.i_eq]
  have ho : r.p_order = r0.p_order := by
    funext k
    by_cases hkp : k < p.card
    · exact (hk k hkp).1
    · rw [(hspec.frame k (by omega)).1, (hspec2.frame k (by omega)).1]
  have hbd : r.p_bounds = r0.p_bounds := by
    funext k
    by_cases hkp : k < p.card
    · exact (hk k hkp).2
    · rw [(hspec.frame k (by omega)).2, (hspec2.frame k (by omega)).2]
  cases r
  cases r0
  simp only [] at hi ho hbd
  rw [hi, ho, hbd]

/-- C25 (threshold of `RepairSelected`): for every graph, every set `P` of its vertices and
every `delta`, whatever the arrays and the scratch memory hold on entry: the call for `None`
returns, and if its colouring of `P` uses at most `delta` colours, then
`colour_class_order_with_repair` with `selective = true` and `do_defer = false`
(`RepairSelected`) returns the same arrays as `None`, and in every iteration of its main loop
in which the vertex fits no existing class fewer than `delta` classes exist, so that no repair
is attempted. -/
theorem C25_repair_selected_threshold (g : FixedBitGraph) (p : FixedBitSet)
    (p_order p_bounds : Nat → Nat) (delta : Int) (colour_classes : ColourClasses)
    (defer : Nat → Nat) (hp : ∀ v, v ∈ p → v < g.size) :
    ∃ r0, colour_class_order_none g false p p_order p_bounds = some r0 ∧
      ((∀ k, k < p.card → (r0.p_bounds k : Int) ≤ delta) →
        colour_class_order_with_repair g p p_order p_bounds delta true false colour_classes
            defer = some r0 ∧
          repair_loop_always g delta true
            (fun s v => (first_fit g v s.colour_classes_end 0 s.colour_classes).1 = false →
              (s.colour_classes_end : Int) < delta) p.popcount
            { p_left := p, colour_classes := colour_classes, colour_classes_end := 0 }) := by
  obtain ⟨r0, h0, _⟩ := colour_class_order_none_spec g false p p_order p_bounds
  exact ⟨r0, h0, fun hb =>
    repair_selected_eq_none g p p_order p_bounds delta colour_classes defer hp h0 hb⟩

set_option maxRecDepth 100000 in
/-- C25 on the graph with the edges 12, 13, 23, 04, 24, 34 and `delta = 4`: `None` uses four
colours, and `RepairSelected` returns the same arrays. -/
theorem C25_repair_selected_threshold_witness :
    (∀ v, v ∈ ({0, 1, 2, 3, 4} : Finset Nat) →
      v < (⟨5, [(1, 2), (1, 3), (2, 3), (0, 4), (2, 4), (3, 4)]⟩ : FixedBitGraph).size) ∧
    ∃ r0, colour_class_order_none ⟨5, [(1, 2), (1, 3), (2, 3), (0, 4), (2, 4), (3, 4)]⟩ false
        {0, 1, 2, 3, 4} (fun _ => 0) (fun _ => 0) = some r0 ∧
      (∀ k, k < ({0, 1, 2, 3, 4} : Finset Nat).card → (r0.p_bounds k : Int) ≤ 4) ∧
      colour_class_order_with_repair ⟨5, [(1, 2), (1, 3), (2, 3), (0, 4), (2, 4), (3, 4)]⟩
          {0, 1, 2, 3, 4} (fun _ => 0) (fun _ => 0) 4 true false (fun _ => ⟨0, fun _ => 0⟩)
          (fun _ => 0) = some r0 ∧
      repair_loop_always ⟨5, [(1, 2), (1, 3), (2, 3), (0, 4), (2, 4), (3, 4)]⟩ 4 true
        (fun s v => (first_fit ⟨5, [(1, 2), (1, 3), (2, 3), (0, 4), (2, 4), (3, 4)]⟩ v
            s.colour_classes_end 0 s.colour_classes).1 = false →
          (s.colour_classes_end : Int) < 4)
        (FixedBitSet.popcount {0, 1, 2, 3, 4})
        { p_left := {0, 1, 2, 3, 4}, colour_classes := fun _ => ⟨0, fun _ => 0⟩,
          colour_classes_end := 0 } := by
  obtain ⟨r0, h0, himp⟩ := C25_repair_selected_threshold
    ⟨5, [(1, 2), (1, 3), (2, 3), (0, 4), (2, 4), (3, 4)]⟩ {0, 1, 2, 3, 4} (fun _ => 0)
    (fun _ => 0) 4 (fun _ => ⟨0, fun _ => 0⟩) (fun _ => 0) (by decide)
  have hfact : (colour_class_order_none ⟨5, [(1, 2), (1, 3), (2, 3), (0, 4), (2, 4), (3, 4)]⟩
      false {0, 1, 2, 3, 4} (fun _ => 0) (fun _ => 0)).map
      (fun r : CCOResult => (List.range 5).all fun k => decide (r.p_bounds k ≤ 4)) =
      some true := by
    decide!
  rw [h0] at hfact
  simp only [Option.map_some', Option.some.injEq, List.all_eq_true, List.mem_range,
    decide_eq_true_eq] at hfact
  have hb : ∀ k, k < ({0, 1, 2, 3, 4} : Finset Nat).card → (r0.p_bounds k : Int) ≤ 4 :=
    fun k hk => by exact_mod_cast hfact k hk
  exact ⟨by decide, r0, h0, hb, himp hb⟩

/-! ### The in-place variant below its threshold -/

/-- While the colours stay below the threshold, the selective in-place variant runs the loop of
`None`. -/
theorem fast_loop_eq_none (g : FixedBitGraph) (delta : Int) :
    ∀ (fuel : Nat) (s : FastState) (n : Nat), s.p_left.card ≤ fuel →
      ((greedy_classes g false fuel s.p_left).length = 0 ∨
        (s.colour : Int) + (greedy_classes g false fuel s.p_left).length < delta) →
      ∃ t t2, fast_loop g delta true fuel s = some t ∧
        none_loop g false fuel s.colour
          { p_left := s.p_left, i := s.i, p_order := s.p_order, p_bounds := s.p_bounds,
            number_with_this_colour := n } = some t2 ∧
        t.p_order = t2.p_order ∧ t.p_bounds = t2.p_bounds ∧ t.i = t2.i := by
  intro fuel
  induction fuel with
  | zero =>
    intro s n hs _
    have he : s.p_left = ∅ := Finset.card_eq_zero.mp (Nat.le_zero.mp hs)
    exact ⟨s, { p_left := s.p_left, i := s.i, p_order := s.p_order, p_bounds := s.p_bounds,
                number_with_this_colour := n },
      by simp [fast_loop, FixedBitSet.empty, he],
      by simp [none_loop, FixedBitSet.empty, he], rfl, rfl, rfl⟩
  | succ fuel ih =>
    intro s n hs H
    rw [fast_loop, none_loop]
    cases hfs : s.p_left.first_set_bit with
    | none =>
      have he : s.p_left.empty = true := empty_eq_true.mpr (first_set_bit_eq_none.mp hfs)
      simp only [he, if_true]
      exact ⟨s, _, rfl, rfl, rfl, rfl, rfl⟩
    | some v =>
      have hvl := (first_set_bit_eq_some hfs).1
      have he : s.p_left.empty = false := by
        cases h : s.p_left.empty with
        | false => rfl
        | true =>
          rw [empty_eq_true.mp h] at hvl
          exact absurd hvl (Finset.not_mem_empty v)
      rw [greedy_classes, he] at H
      simp only [Bool.false_eq_true, if_false, List.length_cons, Nat.add_one_ne_zero,
        false_or] at H
      have hsel : ((! true) || decide ((s.colour : Int) + 1 ≥ delta)) = false := by
        simp only [Bool.not_true, Bool.false_or, decide_eq_false_iff_not, ge_iff_le, not_le]
        push_cast at H
        omega
      simp only [he, hsel, Bool.false_eq_true, if_false]
      rw [colour_one_class_eq g false (s.colour + 1) s.p_left.popcount s.p_left _ (le_refl _),
        colour_one_class_eq g false (s.colour + 1) s.p_left.popcount s.p_left _ (le_refl _)]
      simp only [Nat.zero_add]
      have hc := sdiff_class_card g false s.p_left he
      exact ih
        { p_left := s.p_left \ (class_members g false s.p_left.popcount s.p_left).toFinset
          colour := s.colour + 1
          i := s.i + (class_members g false s.p_left.popcount s.p_left).length
          p_order := write_list s.p_order s.i (class_members g false s.p_left.popcount s.p_left)
          p_bounds := write_list s.p_bounds s.i
            (List.replicate (class_members g false s.p_left.popcount s.p_left).length
              (s.colour + 1)) }
        (n + (class_members g false s.p_left.popcount s.p_left).length)
        (by simp only []; omega)
        (by
          right
          simp only []
          push_cast at H ⊢
          omega)

theorem repair_selected_fast_eq_none (g : FixedBitGraph) (p : FixedBitSet)
    (po pb : Nat → Nat) (delta : Int) {r0 : CCOResult}
    (h0 : colour_class_order_none g false p po pb = some r0)
    (hb : ∀ k, k < p.card → (r0.p_bounds k : Int) < delta) :
    colour_class_order_with_repair_fast g p po pb delta true = some r0 := by
  obtain ⟨r, h1, hspec, hent⟩ := colour_class_order_none_entries g false p po pb
  rw [h0] at h1
  simp only [Option.some.injEq] at h1
  subst h1
  have H : (greedy_classes g false p.card p).length = 0 ∨
      ((0 : Nat) : Int) + (greedy_classes g false p.card p).length < delta := by
    by_cases hz : (greedy_classes g false p.card p).length = 0
    · exact Or.inl hz
    · right
      have hk : (greedy_classes g false p.card p).length - 1 <
          (greedy_classes g false p.card p).length := by omega
      have hne := (greedy_classes_each g false _ p _ (List.getElem_mem hk)).1
      obtain ⟨u, hu⟩ := List.exists_mem_of_ne_nil _ hne
      have hmem : (u, (greedy_classes g false p.card p).length - 1 + 1) ∈
          entries r0.p_order r0.p_bounds p.card := by
        rw [hent]
        refine (mem_emit_from _ _ 0).mpr ⟨_, hk, by simp, ?_⟩
        rw [List.getD_eq_getElem _ _ hk]
        exact hu
      obtain ⟨a, ha, e⟩ := mem_entries.mp hmem
      have := hb a ha
      rw [(Prod.mk.inj e).2] at this
      push_cast at this ⊢
      omega
  obtain ⟨t, t2, ht, ht2, e1, e2, e3⟩ := fast_loop_eq_none g delta p.popcount
    { p_left := p, colour := 0, i := 0, p_order := po, p_bounds := pb } 0 (le_refl _) H
  rw [colour_class_order_none, ht2] at h0
  simp only [Option.map_some', Option.some.injEq] at h0
  rw [colour_class_order_with_repair_fast, ht, ← h0]
  simp only [Option.map_some', e1, e2, e3]

set_option maxRecDepth 100000 in
/-- C27 at the path `0 - 2 - 3 - 1` with all four vertices as candidates. When vertex 3 is the
lowest uncoloured vertex the classes are `{0, 1}` and `{2}`; the first holds exactly one
neighbour of 3, the vertex 1, and the second, which is the last, holds no neighbour of 1. The
in-place variant does not make the move: it opens a third colour for vertex 3, while the
buffered `RepairAll` moves vertex 1 into the second class and gives vertex 3 its place. -/
theorem C27_fast_repair_skips_last_class :
    (colour_class_order_with_repair_fast ⟨4, [(0, 2), (2, 3), (1, 3)]⟩ {0, 1, 2, 3}
        (fun _ => 0) (fun _ => 0) 0 false).map
      (fun r : CCOResult => ((List.range 4).map r.p_order, (List.range 4).map r.p_bounds)) =
      some ([0, 1, 2, 3], [1, 1, 2, 3]) ∧
    (colour_class_order_with_repair ⟨4, [(0, 2), (2, 3), (1, 3)]⟩ {0, 1, 2, 3}
        (fun _ => 0) (fun _ => 0) 0 false false (fun _ => ⟨0, fun _ => 0⟩) (fun _ => 0)).map
      (fun r : CCOResult => ((List.range 4).map r.p_order, (List.range 4).map r.p_bounds)) =
      some ([0, 3, 2, 1], [1, 1, 2, 2]) ∧
    FixedBitGraph.adjacent ⟨4, [(0, 2), (2, 3), (1, 3)]⟩ 3 1 = true ∧
    FixedBitGraph.adjacent ⟨4, [(0, 2), (2, 3), (1, 3)]⟩ 3 0 = false ∧
    FixedBitGraph.adjacent ⟨4, [(0, 2), (2, 3), (1, 3)]⟩ 1 2 = false := by
  decide!

/-! ### The repair rule of the buffered variants -/

theorem count_conflicts_none (g : FixedBitGraph) (v : Nat) (cl : ColourClass) :
    ∀ (todo pos : Nat) (r : Conflicts),
      (∀ x, pos ≤ x → x < pos + todo → g.adjacent v (cl.second x) = false) →
        count_conflicts g v cl todo pos r = r := by
  intro todo
  induction todo with
  | zero => intro pos r _; rfl
  | succ todo ih =>
    intro pos r h
    rw [count_conflicts, h pos (le_refl _) (by omega)]
    simp only [Bool.false_eq_true, if_false]
    exact ih (pos + 1) r fun x h1 h2 => h x (by omega) (by omega)

theorem count_conflicts_single (g : FixedBitGraph) (v : Nat) (cl : ColourClass) :
    ∀ (todo pos : Nat) (r : Conflicts) (x : Nat), r.n_conflicts = 0 → pos ≤ x →
      x < pos + todo → g.adjacent v (cl.second x) = true →
      (∀ y, pos ≤ y → y < pos + todo → y ≠ x → g.adjacent v (cl.second y) = false) →
        count_conflicts g v cl todo pos r =
          { n_conflicts := 1, vertex_to_move := cl.second x, vertex_to_move_pos := x } := by
  intro todo
  induction todo with
  | zero => intro pos r x _ h1 h2; omega
  | succ todo ih =>
    intro pos r x hr h1 h2 hadj hothers
    rw [count_conflicts]
    by_cases e : pos = x
    · subst e
      rw [hadj]
      simp only [if_true, hr, Nat.zero_add, gt_iff_lt, Nat.lt_irrefl, if_false]
      exact count_conflicts_none g v cl todo (pos + 1) _
        fun y hy1 hy2 => hothers y (by omega) (by omega) (by omega)
    · rw [hothers pos (le_refl _) (by omega) e]
      simp only [Bool.false_eq_true, if_false]
      exact ih (pos + 1) r x hr (by omega) (by omega) hadj
        fun y hy1 hy2 hy3 => hothers y (by omega) (by omega) hy3

theorem singleConflict_count {g : FixedBitGraph} {v : Nat} {cl : ColourClass} {x : Nat}
    (h : SingleConflict g v cl x) :
    count_conflicts g v cl cl.first 0
        { n_conflicts := 0, vertex_to_move := -1, vertex_to_move_pos := -1 } =
      { n_conflicts := 1, vertex_to_move := cl.second x, vertex_to_move_pos := x } :=
  count_conflicts_single g v cl cl.first 0 _ x rfl (Nat.zero_le _) (by have := h.1; omega) h.2.1
    fun y _ hy hne => h.2.2 y (by omega) hne

theorem count_singleConflict {g : FixedBitGraph} {v : Nat} {cl : ColourClass}
    (h : (count_conflicts g v cl cl.first 0
      { n_conflicts := 0, vertex_to_move := -1, vertex_to_move_pos := -1 }).n_conflicts = 1) :
    ∃ x, SingleConflict g v cl x := by
  rcases count_conflicts_one g v cl cl.first 0 _ (by simp) h with
    ⟨h1, _⟩ | ⟨_, y, _, hy, _, _, hadj, hothers⟩
  · simp at h1
  · exact ⟨y, by omega, hadj, fun z hz hne => hothers z (Nat.zero_le _) (by omega) hne⟩

theorem try_move_least (g : FixedBitGraph) (v k u pos : Nat) :
    ∀ (todo nc : Nat) (cc : ColourClasses) (n : Nat), nc ≤ n → n < nc + todo →
      (∀ j, nc ≤ j → j < n → has_conflict g u (cc j) = true) →
      has_conflict g u (cc n) = false →
        try_move g v k u pos todo nc cc = (true, move_vertex v k u pos n cc) := by
  intro todo
  induction todo with
  | zero => intro nc cc n h1 h2; omega
  | succ todo ih =>
    intro nc cc n h1 h2 hbefore hn
    rw [try_move]
    by_cases e : nc = n
    · subst e
      rw [hn]
      rfl
    · rw [hbefore nc (le_refl _) (by omega)]
      simp only [if_true]
      exact ih (nc + 1) cc n (by omega) (by omega)
        (fun j hj1 hj2 => hbefore j (by omega) hj2) hn

theorem try_move_none (g : FixedBitGraph) (v k u pos : Nat) :
    ∀ (todo nc : Nat) (cc : ColourClasses),
      (∀ j, nc ≤ j → j < nc + todo → has_conflict g u (cc j) = true) →
        try_move g v k u pos todo nc cc = (false, cc) := by
  intro todo
  induction todo with
  | zero => intro nc cc _; rfl
  | succ todo ih =>
    intro nc cc h
    rw [try_move, h nc (le_refl _) (by omega)]
    simp only [if_true]
    exact ih (nc + 1) cc fun j hj1 hj2 => h j (by omega) (by omega)

theorem try_move_true_of_exists (g : FixedBitGraph) (v k u pos : Nat) :
    ∀ (todo nc : Nat) (cc : ColourClasses) (n : Nat), nc ≤ n → n < nc + todo →
      has_conflict g u (cc n) = false → (try_move g v k u pos todo nc cc).1 = true := by
  intro todo
  induction todo with
  | zero => intro nc cc n h1 h2; omega
  | succ todo ih =>
    intro nc cc n h1 h2 hn
    rw [try_move]
    by_cases hc : has_conflict g u (cc nc) = true
    · rw [if_pos hc]
      have hne : nc ≠ n := by
        rintro rfl
        rw [hn] at hc
        cases hc
      exact ih (nc + 1) cc n (by omega) (by omega) hn
    · rw [if_neg hc]

/-- The source class `k` without an allowed repair leaves the scratch vector as it is. -/
theorem repair_source_none (g : FixedBitGraph) (v e k : Nat) (cc : ColourClasses)
    (h : ∀ x n, ¬ RepairMove g v cc e k x n) :
    (if (count_conflicts g v (cc k) (cc k).first 0
          { n_conflicts := 0, vertex_to_move := -1, vertex_to_move_pos := -1 }).n_conflicts = 1
      then
        try_move g v k
          (count_conflicts g v (cc k) (cc k).first 0
            { n_conflicts := 0, vertex_to_move := -1,
              vertex_to_move_pos := -1 }).vertex_to_move.toNat
          (count_conflicts g v (cc k) (cc k).first 0
            { n_conflicts := 0, vertex_to_move := -1,
              vertex_to_move_pos := -1 }).vertex_to_move_pos.toNat
          (e - (k + 1)) (k + 1) cc
      else (false, cc)) = (false, cc) := by
  split
  · rename_i hn
    obtain ⟨x, hx⟩ := count_singleConflict hn
    rw [singleConflict_count hx]
    simp only [Int.toNat_ofNat]
    apply try_move_none
    intro j hj1 hj2
    cases hc : has_conflict g ((cc k).second x) (cc j) with
    | true => rfl
    | false => exact absurd ⟨by omega, by omega, hx, hc⟩ (h x j)
  · rfl

theorem repair_none (g : FixedBitGraph) (v e : Nat) :
    ∀ (todo k : Nat) (cc : ColourClasses),
      (∀ k0 x n, k ≤ k0 → k0 < k + todo → ¬ RepairMove g v cc e k0 x n) →
        repair g v e todo k cc = (false, cc) := by
  intro todo
  induction todo with
  | zero => intro k cc _; rfl
  | succ todo ih =>
    intro k cc h
    rw [repair]
    rw [repair_source_none g v e k cc fun x n => h k x n (le_refl _) (by omega)]
    simp only [Bool.false_eq_true, if_false]
    exact ih (k + 1) cc fun k0 x n h1 h2 => h k0 x n (by omega) (by omega)

/-- The repair loop makes the first allowed repair: the lowest source class, and for it the
lowest destination class. -/
theorem repair_first (g : FixedBitGraph) (v e : Nat) :
    ∀ (todo k : Nat) (cc : ColourClasses) (k0 x n : Nat), k ≤ k0 → k0 < k + todo →
      RepairMove g v cc e k0 x n →
      (∀ k2 x2 n2, RepairMove g v cc e k2 x2 n2 → k0 < k2 ∨ (k0 = k2 ∧ n ≤ n2)) →
        repair g v e todo k cc = (true, move_vertex v k0 ((cc k0).second x) x n cc) := by
  intro todo
  induction todo with
  | zero => intro k cc k0 x n h1 h2; omega
  | succ todo ih =>
    intro k cc k0 x n h1 h2 hmove hmin
    rw [repair]
    by_cases e1 : k = k0
    · subst e1
      obtain ⟨hkn, hne, hsingle, hfree⟩ := hmove
      rw [singleConflict_count hsingle]
      simp only [Int.toNat_ofNat, if_true]
      rw [try_move_least g v k ((cc k).second x) x (e - (k + 1)) (k + 1) cc n (by omega)
        (by omega) ?_ hfree]
      · simp only [if_true]
      · intro j hj1 hj2
        cases hc : has_conflict g ((cc k).second x) (cc j) with
        | true => rfl
        | false =>
          rcases hmin k x j ⟨by omega, by omega, hsingle, hc⟩ with h | ⟨_, h⟩ <;> omega
    · rw [repair_source_none g v e k cc fun x2 n2 hm => by
        rcases hmin k x2 n2 hm with h | ⟨h, _⟩ <;> omega]
      simp only [Bool.false_eq_true, if_false]
      exact ih (k + 1) cc k0 x n (by omega) (by omega) hmove hmin

theorem repair_true_of_move (g : FixedBitGraph) (v e : Nat) :
    ∀ (todo k : Nat) (cc : ColourClasses) (k0 x n : Nat), k ≤ k0 → k0 < k + todo →
      RepairMove g v cc e k0 x n → (repair g v e todo k cc).1 = true := by
  intro todo
  induction todo with
  | zero => intro k cc k0 x n h1 h2; omega
  | succ todo ih =>
    intro k cc k0 x n h1 h2 hmove
    rw [repair]
    by_cases hn : (count_conflicts g v (cc k) (cc k).first 0
        { n_conflicts := 0, vertex_to_move := -1, vertex_to_move_pos := -1 }).n_conflicts = 1
    · rw [if_pos hn]
      obtain ⟨y, hy⟩ := count_singleConflict hn
      rw [singleConflict_count hy]
      simp only [Int.toNat_ofNat]
      by_cases hres : (try_move g v k ((cc k).second y) y (e - (k + 1)) (k + 1) cc).1 = true
      · rw [if_pos hres]
        exact hres
      · rw [if_neg hres]
        have hres2 := (try_move_spec g v k ((cc k).second y) y (e - (k + 1)) (k + 1) cc).2
          (by simpa using hres)
        rw [hres2]
        by_cases e1 : k = k0
        · subst e1
          obtain ⟨hkn, hne, hsingle, hfree⟩ := hmove
          have hxy : x = y := by
            by_contra hxy
            have := hy.2.2 x hsingle.1 hxy
            rw [hsingle.2.1] at this
            cases this
          subst hxy
          exact absurd (try_move_true_of_exists g v k ((cc k).second x) x (e - (k + 1)) (k + 1)
            cc n (by omega) (by omega) hfree) hres
        · exact ih (k + 1) cc k0 x n (by omega) (by omega) hmove
    · rw [if_neg hn]
      simp only [Bool.false_eq_true, if_false]
      have e1 : k ≠ k0 := by
        rintro rfl
        exact hn (by rw [singleConflict_count hmove.2.2.1])
      exact ih (k + 1) cc k0 x n (by omega) (by omega) hmove

theorem push_members (cl : ColourClass) (w : Nat) : (cl.push w).members = cl.members ++ [w] := by
  unfold ColourClass.members ColourClass.push
  simp only [List.range_succ, List.map_append, List.map_cons, List.map_nil,
    Function.update_same]
  congr 1
  apply List.map_congr_left
  intro x hx
  rw [Function.update_noteq (Nat.ne_of_lt (List.mem_range.mp hx))]

theorem erase_members (cl : ColourClass) {x : Nat} (hx : x < cl.first) :
    ColourClass.members
        { first := cl.first - 1, second := shift_down cl.second (cl.first - 1 - x) x } =
      cl.members.eraseIdx x := by
  unfold ColourClass.members
  apply List.ext_getElem?
  intro i
  rw [List.getElem?_eraseIdx]
  simp only [List.getElem?_map, shift_down_apply]
  by_cases hi : i < cl.first - 1
  · rw [List.getElem?_range hi]
    by_cases hix : i < x
    · rw [if_pos hix, List.getElem?_range (by omega)]
      simp only [Option.map_some']
      rw [shift_down_apply, if_neg (by omega)]
    · rw [if_neg hix, List.getElem?_range (by omega)]
      simp only [Option.map_some']
      rw [shift_down_apply, if_pos (by omega)]
  · rw [List.getElem?_eq_none (by simp; omega)]
    by_cases hix : i < x
    · omega
    · rw [if_neg hix, List.getElem?_eq_none (by simp; omega)]
      rfl

/-- What a repair does to the colour classes: the moved vertex is appended to the destination
class, it leaves the source class, the vertex `v` is appended to the source class, and the other
classes stay as they are. -/
theorem move_vertex_members (v k x n : Nat) (cc : ColourClasses) (hne : k ≠ n)
    (hx : x < (cc k).first) :
    (move_vertex v k ((cc k).second x) x n cc n).members =
        (cc n).members ++ [(cc k).second x] ∧
      (move_vertex v k ((cc k).second x) x n cc k).members =
        (cc k).members.eraseIdx x ++ [v] ∧
      ∀ j, j ≠ k → j ≠ n → move_vertex v k ((cc k).second x) x n cc j = cc j := by
  rw [move_vertex_eq v k x n cc hne (by omega)]
  refine ⟨?_, ?_, ?_⟩
  · rw [Function.update_noteq (Ne.symm hne), Function.update_same, push_members]
  · rw [Function.update_same, push_members, erase_members _ hx]
  · intro j h1 h2
    rw [Function.update_noteq h1, Function.update_noteq h2, Function.update_noteq h1]

/-- C28 (repair rule of `RepairAll`): one iteration of the main loop of
`colour_class_order_with_repair` with `selective = false`, for the vertex `v`, the scratch
vector `cc` and `e` existing classes. A new class is opened only if `v` has a neighbour in
every existing class and no repair is allowed, that is, no class holds exactly one neighbour
`u` of `v` such that a later existing class holds no neighbour of `u`; and in that case it is
opened. If `v` has a neighbour in every class and a repair is allowed, the first one (lowest
source class, then lowest destination class) is made: `u` is appended to the destination class,
`v` takes the place that `u` leaves in the source class (at its end), and no class is opened.
A vertex without a neighbour in some class joins the first such class. -/
theorem C28_repair_all_rule (g : FixedBitGraph) (delta : Int) (v : Nat) (cc : ColourClasses)
    (e : Nat) :
    ((repair_step g delta false v cc e).2 = e + 1 →
      (∀ k, k < e → has_conflict g v (cc k) = true) ∧
        ∀ k x n, ¬ RepairMove g v cc e k x n) ∧
    ((∀ k, k < e → has_conflict g v (cc k) = true) → (∀ k x n, ¬ RepairMove g v cc e k x n) →
      repair_step g delta false v cc e =
        (Function.update cc e { first := 1, second := Function.update (cc e).second 0 v },
          e + 1)) ∧
    ((∀ k, k < e → has_conflict g v (cc k) = true) →
      ∀ k x n, RepairMove g v cc e k x n →
        (∀ k2 x2 n2, RepairMove g v cc e k2 x2 n2 → k < k2 ∨ (k = k2 ∧ n ≤ n2)) →
        repair_step g delta false v cc e =
            (move_vertex v k ((cc k).second x) x n cc, e) ∧
          (move_vertex v k ((cc k).second x) x n cc n).members =
            (cc n).members ++ [(cc k).second x] ∧
          (move_vertex v k ((cc k).second x) x n cc k).members =
            (cc k).members.eraseIdx x ++ [v] ∧
          ∀ j, j ≠ k → j ≠ n → move_vertex v k ((cc k).second x) x n cc j = cc j) ∧
    (∀ k, k < e → has_conflict g v (cc k) = false →
      (∀ j, j < k → has_conflict g v (cc j) = true) →
        repair_step g delta false v cc e = (Function.update cc k ((cc k).push v), e)) := by
  refine ⟨?_, ?_, ?_, ?_⟩
  · intro h
    unfold repair_step at h
    simp only [Bool.not_false, Bool.true_or, if_true] at h
    obtain ⟨_, f2⟩ := first_fit_spec g v e 0 cc
    by_cases hfit : (first_fit g v e 0 cc).1 = true
    · rw [if_pos hfit] at h
      simp only [] at h
      omega
    · rw [if_neg hfit] at h
      obtain ⟨hcc, hall⟩ := f2 (by simpa using hfit)
      rw [hcc] at h
      by_cases hrep : (repair g v e (e - 1) 0 cc).1 = true
      · rw [if_pos hrep] at h
        simp only [] at h
        omega
      · refine ⟨fun k hk => hall k (Nat.zero_le _) (by omega), fun k x n hm => hrep ?_⟩
        exact repair_true_of_move g v e (e - 1) 0 cc k x n (Nat.zero_le _)
          (by have := hm.1; have := hm.2.1; omega) hm
  · intro hall hno
    have hfit := first_fit_none g v e 0 cc fun j _ hj => hall j (by omega)
    have hrep := repair_none g v e (e - 1) 0 cc fun k0 x n _ _ => hno k0 x n
    unfold repair_step
    simp only [hfit, hrep, Bool.not_false, Bool.true_or, if_true, Bool.false_eq_true, if_false]
  · intro hall k x n hm hmin
    have hfit := first_fit_none g v e 0 cc fun j _ hj => hall j (by omega)
    have hrep := repair_first g v e (e - 1) 0 cc k x n (Nat.zero_le _)
      (by have := hm.1; have := hm.2.1; omega) hm hmin
    refine ⟨?_, move_vertex_members v k x n cc (by have := hm.1; omega) hm.2.2.1.1⟩
    unfold repair_step
    simp only [hfit, hrep, Bool.not_false, Bool.true_or, if_true, Bool.false_eq_true, if_false]
  · intro k hk hfree hbefore
    have hfit := first_fit_least g v e 0 cc k (Nat.zero_le _) (by omega)
      (fun j _ hj => hbefore j hj) hfree
    exact repair_step_fit g delta false v e hfit

/-! ### The in-place variant reads only the entries it has written -/

theorem find_target_agree (g : FixedBitGraph) {order bounds order2 bounds2 : Nat → Nat}
    (u : Nat) :
    ∀ (todo x ncc : Nat) (conflict : Bool),
      (∀ k, x ≤ k → k < x + todo → order2 k = order k ∧ bounds2 k = bounds k) →
        find_target g order2 bounds2 u todo x ncc conflict =
          find_target g order bounds u todo x ncc conflict := by
  intro todo
  induction todo with
  | zero => intro x ncc conflict _; rfl
  | succ todo ih =>
    intro x ncc conflict h
    obtain ⟨h1, h2⟩ := h x (le_refl _) (by omega)
    rw [find_target, find_target, h1, h2,
      ih (x + 1) (bounds x) _ (fun k a b => h k (by omega) (by omega)),
      ih (x + 1) ncc _ (fun k a b => h k (by omega) (by omega))]

theorem try_recolour_agree {g : FixedBitGraph} {i : Nat}
    {order bounds order2 bounds2 : Nat → Nat}
    (hag : AgreeBelow i order bounds order2 bounds2) (v : Nat) {s c w : Nat}
    (hsc : s ≤ c) (hcw : c < w) (hwi : w < i)
    (hconst : ∀ k, s ≤ k → k < w → bounds k = bounds (w - 1))
    (hend : bounds (w - 1) ≠ bounds w) :
    (try_recolour g v i order bounds c = some none ∧
      try_recolour g v i order2 bounds2 c = some none) ∨
    ∃ r r2, try_recolour g v i order bounds c = some (some r) ∧
      try_recolour g v i order2 bounds2 c = some (some r2) ∧
      AgreeBelow (i + 1) r.1 r.2 r2.1 r2.2 := by
  have hb : ∀ k, k < i → bounds2 k = bounds k := fun k hk => (hag k hk).2
  have ho : ∀ k, k < i → order2 k = order k := fun k hk => (hag k hk).1
  unfold try_recolour
  have hcc : bounds c = bounds (w - 1) := hconst c hsc hcw
  have hskip : skip_class bounds i (bounds c) (i - c) c = w :=
    skip_class_spec bounds i (bounds c) (i - c) c w (by omega)
      (fun k h1 h2 => ⟨by omega, by rw [hconst k (by omega) h2, hcc]⟩)
      (fun h => hend (by rw [← hcc, h.2])) (by omega)
  have hskip2 : skip_class bounds2 i (bounds2 c) (i - c) c = w :=
    skip_class_spec bounds2 i (bounds2 c) (i - c) c w (by omega)
      (fun k h1 h2 => ⟨by omega, by
        rw [hb k (by omega), hb c (by omega), hconst k (by omega) h2, hcc]⟩)
      (fun h => hend (by rw [← hcc, ← hb c (by omega), ← hb w hwi, h.2])) (by omega)
  rw [hskip, hskip2]
  simp only []
  rw [ho c (by omega), hb w hwi,
    find_target_agree g (order c) (i - w) w (bounds w) false
      (fun k h1 h2 => hag k (by omega))]
  cases hft : find_target g order bounds (order c) (i - w) w (bounds w) false with
  | none => exact Or.inl ⟨rfl, rfl⟩
  | some r =>
    obtain ⟨x1, c1⟩ := r
    simp only []
    obtain ⟨s1, hs1, hs1x, hx1, hB, hcls, hx1e⟩ := find_target_spec g order bounds (order c)
      (i - w) w (bounds w) false w x1 c1 (le_refl _) (fun k h1 h2 => absurd h2 (by omega))
      (fun _ k h1 h2 => absurd h2 (by omega)) (fun _ => rfl)
      ⟨by omega, hend⟩ hft
    have hc1 : c1 = bounds (x1 - 1) := ((hcls (x1 - 1) (by omega) (by omega)).1).symm
    have hc2 : c1 = bounds2 (x1 - 1) := by rw [hb (x1 - 1) (by omega)]; exact hc1
    have hlast : w - 1 + 1 = w := by omega
    have e1 := splice_eq v i c (w - 1) x1 order bounds (by omega) (by omega) (by omega)
      (fun k h1 h2 => by rw [hconst k (by omega) (by omega), hcc])
      (by rw [hlast]; exact fun e => hend e.symm)
    have e2 := splice_eq v i c (w - 1) x1 order2 bounds2 (by omega) (by omega) (by omega)
      (fun k h1 h2 => by
        rw [hb k (by omega), hb c (by omega), hconst k (by omega) (by omega), hcc])
      (by
        rw [hlast, hb w hwi, hb (w - 1) (by omega)]
        exact fun e => hend e.symm)
    rw [← hc1] at e1
    rw [← hc2] at e2
    rw [e1, e2]
    refine Or.inr ⟨_, _, rfl, rfl, ?_⟩
    intro k hk
    simp only []
    constructor
    · split_ifs <;> first | rfl | exact ho _ (by omega)
    · split_ifs <;> first | rfl | exact hb _ (by omega)

theorem scan_agree {g : FixedBitGraph} {C : Finset Nat} {i colour : Nat}
    {order bounds order2 bounds2 : Nat → Nat}
    (hpl : Placed (NonAdj g) C i order bounds colour)
    (hag : AgreeBelow i order bounds order2 bounds2) (v : Nat) :
    ∀ (todo w : Nat) (sc : Scan), w + todo = i → ScanInv g v order bounds w sc →
      OutAgree (i + 1) (scan g v i order bounds todo w sc)
        (scan g v i order2 bounds2 todo w sc) := by
  intro todo
  induction todo with
  | zero =>
    intro w sc _ _
    exact Or.inl ⟨by rw [scan], by rw [scan]⟩
  | succ todo ih =>
    intro w sc hw hinv
    have hwi : w < i := by omega
    obtain ⟨how, hbw⟩ := hag w hwi
    have hcount : ∀ (sc1 : Scan) (s : Nat), s ≤ w → sc1.prev_colour = bounds w →
        (∀ k, s ≤ k → k < w → bounds k = bounds w) →
        (s = 0 ∨ bounds (s - 1) ≠ bounds s) →
        (sc1.n_conflicts = 0 → ∀ k, s ≤ k → k < w → g.adjacent v (order k) = false) →
        (sc1.n_conflicts = 1 → ∃ c : Nat, sc1.conflicting_vertex_pos = (c : Int) ∧ s ≤ c ∧
          c < w ∧ g.adjacent v (order c) = true ∧
          ∀ k, s ≤ k → k < w → k ≠ c → g.adjacent v (order k) = false) →
        OutAgree (i + 1)
          (if sc1.n_conflicts < 2 ∧ g.adjacent v (order w) = true then
            scan g v i order bounds todo (w + 1)
              { sc1 with n_conflicts := sc1.n_conflicts + 1, conflicting_vertex_pos := w }
          else scan g v i order bounds todo (w + 1) sc1)
          (if sc1.n_conflicts < 2 ∧ g.adjacent v (order w) = true then
            scan g v i order2 bounds2 todo (w + 1)
              { sc1 with n_conflicts := sc1.n_conflicts + 1, conflicting_vertex_pos := w }
          else scan g v i order2 bounds2 todo (w + 1) sc1) := by
      intro sc1 s a1 a2 a3 a4 a5 a6
      have hstep := @scanInv_step g v order bounds w s sc1 a1 a2 a3 a4 a5 a6
      by_cases hc : sc1.n_conflicts < 2 ∧ g.adjacent v (order w) = true
      · rw [if_pos hc] at hstep
        rw [if_pos hc, if_pos hc]
        exact ih (w + 1) _ (by omega) hstep
      · rw [if_neg hc] at hstep
        rw [if_neg hc, if_neg hc]
        exact ih (w + 1) _ (by omega) hstep
    rw [scan, scan]
    simp only []
    rw [how, hbw]
    by_cases hb : sc.prev_colour ≠ bounds w
    · rw [if_pos hb, if_pos hb]
      have hstart : w = 0 ∨ bounds (w - 1) ≠ bounds w := by
        rcases Nat.eq_zero_or_pos w with h0 | h0
        · exact Or.inl h0
        · obtain ⟨s, _, a2, _⟩ := hinv.pos h0
          exact Or.inr (by rw [← a2]; exact hb)
      have hfin := hcount
        { prev_colour := bounds w, n_conflicts := 0, conflicting_vertex_pos := -1 } w
        (le_refl _) rfl (fun k h1 h2 => absurd h2 (by omega)) hstart
        (fun _ k h1 h2 => absurd h2 (by omega)) (fun h => absurd h (by simp))
      by_cases hn : sc.n_conflicts = 1
      · rw [if_pos hn, if_pos hn]
        have hw0 : 0 < w := by
          by_contra hcon
          have := (hinv.zero (by omega)).2
          omega
        obtain ⟨s, a1, a2, a3, a4, _, a6⟩ := hinv.pos hw0
        obtain ⟨c, b1, b2, b3, _, b5⟩ := a6 hn
        rw [b1, Int.toNat_ofNat]
        rcases try_recolour_agree (g := g) hag v b2 b3 hwi a3 (by rw [← a2]; exact hb) with
          ⟨r1, r2⟩ | ⟨r, r2, e1, e2, e3⟩
        · rw [r1, r2]
          exact hfin
        · rw [e1, e2]
          exact Or.inr ⟨r, r2, rfl, rfl, e3⟩
      · rw [if_neg hn, if_neg hn]
        exact hfin
    · rw [if_neg hb, if_neg hb]
      have hb2 : sc.prev_colour = bounds w := by
        by_contra hcon; exact hb hcon
      have hw0 : 0 < w := by
        by_contra hcon
        have hw00 : w = 0 := by omega
        have h1 := (hinv.zero hw00).1
        have h2 := hpl.bounds_zero (by omega)
        rw [hw00] at hb2
        omega
      obtain ⟨s, a1, a2, a3, a4, a5, a6⟩ := hinv.pos hw0
      have hbw2 : bounds (w - 1) = bounds w := by rw [← a2, hb2]
      exact hcount sc s (by omega) hb2 (fun k h1 h2 => by rw [a3 k h1 h2, hbw2]) a4 a5 a6

theorem write_list_agree {po pb po2 pb2 : Nat → Nat} {i : Nat}
    (h : AgreeBelow i po pb po2 pb2) (l l2 : List Nat) (hl : l2.length = l.length) :
    AgreeBelow (i + l.length) (write_list po i l) (write_list pb i l2)
      (write_list po2 i l) (write_list pb2 i l2) := by
  intro k hk
  unfold write_list
  rw [hl]
  by_cases hik : i ≤ k ∧ k < i + l.length
  · rw [if_pos hik, if_pos hik, if_pos hik, if_pos hik]
    exact ⟨rfl, rfl⟩
  · rw [if_neg hik, if_neg hik, if_neg hik, if_neg hik]
    exact h k (by omega)

/-- The in-place variant started on arrays that hold the same first `i` entries ends with
arrays that hold the same first `|P|` entries. -/
theorem fast_loop_agree (g : FixedBitGraph) (delta : Int) (selective : Bool)
    (p : FixedBitSet) :
    ∀ (fuel : Nat) (s : FastState) (po2 pb2 : Nat → Nat), s.p_left ⊆ p →
      Placed (NonAdj g) (p \ s.p_left) s.i s.p_order s.p_bounds s.colour →
      AgreeBelow s.i s.p_order s.p_bounds po2 pb2 → s.p_left.card ≤ fuel →
      ∃ t t2, fast_loop g delta selective fuel s = some t ∧
        fast_loop g delta selective fuel { s with p_order := po2, p_bounds := pb2 } =
          some t2 ∧
        t2.i = t.i ∧ AgreeBelow t.i t.p_order t.p_bounds t2.p_order t2.p_bounds := by
  intro fuel
  induction fuel with
  | zero =>
    intro s po2 pb2 _ _ hag hf
    have he : s.p_left = ∅ := Finset.card_eq_zero.mp (Nat.le_zero.mp hf)
    exact ⟨s, { s with p_order := po2, p_bounds := pb2 },
      by simp [fast_loop, FixedBitSet.empty, he], by simp [fast_loop, FixedBitSet.empty, he],
      rfl, hag⟩
  | succ fuel ih =>
    intro s po2 pb2 hsub hpl hag hf
    rw [fast_loop, fast_loop]
    simp only []
    cases hfs : s.p_left.first_set_bit with
    | none => exact ⟨s, { s with p_order := po2, p_bounds := pb2 }, rfl, rfl, rfl, hag⟩
    | some v =>
      simp only []
      obtain ⟨hvl, _⟩ := first_set_bit_eq_some hfs
      have hvC : v ∉ p \ s.p_left := fun h => (Finset.mem_sdiff.mp h).2 hvl
      have hpos : 0 < s.p_left.card := Finset.card_pos.mpr ⟨v, hvl⟩
      have hcu := Finset.card_erase_of_mem hvl
      have he : s.p_left.empty = false := by
        cases h : s.p_left.empty with
        | false => rfl
        | true =>
          rw [empty_eq_true.mp h] at hvl
          exact absurd hvl (Finset.not_mem_empty v)
      -- the greedy step on both sides
      have hgreedy : ∃ t t2,
          (match colour_one_class g false (s.colour + 1) s.p_left.popcount s.p_left
              { p_left := s.p_left, i := s.i, p_order := s.p_order, p_bounds := s.p_bounds,
                number_with_this_colour := 0 } with
            | none => none
            | some t =>
              fast_loop g delta selective fuel
                { p_left := t.p_left, colour := s.colour + 1, i := t.i, p_order := t.p_order,
                  p_bounds := t.p_bounds }) = some t ∧
          (match colour_one_class g false (s.colour + 1) s.p_left.popcount s.p_left
              { p_left := s.p_left, i := s.i, p_order := po2, p_bounds := pb2,
                number_with_this_colour := 0 } with
            | none => none
            | some t =>
              fast_loop g delta selective fuel
                { p_left := t.p_left, colour := s.colour + 1, i := t.i, p_order := t.p_order,
                  p_bounds := t.p_bounds }) = some t2 ∧
          t2.i = t.i ∧ AgreeBelow t.i t.p_order t.p_bounds t2.p_order t2.p_bounds := by
        obtain ⟨t1, ht1, sp⟩ := colour_one_class_spec g false (s.colour + 1)
          s.p_left.popcount s.p_left
          { p_left := s.p_left, i := s.i, p_order := s.p_order, p_bounds := s.p_bounds,
            number_with_this_colour := 0 }
          (Finset.Subset.refl _) (le_refl _)
        have hpl1 := Placed.extend_class (s :=
            { p_left := s.p_left, i := s.i, p_order := s.p_order, p_bounds := s.p_bounds,
              number_with_this_colour := 0 })
          hpl sp (compat_nonAdj g) (Finset.Subset.refl _) ⟨v, hvl⟩
          (fun v hv => (Finset.mem_sdiff.mp hv).2)
        simp only [] at hpl1
        rw [sdiff_union_sdiff sp.left_sub hsub] at hpl1
        have heq := colour_one_class_eq g false (s.colour + 1) s.p_left.popcount s.p_left
          { p_left := s.p_left, i := s.i, p_order := s.p_order, p_bounds := s.p_bounds,
            number_with_this_colour := 0 } (le_refl _)
        rw [ht1] at heq
        simp only [Option.some.injEq] at heq
        rw [heq] at hpl1
        simp only [] at hpl1
        rw [colour_one_class_eq g false (s.colour + 1) s.p_left.popcount s.p_left
            { p_left := s.p_left, i := s.i, p_order := s.p_order, p_bounds := s.p_bounds,
              number_with_this_colour := 0 } (le_refl _),
          colour_one_class_eq g false (s.colour + 1) s.p_left.popcount s.p_left
            { p_left := s.p_left, i := s.i, p_order := po2, p_bounds := pb2,
              number_with_this_colour := 0 } (le_refl _)]
        simp only []
        have hc := sdiff_class_card g false s.p_left he
        exact ih
          { p_left := s.p_left \ (class_members g false s.p_left.popcount s.p_left).toFinset
            colour := s.colour + 1
            i := s.i + (class_members g false s.p_left.popcount s.p_left).length
            p_order := write_list s.p_order s.i
              (class_members g false s.p_left.popcount s.p_left)
            p_bounds := write_list s.p_bounds s.i
              (List.replicate (class_members g false s.p_left.popcount s.p_left).length
                (s.colour + 1)) }
          (write_list po2 s.i (class_members g false s.p_left.popcount s.p_left))
          (write_list pb2 s.i
            (List.replicate (class_members g false s.p_left.popcount s.p_left).length
              (s.colour + 1)))
          (Finset.sdiff_subset.trans hsub) hpl1
          (write_list_agree hag _ _ (by simp))
          (by simp only []; omega)
      by_cases hsel : ((! selective) || decide ((s.colour : Int) + 1 ≥ delta)) = true
      · rw [if_pos hsel, if_pos hsel]
        obtain ⟨res, r1, r2⟩ := scan_spec hpl hvC s.i 0
          { prev_colour := 0, conflicting_vertex_pos := -1, n_conflicts := 0 } (by omega)
          { zero := fun _ => ⟨rfl, rfl⟩, pos := fun h => absurd h (by omega) }
        rcases scan_agree hpl hag v s.i 0
          { prev_colour := 0, conflicting_vertex_pos := -1, n_conflicts := 0 } (by omega)
          { zero := fun _ => ⟨rfl, rfl⟩, pos := fun h => absurd h (by omega) } with
          ⟨e1, e2⟩ | ⟨r, rb, e1, e2, e3⟩
        · rw [e1, e2]
          exact hgreedy
        · rw [e1, e2]
          simp only []
          rw [e1] at r1
          simp only [Option.some.injEq] at r1
          obtain ⟨h1, _⟩ := r2 r.1 r.2 (by rw [← r1])
          rw [insert_sdiff_unset hsub hvl] at h1
          exact ih
            { s with p_left := s.p_left.unset v, i := s.i + 1, p_order := r.1, p_bounds := r.2 }
            rb.1 rb.2 ((Finset.erase_subset _ _).trans hsub) h1 e3
            (by simp only [FixedBitSet.unset]; omega)
      · rw [if_neg hsel, if_neg hsel]
        exact hgreedy

theorem colour_class_order_with_repair_fast_deterministic (g : FixedBitGraph)
    (p : FixedBitSet) (delta : Int) (selective : Bool) (po pb po2 pb2 : Nat → Nat) :
    ∃ r r2, colour_class_order_with_repair_fast g p po pb delta selective = some r ∧
      colour_class_order_with_repair_fast g p po2 pb2 delta selective = some r2 ∧
      AgreeBelow p.card r.p_order r.p_bounds r2.p_order r2.p_bounds := by
  obtain ⟨t, t2, ht, ht2, hi, hag⟩ := fast_loop_agree g delta selective p p.popcount
    { p_left := p, colour := 0, i := 0, p_order := po, p_bounds := pb } po2 pb2
    (Finset.Subset.refl _) (by simpa using Placed.empty _ po pb)
    (fun k hk => absurd hk (Nat.not_lt_zero k)) (le_refl _)
  obtain ⟨r, h1, h2⟩ := colour_class_order_with_repair_fast_spec g p po pb delta selective
  have h3 := h1
  rw [colour_class_order_with_repair_fast, ht] at h3
  simp only [Option.map_some', Option.some.injEq] at h3
  refine ⟨r, _, h1, by rw [colour_class_order_with_repair_fast, ht2]; rfl, ?_⟩
  have hti : t.i = p.card := by rw [← h2.i_eq, ← h3]
  rw [← h3, ← hti]
  exact hag

/-- The contract of the dispatcher for arrays of `cap` entries: when `P` has at most `cap`
members, and fewer than `cap` for the variants that work in place, the call returns a colouring
of `P` in the first `|P|` positions and leaves every index from `cap` on as it was. -/
theorem colour_class_order_cap_spec (perm : CCOPermutations) (g : FixedBitGraph)
    (inverse : Bool) (p : FixedBitSet) (po pb : Nat → Nat) (delta : Int) (m : Scratch)
    (cap : Nat) (hinv : perm.repairs = true → inverse = false) (hcap : p.card ≤ cap)
    (hfast : perm.in_place = true → p.card < cap) :
    ∃ r, colour_class_order perm g inverse p po pb delta m = some r ∧
      FastSpec (fun v w => inverse = false → NonAdj g v w) p po pb r ∧
      ∀ k, cap ≤ k → r.p_order k = po k ∧ r.p_bounds k = pb k := by
  cases hf : perm.in_place with
  | false =>
    obtain ⟨r, h1, h2⟩ := colour_class_order_spec perm g inverse p po pb delta m hf hinv
    exact ⟨r, h1, h2.toFast, fun k hk => h2.frame k (by omega)⟩
  | true =>
    obtain ⟨r, h1, h2⟩ := colour_class_order_fast_spec perm g inverse p po pb delta m hinv
    have := hfast hf
    exact ⟨r, h1, h2, fun k hk => h2.frame k (by omega)⟩

/-- Two calls of one variant on the same graph, `P` and `delta` return and agree on the first
`|P|` entries of both arrays, whatever the arrays and the scratch memory hold when each call
starts. -/
theorem colour_class_order_deterministic (perm : CCOPermutations) (g : FixedBitGraph)
    (inverse : Bool) (p : FixedBitSet) (delta : Int)
    (p_order p_bounds p_order2 p_bounds2 : Nat → Nat) (m m2 : Scratch)
    (hinv : perm.repairs = true → inverse = false) :
    ∃ r r2, colour_class_order perm g inverse p p_order p_bounds delta m = some r ∧
      colour_class_order perm g inverse p p_order2 p_bounds2 delta m2 = some r2 ∧
      ∀ k, k < p.card → r2.p_order k = r.p_order k ∧ r2.p_bounds k = r.p_bounds k := by
  have hbuf : ∀ selective do_defer,
      ∃ r r2, colour_class_order_with_repair g p p_order p_bounds delta selective do_defer
          m.colour_classes m.defer = some r ∧
        colour_class_order_with_repair g p p_order2 p_bounds2 delta selective do_defer
          m2.colour_classes m2.defer = some r2 ∧
        ∀ k, k < p.card → r2.p_order k = r.p_order k ∧ r2.p_bounds k = r.p_bounds k := by
    intro selective do_defer
    obtain ⟨_, r, r2, _, _, h1, h2, _, h3⟩ := colour_class_order_with_repair_deterministic g p
      delta selective do_defer p_order p_bounds m.colour_classes m.defer p_order2 p_bounds2
      m2.colour_classes m2.defer
    exact ⟨r, r2, h1, h2, entries_inj h3⟩
  cases perm with
  | None =>
    obtain ⟨r, h1, _, e1⟩ := colour_class_order_none_entries g inverse p p_order p_bounds
    obtain ⟨r2, h2, _, e2⟩ := colour_class_order_none_entries g inverse p p_order2 p_bounds2
    exact ⟨r, r2, h1, h2, entries_inj (by rw [e1, e2])⟩
  | Defer1 =>
    obtain ⟨r, h1, _, e1⟩ := colour_class_order_defer1_entries g inverse p p_order p_bounds
      m.defer
    obtain ⟨r2, h2, _, e2⟩ := colour_class_order_defer1_entries g inverse p p_order2 p_bounds2
      m2.defer
    exact ⟨r, r2, h1, h2, entries_inj (by rw [e1, e2])⟩
  | RepairAll =>
    obtain ⟨r, r2, h1, h2, h3⟩ := hbuf false false
    exact ⟨r, r2, by rw [colour_class_order, hinv rfl]; exact h1,
      by rw [colour_class_order, hinv rfl]; exact h2, h3⟩
  | RepairAllDefer1 =>
    obtain ⟨r, r2, h1, h2, h3⟩ := hbuf false true
    exact ⟨r, r2, by rw [colour_class_order, hinv rfl]; exact h1,
      by rw [colour_class_order, hinv rfl]; exact h2, h3⟩
  | RepairSelected =>
    obtain ⟨r, r2, h1, h2, h3⟩ := hbuf true false
    exact ⟨r, r2, by rw [colour_class_order, hinv rfl]; exact h1,
      by rw [colour_class_order, hinv rfl]; exact h2, h3⟩
  | RepairSelectedDefer1 =>
    obtain ⟨r, r2, h1, h2, h3⟩ := hbuf true true
    exact ⟨r, r2, by rw [colour_class_order, hinv rfl]; exact h1,
      by rw [colour_class_order, hinv rfl]; exact h2, h3⟩
  | RepairSelectedFast =>
    obtain ⟨r, r2, h1, h2, h3⟩ := colour_class_order_with_repair_fast_deterministic g p delta
      true p_order p_bounds p_order2 p_bounds2
    exact ⟨r, r2, by rw [colour_class_order, hinv rfl]; exact h1,
      by rw [colour_class_order, hinv rfl]; exact h2, h3⟩
  | RepairAllFast =>
    obtain ⟨r, r2, h1, h2, h3⟩ := colour_class_order_with_repair_fast_deterministic g p delta
      false p_order p_bounds p_order2 p_bounds2
    exact ⟨r, r2, by rw [colour_class_order, hinv rfl]; exact h1,
      by rw [colour_class_order, hinv rfl]; exact h2, h3⟩

theorem Placed.bounds_le_succ {R : Nat → Nat → Prop} {c : Finset Nat} {i : Nat}
    {order bounds : Nat → Nat} {colour : Nat} (h : Placed R c i order bounds colour) :
    ∀ k, k < i → bounds k ≤ k + 1 := by
  intro k
  induction k with
  | zero => intro hk; rw [h.bounds_zero hk]
  | succ k ih =>
    intro hk
    have := ih (by omega)
    rcases h.bounds_step k hk with e | e <;> omega

/-- C8. For `None`, `Defer1` and the four buffer-based repair variants, for every graph and
candidate set `P` (and every content of the arrays and of the scratch memory on entry), the call
returns with `i = |P|`, and the first `|P|` entries of `p_order` list every set bit of `P`
exactly once. Exactly `|P|` entries of `p_order` and of `p_bounds` are written: each of the
first `|P|` entries of both arrays holds a value that does not depend on what the arrays and
the scratch memory held on entry (a second call, started on any other contents, returns the
same first `|P|` entries), every one of these `p_bounds` entries lies between 1 and its index
plus one, and no entry of `p_order` or `p_bounds` at an index from `|P|` on is changed. -/
theorem C8_buffered_order_is_permutation (perm : CCOPermutations) (g : FixedBitGraph)
    (inverse : Bool) (p : FixedBitSet) (p_order p_bounds p_order2 p_bounds2 : Nat → Nat)
    (delta : Int) (m m2 : Scratch) (hfast : perm.in_place = false)
    (hinv : perm.repairs = true → inverse = false) :
    ∃ r r2, colour_class_order perm g inverse p p_order p_bounds delta m = some r ∧
      colour_class_order perm g inverse p p_order2 p_bounds2 delta m2 = some r2 ∧
      r.i = p.card ∧
      ((List.range p.card).map r.p_order).Nodup ∧
      ((List.range p.card).map r.p_order).toFinset = p ∧
      (∀ k, k < p.card → 1 ≤ r.p_bounds k ∧ r.p_bounds k ≤ k + 1) ∧
      (∀ k, k < p.card → r2.p_order k = r.p_order k ∧ r2.p_bounds k = r.p_bounds k) ∧
      ∀ k, p.card ≤ k → r.p_order k = p_order k ∧ r.p_bounds k = p_bounds k := by
  obtain ⟨r, r2, h1, h2, hdet⟩ := colour_class_order_deterministic perm g inverse p delta
    p_order p_bounds p_order2 p_bounds2 m m2 hinv
  obtain ⟨r0, h3, h4⟩ := colour_class_order_spec perm g inverse p p_order p_bounds delta m
    hfast hinv
  have e : r0 = r := Option.some.inj (h3.symm.trans h1)
  subst e
  obtain ⟨colour, hp⟩ := h4.placed
  exact ⟨r0, r2, h1, h2, h4.i_eq, hp.perm.1, hp.perm.2,
    fun k hk => ⟨hp.bounds_pos k hk, hp.bounds_le_succ k hk⟩, hdet, h4.frame⟩

/-- Witness for C8: `RepairAllDefer1` on the graph with edges 01, 02, 12, 14, 24, 34, started
once on arrays holding 7 and 8 and once on arrays of zeros. -/
theorem C8_buffered_order_is_permutation_witness :
    ∃ r r2, colour_class_order CCOPermutations.RepairAllDefer1
        ⟨5, [(0, 1), (0, 2), (1, 2), (1, 4), (2, 4), (3, 4)]⟩ false {0, 1, 2, 3, 4}
        (fun _ => 7) (fun _ => 8) 0 ⟨fun _ => 0, fun _ => ⟨3, fun _ => 9⟩⟩ = some r ∧
      colour_class_order CCOPermutations.RepairAllDefer1
        ⟨5, [(0, 1), (0, 2), (1, 2), (1, 4), (2, 4), (3, 4)]⟩ false {0, 1, 2, 3, 4}
        (fun _ => 0) (fun _ => 0) 0 ⟨fun _ => 5, fun _ => ⟨0, fun _ => 0⟩⟩ = some r2 ∧
      r.i = ({0, 1, 2, 3, 4} : Finset Nat).card ∧
      ((List.range ({0, 1, 2, 3, 4} : Finset Nat).card).map r.p_order).Nodup ∧
      ((List.range ({0, 1, 2, 3, 4} : Finset Nat).card).map r.p_order).toFinset
        = {0, 1, 2, 3, 4} ∧
      (∀ k, k < ({0, 1, 2, 3, 4} : Finset Nat).card →
        1 ≤ r.p_bounds k ∧ r.p_bounds k ≤ k + 1) ∧
      (∀ k, k < ({0, 1, 2, 3, 4} : Finset Nat).card →
        r2.p_order k = r.p_order k ∧ r2.p_bounds k = r.p_bounds k) ∧
      ∀ k, ({0, 1, 2, 3, 4} : Finset Nat).card ≤ k → r.p_order k = 7 ∧ r.p_bounds k = 8 :=
  C8_buffered_order_is_permutation CCOPermutations.RepairAllDefer1
    ⟨5, [(0, 1), (0, 2), (1, 2), (1, 4), (2, 4), (3, 4)]⟩ false {0, 1, 2, 3, 4}
    (fun _ => 7) (fun _ => 8) (fun _ => 0) (fun _ => 0) 0
    ⟨fun _ => 0, fun _ => ⟨3, fun _ => 9⟩⟩ ⟨fun _ => 5, fun _ => ⟨0, fun _ => 0⟩⟩ (by decide)
    (fun _ => rfl)

theorem pathClasses_move :
    RepairMove ⟨4, [(0, 2), (2, 3), (1, 3)]⟩ 3 pathClasses 2 0 1 1 := by
  refine ⟨by decide, by decide, ⟨by decide, by decide, ?_⟩, by decide⟩
  intro y hy hne
  have : y = 0 := by
    have : y < 2 := hy
    omega
  subst this
  decide

/-- C28 on the path `0 - 2 - 3 - 1` with the classes `{0, 1}` and `{2}` and the vertex 3: the
first class holds exactly one neighbour of 3, the vertex 1, which has no neighbour in the second
class; the iteration moves 1 to the second class, puts 3 in its place and opens no class. -/
theorem C28_repair_all_rule_witness :
    (∀ k, k < 2 → has_conflict ⟨4, [(0, 2), (2, 3), (1, 3)]⟩ 3 (pathClasses k) = true) ∧
    RepairMove ⟨4, [(0, 2), (2, 3), (1, 3)]⟩ 3 pathClasses 2 0 1 1 ∧
    repair_step ⟨4, [(0, 2), (2, 3), (1, 3)]⟩ 0 false 3 pathClasses 2 =
      (move_vertex 3 0 ((pathClasses 0).second 1) 1 1 pathClasses, 2) ∧
    (move_vertex 3 0 ((pathClasses 0).second 1) 1 1 pathClasses 1).members =
      (pathClasses 1).members ++ [(pathClasses 0).second 1] ∧
    (move_vertex 3 0 ((pathClasses 0).second 1) 1 1 pathClasses 0).members =
      (pathClasses 0).members.eraseIdx 1 ++ [3] :=
  have hall : ∀ k, k < 2 →
      has_conflict ⟨4, [(0, 2), (2, 3), (1, 3)]⟩ 3 (pathClasses k) = true := by decide
  have h := (C28_repair_all_rule ⟨4, [(0, 2), (2, 3), (1, 3)]⟩ 0 3 pathClasses 2).2.2.1 hall
    0 1 1 pathClasses_move
    (fun k2 x2 n2 hm => by have := hm.1; have := hm.2.1; omega)
  ⟨hall, pathClasses_move, h.1, h.2.1, h.2.2.1⟩

/-! ## Claims C31 to C40 -/

/-! ### The call of the clique algorithm -/

theorem clique_max_common_subgraph_call {Time Order Abort Times : Type} (ext : ProductExternals)
    (graphs : Graph × Graph) (params : MaxCommonSubgraphParams Time Order Abort Times) :
    ∃ (product : Graph) (clique_params : MaxCliqueParams Time Order Abort),
      (∀ alg : Graph → MaxCliqueParams Time Order Abort → MaxCliqueResult Times,
        clique_max_common_subgraph ext graphs { params with max_clique_algorithm := alg } =
          { size := (alg product clique_params).size
            nodes := (alg product clique_params).nodes
            times := (alg product clique_params).times
            isomorphism := (alg product clique_params).members.foldl
              (fun m v => insert (ext.unproduct graphs.1 graphs.2 v) m) ∅ }) ∧
      product =
        (if params.subgraph_isomorphism then ext.subgraph_modular_product graphs.1 graphs.2
          else ext.modular_product graphs.1 graphs.2) ∧
      clique_params =
        { initial_bound :=
            if params.subgraph_isomorphism then
              (((graphs.1.size : Int) - 1) % 4294967296).toNat
            else params.initial_bound
          stop_after_finding :=
            min (min params.stop_after_finding graphs.1.size) graphs.2.size
          n_threads := params.n_threads
          print_incumbents := params.print_incumbents
          start_time := params.start_time
          order_function := params.order_function
          abort := params.abort } := by
  refine ⟨_, _, fun alg => ?_, rfl, rfl⟩
  unfold clique_max_common_subgraph
  cases h : params.subgraph_isomorphism <;> simp [h]

/-- C38 (parameter forwarding for the maximum common subgraph): there are a product graph and
clique parameters, independent of the clique algorithm, such that for every clique algorithm
`clique_max_common_subgraph` builds its result from the call of the algorithm on them; the
parameters have `stop_after_finding = min(params.stop_after_finding, |G1|, |G2|)`, the
caller's `n_threads`, `print_incumbents`, `start_time`, `order_function` and `abort`, and the
caller's `initial_bound` when `subgraph_isomorphism` is not set. -/
theorem C38_mcs_parameter_forwarding {Time Order Abort Times : Type} (ext : ProductExternals)
    (graphs : Graph × Graph) (params : MaxCommonSubgraphParams Time Order Abort Times) :
    ∃ (product : Graph) (clique_params : MaxCliqueParams Time Order Abort),
      (∀ alg : Graph → MaxCliqueParams Time Order Abort → MaxCliqueResult Times,
        clique_max_common_subgraph ext graphs { params with max_clique_algorithm := alg } =
          { size := (alg product clique_params).size
            nodes := (alg product clique_params).nodes
            times := (alg product clique_params).times
            isomorphism := (alg product clique_params).members.foldl
              (fun m v => insert (ext.unproduct graphs.1 graphs.2 v) m) ∅ }) ∧
      clique_params.stop_after_finding =
        min (min params.stop_after_finding graphs.1.size) graphs.2.size ∧
      clique_params.n_threads = params.n_threads ∧
      clique_params.print_incumbents = params.print_incumbents ∧
      clique_params.start_time = params.start_time ∧
      clique_params.order_function = params.order_function ∧
      clique_params.abort = params.abort ∧
      (params.subgraph_isomorphism = false →
        clique_params.initial_bound = params.initial_bound) := by
  obtain ⟨product, cp, h, _, hcp⟩ := clique_max_common_subgraph_call ext graphs params
  refine ⟨product, cp, h, ?_, ?_, ?_, ?_, ?_, ?_, ?_⟩ <;> rw [hcp]
  intro hs
  simp [hs]

/-- C39 at a pattern graph without vertices: with `subgraph_isomorphism` set and `G1` of size 0,
whatever the second graph and the other parameters are, the clique algorithm is called with
`initial_bound = 4294967295`, the value of the `int` expression `0 - 1` as `unsigned`, which
is larger than `|G1| = 0`. For a pattern graph with at least one vertex (and a size that fits
an `int`) the bound is `|G1| - 1`. -/
theorem C39_empty_pattern_bound_wraps {Time Order Abort Times : Type} (ext : ProductExternals)
    (G2 : Graph) (params : MaxCommonSubgraphParams Time Order Abort Times) :
    (∃ (product : Graph) (clique_params : MaxCliqueParams Time Order Abort),
      (∀ alg : Graph → MaxCliqueParams Time Order Abort → MaxCliqueResult Times,
        clique_max_common_subgraph ext (⟨0, []⟩, G2)
            { params with subgraph_isomorphism := true, max_clique_algorithm := alg } =
          { size := (alg product clique_params).size
            nodes := (alg product clique_params).nodes
            times := (alg product clique_params).times
            isomorphism := (alg product clique_params).members.foldl
              (fun m v => insert (ext.unproduct ⟨0, []⟩ G2 v) m) ∅ }) ∧
      clique_params.initial_bound = 4294967295 ∧
      ¬ clique_params.initial_bound ≤ (⟨0, []⟩ : Graph).size) ∧
    ∀ G1 : Graph, 1 ≤ G1.size → G1.size ≤ 2147483647 →
      ∃ (product : Graph) (clique_params : MaxCliqueParams Time Order Abort),
        (∀ alg : Graph → MaxCliqueParams Time Order Abort → MaxCliqueResult Times,
          clique_max_common_subgraph ext (G1, G2)
              { params with subgraph_isomorphism := true, max_clique_algorithm := alg } =
            { size := (alg product clique_params).size
              nodes := (alg product clique_params).nodes
              times := (alg product clique_params).times
              isomorphism := (alg product clique_params).members.foldl
                (fun m v => insert (ext.unproduct G1 G2 v) m) ∅ }) ∧
        clique_params.initial_bound = G1.size - 1 ∧
        clique_params.initial_bound ≤ G1.size := by
  constructor
  · obtain ⟨product, cp, h, _, hcp⟩ := clique_max_common_subgraph_call ext (⟨0, []⟩, G2)
      { params with subgraph_isomorphism := true }
    have hb : cp.initial_bound = 4294967295 := by
      rw [hcp]
      simp
    exact ⟨product, cp, h, hb, by rw [hb]; simp⟩
  · intro G1 h1 h2
    obtain ⟨product, cp, h, _, hcp⟩ := clique_max_common_subgraph_call ext (G1, G2)
      { params with subgraph_isomorphism := true }
    have hb : cp.initial_bound = G1.size - 1 := by
      rw [hcp]
      simp only [if_true]
      have : ((G1.size : Int) - 1) % 4294967296 = ((G1.size - 1 : Nat) : Int) := by
        rw [Int.emod_eq_of_lt] <;> omega
      rw [this]
      simp
    exact ⟨product, cp, h, hb, by rw [hb]; omega⟩

/-! ### The colour classes of `Defer1` and of `None` -/

theorem mem_colour_class {po pb : Nat → Nat} {n c v : Nat} :
    v ∈ colour_class po pb n c ↔ (v, c) ∈ entries po pb n := by
  unfold colour_class
  simp only [List.mem_toFinset, List.mem_map, List.mem_filter, decide_eq_true_eq]
  constructor
  · rintro ⟨x, ⟨hx, hc⟩, rfl⟩
    have : x = (x.1, c) := by rw [← hc]
    rw [← this]
    exact hx
  · intro h
    exact ⟨(v, c), ⟨h, rfl⟩, rfl⟩

theorem colour_class_emit {po pb : Nat → Nat} {n : Nat} {cls : List (List Nat)}
    (h : entries po pb n = emit_from 0 cls) (c : Nat) (h1 : 1 ≤ c) (h2 : c ≤ cls.length) :
    colour_class po pb n c = (cls.getD (c - 1) []).toFinset := by
  ext v
  rw [mem_colour_class, h, mem_emit_from, List.mem_toFinset]
  constructor
  · rintro ⟨k, _, hc, hv⟩
    have : c - 1 = k := by simp only [] at hc; omega
    rw [this]
    exact hv
  · intro hv
    exact ⟨c - 1, by omega, by simp only []; omega, hv⟩

theorem image_classes (cls : List (List Nat)) :
    (Finset.Icc 1 cls.length).image (fun c => (cls.getD (c - 1) []).toFinset) =
      (cls.map List.toFinset).toFinset := by
  ext A
  simp only [Finset.mem_image, Finset.mem_Icc, List.mem_toFinset, List.mem_map]
  constructor
  · rintro ⟨c, ⟨h1, h2⟩, rfl⟩
    refine ⟨cls.getD (c - 1) [], ?_, rfl⟩
    rw [List.getD_eq_getElem _ _ (by omega)]
    exact List.getElem_mem _
  · rintro ⟨cl, hcl, rfl⟩
    obtain ⟨k, hk, rfl⟩ := List.getElem_of_mem hcl
    refine ⟨k + 1, ⟨by omega, by omega⟩, ?_⟩
    rw [Nat.add_sub_cancel, List.getD_eq_getElem _ _ hk]

theorem defer_singletons_perm (cls : List (List Nat)) : (defer_singletons cls).Perm cls := by
  unfold defer_singletons
  have : (fun cl : List Nat => decide (cl.length = 1)) =
      fun cl => ! decide (cl.length ≠ 1) := by
    funext cl
    simp
  rw [this]
  exact List.filter_append_perm _ _

theorem emit_from_bounds {cls : List (List Nat)} {po pb : Nat → Nat} {n : Nat}
    (h : entries po pb n = emit_from 0 cls) (hne : ∀ cl, cl ∈ cls → cl ≠ []) :
    (∀ k, k < n → 1 ≤ pb k ∧ pb k ≤ cls.length) ∧
    (0 < cls.length → ∃ k, k < n ∧ pb k = cls.length) ∧
    (cls.length = 0 → n = 0) := by
  refine ⟨fun k hk => ?_, fun hpos => ?_, fun h0 => ?_⟩
  · have hm : (po k, pb k) ∈ entries po pb n := mem_entries.mpr ⟨k, hk, rfl⟩
    rw [h, mem_emit_from] at hm
    obtain ⟨j, hj, hc, _⟩ := hm
    simp only [] at hc
    omega
  · have hcl : cls.getD (cls.length - 1) [] ∈ cls := by
      rw [List.getD_eq_getElem _ _ (by omega)]
      exact List.getElem_mem _
    obtain ⟨v, hv⟩ := List.exists_mem_of_ne_nil _ (hne _ hcl)
    have hm : (v, cls.length) ∈ emit_from 0 cls :=
      (mem_emit_from _ cls 0).mpr ⟨cls.length - 1, by omega, by simp only []; omega, hv⟩
    rw [← h] at hm
    obtain ⟨k, hk, e⟩ := mem_entries.mp hm
    exact ⟨k, hk, (Prod.mk.inj e).2⟩
  · have hl := congrArg List.length h
    rw [entries_length, List.length_eq_zero.mp h0] at hl
    exact hl

/-- C37 (`Defer1` uses the colours of `None`): for every graph and `P`, in both modes of
`inverse_` and whatever the arrays hold on entry, both calls return, and there is a number `m`
such that every one of the first `|P|` entries of `p_bounds` lies in `[1, m]` in both outputs,
the value `m` occurs in both when `P` is not empty (so the largest values are equal), and the
colour classes for the bounds `1, ..., m` are the same sets of vertices in both outputs. -/
theorem C37_defer1_same_classes (g : FixedBitGraph) (inverse : Bool) (p : FixedBitSet)
    (p_order p_bounds p_order2 p_bounds2 defer : Nat → Nat) :
    ∃ r0 r1 m, colour_class_order_none g inverse p p_order p_bounds = some r0 ∧
      colour_class_order_defer1 g inverse p p_order2 p_bounds2 defer = some r1 ∧
      (Finset.Icc 1 m).image (colour_class r1.p_order r1.p_bounds p.card) =
        (Finset.Icc 1 m).image (colour_class r0.p_order r0.p_bounds p.card) ∧
      (∀ k, k < p.card → 1 ≤ r0.p_bounds k ∧ r0.p_bounds k ≤ m) ∧
      (∀ k, k < p.card → 1 ≤ r1.p_bounds k ∧ r1.p_bounds k ≤ m) ∧
      (0 < p.card → ∃ k, k < p.card ∧ r0.p_bounds k = m) ∧
      (0 < p.card → ∃ k, k < p.card ∧ r1.p_bounds k = m) := by
  obtain ⟨r0, h0, _, e0⟩ := colour_class_order_none_entries g inverse p p_order p_bounds
  obtain ⟨r1, h1, _, e1⟩ := colour_class_order_defer1_entries g inverse p p_order2 p_bounds2
    defer
  have hne : ∀ cl, cl ∈ greedy_classes g inverse p.card p → cl ≠ [] :=
    fun cl hcl => (greedy_classes_each g inverse _ _ cl hcl).1
  have hperm := defer_singletons_perm (greedy_classes g inverse p.card p)
  have hne1 : ∀ cl, cl ∈ defer_singletons (greedy_classes g inverse p.card p) → cl ≠ [] :=
    fun cl hcl => hne cl (hperm.mem_iff.mp hcl)
  have hlen := hperm.length_eq
  obtain ⟨b0, a0, z0⟩ := emit_from_bounds e0 hne
  obtain ⟨b1, a1, z1⟩ := emit_from_bounds e1 hne1
  refine ⟨r0, r1, (greedy_classes g inverse p.card p).length, h0, h1, ?_, b0, ?_, ?_, ?_⟩
  · have i0 : (Finset.Icc 1 (greedy_classes g inverse p.card p).length).image
        (colour_class r0.p_order r0.p_bounds p.card) =
        ((greedy_classes g inverse p.card p).map List.toFinset).toFinset := by
      rw [← image_classes]
      apply Finset.image_congr
      intro c hc
      have := Finset.mem_Icc.mp hc
      exact colour_class_emit e0 c this.1 this.2
    have i1 : (Finset.Icc 1 (greedy_classes g inverse p.card p).length).image
        (colour_class r1.p_order r1.p_bounds p.card) =
        ((defer_singletons (greedy_classes g inverse p.card p)).map List.toFinset).toFinset := by
      rw [← image_classes, hlen]
      apply Finset.image_congr
      intro c hc
      have := Finset.mem_Icc.mp hc
      exact colour_class_emit e1 c this.1 (by omega)
    rw [i0, i1]
    exact List.toFinset_eq_of_perm _ _ (hperm.map _)
  · intro k hk
    have := b1 k hk
    omega
  · intro hpos
    apply a0
    by_contra hc
    have := z0 (by omega)
    omega
  · intro hpos
    rw [← hlen]
    apply a1
    by_contra hc
    have := z1 (by omega)
    omega

/-! ### Propagation on assignment -/

theorem assign_fold_eq (s : SGI) (branch_v f_v v : Nat) :
    ∀ (gs : List Nat) (init : FixedBitSet) (w : Nat),
      w ∈ gs.foldl
        (fun vals g =>
          if (s.pattern_graphs g).adjacent branch_v v then
            (s.target_graphs g).intersect_with_row f_v vals
          else vals) init ↔
      w ∈ init ∧ ∀ g, g ∈ gs → (s.pattern_graphs g).adjacent branch_v v = true →
        (s.target_graphs g).adjacent f_v w = true := by
  intro gs
  induction gs with
  | nil => intro init w; simp
  | cons g gs ih =>
    intro init w
    rw [List.foldl_cons, ih]
    by_cases hadj : (s.pattern_graphs g).adjacent branch_v v = true
    · rw [if_pos hadj, mem_row]
      constructor
      · rintro ⟨⟨h1, h2⟩, h3⟩
        refine ⟨h1, fun g2 hg2 ha => ?_⟩
        rcases List.mem_cons.mp hg2 with e | hm
        · rw [e]; exact h2
        · exact h3 g2 hm ha
      · rintro ⟨h1, h2⟩
        exact ⟨⟨h1, h2 g (List.mem_cons_self _ _) hadj⟩,
          fun g2 hg2 ha => h2 g2 (List.mem_cons_of_mem _ hg2) ha⟩
    · rw [if_neg hadj]
      constructor
      · rintro ⟨h1, h3⟩
        refine ⟨h1, fun g2 hg2 ha => ?_⟩
        rcases List.mem_cons.mp hg2 with e | hm
        · rw [e] at ha; exact absurd ha hadj
        · exact h3 g2 hm ha
      · rintro ⟨h1, h2⟩
        exact ⟨h1, fun g2 hg2 ha => h2 g2 (List.mem_cons_of_mem _ hg2) ha⟩

theorem assign_fold_values (s : SGI) (branch_v f_v g_end : Nat) (d : Domain) :
    (List.range g_end).foldl
        (fun vals g =>
          if (s.pattern_graphs g).adjacent branch_v d.v then
            (s.target_graphs g).intersect_with_row f_v vals
          else vals) (d.values.unset f_v) = assigned_values s branch_v f_v g_end d := by
  ext w
  rw [assign_fold_eq]
  unfold assigned_values FixedBitSet.unset
  simp only [Finset.mem_filter, List.mem_range]

theorem assign_domains_ok (s : SGI) (branch_v f_v g_end : Nat) :
    ∀ (D : Domains) (F : FailedVariables),
      (∀ d, d ∈ D → assigned_values s branch_v f_v g_end d ≠ ∅) →
        assign_domains s branch_v f_v g_end D F =
          (true, D.map (assigned_domain s branch_v f_v g_end), F) := by
  intro D
  induction D with
  | nil => intro F _; rfl
  | cons d D ih =>
    intro F h
    have hd := h d (List.mem_cons_self _ _)
    have hne : (assigned_values s branch_v f_v g_end d).popcount ≠ 0 := by
      unfold FixedBitSet.popcount
      exact fun hc => hd (Finset.card_eq_zero.mp hc)
    rw [assign_domains, assign_fold_values]
    simp only [hne, if_false]
    rw [ih F fun e he => h e (List.mem_cons_of_mem _ he)]
    rfl

theorem assign_domains_fail (s : SGI) (branch_v f_v g_end : Nat) :
    ∀ (l1 : Domains) (d : Domain) (l2 : Domains) (F : FailedVariables),
      (∀ e, e ∈ l1 → assigned_values s branch_v f_v g_end e ≠ ∅) →
      assigned_values s branch_v f_v g_end d = ∅ →
        assign_domains s branch_v f_v g_end (l1 ++ d :: l2) F =
          (false,
            l1.map (assigned_domain s branch_v f_v g_end) ++
              { v := d.v, popcount := 0, values := ∅ } :: l2,
            FailedVariables.add s.cfg.backjump F d.v) := by
  intro l1
  induction l1 with
  | nil =>
    intro d l2 F _ hd
    rw [List.nil_append, assign_domains, assign_fold_values, hd]
    rfl
  | cons e l1 ih =>
    intro d l2 F h hd
    have he := h e (List.mem_cons_self _ _)
    have hne : (assigned_values s branch_v f_v g_end e).popcount ≠ 0 := by
      unfold FixedBitSet.popcount
      exact fun hc => he (Finset.card_eq_zero.mp hc)
    rw [List.cons_append, assign_domains, assign_fold_values]
    simp only [hne, if_false]
    rw [ih d l2 F (fun x hx => h x (List.mem_cons_of_mem _ hx)) hd]
    rfl

theorem first_failing {α : Type} (P : α → Prop) :
    ∀ l : List α, (∀ x, x ∈ l → P x) ∨
      ∃ l1 d l2, l = l1 ++ d :: l2 ∧ (∀ x, x ∈ l1 → P x) ∧ ¬ P d := by
  intro l
  induction l with
  | nil => exact Or.inl fun x hx => absurd hx (List.not_mem_nil x)
  | cons a l ih =>
    by_cases ha : P a
    · rcases ih with h | ⟨l1, d, l2, e, h1, h2⟩
      · left
        intro x hx
        rcases List.mem_cons.mp hx with e | hm
        · rw [e]; exact ha
        · exact h x hm
      · right
        refine ⟨a :: l1, d, l2, by rw [e]; rfl, fun x hx => ?_, h2⟩
        rcases List.mem_cons.mp hx with e2 | hm
        · rw [e2]; exact ha
        · exact h1 x hm
    · exact Or.inr ⟨[], a, l, rfl, fun x hx => absurd hx (List.not_mem_nil x), ha⟩

/-- C34 (propagation on assignment): with both all-different propagators switched off, the
call `assign(new_domains, i, j, g_end, F)` returns. It returns true exactly when no domain
becomes empty, and then every domain `d` holds the values of the specification (its old
values without `j`, intersected with row `j` of the target for every filter graph below
`g_end` in which `i` and `d.v` are adjacent in the pattern), with its `popcount` refreshed
and not zero, and `F` is as before. Otherwise it returns false at the first domain of the
list that becomes empty: the domains before it are filtered, those after it are untouched, and
`F.add` has been called with the variable of that domain. -/
theorem C34_propagation_on_assignment (s : SGI) (new_domains : Domains) (i j g_end : Nat)
    (F : FailedVariables) (hcheap : s.cfg.use_cheap_all_different = false)
    (hfull : s.cfg.use_full_all_different = false) :
    (∃ r, assign s new_domains i j g_end F = some r ∧
      (r.1 = true ↔ ∀ d, d ∈ new_domains → assigned_values s i j g_end d ≠ ∅)) ∧
    ((∀ d, d ∈ new_domains → assigned_values s i j g_end d ≠ ∅) →
      assign s new_domains i j g_end F =
          some (true, new_domains.map (assigned_domain s i j g_end), F) ∧
        ∀ d, d ∈ new_domains.map (assigned_domain s i j g_end) →
          d.popcount = d.values.popcount ∧ d.popcount ≠ 0) ∧
    ∀ l1 d l2, new_domains = l1 ++ d :: l2 →
      (∀ e, e ∈ l1 → assigned_values s i j g_end e ≠ ∅) →
      assigned_values s i j g_end d = ∅ →
        assign s new_domains i j g_end F =
          some (false,
            l1.map (assigned_domain s i j g_end) ++
              { v := d.v, popcount := 0, values := ∅ } :: l2,
            FailedVariables.add s.cfg.backjump F d.v) := by
  have hassign : assign s new_domains i j g_end F =
      some (assign_domains s i j g_end new_domains F) := by
    unfold assign
    simp only [hcheap, hfull, Bool.false_eq_true, if_false]
    rcases h : assign_domains s i j g_end new_domains F with ⟨b, D, F2⟩
    cases b <;> simp
  have hok := assign_domains_ok s i j g_end new_domains F
  have hfail := assign_domains_fail s i j g_end
  refine ⟨?_, ?_, ?_⟩
  · refine ⟨_, hassign, ?_⟩
    rcases first_failing (fun d => assigned_values s i j g_end d ≠ ∅) new_domains with
      h | ⟨l1, d, l2, e, h1, h2⟩
    · rw [hok h]
      exact ⟨fun _ => h, fun _ => rfl⟩
    · rw [e, hfail l1 d l2 F h1 (not_not.mp h2)]
      constructor
      · intro hc
        exact Bool.noConfusion hc
      · intro hall
        exact absurd (hall d (by simp)) h2
  · intro h
    refine ⟨by rw [hassign, hok h], fun d hd => ?_⟩
    obtain ⟨d0, hd0, rfl⟩ := List.mem_map.mp hd
    refine ⟨rfl, ?_⟩
    unfold assigned_domain FixedBitSet.popcount
    exact fun hc => h d0 hd0 (Finset.card_eq_zero.mp hc)
  · intro l1 d l2 e h1 h2
    rw [hassign, e, hfail l1 d l2 F h1 h2]

set_option maxRecDepth 100000 in
/-- C34 for the path `0 - 1 - 2` as pattern and the triangle as target, both all-different
propagators off, at the assignment `0 ← 0`: the domain of vertex 1 loses the value 0, and the
domain of vertex 2, which holds the value 0 only, becomes empty, so that the call returns
false with vertex 2 in the failed variables. -/
theorem C34_propagation_on_assignment_witness :
    ((SGI.make (bareConfig true) refExternals K3 P3).cfg.use_cheap_all_different = false ∧
      (SGI.make (bareConfig true) refExternals K3 P3).cfg.use_full_all_different = false) ∧
    assigned_values (SGI.make (bareConfig true) refExternals K3 P3) 0 0 1 ⟨1, 3, {0, 1, 2}⟩ ≠
      ∅ ∧
    assigned_values (SGI.make (bareConfig true) refExternals K3 P3) 0 0 1 ⟨2, 1, {0}⟩ = ∅ ∧
    assign (SGI.make (bareConfig true) refExternals K3 P3) [⟨1, 3, {0, 1, 2}⟩, ⟨2, 1, {0}⟩]
        0 0 1 ∅ =
      some (false,
        [⟨1, 3, {0, 1, 2}⟩].map
            (assigned_domain (SGI.make (bareConfig true) refExternals K3 P3) 0 0 1) ++
          [⟨2, 0, ∅⟩],
        FailedVariables.add true ∅ 2) :=
  have h1 : assigned_values (SGI.make (bareConfig true) refExternals K3 P3) 0 0 1
      ⟨1, 3, {0, 1, 2}⟩ ≠ ∅ := by decide!
  have h2 : assigned_values (SGI.make (bareConfig true) refExternals K3 P3) 0 0 1
      ⟨2, 1, {0}⟩ = ∅ := by decide!
  ⟨⟨rfl, rfl⟩, h1, h2,
    (C34_propagation_on_assignment (SGI.make (bareConfig true) refExternals K3 P3)
      [⟨1, 3, {0, 1, 2}⟩, ⟨2, 1, {0}⟩] 0 0 1 ∅ rfl rfl).2.2 [⟨1, 3, {0, 1, 2}⟩] ⟨2, 1, {0}⟩ []
      rfl (fun e he => by rw [List.mem_singleton.mp he]; exact h1) h2⟩

/-! ### The failed variables of `cheap_all_different` -/

theorem cheap_all_different_eq (s : SGI) (domains : Domains) (F : FailedVariables) :
    cheap_all_different s domains F =
      (cheap_all_different_loop s.cfg.backjump (cheap_order s domains)
        { domains := domains, failed := F, domains_so_far := ∅, hall := ∅,
          neighbours_so_far := 0 }).map fun r => (r.1, r.2.domains, r.2.failed) := rfl

theorem getD_set_v (domains : Domains) (idx : Nat) (d d1 : Domain)
    (hget : domains.get? idx = some d) (hv : d1.v = d.v) (k : Nat) :
    ((domains.set idx d1).getD k ⟨0, 0, ∅⟩).v = (domains.getD k ⟨0, 0, ∅⟩).v := by
  simp only [List.getD_eq_getElem?_getD, List.getElem?_set]
  by_cases hk : idx = k
  · subst hk
    have hlt : idx < domains.length := by
      rcases Nat.lt_or_ge idx domains.length with h | h
      · exact h
      · rw [List.get?_eq_none.mpr h] at hget
        exact Option.noConfusion hget
    rw [List.get?_eq_getElem?] at hget
    simp only [hlt, if_true, hget, Option.getD_some, hv]
  · simp only [hk, if_false]

theorem variables_of_congr {D1 D2 : Domains}
    (h : ∀ k, (D1.getD k ⟨0, 0, ∅⟩).v = (D2.getD k ⟨0, 0, ∅⟩).v) (order : List Nat) :
    variables_of D1 order = variables_of D2 order := by
  unfold variables_of
  congr 1
  exact List.map_congr_left fun k _ => h k

theorem variables_of_cons (D : Domains) (idx : Nat) (order : List Nat) :
    variables_of D (idx :: order) = insert (D.getD idx ⟨0, 0, ∅⟩).v (variables_of D order) := by
  unfold variables_of
  rw [List.map_cons, List.toFinset_cons]

theorem cheap_loop_failed :
    ∀ (order : List Nat) (c c2 : Counting),
      cheap_all_different_loop true order c = some (false, c2) →
      ∃ k c1, 1 ≤ k ∧ k ≤ order.length ∧
        cheap_all_different_loop true (order.take (k - 1)) c = some (true, c1) ∧
        cheap_all_different_loop true (order.take k) c = some (false, c2) ∧
        c2.failed = c.failed ∪ variables_of c.domains (order.take k) ∧
        ((c2.domains.getD (order.getD (k - 1) 0) ⟨0, 0, ∅⟩).popcount = 0 ∨
          c2.domains_so_far.popcount < c2.neighbours_so_far) := by
  intro order
  induction order with
  | nil =>
    intro c c2 h
    rw [cheap_all_different_loop] at h
    exact absurd (Prod.mk.inj (Option.some.inj h)).1 (by decide)
  | cons idx rest ih =>
    intro c c2 h
    rw [cheap_all_different_loop] at h
    rcases hget : c.domains.get? idx with _ | d
    · rw [hget] at h
      exact Option.noConfusion h
    · rw [hget] at h
      simp only [] at h
      have hlt : idx < c.domains.length := by
        rcases Nat.lt_or_ge idx c.domains.length with h1 | h1
        · exact h1
        · rw [List.get?_eq_none.mpr h1] at hget
          exact Option.noConfusion hget
      have hdv : (c.domains.getD idx ⟨0, 0, ∅⟩).v = d.v := by
        rw [List.getD_eq_getElem?_getD, ← List.get?_eq_getElem?, hget]
        rfl
      have hone : variables_of c.domains ((idx :: rest).take 1) = {d.v} := by
        rw [List.take_succ_cons, List.take_zero, variables_of_cons, hdv]
        rfl
      have hfail1 : c.failed ∪ variables_of c.domains ((idx :: rest).take 1) =
          FailedVariables.add true c.failed d.v := by
        rw [hone]
        unfold FailedVariables.add FixedBitSet.set
        simp only [if_true]
        ext x
        simp only [Finset.mem_union, Finset.mem_singleton, Finset.mem_insert]
        tauto
      by_cases hp : (d.values.intersect_with_complement c.hall).popcount = 0
      · rw [if_pos hp] at h
        have hc2 := (Prod.mk.inj (Option.some.inj h)).2
        refine ⟨1, c, le_refl _, by simp, rfl, ?_, ?_, Or.inl ?_⟩
        · rw [List.take_succ_cons, List.take_zero, cheap_all_different_loop, hget]
          simp only []
          rw [if_pos hp, ← hc2]
        · rw [hfail1, ← hc2]
        · rw [← hc2]
          simp only [Nat.sub_self, List.getD_cons_zero]
          rw [List.getD_eq_getElem?_getD, List.getElem?_set]
          simp only [hlt, if_true, Option.getD_some]
          exact hp
      · rw [if_neg hp] at h
        by_cases hh : (c.domains_so_far.union_with
            (d.values.intersect_with_complement c.hall)).popcount < c.neighbours_so_far + 1
        · rw [if_pos hh] at h
          have hc2 := (Prod.mk.inj (Option.some.inj h)).2
          refine ⟨1, c, le_refl _, by simp, rfl, ?_, ?_, Or.inr ?_⟩
          · rw [List.take_succ_cons, List.take_zero, cheap_all_different_loop, hget]
            simp only []
            rw [if_neg hp, if_pos hh, ← hc2]
          · rw [hfail1, ← hc2]
          · rw [← hc2]
            exact hh
        · rw [if_neg hh] at h
          have key : ∀ cn : Counting,
              cn.domains = c.domains.set idx
                { v := d.v
                  popcount := (d.values.intersect_with_complement c.hall).popcount
                  values := d.values.intersect_with_complement c.hall } →
              cn.failed = FailedVariables.add true c.failed d.v →
              (∀ order2 : List Nat, cheap_all_different_loop true (idx :: order2) c =
                cheap_all_different_loop true order2 cn) →
              cheap_all_different_loop true rest cn = some (false, c2) →
              ∃ k c1, 1 ≤ k ∧ k ≤ (idx :: rest).length ∧
                cheap_all_different_loop true ((idx :: rest).take (k - 1)) c = some (true, c1) ∧
                cheap_all_different_loop true ((idx :: rest).take k) c = some (false, c2) ∧
                c2.failed = c.failed ∪ variables_of c.domains ((idx :: rest).take k) ∧
                ((c2.domains.getD ((idx :: rest).getD (k - 1) 0) ⟨0, 0, ∅⟩).popcount = 0 ∨
                  c2.domains_so_far.popcount < c2.neighbours_so_far) := by
            intro cn hdom hfl hstep hrest
            obtain ⟨k, c1, hk1, hk2, ht, hf, hfailed, hreason⟩ := ih cn c2 hrest
            have hv : ∀ j, (cn.domains.getD j ⟨0, 0, ∅⟩).v = (c.domains.getD j ⟨0, 0, ∅⟩).v := by
              intro j
              rw [hdom]
              exact getD_set_v c.domains idx d
                { v := d.v
                  popcount := (d.values.intersect_with_complement c.hall).popcount
                  values := d.values.intersect_with_complement c.hall } hget rfl j
            refine ⟨k + 1, c1, by omega, by simp only [List.length_cons]; omega, ?_, ?_, ?_, ?_⟩
            · have : k + 1 - 1 = (k - 1) + 1 := by omega
              rw [this, List.take_succ_cons, hstep]
              exact ht
            · rw [List.take_succ_cons, hstep]
              exact hf
            · rw [hfailed, hfl, List.take_succ_cons, variables_of_cons, hdv,
                variables_of_congr hv]
              unfold FailedVariables.add FixedBitSet.set
              simp only [if_true]
              ext x
              simp only [Finset.mem_union, Finset.mem_insert]
              tauto
            · have : (idx :: rest).getD (k + 1 - 1) 0 = rest.getD (k - 1) 0 := by
                have e : k + 1 - 1 = (k - 1) + 1 := by omega
                rw [e, List.getD_cons_succ]
              rw [this]
              exact hreason
          by_cases he : (c.domains_so_far.union_with
              (d.values.intersect_with_complement c.hall)).popcount = c.neighbours_so_far + 1
          · rw [if_pos he] at h
            refine key _ rfl rfl (fun order2 => ?_) h
            rw [cheap_all_different_loop, hget]
            simp only []
            rw [if_neg hp, if_neg hh, if_pos he]
          · rw [if_neg he] at h
            refine key _ rfl rfl (fun order2 => ?_) h
            rw [cheap_all_different_loop, hget]
            simp only []
            rw [if_neg hp, if_neg hh, if_neg he]

/-- C35 (failed variables of the cheap all-different): with backjumping, when
`cheap_all_different` is called with an empty failed set and returns false, there is a `k`,
counted from 1 in the order in which the domains are visited, such that the loop passes the
first `k - 1` domains and returns false at the `k`-th, because that domain has become empty or
because the Hall count is violated, and the failed set is exactly the set of the pattern
variables of the first `k` domains in that order. -/
theorem C35_cheap_all_different_failed_set (s : SGI) (domains D : Domains)
    (F : FailedVariables) (hb : s.cfg.backjump = true)
    (h : cheap_all_different s domains ∅ = some (false, D, F)) :
    ∃ k c1 c2, 1 ≤ k ∧ k ≤ (cheap_order s domains).length ∧
      cheap_all_different_loop true ((cheap_order s domains).take (k - 1))
        { domains := domains, failed := ∅, domains_so_far := ∅, hall := ∅,
          neighbours_so_far := 0 } = some (true, c1) ∧
      cheap_all_different_loop true ((cheap_order s domains).take k)
        { domains := domains, failed := ∅, domains_so_far := ∅, hall := ∅,
          neighbours_so_far := 0 } = some (false, c2) ∧
      c2.domains = D ∧ c2.failed = F ∧
      ((D.getD ((cheap_order s domains).getD (k - 1) 0) ⟨0, 0, ∅⟩).popcount = 0 ∨
        c2.domains_so_far.popcount < c2.neighbours_so_far) ∧
      F = variables_of domains ((cheap_order s domains).take k) := by
  rw [cheap_all_different_eq, hb] at h
  rcases hl : cheap_all_different_loop true (cheap_order s domains)
      { domains := domains, failed := ∅, domains_so_far := ∅, hall := ∅,
        neighbours_so_far := 0 } with _ | ⟨b, c2⟩
  · rw [hl] at h
    exact Option.noConfusion h
  · rw [hl] at h
    simp only [Option.map_some', Option.some.injEq, Prod.mk.injEq] at h
    obtain ⟨hb2, hD, hF⟩ := h
    subst hb2
    obtain ⟨k, c1, hk1, hk2, ht, hf, hfailed, hreason⟩ := cheap_loop_failed _ _ _ hl
    refine ⟨k, c1, c2, hk1, hk2, ht, hf, hD, hF, ?_, ?_⟩
    · rw [← hD]
      exact hreason
    · rw [← hF, hfailed]
      simp

set_option maxRecDepth 100000 in
/-- C35 for the path `0 - 1 - 2` as pattern with the domains `{0}`, `{0}` and `{0, 1, 2}`: the
domain of vertex 1 is visited first (equal size, larger degree), then the domain of vertex 0,
which becomes empty; the failed set is `{0, 1}` and does not hold vertex 2. -/
theorem C35_cheap_all_different_failed_set_witness :
    (SGI.make (bareConfig true) refExternals K3 P3).cfg.backjump = true ∧
    cheap_all_different (SGI.make (bareConfig true) refExternals K3 P3)
        [⟨0, 1, {0}⟩, ⟨1, 1, {0}⟩, ⟨2, 3, {0, 1, 2}⟩] ∅ =
      some (false, [⟨0, 0, ∅⟩, ⟨1, 1, {0}⟩, ⟨2, 3, {0, 1, 2}⟩], {0, 1}) ∧
    cheap_order (SGI.make (bareConfig true) refExternals K3 P3)
        [⟨0, 1, {0}⟩, ⟨1, 1, {0}⟩, ⟨2, 3, {0, 1, 2}⟩] = [1, 0, 2] ∧
    ∃ k c1 c2, 1 ≤ k ∧
      k ≤ (cheap_order (SGI.make (bareConfig true) refExternals K3 P3)
        [⟨0, 1, {0}⟩, ⟨1, 1, {0}⟩, ⟨2, 3, {0, 1, 2}⟩]).length ∧
      cheap_all_different_loop true
        ((cheap_order (SGI.make (bareConfig true) refExternals K3 P3)
          [⟨0, 1, {0}⟩, ⟨1, 1, {0}⟩, ⟨2, 3, {0, 1, 2}⟩]).take (k - 1))
        { domains := [⟨0, 1, {0}⟩, ⟨1, 1, {0}⟩, ⟨2, 3, {0, 1, 2}⟩], failed := ∅,
          domains_so_far := ∅, hall := ∅, neighbours_so_far := 0 } = some (true, c1) ∧
      cheap_all_different_loop true
        ((cheap_order (SGI.make (bareConfig true) refExternals K3 P3)
          [⟨0, 1, {0}⟩, ⟨1, 1, {0}⟩, ⟨2, 3, {0, 1, 2}⟩]).take k)
        { domains := [⟨0, 1, {0}⟩, ⟨1, 1, {0}⟩, ⟨2, 3, {0, 1, 2}⟩], failed := ∅,
          domains_so_far := ∅, hall := ∅, neighbours_so_far := 0 } = some (false, c2) ∧
      c2.domains = [⟨0, 0, ∅⟩, ⟨1, 1, {0}⟩, ⟨2, 3, {0, 1, 2}⟩] ∧ c2.failed = {0, 1} ∧
      ((([⟨0, 0, ∅⟩, ⟨1, 1, {0}⟩, ⟨2, 3, {0, 1, 2}⟩] : Domains).getD
          ((cheap_order (SGI.make (bareConfig true) refExternals K3 P3)
            [⟨0, 1, {0}⟩, ⟨1, 1, {0}⟩, ⟨2, 3, {0, 1, 2}⟩]).getD (k - 1) 0)
          ⟨0, 0, ∅⟩).popcount = 0 ∨
        c2.domains_so_far.popcount < c2.neighbours_so_far) ∧
      ({0, 1} : Finset Nat) = variables_of [⟨0, 1, {0}⟩, ⟨1, 1, {0}⟩, ⟨2, 3, {0, 1, 2}⟩]
        ((cheap_order (SGI.make (bareConfig true) refExternals K3 P3)
          [⟨0, 1, {0}⟩, ⟨1, 1, {0}⟩, ⟨2, 3, {0, 1, 2}⟩]).take k) :=
  have h : cheap_all_different (SGI.make (bareConfig true) refExternals K3 P3)
      [⟨0, 1, {0}⟩, ⟨1, 1, {0}⟩, ⟨2, 3, {0, 1, 2}⟩] ∅ =
      some (false, [⟨0, 0, ∅⟩, ⟨1, 1, {0}⟩, ⟨2, 3, {0, 1, 2}⟩], {0, 1}) := by decide!
  ⟨rfl, h, by decide!,
    C35_cheap_all_different_failed_set (SGI.make (bareConfig true) refExternals K3 P3)
      [⟨0, 1, {0}⟩, ⟨1, 1, {0}⟩, ⟨2, 3, {0, 1, 2}⟩]
      [⟨0, 0, ∅⟩, ⟨1, 1, {0}⟩, ⟨2, 3, {0, 1, 2}⟩] {0, 1} rfl h⟩

/-! ### Selection of the branch variable -/

theorem branches_before_trans (s : SGI) {a b c : Domain} (h1 : branches_before s a b)
    (h2 : branches_before s b c) : branches_before s a c := by
  unfold branches_before at *
  split at h1 <;> simp only [*, if_true, if_false, Bool.false_eq_true] at h2 ⊢ <;> omega

theorem branches_before_neg (s : SGI) {a b c : Domain} (h1 : ¬ branches_before s a b)
    (h2 : ¬ branches_before s b c) : ¬ branches_before s a c := by
  unfold branches_before at *
  split at h1 <;> simp only [*, if_true, if_false, Bool.false_eq_true] at h2 ⊢ <;> omega

theorem branches_before_irrefl (s : SGI) (a : Domain) : ¬ branches_before s a a := by
  unfold branches_before
  split <;> omega

theorem select_step_some (s : SGI) (b d : Domain) :
    (match (some b : Option Domain) with
      | none => some d
      | some b =>
        if s.cfg.dom_plus_deg then
          if d.popcount < b.popcount ∨
              (d.popcount = b.popcount ∧
                s.pattern_degree_tiebreak d.v > s.pattern_degree_tiebreak b.v) then some d
          else some b
        else
          if d.popcount < b.popcount ∨ (d.popcount = b.popcount ∧ d.v < b.v) then some d
          else some b) = some (if branches_before s d b then d else b) := by
  unfold branches_before
  simp only []
  by_cases hd : s.cfg.dom_plus_deg = true
  · simp only [hd, if_true]
    split <;> rfl
  · simp only [hd, if_false, Bool.false_eq_true]
    split <;> rfl

theorem select_fold_some (s : SGI) :
    ∀ (l : Domains) (b0 : Domain),
      l.foldl
        (fun (branch_domain : Option Domain) d =>
          match branch_domain with
          | none => some d
          | some b =>
            if s.cfg.dom_plus_deg then
              if d.popcount < b.popcount ∨
                  (d.popcount = b.popcount ∧
                    s.pattern_degree_tiebreak d.v > s.pattern_degree_tiebreak b.v) then some d
              else some b
            else
              if d.popcount < b.popcount ∨ (d.popcount = b.popcount ∧ d.v < b.v) then some d
              else some b)
        (some b0) =
      some (l.foldl (fun b d => if branches_before s d b then d else b) b0) := by
  intro l
  induction l with
  | nil => intro b0; rfl
  | cons d l ih =>
    intro b0
    rw [List.foldl_cons, List.foldl_cons, select_step_some, ih]

theorem fold_best (s : SGI) :
    ∀ (l : Domains) (b0 : Domain),
      ∃ l1 l2, b0 :: l =
          l1 ++ (l.foldl (fun b d => if branches_before s d b then d else b) b0) :: l2 ∧
        (∀ d, d ∈ l1 →
          branches_before s (l.foldl (fun b d => if branches_before s d b then d else b) b0) d) ∧
        ∀ d, d ∈ l2 →
          ¬ branches_before s d
            (l.foldl (fun b d => if branches_before s d b then d else b) b0) := by
  intro l
  induction l with
  | nil =>
    intro b0
    exact ⟨[], [], rfl, fun d hd => absurd hd (List.not_mem_nil d),
      fun d hd => absurd hd (List.not_mem_nil d)⟩
  | cons d l ih =>
    intro b0
    rw [List.foldl_cons]
    by_cases hlt : branches_before s d b0
    · rw [if_pos hlt]
      obtain ⟨l1, l2, e, h1, h2⟩ := ih d
      refine ⟨b0 :: l1, l2, by rw [e]; rfl, fun x hx => ?_, h2⟩
      rcases List.mem_cons.mp hx with e2 | hm
      · rw [e2]
        cases l1 with
        | nil =>
          have := (List.cons.inj e).1
          rw [← this]
          exact hlt
        | cons a l1 =>
          have := (List.cons.inj e).1
          exact branches_before_trans s (h1 d (by rw [this]; exact List.mem_cons_self _ _)) hlt
      · exact h1 x hm
    · rw [if_neg hlt]
      obtain ⟨l1, l2, e, h1, h2⟩ := ih b0
      cases l1 with
      | nil =>
        have e1 := (List.cons.inj e).1
        have e2 := (List.cons.inj e).2
        refine ⟨[], d :: l, by rw [← e1]; rfl, fun x hx => absurd hx (List.not_mem_nil x),
          fun x hx => ?_⟩
        rcases List.mem_cons.mp hx with e3 | hm
        · rw [e3, ← e1]; exact hlt
        · exact h2 x (by rw [← e2]; exact hm)
      | cons a l1 =>
        have e1 := (List.cons.inj e).1
        have e2 := (List.cons.inj e).2
        refine ⟨b0 :: d :: l1, l2, congrArg (fun t => b0 :: d :: t) e2, fun x hx => ?_, h2⟩
        have hb0 := h1 b0 (by rw [e1]; exact List.mem_cons_self _ _)
        rcases List.mem_cons.mp hx with e3 | hm
        · rw [e3]; exact hb0
        · rcases List.mem_cons.mp hm with e4 | hm2
          · rw [e4]
            by_contra hc
            exact branches_before_neg s hc hlt hb0
          · exact h1 x (List.mem_cons_of_mem _ hm2)

theorem select_branch_domain_best (s : SGI) (domains : Domains) (hne : domains ≠ []) :
    ∃ b l1 l2, select_branch_domain s domains = some b ∧ domains = l1 ++ b :: l2 ∧
      (∀ d, d ∈ l1 → branches_before s b d) ∧ ∀ d, d ∈ l2 → ¬ branches_before s d b := by
  cases domains with
  | nil => exact absurd rfl hne
  | cons d l =>
    obtain ⟨l1, l2, e, h1, h2⟩ := fold_best s l d
    refine ⟨_, l1, l2, ?_, e, h1, h2⟩
    unfold select_branch_domain
    rw [List.foldl_cons]
    exact select_fold_some s l d

/-- C33, counterexample: when the abort flag is set at entry, `search` with an empty domain
list returns `Aborted` and counts no node (here on entry with 7 nodes counted). -/
theorem C33_aborted_search_selects_nothing :
    (search (SGI.make (bareConfig false) refExternals K3 P3) always 1 1 (fun _ => 0) [] 7).map
      (fun out => (out.result, out.nodes)) = some (Search.Aborted, 7) := by
  decide

/-- C33, amended (branch-variable selection): when the abort flag is not set at entry,
`search` counts one node; for an empty domain list it then returns `Satisfiable`; for a
non-empty list it branches on a domain `b` of the list whose cached `popcount` is minimal. In
plain mode `b` has the lowest pattern-vertex id among the domains of minimal `popcount`; in
dom+deg mode it has the highest pattern degree among them and is the earliest domain of the
list with this `popcount` and degree. The degree is that of the first pattern graph, which the
constructor stores in `pattern_degree_tiebreak`. -/
theorem C33_branch_variable_selection (s : SGI) (abort : Nat → Bool) (g_end fuel : Nat)
    (assignments : Assignments) (domains : Domains) (nodes : Nat)
    (hab : abort nodes = false) :
    (domains = [] →
      search s abort g_end (fuel + 1) assignments domains nodes =
        some ⟨Search.Satisfiable, ∅, assignments, nodes + 1⟩) ∧
    (domains ≠ [] →
      ∃ b l1 l2, domains = l1 ++ b :: l2 ∧
        search s abort g_end (fuel + 1) assignments domains nodes =
          search_values s g_end (fun a d n => search s abort g_end fuel a d n) domains
            b.v b.values.popcount b.values (FailedVariables.add s.cfg.backjump ∅ b.v)
            assignments (nodes + 1) ∧
        (∀ d, d ∈ domains → b.popcount ≤ d.popcount) ∧
        (s.cfg.dom_plus_deg = false →
          ∀ d, d ∈ domains → d.popcount = b.popcount → b.v ≤ d.v) ∧
        (s.cfg.dom_plus_deg = true →
          (∀ d, d ∈ domains → d.popcount = b.popcount →
            s.pattern_degree_tiebreak d.v ≤ s.pattern_degree_tiebreak b.v) ∧
          ∀ d, d ∈ l1 → ¬ (d.popcount = b.popcount ∧
            s.pattern_degree_tiebreak d.v = s.pattern_degree_tiebreak b.v))) ∧
    ∀ (cfg : Config) (ext : Externals) (target pattern : Graph) (j : Nat),
      (SGI.make cfg ext target pattern).pattern_degree_tiebreak j =
        ((SGI.make cfg ext target pattern).pattern_graphs 0).degree j := by
  refine ⟨?_, ?_, fun cfg ext target pattern j => rfl⟩
  · intro he
    rw [he, search]
    simp only [hab, Bool.false_eq_true, if_false]
    rfl
  · intro hne
    obtain ⟨b, l1, l2, hsel, e, h1, h2⟩ := select_branch_domain_best s domains hne
    have hnot : ∀ d, d ∈ domains → ¬ branches_before s d b := by
      intro d hd
      rw [e] at hd
      rcases List.mem_append.mp hd with hm | hm
      · intro hc
        exact branches_before_irrefl s b (branches_before_trans s (h1 d hm) hc)
      · rcases List.mem_cons.mp hm with e2 | hm2
        · rw [e2]; exact branches_before_irrefl s b
        · exact h2 d hm2
    refine ⟨b, l1, l2, e, ?_, ?_, ?_, ?_⟩
    · rw [search]
      simp only [hab, Bool.false_eq_true, if_false, hsel]
    · intro d hd
      have := hnot d hd
      unfold branches_before at this
      split at this <;> omega
    · intro hdpd d hd hp
      have := hnot d hd
      unfold branches_before at this
      simp only [hdpd, Bool.false_eq_true, if_false] at this
      omega
    · intro hdpd
      constructor
      · intro d hd hp
        have := hnot d hd
        unfold branches_before at this
        simp only [hdpd, if_true] at this
        omega
      · intro d hd
        have := h1 d hd
        unfold branches_before at this
        simp only [hdpd, if_true] at this
        omega

/-- C33, amended, for the path `0 - 1 - 2` as pattern and the triangle as target in plain mode,
with the abort flag never set and the domains `{0, 1}`, `{2}`, `{0}` of the vertices 0, 1, 2:
the branch domain is that of vertex 1. -/
theorem C33_branch_variable_selection_witness :
    never 0 = false ∧
    select_branch_domain (SGI.make (bareConfig false) refExternals K3 P3)
      [⟨0, 2, {0, 1}⟩, ⟨1, 1, {2}⟩, ⟨2, 1, {0}⟩] = some ⟨1, 1, {2}⟩ ∧
    (([⟨0, 2, {0, 1}⟩, ⟨1, 1, {2}⟩, ⟨2, 1, {0}⟩] : Domains) ≠ [] →
      ∃ b l1 l2, ([⟨0, 2, {0, 1}⟩, ⟨1, 1, {2}⟩, ⟨2, 1, {0}⟩] : Domains) = l1 ++ b :: l2 ∧
        search (SGI.make (bareConfig false) refExternals K3 P3) never 1 (3 + 1) (fun _ => 0)
            [⟨0, 2, {0, 1}⟩, ⟨1, 1, {2}⟩, ⟨2, 1, {0}⟩] 0 =
          search_values (SGI.make (bareConfig false) refExternals K3 P3) 1
            (fun a d n => search (SGI.make (bareConfig false) refExternals K3 P3) never 1 3 a d n)
            [⟨0, 2, {0, 1}⟩, ⟨1, 1, {2}⟩, ⟨2, 1, {0}⟩]
            b.v b.values.popcount b.values
            (FailedVariables.add (SGI.make (bareConfig false) refExternals K3 P3).cfg.backjump
              ∅ b.v)
            (fun _ => 0) (0 + 1) ∧
        (∀ d, d ∈ ([⟨0, 2, {0, 1}⟩, ⟨1, 1, {2}⟩, ⟨2, 1, {0}⟩] : Domains) →
          b.popcount ≤ d.popcount) ∧
        ((SGI.make (bareConfig false) refExternals K3 P3).cfg.dom_plus_deg = false →
          ∀ d, d ∈ ([⟨0, 2, {0, 1}⟩, ⟨1, 1, {2}⟩, ⟨2, 1, {0}⟩] : Domains) →
            d.popcount = b.popcount → b.v ≤ d.v) ∧
        ((SGI.make (bareConfig false) refExternals K3 P3).cfg.dom_plus_deg = true →
          (∀ d, d ∈ ([⟨0, 2, {0, 1}⟩, ⟨1, 1, {2}⟩, ⟨2, 1, {0}⟩] : Domains) →
            d.popcount = b.popcount →
            (SGI.make (bareConfig false) refExternals K3 P3).pattern_degree_tiebreak d.v ≤
              (SGI.make (bareConfig false) refExternals K3 P3).pattern_degree_tiebreak b.v) ∧
          ∀ d, d ∈ l1 → ¬ (d.popcount = b.popcount ∧
            (SGI.make (bareConfig false) refExternals K3 P3).pattern_degree_tiebreak d.v =
              (SGI.make (bareConfig false) refExternals K3 P3).pattern_degree_tiebreak b.v))) :=
  ⟨rfl, by decide,
    (C33_branch_variable_selection (SGI.make (bareConfig false) refExternals K3 P3) never 1 3
      (fun _ => 0) [⟨0, 2, {0, 1}⟩, ⟨1, 1, {2}⟩, ⟨2, 1, {0}⟩] 0 rfl).2.1⟩

/-! ### The domains of the caller -/

theorem assigned_values_sub (s : SGI) (i j g_end : Nat) (d : Domain) :
    assigned_values s i j g_end d ⊆ d.values := by
  unfold assigned_values
  exact (Finset.filter_subset _ _).trans (Finset.erase_subset _ _)

theorem assign_domains_shrinks (s : SGI) (branch_v f_v g_end : Nat) (D : Domains)
    (F : FailedVariables) :
    Shrinks D (assign_domains s branch_v f_v g_end D F).2.1 := by
  have hmap : ∀ l : Domains, Shrinks l (l.map (assigned_domain s branch_v f_v g_end)) := by
    intro l
    induction l with
    | nil => exact List.Forall₂.nil
    | cons d l ih =>
      exact List.Forall₂.cons ⟨rfl, assigned_values_sub s branch_v f_v g_end d⟩ ih
  rcases first_failing (fun d => assigned_values s branch_v f_v g_end d ≠ ∅) D with
    h | ⟨l1, d, l2, e, h1, h2⟩
  · rw [assign_domains_ok s branch_v f_v g_end D F h]
    exact hmap D
  · rw [e, assign_domains_fail s branch_v f_v g_end l1 d l2 F h1 (not_not.mp h2)]
    exact List.rel_append (hmap l1)
      (List.Forall₂.cons ⟨rfl, Finset.empty_subset _⟩ (Shrinks.rfl_ l2))

theorem assign_shrinks {s : SGI} {D D2 : Domains} {branch_v f_v g_end : Nat}
    {F F2 : FailedVariables} {b : Bool}
    (h : assign s D branch_v f_v g_end F = some (b, D2, F2)) : Shrinks D D2 := by
  have hA := assign_domains_shrinks s branch_v f_v g_end D F
  unfold assign at h
  simp only [] at h
  cases h1 : (assign_domains s branch_v f_v g_end D F).1 with
  | false =>
    rw [h1] at h
    simp only [Bool.not_false, if_true, Option.some.injEq] at h
    rw [h] at hA
    exact hA
  | true =>
    rw [h1] at h
    simp only [Bool.not_true, Bool.false_eq_true, if_false] at h
    have hcheap : ∀ (c : Option (Bool × Domains × FailedVariables)),
        (c = (if s.cfg.use_cheap_all_different = true then
            (cheap_all_different s (assign_domains s branch_v f_v g_end D F).2.1 ∅).map fun c =>
              if c.1 = true then (true, c.2.1, (assign_domains s branch_v f_v g_end D F).2.2)
              else (false, c.2.1, FailedVariables.add_all s.cfg.backjump
                (assign_domains s branch_v f_v g_end D F).2.2 c.2.2)
          else some (assign_domains s branch_v f_v g_end D F))) →
        ∀ b1 D1 F1, c = some (b1, D1, F1) → Shrinks D D1 := by
      intro c hc b1 D1 F1 hc1
      rw [hc1] at hc
      split at hc
      · cases hch : cheap_all_different s (assign_domains s branch_v f_v g_end D F).2.1 ∅ with
        | none => rw [hch] at hc; simp at hc
        | some r =>
          rw [hch] at hc
          obtain ⟨b2, D3, F3⟩ := r
          have hs := cheap_all_different_shrinks hch
          simp only [Option.map_some', Option.some.injEq] at hc
          split at hc
          · simp only [Prod.mk.injEq] at hc
            rw [hc.2.1]
            exact hA.trans_ hs
          · simp only [Prod.mk.injEq] at hc
            rw [hc.2.1]
            exact hA.trans_ hs
      · simp only [Option.some.injEq] at hc
        have : (assign_domains s branch_v f_v g_end D F).2.1 = D1 := by rw [← hc]
        rw [← this]
        exact hA
    generalize hcdef : (if s.cfg.use_cheap_all_different = true then
            (cheap_all_different s (assign_domains s branch_v f_v g_end D F).2.1 ∅).map fun c =>
              if c.1 = true then (true, c.2.1, (assign_domains s branch_v f_v g_end D F).2.2)
              else (false, c.2.1, FailedVariables.add_all s.cfg.backjump
                (assign_domains s branch_v f_v g_end D F).2.2 c.2.2)
          else some (assign_domains s branch_v f_v g_end D F)) = c at h
    have hc := hcheap c hcdef.symm
    match c, h, hc with
    | none, h, _ => simp at h
    | some (false, D1, F1), h, hc =>
      have hA1 := hc false D1 F1 rfl
      simp only [Option.some.injEq, Prod.mk.injEq] at h
      rw [← h.2.1]
      exact hA1
    | some (true, D1, F1), h, hc =>
      have hA1 := hc true D1 F1 rfl
      simp only [] at h
      split at h
      · cases hr : regin_all_different s D1 with
        | none => rw [hr] at h; simp at h
        | some r =>
          obtain ⟨b3, D3⟩ := r
          rw [hr] at h
          cases b3 with
          | false =>
            simp only [Option.some.injEq, Prod.mk.injEq] at h
            rw [← h.2.1]
            exact hA1.trans_ (regin_all_different_shrinks hr)
          | true =>
            simp only [Option.some.injEq, Prod.mk.injEq] at h
            rw [← h.2.1]
            exact hA1.trans_ (regin_all_different_shrinks hr)
      · simp only [Option.some.injEq, Prod.mk.injEq] at h
        rw [← h.2.1]
        exact hA1

theorem search_values_on_stack_spec (s : SGI) (g_end : Nat)
    (child0 : Assignments → Domains → Nat → Option SearchOut)
    (child : Assignments → (Nat → Domains) → Nat → Nat → Option StackOut) (addr : Nat)
    (hchild : ∀ a v n,
      (child a v (addr + 1) n).map (fun r => r.out) = child0 a (v (addr + 1)) n ∧
        ∀ r, child a v (addr + 1) n = some r → ∀ x, x ≤ addr + 1 → r.vectors x = v x)
    (D : Domains) (branch_v : Nat) (values : FixedBitSet) :
    ∀ (fuel : Nat) (remaining : FixedBitSet) (shared : FailedVariables) (A : Assignments)
      (vectors : Nat → Domains) (n : Nat) (calls : List Descent),
      vectors addr = D → remaining ⊆ values →
      (search_values_on_stack s g_end child addr branch_v fuel remaining shared A vectors n
          calls).map (fun r => r.out) =
        search_values s g_end child0 D branch_v fuel remaining shared A n ∧
      ∀ r, search_values_on_stack s g_end child addr branch_v fuel remaining shared A vectors n
          calls = some r →
        (∀ x, x ≤ addr → r.vectors x = vectors x) ∧
        ∀ c ∈ r.calls, c ∈ calls ∨ (c.address = addr + 1 ∧ ∃ f_v ∈ values, ∃ F F1,
          assign s (D.filter fun d => d.v ≠ branch_v) branch_v f_v g_end F =
            some (true, c.domains, F1)) := by
  intro fuel
  induction fuel with
  | zero =>
    intro remaining shared A vectors n calls hD hsub
    rw [search_values_on_stack, search_values]
    split
    · refine ⟨rfl, fun r hr => ?_⟩
      simp only [Option.some.injEq] at hr
      subst hr
      exact ⟨fun _ _ => rfl, fun c hc => Or.inl hc⟩
    · exact ⟨rfl, fun r hr => Option.noConfusion hr⟩
  | succ fuel ih =>
    intro remaining shared A vectors n calls hD hsub
    rw [search_values_on_stack, search_values]
    rcases hf : remaining.first_set_bit with _ | f_v
    · refine ⟨rfl, fun r hr => ?_⟩
      simp only [Option.some.injEq] at hr
      subst hr
      exact ⟨fun _ _ => rfl, fun c hc => Or.inl hc⟩
    · have hfv : f_v ∈ values := hsub (first_set_bit_eq_some hf).1
      have hsub2 : remaining.unset f_v ⊆ values :=
        (Finset.erase_subset _ _).trans hsub
      simp only [Function.update_same, hD]
      rcases ha : assign s (D.filter fun d => d.v ≠ branch_v) branch_v f_v g_end shared with
        _ | ⟨b, D1, sh1⟩
      · exact ⟨rfl, fun r hr => Option.noConfusion hr⟩
      · cases b with
        | false =>
          simp only []
          have hne : addr ≠ addr + 1 := by omega
          obtain ⟨i1, i2⟩ := ih (remaining.unset f_v) sh1 (Function.update A branch_v f_v)
            (Function.update (Function.update vectors (addr + 1)
              (D.filter fun d => d.v ≠ branch_v)) (addr + 1) D1) n calls
            (by rw [Function.update_noteq hne, Function.update_noteq hne, hD]) hsub2
          refine ⟨i1, fun r hr => ?_⟩
          obtain ⟨j1, j2⟩ := i2 r hr
          refine ⟨fun x hx => ?_, j2⟩
          have hx2 : x ≠ addr + 1 := by omega
          rw [j1 x hx, Function.update_noteq hx2, Function.update_noteq hx2]
        | true =>
          simp only []
          have hne : addr ≠ addr + 1 := by omega
          obtain ⟨c1, c2⟩ := hchild (Function.update A branch_v f_v)
            (Function.update (Function.update vectors (addr + 1)
              (D.filter fun d => d.v ≠ branch_v)) (addr + 1) D1) n
          rw [Function.update_same] at c1
          rw [← c1]
          have hcall : ∀ c ∈ calls ++ [(⟨addr + 1, D1⟩ : Descent)],
              c ∈ calls ∨ (c.address = addr + 1 ∧ ∃ f_v ∈ values, ∃ F F1,
                assign s (D.filter fun d => d.v ≠ branch_v) branch_v f_v g_end F =
                  some (true, c.domains, F1)) := by
            intro c hc
            rcases List.mem_append.mp hc with h | h
            · exact Or.inl h
            · have : c = ⟨addr + 1, D1⟩ := by simpa using h
              subst this
              exact Or.inr ⟨rfl, f_v, hfv, shared, sh1, ha⟩
          rcases hc : child (Function.update A branch_v f_v)
            (Function.update (Function.update vectors (addr + 1)
              (D.filter fun d => d.v ≠ branch_v)) (addr + 1) D1) (addr + 1) n with _ | r
          · exact ⟨rfl, fun r hr => Option.noConfusion hr⟩
          · have hfr := c2 r hc
            have hra : r.vectors addr = D := by
              rw [hfr addr (by omega), Function.update_noteq hne, Function.update_noteq hne, hD]
            have hrb : r.vectors (addr + 1) = D1 := by
              rw [hfr (addr + 1) (le_refl _), Function.update_same]
            have hframe : ∀ x, x ≤ addr → r.vectors x = vectors x := by
              intro x hx
              have hx2 : x ≠ addr + 1 := by omega
              rw [hfr x (by omega), Function.update_noteq hx2, Function.update_noteq hx2]
            simp only [Option.map_some', hra, hrb]
            rcases hres : r.out.result with _ | _ | _
            · simp only []
              refine ⟨rfl, fun r2 hr2 => ?_⟩
              simp only [Option.some.injEq] at hr2
              subst hr2
              exact ⟨hframe, hcall⟩
            · simp only []
              split
              · refine ⟨rfl, fun r2 hr2 => ?_⟩
                simp only [Option.some.injEq] at hr2
                subst hr2
                exact ⟨hframe, hcall⟩
              · obtain ⟨i1, i2⟩ := ih (remaining.unset f_v)
                  (FailedVariables.add_all s.cfg.backjump sh1 r.out.failed) r.out.assignments
                  r.vectors r.out.nodes (calls ++ [⟨addr + 1, D1⟩]) hra hsub2
                refine ⟨i1, fun r2 hr2 => ?_⟩
                obtain ⟨j1, j2⟩ := i2 r2 hr2
                refine ⟨fun x hx => by rw [j1 x hx, hframe x hx], fun c hc => ?_⟩
                rcases j2 c hc with h | h
                · exact hcall c h
                · exact Or.inr h
            · simp only []
              refine ⟨rfl, fun r2 hr2 => ?_⟩
              simp only [Option.some.injEq] at hr2
              subst hr2
              exact ⟨hframe, hcall⟩
theorem search_on_stack_spec (s : SGI) (abort : Nat → Bool) (g_end : Nat) :
    ∀ (fuel : Nat) (A : Assignments) (vectors : Nat → Domains) (addr n : Nat),
      (search_on_stack s abort g_end fuel A vectors addr n).map (fun r => r.out) =
        search s abort g_end fuel A (vectors addr) n ∧
      ∀ r, search_on_stack s abort g_end fuel A vectors addr n = some r →
        ∀ x, x ≤ addr → r.vectors x = vectors x := by
  intro fuel
  induction fuel with
  | zero =>
    intro A vectors addr n
    exact ⟨rfl, fun r hr => Option.noConfusion hr⟩
  | succ fuel ih =>
    intro A vectors addr n
    rw [search_on_stack, search]
    split
    · refine ⟨rfl, fun r hr => ?_⟩
      simp only [Option.some.injEq] at hr
      subst hr
      exact fun _ _ => rfl
    · rcases select_branch_domain s (vectors addr) with _ | b
      · refine ⟨rfl, fun r hr => ?_⟩
        simp only [Option.some.injEq] at hr
        subst hr
        exact fun _ _ => rfl
      · simp only []
        obtain ⟨h1, h2⟩ := search_values_on_stack_spec s g_end
          (fun a d n => search s abort g_end fuel a d n)
          (fun a v ad n => search_on_stack s abort g_end fuel a v ad n) addr
          (fun a v n => ih a v (addr + 1) n) (vectors addr) b.v b.values
          b.values.popcount b.values (FailedVariables.add s.cfg.backjump ∅ b.v) A vectors
          (n + 1) [] rfl (Finset.Subset.refl _)
        exact ⟨h1, fun r hr => (h2 r hr).1⟩

/-- C36 (copy on descend), for `search` with the vectors of domains as objects in memory. The
call whose parameter `domains` is the vector at address `addr` gives the result of the
embedding that only reads `domains`, and when it returns, with any result (so with
`Unsatisfiable` and with `Aborted`), every vector at an address up to `addr`, the vector of the
caller among them, holds what it held before the call. Every recursive call made by the loop of
this call gets the vector at the other address `addr + 1`, and that vector holds, when the call
is made, what `assign` has left of the copy of the domains received on entry whose variable is
not the branch variable, for a value `f_v` of the branch domain: it has the variables of
`domains` without the branch variable, in the same order. -/
theorem C36_copy_on_descend (s : SGI) (abort : Nat → Bool) (g_end fuel : Nat)
    (assignments : Assignments) (vectors : Nat → Domains) (addr nodes : Nat) :
    (search_on_stack s abort g_end fuel assignments vectors addr nodes).map (fun r => r.out) =
      search s abort g_end fuel assignments (vectors addr) nodes ∧
    ∀ r, search_on_stack s abort g_end fuel assignments vectors addr nodes = some r →
      (∀ x, x ≤ addr → r.vectors x = vectors x) ∧
      ∀ c ∈ r.calls, c.address = addr + 1 ∧
        ∃ b, select_branch_domain s (vectors addr) = some b ∧
          c.domains.map (fun d => d.v) =
            ((vectors addr).map fun d => d.v).filter (fun v => v ≠ b.v) ∧
          ∃ f_v ∈ b.values, ∃ F F1,
            assign s ((vectors addr).filter fun d => d.v ≠ b.v) b.v f_v g_end F =
              some (true, c.domains, F1) := by
  refine ⟨(search_on_stack_spec s abort g_end fuel assignments vectors addr nodes).1,
    fun r hr => ⟨(search_on_stack_spec s abort g_end fuel assignments vectors addr nodes).2 r hr,
      ?_⟩⟩
  cases fuel with
  | zero => exact Option.noConfusion hr
  | succ fuel =>
    rw [search_on_stack] at hr
    split at hr
    · simp only [Option.some.injEq] at hr
      subst hr
      intro c hc
      cases hc
    · rcases hb : select_branch_domain s (vectors addr) with _ | b
      · rw [hb] at hr
        simp only [Option.some.injEq] at hr
        subst hr
        intro c hc
        cases hc
      · rw [hb] at hr
        simp only [] at hr
        obtain ⟨_, h2⟩ := search_values_on_stack_spec s g_end
          (fun a d n => search s abort g_end fuel a d n)
          (fun a v ad n => search_on_stack s abort g_end fuel a v ad n) addr
          (fun a v n => search_on_stack_spec s abort g_end fuel a v (addr + 1) n)
          (vectors addr) b.v b.values
          b.values.popcount b.values (FailedVariables.add s.cfg.backjump ∅ b.v) assignments
          vectors (nodes + 1) [] rfl (Finset.Subset.refl _)
        intro c hc
        rcases (h2 r hr).2 c hc with h | ⟨h3, f_v, hf, F, F1, ha⟩
        · cases h
        · refine ⟨h3, b, rfl, ?_, f_v, hf, F, F1, ha⟩
          rw [(assign_shrinks ha).map_v, List.filter_map]
          rfl
set_option maxRecDepth 100000 in
/-- Witness for C36: the third call of `search` in the run of `gbbj_nosup_subgraph_isomorphism`
on `hallPattern` and `hallTarget`, with its domains at address 3. The call returns
`Unsatisfiable` after four recursive calls, each on the vector at address 4, and the vectors at
the addresses up to 3 hold `hallDomains` as before. -/
theorem C36_copy_on_descend_witness :
    ∃ r, search_on_stack (SGI.make (gbbj_nosup_config false) refExternals hallTarget hallPattern)
        never 1 8 (fun _ => 0) (fun _ => hallDomains) 3 2 = some r ∧
      r.out.result = Search.Unsatisfiable ∧ r.calls.length = 4 ∧
      (∀ x, x ≤ 3 → r.vectors x = hallDomains) ∧
      ∀ c ∈ r.calls, c.address = 3 + 1 ∧
        ∃ b, select_branch_domain
            (SGI.make (gbbj_nosup_config false) refExternals hallTarget hallPattern)
            hallDomains = some b ∧
          c.domains.map (fun d => d.v) =
            (hallDomains.map fun d => d.v).filter (fun v => v ≠ b.v) ∧
          ∃ f_v ∈ b.values, ∃ F F1,
            assign (SGI.make (gbbj_nosup_config false) refExternals hallTarget hallPattern)
              (hallDomains.filter fun d => d.v ≠ b.v) b.v f_v 1 F =
              some (true, c.domains, F1) := by
  have hc : (search_on_stack
      (SGI.make (gbbj_nosup_config false) refExternals hallTarget hallPattern)
      never 1 8 (fun _ => 0) (fun _ => hallDomains) 3 2).map
        (fun r => (r.out.result, r.calls.length)) = some (Search.Unsatisfiable, 4) := by
    decide!
  rcases h : search_on_stack
      (SGI.make (gbbj_nosup_config false) refExternals hallTarget hallPattern)
      never 1 8 (fun _ => 0) (fun _ => hallDomains) 3 2 with _ | r
  · rw [h] at hc
    exact Option.noConfusion hc
  · rw [h] at hc
    simp only [Option.map_some', Option.some.injEq, Prod.mk.injEq] at hc
    exact ⟨r, rfl, hc.1, hc.2,
      (C36_copy_on_descend
        (SGI.make (gbbj_nosup_config false) refExternals hallTarget hallPattern)
        never 1 8 (fun _ => 0) (fun _ => hallDomains) 3 2).2 r h⟩

/-! ### The popcount of a domain after `regin_all_different` -/

set_option maxRecDepth 100000 in
/-- The six path graphs of the recoded pattern are the graphs of `fadPatternGraphs`. -/
theorem fadPatternGraphs_eq :
    ∀ g, g < 7 →
      (SGI.make (gbbj_fad_config false) pathExternals fadTarget fadPattern).pattern_graphs g =
        fadPatternGraphs g := by
  decide!

set_option maxRecDepth 100000 in
/-- The six path graphs of the recoded target are complete graphs. -/
theorem fadTargetGraphs_eq :
    ∀ g, g < 7 →
      (SGI.make (gbbj_fad_config false) pathExternals fadTarget fadPattern).target_graphs g =
        fadTargetGraphs g := by
  decide!

/-- The solver built for `fadPattern` and `fadTarget` is `fadSGI`. -/
theorem fadSGI_eq :
    SGI.make (gbbj_fad_config false) pathExternals fadTarget fadPattern = fadSGI := by
  have h1 : (SGI.make (gbbj_fad_config false) pathExternals fadTarget fadPattern).target_graphs
      = fadTargetGraphs := by
    funext g
    by_cases h : g < 7
    · exact fadTargetGraphs_eq g h
    · have h2 : ¬ (1 ≤ g ∧ g ≤ 6) := by omega
      rw [fadTargetGraphs, if_neg h2]
  have h2 : (SGI.make (gbbj_fad_config false) pathExternals fadTarget fadPattern).pattern_graphs
      = fadPatternGraphs := by
    funext g
    by_cases h : g < 7
    · exact fadPatternGraphs_eq g h
    · rw [fadPatternGraphs, if_neg (by omega), if_neg (by omega), if_neg (by omega),
        if_neg (by omega), if_neg (by omega), if_neg (by omega)]
  unfold fadSGI
  rw [← h1, ← h2]

theorem assign_domains_congr (s s2 : SGI) (branch_v f_v g_end : Nat)
    (hbj : s.cfg.backjump = s2.cfg.backjump) :
    ∀ (D : Domains) (F : FailedVariables),
      (∀ d, d ∈ D → assigned_values s branch_v f_v g_end d =
        assigned_values s2 branch_v f_v g_end d) →
      assign_domains s branch_v f_v g_end D F = assign_domains s2 branch_v f_v g_end D F := by
  intro D
  induction D with
  | nil => intro F _; rfl
  | cons d D ih =>
    intro F h
    rw [assign_domains, assign_domains, assign_fold_values, assign_fold_values,
      h d (List.mem_cons_self _ _), ih F fun e he => h e (List.mem_cons_of_mem _ he), hbj]

/-- When every filter graph of the target from index 1 on joins every two different vertices
below `n`, the propagation on an assignment removes what graph 0 removes. -/
theorem assigned_values_complete (s : SGI) (n branch_v f_v g_end : Nat) (d : Domain)
    (hfv : f_v < n) (hd : d.values ⊆ Finset.range n)
    (hT : ∀ g, 1 ≤ g → g < g_end → ∀ a, a < n → ∀ b, b < n → a ≠ b →
      (s.target_graphs g).adjacent a b = true) :
    assigned_values s branch_v f_v g_end d =
      (d.values.erase f_v).filter fun w =>
        0 < g_end → (s.pattern_graphs 0).adjacent branch_v d.v = true →
          (s.target_graphs 0).adjacent f_v w = true := by
  unfold assigned_values
  refine Finset.filter_congr ?_
  intro w hw
  have hw2 := Finset.mem_erase.mp hw
  have hwn : w < n := Finset.mem_range.mp (hd hw2.2)
  constructor
  · intro h hg
    exact h 0 hg
  · intro h g hg hadj
    rcases Nat.eq_zero_or_pos g with e | e
    · subst e
      exact h hg hadj
    · exact hT g e hg f_v hfv w hwn (fun e2 => hw2.1 e2.symm)
/-- The path graphs written out in `fadSGI` for the target are complete. -/
theorem fadSGI_target_complete :
    ∀ g, 1 ≤ g → g < 7 → ∀ a, a < 7 → ∀ b, b < 7 → a ≠ b →
      (fadSGI.target_graphs g).adjacent a b = true := by
  intro g h1 hg a ha b hb hab
  have hT : fadSGI.target_graphs g = completeGraph7 := by
    change fadTargetGraphs g = completeGraph7
    rw [fadTargetGraphs, if_pos ⟨h1, by omega⟩]
  rw [hT]
  have hK : ∀ a, a < 7 → ∀ b, b < 7 → (a ≠ b → completeGraph7.adjacent a b = true) := by
    decide
  exact hK a ha b hb hab

/-- With supplemental target graphs that join every two different vertices, `assign` does on
the instance `fadPattern`, `fadTarget` what it does with the path graphs of `fadSGI`. -/
theorem assign_fad (sp st : FixedBitGraph → Nat → FixedBitGraph)
    (hT : ∀ g, 1 ≤ g → g < 7 → ∀ a, a < 7 → ∀ b, b < 7 → a ≠ b →
      ((SGI.make (gbbj_fad_config false) (withSupplemental sp st) fadTarget
        fadPattern).target_graphs g).adjacent a b = true)
    (D : Domains) (branch_v f_v : Nat) (F : FailedVariables) (hfv : f_v < 7)
    (hD : ∀ d, d ∈ D → d.values ⊆ Finset.range 7) :
    assign (SGI.make (gbbj_fad_config false) (withSupplemental sp st) fadTarget fadPattern) D
        branch_v f_v 7 F = assign fadSGI D branch_v f_v 7 F := by
  have h := assign_domains_congr
    (SGI.make (gbbj_fad_config false) (withSupplemental sp st) fadTarget fadPattern) fadSGI
    branch_v f_v 7 rfl D F (fun d hd => by
      rw [assigned_values_complete _ 7 branch_v f_v 7 d hfv (hD d hd) hT,
        assigned_values_complete fadSGI 7 branch_v f_v 7 d hfv (hD d hd)
          fadSGI_target_complete]
      rfl)
  unfold assign
  rw [h]
  rfl

theorem first_child_fad (sp st : FixedBitGraph → Nat → FixedBitGraph)
    (hT : ∀ g, 1 ≤ g → g < 7 → ∀ a, a < 7 → ∀ b, b < 7 → a ≠ b →
      ((SGI.make (gbbj_fad_config false) (withSupplemental sp st) fadTarget
        fadPattern).target_graphs g).adjacent a b = true)
    (D : Domains) (hD : ∀ d, d ∈ D → d.values ⊆ Finset.range 7) :
    first_child (SGI.make (gbbj_fad_config false) (withSupplemental sp st) fadTarget fadPattern)
        D = first_child fadSGI D := by
  unfold first_child
  have hsel : select_branch_domain
      (SGI.make (gbbj_fad_config false) (withSupplemental sp st) fadTarget fadPattern) D =
        select_branch_domain fadSGI D := rfl
  rw [hsel]
  rcases hb : select_branch_domain fadSGI D with _ | b
  · rfl
  · simp only []
    rcases hf : b.values.first_set_bit with _ | f_v
    · rfl
    · simp only []
      have hbD : b ∈ D := by
        rcases select_branch_domain_mem fadSGI D none b hb with e | e
        · cases e
        · exact e
      have hfv : f_v < 7 := Finset.mem_range.mp (hD b hbD (first_set_bit_eq_some hf).1)
      have hg1 : (SGI.make (gbbj_fad_config false) (withSupplemental sp st) fadTarget
          fadPattern).g_end = 7 := rfl
      have hg2 : fadSGI.g_end = 7 := rfl
      rw [hg1, hg2, assign_fad sp st hT _ b.v f_v _ hfv
        (fun d hd => hD d (List.mem_of_mem_filter hd))]
      rfl
theorem degree_le_of_loopless (g : FixedBitGraph) (n i : Nat) (hs : g.size ≤ n + 1)
    (hl : g.adjacent i i = false) : g.degree i ≤ n := by
  unfold FixedBitGraph.degree
  by_cases hi : i ∈ Finset.range g.size
  · have hsub : (Finset.range g.size).filter (fun j => g.adjacent i j = true) ⊆
        (Finset.range g.size).erase i := by
      intro j hj
      have h := Finset.mem_filter.mp hj
      refine Finset.mem_erase.mpr ⟨fun e => ?_, h.1⟩
      rw [e, hl] at h
      exact Bool.noConfusion h.2
    have h1 := Finset.card_le_card hsub
    rw [Finset.card_erase_of_mem hi, Finset.card_range] at h1
    omega
  · have hz : (Finset.range g.size).filter (fun j => g.adjacent i j = true) = ∅ := by
      refine Finset.filter_eq_empty_iff.mpr fun j _ hj => ?_
      unfold FixedBitGraph.adjacent at hj
      simp only [Bool.and_eq_true, decide_eq_true_eq] at hj
      exact hi (Finset.mem_range.mpr hj.1.1)
    rw [hz]
    exact Nat.zero_le _

theorem targets_degrees_complete (s : SGI) (n g i : Nat) (hi : i < n + 1)
    (hT : ∀ a, a < n + 1 → ∀ b, b < n + 1 → a ≠ b → (s.target_graphs g).adjacent a b = true) :
    n ≤ targets_degrees s (Finset.range (n + 1)) g i := by
  unfold targets_degrees FixedBitGraph.intersect_with_row FixedBitSet.popcount
  have hsub : (Finset.range (n + 1)).erase i ⊆
      (Finset.range (n + 1)).filter fun j => (s.target_graphs g).adjacent i j = true := by
    intro j hj
    have h := Finset.mem_erase.mp hj
    exact Finset.mem_filter.mpr
      ⟨h.2, hT i hi j (Finset.mem_range.mp h.2) (fun e => h.1 e.symm)⟩
  have h1 := Finset.card_le_card hsub
  rw [Finset.card_erase_of_mem (Finset.mem_range.mpr hi), Finset.card_range] at h1
  omega

theorem getD_mem_insertionSort (r : Nat → Nat → Prop) [DecidableRel r] (l : List Nat) (x : Nat)
    (hx : x < (l.insertionSort r).length) : (l.insertionSort r).getD x 0 ∈ l := by
  have h1 : (l.insertionSort r).getD x 0 ∈ l.insertionSort r := by
    rw [List.getD_eq_getElem _ _ hx]
    exact List.getElem_mem _
  exact (List.perm_insertionSort r l).mem_iff.mp h1
set_option maxRecDepth 100000 in
/-- The filter of the domain initialisation for graph 0 of the instance `fadPattern`,
`fadTarget` keeps every pair of a pattern vertex and a target vertex, and the pattern has no
loop. -/
theorem fadSGI_first_graph :
    (∀ i, i < 7 → (fadSGI.pattern_graphs 0).adjacent i i = false) ∧
      ∀ i, i < 7 → ∀ j, j < 7 →
        Dominated (patterns_ndss fadSGI 0 0 i) (targets_ndss fadSGI (Finset.range 7) 0 0 j) := by
  decide!

theorem domain_ok_fad (sp st : FixedBitGraph → Nat → FixedBitGraph)
    (hP : ∀ g, 1 ≤ g → g < 7 →
      ((SGI.make (gbbj_fad_config false) (withSupplemental sp st) fadTarget
        fadPattern).pattern_graphs g).size ≤ 7 ∧
      ∀ i, i < 7 → ((SGI.make (gbbj_fad_config false) (withSupplemental sp st) fadTarget
        fadPattern).pattern_graphs g).adjacent i i = false)
    (hT : ∀ g, 1 ≤ g → g < 7 → ∀ a, a < 7 → ∀ b, b < 7 → a ≠ b →
      ((SGI.make (gbbj_fad_config false) (withSupplemental sp st) fadTarget
        fadPattern).target_graphs g).adjacent a b = true) :
    ∀ i, i < 7 → ∀ j, j < 7 →
      domain_ok (SGI.make (gbbj_fad_config false) (withSupplemental sp st) fadTarget fadPattern)
        (Finset.range 7) i j = true := by
  intro i hi j hj
  have hge : 0 < (SGI.make (gbbj_fad_config false) (withSupplemental sp st) fadTarget
      fadPattern).g_end := show (0 : Nat) < 7 from by decide
  rw [domain_ok_iff _ hge]
  have h1 : (if (SGI.make (gbbj_fad_config false) (withSupplemental sp st) fadTarget
      fadPattern).cfg.double_filter then (SGI.make (gbbj_fad_config false)
        (withSupplemental sp st) fadTarget fadPattern).g_end else 1) = 1 := rfl
  rw [h1]
  refine ⟨Finset.mem_range.mpr hj, ?_, ?_⟩
  · intro g hg hadj
    rcases Nat.eq_zero_or_pos g with e | e
    · subst e
      have := fadSGI_first_graph.1 i hi
      have h2 : ((SGI.make (gbbj_fad_config false) (withSupplemental sp st) fadTarget
          fadPattern).pattern_graphs 0).adjacent i i = false := this
      rw [h2] at hadj
      exact Bool.noConfusion hadj
    · rw [(hP g e hg).2 i hi] at hadj
      exact Bool.noConfusion hadj
  · intro g1 hg1 g2 hg2
    have hg10 : g1 = 0 := by omega
    subst hg10
    have hg27 : g2 < 7 := hg2
    have h0 : Dominated
        (patterns_ndss (SGI.make (gbbj_fad_config false) (withSupplemental sp st) fadTarget
          fadPattern) 0 0 i)
        (targets_ndss (SGI.make (gbbj_fad_config false) (withSupplemental sp st) fadTarget
          fadPattern) (Finset.range 7) 0 0 j) := fadSGI_first_graph.2 i hi j hj
    rcases Nat.eq_zero_or_pos g2 with e | e
    · subst e
      exact h0
    · have hlp : (patterns_ndss (SGI.make (gbbj_fad_config false) (withSupplemental sp st)
          fadTarget fadPattern) 0 g2 i).length =
          (patterns_ndss (SGI.make (gbbj_fad_config false) (withSupplemental sp st)
            fadTarget fadPattern) 0 0 i).length := by
        simp only [patterns_ndss, List.length_insertionSort, List.length_map]
      have hlt : (targets_ndss (SGI.make (gbbj_fad_config false) (withSupplemental sp st)
          fadTarget fadPattern) (Finset.range 7) 0 g2 j).length =
          (targets_ndss (SGI.make (gbbj_fad_config false) (withSupplemental sp st)
            fadTarget fadPattern) (Finset.range 7) 0 0 j).length := by
        simp only [targets_ndss, List.length_insertionSort, List.length_map]
      refine ⟨by rw [hlp, hlt]; exact h0.1, fun x hx => ?_⟩
      have hxt : x < (targets_ndss (SGI.make (gbbj_fad_config false) (withSupplemental sp st)
          fadTarget fadPattern) (Finset.range 7) 0 g2 j).length := by
        have := h0.1
        rw [hlp] at hx
        rw [hlt]
        omega
      have hp6 : (patterns_ndss (SGI.make (gbbj_fad_config false) (withSupplemental sp st)
          fadTarget fadPattern) 0 g2 i).getD x 0 ≤ 6 := by
        have hm := getD_mem_insertionSort (· ≥ ·) _ x hx
        obtain ⟨k, hk1, hk⟩ := List.mem_map.mp hm
        have hk7 : k < 7 := List.mem_range.mp (List.mem_of_mem_filter hk1)
        have e2 : (patterns_ndss (SGI.make (gbbj_fad_config false) (withSupplemental sp st)
            fadTarget fadPattern) 0 g2 i).getD x 0 = _ := hk.symm
        rw [e2]
        exact degree_le_of_loopless _ 6 k (hP g2 e hg27).1 ((hP g2 e hg27).2 k hk7)
      have ht6 : 6 ≤ (targets_ndss (SGI.make (gbbj_fad_config false) (withSupplemental sp st)
          fadTarget fadPattern) (Finset.range 7) 0 g2 j).getD x 0 := by
        have hm := getD_mem_insertionSort (· ≥ ·) _ x hxt
        obtain ⟨k, hk1, hk⟩ := List.mem_map.mp hm
        have e2 : (targets_ndss (SGI.make (gbbj_fad_config false) (withSupplemental sp st)
            fadTarget fadPattern) (Finset.range 7) 0 g2 j).getD x 0 = _ := hk.symm
        rw [e2]
        have hk7 : k < 7 := List.mem_range.mp (List.mem_of_mem_filter hk1)
        exact targets_degrees_complete _ 6 g2 k hk7 (hT g2 e hg27)
      omega
set_option maxRecDepth 100000 in
theorem initialise_domains_fadSGI :
    initialise_domains fadSGI =
      some (true, (List.range 7).map fun i => ⟨i, 7, Finset.range 7⟩) := by
  decide!

theorem initialise_domains_fad (sp st : FixedBitGraph → Nat → FixedBitGraph)
    (hP : ∀ g, 1 ≤ g → g < 7 →
      ((SGI.make (gbbj_fad_config false) (withSupplemental sp st) fadTarget
        fadPattern).pattern_graphs g).size ≤ 7 ∧
      ∀ i, i < 7 → ((SGI.make (gbbj_fad_config false) (withSupplemental sp st) fadTarget
        fadPattern).pattern_graphs g).adjacent i i = false)
    (hT : ∀ g, 1 ≤ g → g < 7 → ∀ a, a < 7 → ∀ b, b < 7 → a ≠ b →
      ((SGI.make (gbbj_fad_config false) (withSupplemental sp st) fadTarget
        fadPattern).target_graphs g).adjacent a b = true) :
    initialise_domains
        (SGI.make (gbbj_fad_config false) (withSupplemental sp st) fadTarget fadPattern) =
      some (true, (List.range 7).map fun i => ⟨i, 7, Finset.range 7⟩) := by
  have hdom : domains_for
      (SGI.make (gbbj_fad_config false) (withSupplemental sp st) fadTarget fadPattern)
      (Finset.range 7) = (List.range 7).map fun i => ⟨i, 7, Finset.range 7⟩ := by
    unfold domains_for
    change (List.range 7).map _ = _
    refine List.map_congr_left fun i hi => ?_
    have hf : (Finset.range (SGI.make (gbbj_fad_config false) (withSupplemental sp st)
        fadTarget fadPattern).target_size).filter (fun j => domain_ok
          (SGI.make (gbbj_fad_config false) (withSupplemental sp st) fadTarget fadPattern)
          (Finset.range 7) i j = true) = Finset.range 7 := by
      change (Finset.range 7).filter _ = _
      exact Finset.filter_true_of_mem fun j hj =>
        domain_ok_fad sp st hP hT i (List.mem_range.mp hi) j (Finset.mem_range.mp hj)
    rw [hf]
    rfl
  change initialise_domains_loop _ (7 + 1) 7 (Finset.range 7) = _
  rw [initialise_domains_loop_succ, hdom]
  have h1 : ¬ (domains_union ((List.range 7).map fun i => (⟨i, 7, Finset.range 7⟩ : Domain))).popcount
      < (SGI.make (gbbj_fad_config false) (withSupplemental sp st) fadTarget
        fadPattern).pattern_size := by
    change ¬ _ < 7
    decide
  have h2 : (domains_union ((List.range 7).map fun i => (⟨i, 7, Finset.range 7⟩ : Domain))).popcount
      = 7 := by
    decide
  rw [if_neg h1, if_pos h2]

theorem root_domains_fad (sp st : FixedBitGraph → Nat → FixedBitGraph)
    (hP : ∀ g, 1 ≤ g → g < 7 →
      ((SGI.make (gbbj_fad_config false) (withSupplemental sp st) fadTarget
        fadPattern).pattern_graphs g).size ≤ 7 ∧
      ∀ i, i < 7 → ((SGI.make (gbbj_fad_config false) (withSupplemental sp st) fadTarget
        fadPattern).pattern_graphs g).adjacent i i = false)
    (hT : ∀ g, 1 ≤ g → g < 7 → ∀ a, a < 7 → ∀ b, b < 7 → a ≠ b →
      ((SGI.make (gbbj_fad_config false) (withSupplemental sp st) fadTarget
        fadPattern).target_graphs g).adjacent a b = true) :
    (SGI.make (gbbj_fad_config false) (withSupplemental sp st) fadTarget
        fadPattern).root_domains = fadSGI.root_domains := by
  unfold SGI.root_domains
  rw [initialise_domains_fad sp st hP hT, initialise_domains_fadSGI]
  rfl
set_option maxRecDepth 100000 in
/-- The first five calls of `search` in the run on `fadPattern` and `fadTarget`, with the path
graphs of `fadSGI`: the fifth call gets the domain `{6}` of vertex 0 with popcount 2. -/
theorem fadSGI_calls :
    fadSGI.root_domains = some ((List.range 7).map fun i => ⟨i, 7, Finset.range 7⟩) ∧
      first_child fadSGI ((List.range 7).map fun i => ⟨i, 7, Finset.range 7⟩) =
        some [⟨0, 6, {1, 2, 3, 4, 5, 6}⟩, ⟨1, 6, {1, 2, 3, 4, 5, 6}⟩,
          ⟨3, 6, {1, 2, 3, 4, 5, 6}⟩, ⟨4, 6, {1, 2, 3, 4, 5, 6}⟩, ⟨5, 6, {1, 2, 3, 4, 5, 6}⟩,
          ⟨6, 6, {1, 2, 3, 4, 5, 6}⟩] ∧
      first_child fadSGI [⟨0, 6, {1, 2, 3, 4, 5, 6}⟩, ⟨1, 6, {1, 2, 3, 4, 5, 6}⟩,
          ⟨3, 6, {1, 2, 3, 4, 5, 6}⟩, ⟨4, 6, {1, 2, 3, 4, 5, 6}⟩, ⟨5, 6, {1, 2, 3, 4, 5, 6}⟩,
          ⟨6, 6, {1, 2, 3, 4, 5, 6}⟩] =
        some [⟨0, 5, {2, 3, 4, 5, 6}⟩, ⟨1, 4, {2, 4, 5, 6}⟩, ⟨3, 5, {2, 3, 4, 5, 6}⟩,
          ⟨5, 4, {2, 4, 5, 6}⟩, ⟨6, 4, {2, 4, 5, 6}⟩] ∧
      first_child fadSGI [⟨0, 5, {2, 3, 4, 5, 6}⟩, ⟨1, 4, {2, 4, 5, 6}⟩,
          ⟨3, 5, {2, 3, 4, 5, 6}⟩, ⟨5, 4, {2, 4, 5, 6}⟩, ⟨6, 4, {2, 4, 5, 6}⟩] =
        some [⟨0, 3, {3, 5, 6}⟩, ⟨1, 3, {4, 5, 6}⟩, ⟨3, 4, {3, 4, 5, 6}⟩, ⟨6, 2, {5, 6}⟩] ∧
      first_child fadSGI [⟨0, 3, {3, 5, 6}⟩, ⟨1, 3, {4, 5, 6}⟩, ⟨3, 4, {3, 4, 5, 6}⟩,
          ⟨6, 2, {5, 6}⟩] =
        some [⟨0, 2, {6}⟩, ⟨1, 1, {4}⟩, ⟨3, 1, {3}⟩] := by
  decide!

set_option maxRecDepth 100000 in
/-- The run on `fadPattern` and `fadTarget` with the path graphs of `fadSGI` returns a map after
eight nodes. -/
theorem fadSGI_run :
    fadSGI.run never = some ⟨[(0, 6), (1, 4), (2, 2), (3, 3), (4, 0), (5, 1), (6, 5)], 8⟩ := by
  decide!

set_option maxRecDepth 100000 in
/-- The path graphs of the pattern written out in `fadSGI` have seven vertices and no loop. -/
theorem fadSGI_pattern_loopless :
    ∀ g, g < 7 → 1 ≤ g → (fadSGI.pattern_graphs g).size ≤ 7 ∧
      ∀ i, i < 7 → (fadSGI.pattern_graphs g).adjacent i i = false := by
  decide!

/-- C18: the popcount invariant fails in `gbbj_fad_subgraph_isomorphism` (non-induced mode:
seven filter graphs, both all-different propagators) on `fadPattern` and `fadTarget`, whatever
the six supplemental graph pairs are, as long as the supplemental graphs of the pattern have at
most seven vertices and no loop and those of the target join every two different vertices (as
the graphs of the paths of length 2 and 3 do, for any number of paths up to 3, because the
target is dense). The function runs `run` on the solver built for the two graphs. The first
four calls of `search` get domains with accurate popcounts, each of the later ones on what the
first value of the branch variable leaves; the fifth call, made after the pattern vertices 2,
4, 5 and 6 have got the values 0, 1, 2 and 5, gets the domain `{6}` of vertex 0 with the cached
popcount 2: `cheap_all_different` has left the values `{3, 6}` with popcount 2,
`regin_all_different` has then removed the value 3 at the end of `assign`, and the popcount was
not refreshed. -/
theorem C18_popcount_stale_after_full_all_different
    (sp st : FixedBitGraph → Nat → FixedBitGraph)
    (hP : ∀ g, 1 ≤ g → g < 7 →
      ((SGI.make (gbbj_fad_config false) (withSupplemental sp st) fadTarget
        fadPattern).pattern_graphs g).size ≤ 7 ∧
      ∀ i, i < 7 → ((SGI.make (gbbj_fad_config false) (withSupplemental sp st) fadTarget
        fadPattern).pattern_graphs g).adjacent i i = false)
    (hT : ∀ g, 1 ≤ g → g < 7 → ∀ a, a < 7 → ∀ b, b < 7 → a ≠ b →
      ((SGI.make (gbbj_fad_config false) (withSupplemental sp st) fadTarget
        fadPattern).target_graphs g).adjacent a b = true) :
    (gbbj_fad_config false).max_graphs = 7 ∧
      gbbj_fad_subgraph_isomorphism (withSupplemental sp st) (fadPattern, fadTarget) false
          never =
        (SGI.make (gbbj_fad_config false) (withSupplemental sp st) fadTarget fadPattern).run
          never ∧
      (∃ D, (SGI.make (gbbj_fad_config false) (withSupplemental sp st) fadTarget
          fadPattern).root_domains = some D ∧ Accurate D ∧
        ∃ D1, first_child (SGI.make (gbbj_fad_config false) (withSupplemental sp st) fadTarget
            fadPattern) D = some D1 ∧ Accurate D1 ∧
          ∃ D2, first_child (SGI.make (gbbj_fad_config false) (withSupplemental sp st)
              fadTarget fadPattern) D1 = some D2 ∧ Accurate D2 ∧
            ∃ D3, first_child (SGI.make (gbbj_fad_config false) (withSupplemental sp st)
                fadTarget fadPattern) D2 = some D3 ∧ Accurate D3 ∧
              first_child (SGI.make (gbbj_fad_config false) (withSupplemental sp st)
                fadTarget fadPattern) D3 = some [⟨0, 2, {6}⟩, ⟨1, 1, {4}⟩, ⟨3, 1, {3}⟩]) ∧
      ¬ Accurate [⟨0, 2, {6}⟩, ⟨1, 1, {4}⟩, ⟨3, 1, {3}⟩] := by
  obtain ⟨c0, c1, c2, c3, c4⟩ := fadSGI_calls
  have e0 := (root_domains_fad sp st hP hT).trans c0
  have e1 := (first_child_fad sp st hT
    ((List.range 7).map fun i => ⟨i, 7, Finset.range 7⟩) (by decide)).trans c1
  have e2 := (first_child_fad sp st hT
    [⟨0, 6, {1, 2, 3, 4, 5, 6}⟩, ⟨1, 6, {1, 2, 3, 4, 5, 6}⟩, ⟨3, 6, {1, 2, 3, 4, 5, 6}⟩,
      ⟨4, 6, {1, 2, 3, 4, 5, 6}⟩, ⟨5, 6, {1, 2, 3, 4, 5, 6}⟩, ⟨6, 6, {1, 2, 3, 4, 5, 6}⟩]
    (by decide)).trans c2
  have e3 := (first_child_fad sp st hT
    [⟨0, 5, {2, 3, 4, 5, 6}⟩, ⟨1, 4, {2, 4, 5, 6}⟩, ⟨3, 5, {2, 3, 4, 5, 6}⟩,
      ⟨5, 4, {2, 4, 5, 6}⟩, ⟨6, 4, {2, 4, 5, 6}⟩] (by decide)).trans c3
  have e4 := (first_child_fad sp st hT
    [⟨0, 3, {3, 5, 6}⟩, ⟨1, 3, {4, 5, 6}⟩, ⟨3, 4, {3, 4, 5, 6}⟩, ⟨6, 2, {5, 6}⟩]
    (by decide)).trans c4
  have hrun : gbbj_fad_subgraph_isomorphism (withSupplemental sp st) (fadPattern, fadTarget)
      false never =
        (SGI.make (gbbj_fad_config false) (withSupplemental sp st) fadTarget fadPattern).run
          never := by
    unfold gbbj_fad_subgraph_isomorphism
    exact if_neg (by decide)
  exact ⟨by decide, hrun, ⟨_, e0, by decide, _, e1, by decide, _, e2, by decide, _, e3,
    by decide, e4⟩, by decide⟩

/-- Witness for C18: the graphs of the paths of length 2 and 3 (`path_graph 3`) as supplemental
graphs. They have seven vertices and no loop, those of the target join every two different
vertices, and the run returns a map after eight nodes. -/
theorem C18_popcount_stale_after_full_all_different_witness :
    (∀ g, 1 ≤ g → g < 7 →
      ((SGI.make (gbbj_fad_config false) (withSupplemental (path_graph 3) (path_graph 3))
        fadTarget fadPattern).pattern_graphs g).size ≤ 7 ∧
      ∀ i, i < 7 → ((SGI.make (gbbj_fad_config false)
        (withSupplemental (path_graph 3) (path_graph 3)) fadTarget
          fadPattern).pattern_graphs g).adjacent i i = false) ∧
    (∀ g, 1 ≤ g → g < 7 → ∀ a, a < 7 → ∀ b, b < 7 → a ≠ b →
      ((SGI.make (gbbj_fad_config false) (withSupplemental (path_graph 3) (path_graph 3))
        fadTarget fadPattern).target_graphs g).adjacent a b = true) ∧
    gbbj_fad_subgraph_isomorphism pathExternals (fadPattern, fadTarget) false never =
      some ⟨[(0, 6), (1, 4), (2, 2), (3, 3), (4, 0), (5, 1), (6, 5)], 8⟩ ∧
    ((gbbj_fad_config false).max_graphs = 7 ∧
      gbbj_fad_subgraph_isomorphism (withSupplemental (path_graph 3) (path_graph 3))
          (fadPattern, fadTarget) false never =
        (SGI.make (gbbj_fad_config false) (withSupplemental (path_graph 3) (path_graph 3))
          fadTarget fadPattern).run never ∧
      (∃ D, (SGI.make (gbbj_fad_config false) (withSupplemental (path_graph 3) (path_graph 3))
          fadTarget fadPattern).root_domains = some D ∧ Accurate D ∧
        ∃ D1, first_child (SGI.make (gbbj_fad_config false)
            (withSupplemental (path_graph 3) (path_graph 3)) fadTarget fadPattern) D =
              some D1 ∧ Accurate D1 ∧
          ∃ D2, first_child (SGI.make (gbbj_fad_config false)
              (withSupplemental (path_graph 3) (path_graph 3)) fadTarget fadPattern) D1 =
                some D2 ∧ Accurate D2 ∧
            ∃ D3, first_child (SGI.make (gbbj_fad_config false)
                (withSupplemental (path_graph 3) (path_graph 3)) fadTarget fadPattern) D2 =
                  some D3 ∧ Accurate D3 ∧
              first_child (SGI.make (gbbj_fad_config false)
                (withSupplemental (path_graph 3) (path_graph 3)) fadTarget fadPattern) D3 =
                  some [⟨0, 2, {6}⟩, ⟨1, 1, {4}⟩, ⟨3, 1, {3}⟩]) ∧
      ¬ Accurate [⟨0, 2, {6}⟩, ⟨1, 1, {4}⟩, ⟨3, 1, {3}⟩]) := by
  have hs : SGI.make (gbbj_fad_config false) (withSupplemental (path_graph 3) (path_graph 3))
      fadTarget fadPattern = fadSGI := fadSGI_eq
  have hP : ∀ g, 1 ≤ g → g < 7 →
      ((SGI.make (gbbj_fad_config false) (withSupplemental (path_graph 3) (path_graph 3))
        fadTarget fadPattern).pattern_graphs g).size ≤ 7 ∧
      ∀ i, i < 7 → ((SGI.make (gbbj_fad_config false)
        (withSupplemental (path_graph 3) (path_graph 3)) fadTarget
          fadPattern).pattern_graphs g).adjacent i i = false := by
    rw [hs]
    exact fun g h1 hg => fadSGI_pattern_loopless g hg h1
  have hT : ∀ g, 1 ≤ g → g < 7 → ∀ a, a < 7 → ∀ b, b < 7 → a ≠ b →
      ((SGI.make (gbbj_fad_config false) (withSupplemental (path_graph 3) (path_graph 3))
        fadTarget fadPattern).target_graphs g).adjacent a b = true := by
    rw [hs]
    exact fadSGI_target_complete
  refine ⟨hP, hT, ?_, C18_popcount_stale_after_full_all_different (path_graph 3)
    (path_graph 3) hP hT⟩
  change (if fadPattern.size > fadTarget.size then _
    else (SGI.make (gbbj_fad_config false) pathExternals fadTarget fadPattern).run never) = _
  rw [fadSGI_eq]
  exact fadSGI_run

/-! ### Reading DIMACS files -/

theorem match_edge_head {line : List Char} {r : List Char × List Char}
    (h : match_edge line = some r) : ∃ l0, line = 'e' :: l0 := by
  cases line with
  | nil => exact Option.noConfusion h
  | cons c l0 =>
    unfold match_edge at h
    by_cases hc : c = 'e'
    · exact ⟨l0, by rw [hc]⟩
    · simp only [hc, if_false] at h
      exact Option.noConfusion h

theorem match_problem_head {line n : List Char} (h : match_problem line = some n) :
    ∃ l0, line = 'p' :: l0 := by
  cases line with
  | nil => exact Option.noConfusion h
  | cons c l0 =>
    unfold match_problem at h
    by_cases hc : c = 'p'
    · exact ⟨l0, by rw [hc]⟩
    · simp only [hc, if_false] at h
      exact Option.noConfusion h

theorem read_line_edge (allow_loops : Bool) (result : Graph) {line da db : List Char}
    (hm : match_edge line = some (da, db)) :
    read_line allow_loops result line =
      match stoi da with
      | none => Outcome.thrown Thrown.out_of_range
      | some a =>
        match stoi db with
        | none => Outcome.thrown Thrown.out_of_range
        | some b =>
          if 0 = a ∨ 0 = b ∨ a > result.size ∨ b > result.size then
            Outcome.thrown (Thrown.GraphFileError (Message.edge_index_out_of_bounds line))
          else if a = b ∧ allow_loops = false then
            Outcome.thrown (Thrown.GraphFileError (Message.contains_a_loop line a))
          else Outcome.returned (result.add_edge (a - 1) (b - 1)) := by
  obtain ⟨l0, e⟩ := match_edge_head hm
  have h1 : line ≠ [] := by rw [e]; exact List.cons_ne_nil _ _
  have h2 : match_comment line = false := by
    rw [e]
    unfold match_comment
    have : ('e' = 'c') = False := by decide
    simp only [this, decide_False, Bool.false_and]
  have h3 : match_problem line = none := by
    rw [e]
    unfold match_problem
    have : ('e' = 'p') = False := by decide
    simp only [this, if_false]
  unfold read_line
  simp only [h1, h2, h3, hm, if_false, Bool.false_eq_true]

theorem read_line_problem (allow_loops : Bool) (result : Graph) {line n : List Char}
    (hm : match_problem line = some n) :
    read_line allow_loops result line =
      if 0 ≠ result.size then Outcome.thrown (Thrown.GraphFileError Message.multiple_p_lines)
      else
        match stoi n with
        | none => Outcome.thrown Thrown.out_of_range
        | some size => Outcome.returned (result.resize size) := by
  obtain ⟨l0, e⟩ := match_problem_head hm
  have h1 : line ≠ [] := by rw [e]; exact List.cons_ne_nil _ _
  have h2 : match_comment line = false := by
    rw [e]
    unfold match_comment
    have : ('p' = 'c') = False := by decide
    simp only [this, decide_False, Bool.false_and]
  unfold read_line
  simp only [h1, h2, hm, if_false, Bool.false_eq_true]

theorem read_line_skip (allow_loops : Bool) (result : Graph) {line : List Char}
    (h : line = [] ∨ match_comment line = true) :
    read_line allow_loops result line = Outcome.returned result := by
  unfold read_line
  rcases h with h | h
  · rw [if_pos h]
  · by_cases h0 : line = []
    · rw [if_pos h0]
    · rw [if_neg h0, if_pos h]

theorem read_lines_append (allow_loops : Bool) :
    ∀ (l1 l2 : List (List Char)) (g : Graph),
      read_lines allow_loops (l1 ++ l2) g =
        match read_lines allow_loops l1 g with
        | Outcome.returned g1 => read_lines allow_loops l2 g1
        | Outcome.thrown e => Outcome.thrown e := by
  intro l1
  induction l1 with
  | nil => intro l2 g; rfl
  | cons line l1 ih =>
    intro l2 g
    rw [List.cons_append, read_lines, read_lines]
    cases read_line allow_loops g line with
    | returned g1 => exact ih l2 g1
    | thrown e => rfl

theorem read_lines_skip (allow_loops : Bool) :
    ∀ (pre : List (List Char)) (g : Graph),
      (∀ l, l ∈ pre → l = [] ∨ match_comment l = true) →
        read_lines allow_loops pre g = Outcome.returned g := by
  intro pre
  induction pre with
  | nil => intro g _; rfl
  | cons line pre ih =>
    intro g h
    rw [read_lines, read_line_skip allow_loops g (h line (List.mem_cons_self _ _))]
    exact ih g fun l hl => h l (List.mem_cons_of_mem _ hl)

theorem stoi_eq_some {digits : List Char} {a : Nat} :
    stoi digits = some a ↔ a = decimal_value digits ∧ a ≤ 2147483647 := by
  unfold stoi
  split
  · simp only [Option.some.injEq]
    constructor
    · intro h; rw [← h]; exact ⟨rfl, by assumption⟩
    · intro h; exact h.1.symm
  · constructor
    · intro h; exact Option.noConfusion h
    · intro h
      have := h.1 ▸ h.2
      contradiction

set_option maxRecDepth 100000 in
/-- C31, counterexample: after the problem line `p edge 3 0`, the edge line `e 2147483648 1`
names a vertex above `n = 3`, and the exception that leaves `read_dimacs` is the
`std::out_of_range` of `std::stoi`, not a `GraphFileError`. -/
theorem C31_huge_index_is_not_a_graph_file_error :
    match_edge "e 2147483648 1".toList = some ("2147483648".toList, "1".toList) ∧
    decimal_value "2147483648".toList = 2147483648 ∧
    read_dimacs ["p edge 3 0".toList, "e 2147483648 1".toList] false =
      Outcome.thrown Thrown.out_of_range := by
  decide!

/-- C31, amended (edge lines of a DIMACS file): let `line` be an edge line with the numbers
`da` and `db`, read when the graph has `n = result.size` vertices. If both numbers fit an
`int`, with values `a` and `b`, the line raises a `GraphFileError` if and only if `a = 0`,
`b = 0`, `a > n`, `b > n`, or `a = b` while `AllowLoops` is not set, and otherwise the edge
between `a - 1` and `b - 1` is added; for `n = 0` it always raises a `GraphFileError`. If a
number is above `INT_MAX`, the line raises `std::out_of_range`. In both cases an edge line
that comes before any problem line (after empty lines and comments only) ends the reading
with an exception. -/
theorem C31_dimacs_edge_lines (allow_loops : Bool) (result : Graph) (line da db : List Char)
    (hm : match_edge line = some (da, db)) :
    (∀ a b, stoi da = some a → stoi db = some b →
      (a = decimal_value da ∧ b = decimal_value db) ∧
      ((∃ m, read_line allow_loops result line = Outcome.thrown (Thrown.GraphFileError m)) ↔
        (a = 0 ∨ b = 0 ∨ a > result.size ∨ b > result.size ∨
          (a = b ∧ allow_loops = false))) ∧
      (¬ (a = 0 ∨ b = 0 ∨ a > result.size ∨ b > result.size ∨
          (a = b ∧ allow_loops = false)) →
        read_line allow_loops result line =
          Outcome.returned (result.add_edge (a - 1) (b - 1))) ∧
      (result.size = 0 →
        ∃ m, read_line allow_loops result line = Outcome.thrown (Thrown.GraphFileError m)) ∧
      ∀ pre rest, (∀ l, l ∈ pre → l = [] ∨ match_comment l = true) →
        ∃ m, read_dimacs (pre ++ line :: rest) allow_loops =
          Outcome.thrown (Thrown.GraphFileError m)) ∧
    ((stoi da = none ∨ stoi db = none) →
      read_line allow_loops result line = Outcome.thrown Thrown.out_of_range ∧
      ∀ pre rest, (∀ l, l ∈ pre → l = [] ∨ match_comment l = true) →
        read_dimacs (pre ++ line :: rest) allow_loops = Outcome.thrown Thrown.out_of_range) := by
  have hfile : ∀ (e : Thrown), (∀ g : Graph, g.size = 0 → read_line allow_loops g line =
      Outcome.thrown e) → ∀ pre rest, (∀ l, l ∈ pre → l = [] ∨ match_comment l = true) →
      read_dimacs (pre ++ line :: rest) allow_loops = Outcome.thrown e := by
    intro e he pre rest hpre
    unfold read_dimacs
    rw [read_lines_append, read_lines_skip allow_loops pre _ hpre]
    simp only []
    rw [read_lines, he _ rfl]
  have hzero : ∀ (g : Graph) a b, stoi da = some a → stoi db = some b → g.size = 0 →
      read_line allow_loops g line =
        Outcome.thrown (Thrown.GraphFileError (Message.edge_index_out_of_bounds line)) := by
    intro g a b ha hb h0
    rw [read_line_edge allow_loops g hm, ha, hb]
    simp only []
    rw [if_pos (by omega)]
  constructor
  · intro a b ha hb
    have hl := read_line_edge allow_loops result hm
    rw [ha, hb] at hl
    simp only [] at hl
    refine ⟨⟨(stoi_eq_some.mp ha).1, (stoi_eq_some.mp hb).1⟩, ?_, ?_, ?_, ?_⟩
    · by_cases h1 : 0 = a ∨ 0 = b ∨ a > result.size ∨ b > result.size
      · rw [if_pos h1] at hl
        exact ⟨fun _ => by omega, fun _ => ⟨_, hl⟩⟩
      · rw [if_neg h1] at hl
        by_cases h2 : a = b ∧ allow_loops = false
        · rw [if_pos h2] at hl
          exact ⟨fun _ => Or.inr (Or.inr (Or.inr (Or.inr h2))), fun _ => ⟨_, hl⟩⟩
        · rw [if_neg h2] at hl
          constructor
          · rintro ⟨m, hm2⟩
            rw [hl] at hm2
            exact Outcome.noConfusion hm2
          · intro hc
            rcases hc with h | h | h | h | h
            · exact absurd (Or.inl h.symm) h1
            · exact absurd (Or.inr (Or.inl h.symm)) h1
            · exact absurd (Or.inr (Or.inr (Or.inl h))) h1
            · exact absurd (Or.inr (Or.inr (Or.inr h))) h1
            · exact absurd h h2
    · intro hn
      have h1 : ¬ (0 = a ∨ 0 = b ∨ a > result.size ∨ b > result.size) := by
        intro hc
        apply hn
        rcases hc with h | h | h | h
        · exact Or.inl h.symm
        · exact Or.inr (Or.inl h.symm)
        · exact Or.inr (Or.inr (Or.inl h))
        · exact Or.inr (Or.inr (Or.inr (Or.inl h)))
      have h2 : ¬ (a = b ∧ allow_loops = false) :=
        fun hc => hn (Or.inr (Or.inr (Or.inr (Or.inr hc))))
      rw [if_neg h1, if_neg h2] at hl
      exact hl
    · intro h0
      exact ⟨_, hzero result a b ha hb h0⟩
    · intro pre rest hpre
      exact ⟨_, hfile _ (fun g hg => hzero g a b ha hb hg) pre rest hpre⟩
  · intro hnone
    have hthrow : ∀ g : Graph, read_line allow_loops g line =
        Outcome.thrown Thrown.out_of_range := by
      intro g
      rw [read_line_edge allow_loops g hm]
      rcases hnone with h | h
      · rw [h]
      · rw [h]
        cases stoi da <;> rfl
    exact ⟨hthrow result, hfile _ (fun g _ => hthrow g)⟩

set_option maxRecDepth 100000 in
/-- C31, amended, at the edge line `e 1 2` read into a graph with three vertices. -/
theorem C31_dimacs_edge_lines_witness :
    match_edge "e 1 2".toList = some ("1".toList, "2".toList) ∧
    stoi "1".toList = some 1 ∧ stoi "2".toList = some 2 ∧
    read_line false ⟨3, []⟩ "e 1 2".toList = Outcome.returned ⟨3, [(0, 1)]⟩ ∧
    ((∃ m, read_line false ⟨3, []⟩ "e 1 2".toList =
        Outcome.thrown (Thrown.GraphFileError m)) ↔
      (1 = 0 ∨ 2 = 0 ∨ 1 > (⟨3, []⟩ : Graph).size ∨ 2 > (⟨3, []⟩ : Graph).size ∨
        (1 = 2 ∧ false = false))) ∧
    ∀ pre rest, (∀ l, l ∈ pre → l = [] ∨ match_comment l = true) →
      ∃ m, read_dimacs (pre ++ "e 1 2".toList :: rest) false =
        Outcome.thrown (Thrown.GraphFileError m) :=
  have hm : match_edge "e 1 2".toList = some ("1".toList, "2".toList) := by decide!
  have h1 : stoi "1".toList = some 1 := by decide!
  have h2 : stoi "2".toList = some 2 := by decide!
  have h := (C31_dimacs_edge_lines false ⟨3, []⟩ "e 1 2".toList "1".toList "2".toList hm).1
    1 2 h1 h2
  ⟨hm, h1, h2, by decide!, h.2.1, h.2.2.2.2⟩

theorem read_line_size (allow_loops : Bool) {g g1 : Graph} {line : List Char}
    (h : read_line allow_loops g line = Outcome.returned g1) (hs : 1 ≤ g.size) :
    g1.size = g.size := by
  unfold read_line at h
  split at h
  · rw [← Outcome.returned.inj h]
  · split at h
    · rw [← Outcome.returned.inj h]
    · split at h
      · rw [if_pos (by omega)] at h
        exact Outcome.noConfusion h
      · split at h
        · split at h
          · exact Outcome.noConfusion h
          · split at h
            · exact Outcome.noConfusion h
            · split at h
              · exact Outcome.noConfusion h
              · split at h
                · exact Outcome.noConfusion h
                · rw [← Outcome.returned.inj h]
                  rfl
        · exact Outcome.noConfusion h

theorem read_lines_size (allow_loops : Bool) :
    ∀ (ls : List (List Char)) (g g1 : Graph),
      read_lines allow_loops ls g = Outcome.returned g1 → 1 ≤ g.size → g1.size = g.size := by
  intro ls
  induction ls with
  | nil =>
    intro g g1 h _
    rw [read_lines] at h
    rw [← Outcome.returned.inj h]
  | cons line ls ih =>
    intro g g1 h hs
    rw [read_lines] at h
    rcases hl : read_line allow_loops g line with g2 | e
    · rw [hl] at h
      simp only [] at h
      have h2 := read_line_size allow_loops hl hs
      rw [ih g2 g1 h (by omega), h2]
    · rw [hl] at h
      exact Outcome.noConfusion h

theorem second_problem_line_throws (allow_loops : Bool) (l1 l2 l3 : List (List Char))
    (p1 p2 n1 n2 : List Char) (h1 : match_problem p1 = some n1)
    (hn : 1 ≤ decimal_value n1) (h2 : match_problem p2 = some n2) (g : Graph) :
    ∃ e, read_lines allow_loops (l1 ++ p1 :: (l2 ++ p2 :: l3)) g = Outcome.thrown e := by
  rw [read_lines_append]
  rcases read_lines allow_loops l1 g with g1 | e
  · simp only []
    rw [read_lines, read_line_problem allow_loops g1 h1]
    by_cases hz : 0 ≠ g1.size
    · rw [if_pos hz]
      exact ⟨_, rfl⟩
    · rw [if_neg hz]
      rcases hst : stoi n1 with _ | k
      · exact ⟨_, rfl⟩
      · simp only []
        have hk : 1 ≤ (g1.resize k).size := by
          have := (stoi_eq_some.mp hst).1
          show 1 ≤ k
          omega
        rw [read_lines_append]
        rcases hl2 : read_lines allow_loops l2 (g1.resize k) with g2 | e
        · simp only []
          have hs2 := read_lines_size allow_loops l2 _ _ hl2 hk
          rw [read_lines, read_line_problem allow_loops g2 h2, if_pos (by omega)]
          exact ⟨_, rfl⟩
        · exact ⟨_, rfl⟩
  · exact ⟨_, rfl⟩

set_option maxRecDepth 100000 in
/-- C32 at a file with the two problem lines `p edge 0 0` and `p edge 3 0`: both lines match
the expression for a problem line, yet `read_dimacs` raises nothing and returns a graph with
three vertices, because the test for an earlier problem line is `0 != result.size()`. When
the first of two problem lines declares at least one vertex, the reading does end with an
exception, whatever the other lines are. -/
theorem C32_second_problem_line_accepted_after_zero :
    match_problem "p edge 0 0".toList = some "0".toList ∧
    match_problem "p edge 3 0".toList = some "3".toList ∧
    read_dimacs ["p edge 0 0".toList, "p edge 3 0".toList] false = Outcome.returned ⟨3, []⟩ ∧
    ∀ (allow_loops : Bool) (l1 l2 l3 : List (List Char)) (p1 p2 n1 n2 : List Char),
      match_problem p1 = some n1 → 1 ≤ decimal_value n1 → match_problem p2 = some n2 →
        ∃ e, read_dimacs (l1 ++ p1 :: (l2 ++ p2 :: l3)) allow_loops = Outcome.thrown e := by
  refine ⟨by decide!, by decide!, by decide!, ?_⟩
  intro allow_loops l1 l2 l3 p1 p2 n1 n2 h1 hn h2
  exact second_problem_line_throws allow_loops l1 l2 l3 p1 p2 n1 n2 h1 hn h2 _

/-! ### The array accesses of the in-place repair -/

theorem splice_accesses_start (i conflicting_vertex_pos x new_colour_class : Nat)
    (p_order p_bounds : Nat → Nat) (hx : x ≤ i) :
    ∃ rest, splice_accesses i conflicting_vertex_pos x new_colour_class p_order p_bounds =
      Access.read_bounds i :: Access.write_bounds (i + 1) :: Access.read_order i ::
        Access.write_order (i + 1) :: rest := by
  obtain ⟨n, hn⟩ : ∃ n, i + 1 - x = n + 1 := ⟨i - x, by omega⟩
  unfold splice_accesses
  simp only [hn, shift_up_accesses, List.cons_append]
  exact ⟨_, rfl⟩

set_option maxRecDepth 1000000 in
/-- C40 at two inputs of `RepairAllFast`. On the graph with the edges 12, 13, 23, 04, 24, 34
and all five vertices as candidates, the first access that is not safe for arrays of 64
entries is a read of `p_bounds[4]`, an entry that the call has not written: the vertices
0, 1, 2, 3 are placed at the positions 0 to 3, and the move made for vertex 4 starts its shift
at `z = i = 4`. On a graph with 64 vertices, all of them candidates, the move made for the
last vertex writes `p_bounds[64]` and `p_order[64]`, outside arrays of
`size_ * bits_per_word = 64` entries. In general every move reads the entries at position `i`
and writes those at position `i + 1` first. -/
theorem C40_in_place_shift_starts_one_too_far :
    first_unsafe 64
      (colour_class_order_with_repair_fast_accesses
        ⟨5, [(1, 2), (1, 3), (2, 3), (0, 4), (2, 4), (3, 4)]⟩ {0, 1, 2, 3, 4} (fun _ => 0)
        (fun _ => 0) 0 false) ∅ ∅ = some (Access.read_bounds 4) ∧
    (Finset.range 64).card = 64 ∧
    Access.write_bounds 64 ∈ colour_class_order_with_repair_fast_accesses fullWordGraph
      (Finset.range 64) (fun _ => 0) (fun _ => 0) 0 false ∧
    Access.write_order 64 ∈ colour_class_order_with_repair_fast_accesses fullWordGraph
      (Finset.range 64) (fun _ => 0) (fun _ => 0) 0 false ∧
    ∀ (i conflicting_vertex_pos x new_colour_class : Nat) (p_order p_bounds : Nat → Nat),
      x ≤ i →
        ∃ rest, splice_accesses i conflicting_vertex_pos x new_colour_class p_order p_bounds =
          Access.read_bounds i :: Access.write_bounds (i + 1) :: Access.read_order i ::
            Access.write_order (i + 1) :: rest := by
  refine ⟨by decide!, by decide!, by decide!, by decide!, ?_⟩
  intro i cvp x ncc po pb hx
  exact splice_accesses_start i cvp x ncc po pb hx

end Parasols
